import Mathlib

/-!
# Verification of `lexer.c` / `lexer.h` (BlitzMax lexer)

A shallow embedding of the lexer and theorems about it.

Conventions of the embedding:

* a source byte (`char`) is a `Nat`; the character classes of `<ctype.h>` are those of
  the "C" locale;
* a pointer into the source is the `Int` offset from `source_begin`; `NULL` is `none`;
* `lexer->source` is the byte range `[source_begin, source_end)`, and `lexer->sentinel`
  is the byte stored *at* `source_end`, which `lexer_current`, `lexer_next` and
  `lexer_peek` dereference (for a C string it is the terminating NUL, `0`);
* `lexer->tokens` is the token array and `lexer->current.token` the token count; only the
  entries below the count are meaningful (`lexer_copy_tokens`);
* every `while`/`do` loop of the source is a recursive function that spends one unit of
  `fuel` per iteration and yields `none` when the fuel is used up, so that `some _` always
  is the result of a run in which every loop left through its own condition;
* `line`, `column` and the token count are C `int`s; the embedding uses unbounded naturals
  (they cannot overflow on a source of less than 2^31 bytes).
-/

namespace Bmx

/-! ## `lexer.h`: token kinds -/

/-- The enumeration `token_kind_t`; a C enumeration is an integer, and the lexer does
arithmetic on it (`++token.kind`). -/
abbrev token_kind_t := Nat

abbrev TOK_INVALID : token_kind_t := 0
abbrev TOK_ID : token_kind_t := 1
abbrev TOK_END_KW : token_kind_t := 2
abbrev TOK_FUNCTION_KW : token_kind_t := 3
abbrev TOK_ENDFUNCTION_KW : token_kind_t := 4
abbrev TOK_METHOD_KW : token_kind_t := 5
abbrev TOK_ENDMETHOD_KW : token_kind_t := 6
abbrev TOK_TYPE_KW : token_kind_t := 7
abbrev TOK_EXTENDS_KW : token_kind_t := 8
abbrev TOK_ABSTRACT_KW : token_kind_t := 9
abbrev TOK_FINAL_KW : token_kind_t := 10
abbrev TOK_NODEBUG_KW : token_kind_t := 11
abbrev TOK_ENDTYPE_KW : token_kind_t := 12
abbrev TOK_EXTERN_KW : token_kind_t := 13
abbrev TOK_ENDEXTERN_KW : token_kind_t := 14
abbrev TOK_REM_KW : token_kind_t := 15
abbrev TOK_ENDREM_KW : token_kind_t := 16
abbrev TOK_FLOAT_KW : token_kind_t := 17
abbrev TOK_DOUBLE_KW : token_kind_t := 18
abbrev TOK_BYTE_KW : token_kind_t := 19
abbrev TOK_SHORT_KW : token_kind_t := 20
abbrev TOK_INT_KW : token_kind_t := 21
abbrev TOK_LONG_KW : token_kind_t := 22
abbrev TOK_STRING_KW : token_kind_t := 23
abbrev TOK_OBJECT_KW : token_kind_t := 24
abbrev TOK_LOCAL_KW : token_kind_t := 25
abbrev TOK_GLOBAL_KW : token_kind_t := 26
abbrev TOK_CONST_KW : token_kind_t := 27
abbrev TOK_VARPTR_KW : token_kind_t := 28
abbrev TOK_PTR_KW : token_kind_t := 29
abbrev TOK_VAR_KW : token_kind_t := 30
abbrev TOK_NULL_KW : token_kind_t := 31
abbrev TOK_STRICT_KW : token_kind_t := 32
abbrev TOK_SUPERSTRICT_KW : token_kind_t := 33
abbrev TOK_FRAMEWORK_KW : token_kind_t := 34
abbrev TOK_MODULE_KW : token_kind_t := 35
abbrev TOK_MODULEINFO_KW : token_kind_t := 36
abbrev TOK_IMPORT_KW : token_kind_t := 37
abbrev TOK_INCLUDE_KW : token_kind_t := 38
abbrev TOK_PRIVATE_KW : token_kind_t := 39
abbrev TOK_PUBLIC_KW : token_kind_t := 40
abbrev TOK_OR_KW : token_kind_t := 41
abbrev TOK_AND_KW : token_kind_t := 42
abbrev TOK_SHR_KW : token_kind_t := 43
abbrev TOK_SHL_KW : token_kind_t := 44
abbrev TOK_SAR_KW : token_kind_t := 45
abbrev TOK_MOD_KW : token_kind_t := 46
abbrev TOK_NOT_KW : token_kind_t := 47
abbrev TOK_WHILE_KW : token_kind_t := 48
abbrev TOK_WEND_KW : token_kind_t := 49
abbrev TOK_ENDWHILE_KW : token_kind_t := 50
abbrev TOK_FOR_KW : token_kind_t := 51
abbrev TOK_NEXT_KW : token_kind_t := 52
abbrev TOK_UNTIL_KW : token_kind_t := 53
abbrev TOK_TO_KW : token_kind_t := 54
abbrev TOK_EACHIN_KW : token_kind_t := 55
abbrev TOK_REPEAT_KW : token_kind_t := 56
abbrev TOK_FOREVER_KW : token_kind_t := 57
abbrev TOK_IF_KW : token_kind_t := 58
abbrev TOK_ENDIF_KW : token_kind_t := 59
abbrev TOK_ELSE_KW : token_kind_t := 60
abbrev TOK_ELSEIF_KW : token_kind_t := 61
abbrev TOK_THEN_KW : token_kind_t := 62
abbrev TOK_SELECT_KW : token_kind_t := 63
abbrev TOK_CASE_KW : token_kind_t := 64
abbrev TOK_DEFAULT_KW : token_kind_t := 65
abbrev TOK_ENDSELECT_KW : token_kind_t := 66
abbrev TOK_SELF_KW : token_kind_t := 67
abbrev TOK_SUPER_KW : token_kind_t := 68
abbrev TOK_PI_KW : token_kind_t := 69
abbrev TOK_NEW_KW : token_kind_t := 70
abbrev TOK_PROTOCOL_KW : token_kind_t := 71
abbrev TOK_ENDPROTOCOL_KW : token_kind_t := 72
abbrev TOK_AUTO_KW : token_kind_t := 73
abbrev TOK_IMPLEMENTS_KW : token_kind_t := 74
abbrev TOK_COLON : token_kind_t := 75
abbrev TOK_QUESTION : token_kind_t := 76
abbrev TOK_BANG : token_kind_t := 77
abbrev TOK_HASH : token_kind_t := 78
abbrev TOK_DOT : token_kind_t := 79
abbrev TOK_DOUBLEDOT : token_kind_t := 80
abbrev TOK_TRIPLEDOT : token_kind_t := 81
abbrev TOK_AT : token_kind_t := 82
abbrev TOK_DOUBLEAT : token_kind_t := 83
abbrev TOK_DOLLAR : token_kind_t := 84
abbrev TOK_PERCENT : token_kind_t := 85
abbrev TOK_SINGLEQUOTE : token_kind_t := 86
abbrev TOK_OPENPAREN : token_kind_t := 87
abbrev TOK_CLOSEPAREN : token_kind_t := 88
abbrev TOK_OPENBRACKET : token_kind_t := 89
abbrev TOK_CLOSEBRACKET : token_kind_t := 90
abbrev TOK_OPENCURL : token_kind_t := 91
abbrev TOK_CLOSECURL : token_kind_t := 92
abbrev TOK_GREATERTHAN : token_kind_t := 93
abbrev TOK_LESSTHAN : token_kind_t := 94
abbrev TOK_EQUALS : token_kind_t := 95
abbrev TOK_MINUS : token_kind_t := 96
abbrev TOK_PLUS : token_kind_t := 97
abbrev TOK_ASTERISK : token_kind_t := 98
abbrev TOK_CARET : token_kind_t := 99
abbrev TOK_TILDE : token_kind_t := 100
abbrev TOK_GRAVE : token_kind_t := 101
abbrev TOK_BACKSLASH : token_kind_t := 102
abbrev TOK_SLASH : token_kind_t := 103
abbrev TOK_COMMA : token_kind_t := 104
abbrev TOK_SEMICOLON : token_kind_t := 105
abbrev TOK_PIPE : token_kind_t := 106
abbrev TOK_AMPERSAND : token_kind_t := 107
abbrev TOK_NEWLINE : token_kind_t := 108
abbrev TOK_ASSIGN_ADD : token_kind_t := 109
abbrev TOK_ASSIGN_SUBTRACT : token_kind_t := 110
abbrev TOK_ASSIGN_DIVIDE : token_kind_t := 111
abbrev TOK_ASSIGN_MULTIPLY : token_kind_t := 112
abbrev TOK_ASSIGN_POWER : token_kind_t := 113
abbrev TOK_ASSIGN_SHL : token_kind_t := 114
abbrev TOK_ASSIGN_SHR : token_kind_t := 115
abbrev TOK_ASSIGN_SAR : token_kind_t := 116
abbrev TOK_ASSIGN_MOD : token_kind_t := 117
abbrev TOK_ASSIGN_XOR : token_kind_t := 118
abbrev TOK_ASSIGN_AND : token_kind_t := 119
abbrev TOK_ASSIGN_OR : token_kind_t := 120
abbrev TOK_ASSIGN_AUTO : token_kind_t := 121
abbrev TOK_DOUBLEMINUS : token_kind_t := 122
abbrev TOK_DOUBLEPLUS : token_kind_t := 123
abbrev TOK_NUMBER_LIT : token_kind_t := 124
abbrev TOK_HEX_LIT : token_kind_t := 125
abbrev TOK_BIN_LIT : token_kind_t := 126
abbrev TOK_STRING_LIT : token_kind_t := 127
abbrev TOK_LINE_COMMENT : token_kind_t := 128
abbrev TOK_BLOCK_COMMENT : token_kind_t := 129
abbrev TOK_EOF : token_kind_t := 130
abbrev TOK_LAST : token_kind_t := 130
abbrev TOK_COUNT : token_kind_t := 131

/-- The C type `token_t`. -/
structure token_t where
  kind : token_kind_t
  from_ : Option Int
  to_ : Option Int
  line : Nat
  column : Nat
deriving DecidableEq, Repr

/-- The C type `token_mark_t`: the cursor of the lexer. -/
structure token_mark_t where
  place : Nat
  line : Nat
  column : Nat
  token : Nat
deriving DecidableEq, Repr

/-- The string built by `lexer_asprintf`: its format and the values of its arguments. -/
structure lexer_error where
  format : String
  args : List Nat
deriving DecidableEq, Repr

/-- The C type `struct s_lexer` (without `capacity`, which only sizes the allocation). -/
structure lexer_t where
  source : List Nat
  sentinel : Nat
  tokens : List token_t
  current : token_mark_t
  error : Option lexer_error
deriving DecidableEq, Repr

/-- The C type `token_single_t`; `matches_` is `none` for the `NULL` of the last entry. -/
structure token_single_t where
  kind : token_kind_t
  case_sensitive : Bool
  matches_ : Option (List Nat)
deriving DecidableEq, Repr

/-- The C type `token_pair_t`. -/
structure token_pair_t where
  left : token_kind_t
  right : token_kind_t
  kind : token_kind_t
  range : Nat
deriving DecidableEq, Repr

/-! ## `<ctype.h>` and `<string.h>` in the "C" locale -/

/-- The function `isdigit`: `'0'..'9'`. -/
def isdigit (c : Nat) : Bool := decide (48 ≤ c) && decide (c ≤ 57)

/-- The function `isxdigit`: a digit, `'a'..'f'` or `'A'..'F'`. -/
def isxdigit (c : Nat) : Bool :=
  isdigit c || (decide (97 ≤ c) && decide (c ≤ 102)) || (decide (65 ≤ c) && decide (c ≤ 70))

/-- The function `isalpha`: `'A'..'Z'` or `'a'..'z'`. -/
def isalpha (c : Nat) : Bool :=
  (decide (65 ≤ c) && decide (c ≤ 90)) || (decide (97 ≤ c) && decide (c ≤ 122))

/-- The function `isalnum`. -/
def isalnum (c : Nat) : Bool := isalpha c || isdigit c

/-- The function `tolower`. -/
def tolower (c : Nat) : Nat := if 65 ≤ c ∧ c ≤ 90 then c + 32 else c

/-- The function `strlen` of a C string given by its bytes before the NUL. -/
def strlen (s : List Nat) : Nat := s.length

/-- The function `strncmp`: compares at most `n` bytes, stopping after a NUL; a byte read
behind the end of a list is the NUL. -/
def strncmp : List Nat → List Nat → Nat → Int
  | _, _, 0 => 0
  | a, b, n + 1 =>
    let ca := a.headD 0
    let cb := b.headD 0
    if ca ≠ cb then (ca : Int) - (cb : Int)
    else if ca = 0 then 0
    else strncmp a.tail b.tail n

/-- The function `strncasecmp`: as `strncmp`, on the lower-cased bytes. -/
def strncasecmp : List Nat → List Nat → Nat → Int
  | _, _, 0 => 0
  | a, b, n + 1 =>
    let ca := tolower (a.headD 0)
    let cb := tolower (b.headD 0)
    if ca ≠ cb then (ca : Int) - (cb : Int)
    else if ca = 0 then 0
    else strncasecmp a.tail b.tail n

/-! ## `lexer.c`: the tables -/

def token_singles : List token_single_t :=
  { kind := TOK_END_KW, case_sensitive := false, matches_ := some [101, 110, 100] } ::
  { kind := TOK_FUNCTION_KW, case_sensitive := false, matches_ := some [102, 117, 110, 99, 116, 105, 111, 110] } ::
  { kind := TOK_ENDFUNCTION_KW, case_sensitive := false, matches_ := some [101, 110, 100, 102, 117, 110, 99, 116, 105, 111, 110] } ::
  { kind := TOK_METHOD_KW, case_sensitive := false, matches_ := some [109, 101, 116, 104, 111, 100] } ::
  { kind := TOK_ENDMETHOD_KW, case_sensitive := false, matches_ := some [101, 110, 100, 109, 101, 116, 104, 111, 100] } ::
  { kind := TOK_TYPE_KW, case_sensitive := false, matches_ := some [116, 121, 112, 101] } ::
  { kind := TOK_EXTENDS_KW, case_sensitive := false, matches_ := some [101, 120, 116, 101, 110, 100, 115] } ::
  { kind := TOK_ABSTRACT_KW, case_sensitive := false, matches_ := some [97, 98, 115, 116, 114, 97, 99, 116] } ::
  { kind := TOK_FINAL_KW, case_sensitive := false, matches_ := some [102, 105, 110, 97, 108] } ::
  { kind := TOK_NODEBUG_KW, case_sensitive := false, matches_ := some [110, 111, 100, 101, 98, 117, 103] } ::
  { kind := TOK_ENDTYPE_KW, case_sensitive := false, matches_ := some [101, 110, 100, 116, 121, 112, 101] } ::
  { kind := TOK_EXTERN_KW, case_sensitive := false, matches_ := some [101, 120, 116, 101, 114, 110] } ::
  { kind := TOK_ENDEXTERN_KW, case_sensitive := false, matches_ := some [101, 110, 100, 101, 120, 116, 101, 114, 110] } ::
  { kind := TOK_REM_KW, case_sensitive := false, matches_ := some [114, 101, 109] } ::
  { kind := TOK_ENDREM_KW, case_sensitive := false, matches_ := some [101, 110, 100, 114, 101, 109] } ::
  { kind := TOK_FLOAT_KW, case_sensitive := false, matches_ := some [102, 108, 111, 97, 116] } ::
  { kind := TOK_DOUBLE_KW, case_sensitive := false, matches_ := some [100, 111, 117, 98, 108, 101] } ::
  { kind := TOK_BYTE_KW, case_sensitive := false, matches_ := some [98, 121, 116, 101] } ::
  { kind := TOK_SHORT_KW, case_sensitive := false, matches_ := some [115, 104, 111, 114, 116] } ::
  { kind := TOK_INT_KW, case_sensitive := false, matches_ := some [105, 110, 116] } ::
  { kind := TOK_STRING_KW, case_sensitive := false, matches_ := some [115, 116, 114, 105, 110, 103] } ::
  { kind := TOK_OBJECT_KW, case_sensitive := false, matches_ := some [111, 98, 106, 101, 99, 116] } ::
  { kind := TOK_LOCAL_KW, case_sensitive := false, matches_ := some [108, 111, 99, 97, 108] } ::
  { kind := TOK_GLOBAL_KW, case_sensitive := false, matches_ := some [103, 108, 111, 98, 97, 108] } ::
  { kind := TOK_CONST_KW, case_sensitive := false, matches_ := some [99, 111, 110, 115, 116] } ::
  { kind := TOK_VARPTR_KW, case_sensitive := false, matches_ := some [118, 97, 114, 112, 116, 114] } ::
  { kind := TOK_PTR_KW, case_sensitive := false, matches_ := some [112, 116, 114] } ::
  { kind := TOK_VAR_KW, case_sensitive := false, matches_ := some [118, 97, 114] } ::
  { kind := TOK_NULL_KW, case_sensitive := false, matches_ := some [110, 117, 108, 108] } ::
  { kind := TOK_STRICT_KW, case_sensitive := false, matches_ := some [115, 116, 114, 105, 99, 116] } ::
  { kind := TOK_SUPERSTRICT_KW, case_sensitive := false, matches_ := some [115, 117, 112, 101, 114, 115, 116, 114, 105, 99, 116] } ::
  { kind := TOK_FRAMEWORK_KW, case_sensitive := false, matches_ := some [102, 114, 97, 109, 101, 119, 111, 114, 107] } ::
  { kind := TOK_MODULE_KW, case_sensitive := false, matches_ := some [109, 111, 100, 117, 108, 101] } ::
  { kind := TOK_MODULEINFO_KW, case_sensitive := false, matches_ := some [109, 111, 100, 117, 108, 101, 105, 110, 102, 111] } ::
  { kind := TOK_IMPORT_KW, case_sensitive := false, matches_ := some [105, 109, 112, 111, 114, 116] } ::
  { kind := TOK_INCLUDE_KW, case_sensitive := false, matches_ := some [105, 110, 99, 108, 117, 100, 101] } ::
  { kind := TOK_PRIVATE_KW, case_sensitive := false, matches_ := some [112, 114, 105, 118, 97, 116, 101] } ::
  { kind := TOK_PUBLIC_KW, case_sensitive := false, matches_ := some [112, 117, 98, 108, 105, 99] } ::
  { kind := TOK_OR_KW, case_sensitive := false, matches_ := some [111, 114] } ::
  { kind := TOK_AND_KW, case_sensitive := false, matches_ := some [97, 110, 100] } ::
  { kind := TOK_SHR_KW, case_sensitive := false, matches_ := some [115, 104, 114] } ::
  { kind := TOK_SHL_KW, case_sensitive := false, matches_ := some [115, 104, 108] } ::
  { kind := TOK_SAR_KW, case_sensitive := false, matches_ := some [115, 97, 114] } ::
  { kind := TOK_MOD_KW, case_sensitive := false, matches_ := some [109, 111, 100] } ::
  { kind := TOK_NOT_KW, case_sensitive := false, matches_ := some [110, 111, 116] } ::
  { kind := TOK_WHILE_KW, case_sensitive := false, matches_ := some [119, 104, 105, 108, 101] } ::
  { kind := TOK_WEND_KW, case_sensitive := false, matches_ := some [119, 101, 110, 100] } ::
  { kind := TOK_ENDWHILE_KW, case_sensitive := false, matches_ := some [101, 110, 100, 119, 104, 105, 108, 101] } ::
  { kind := TOK_FOR_KW, case_sensitive := false, matches_ := some [102, 111, 114] } ::
  { kind := TOK_NEXT_KW, case_sensitive := false, matches_ := some [110, 101, 120, 116] } ::
  { kind := TOK_UNTIL_KW, case_sensitive := false, matches_ := some [117, 110, 116, 105, 108] } ::
  { kind := TOK_TO_KW, case_sensitive := false, matches_ := some [116, 111] } ::
  { kind := TOK_EACHIN_KW, case_sensitive := false, matches_ := some [101, 97, 99, 104, 105, 110] } ::
  { kind := TOK_REPEAT_KW, case_sensitive := false, matches_ := some [114, 101, 112, 101, 97, 116] } ::
  { kind := TOK_FOREVER_KW, case_sensitive := false, matches_ := some [102, 111, 114, 101, 118, 101, 114] } ::
  { kind := TOK_IF_KW, case_sensitive := false, matches_ := some [105, 102] } ::
  { kind := TOK_ENDIF_KW, case_sensitive := false, matches_ := some [101, 110, 100, 105, 102] } ::
  { kind := TOK_ELSE_KW, case_sensitive := false, matches_ := some [101, 108, 115, 101] } ::
  { kind := TOK_ELSEIF_KW, case_sensitive := false, matches_ := some [101, 108, 115, 101, 105, 102] } ::
  { kind := TOK_THEN_KW, case_sensitive := false, matches_ := some [116, 104, 101, 110] } ::
  { kind := TOK_SELECT_KW, case_sensitive := false, matches_ := some [115, 101, 108, 101, 99, 116] } ::
  { kind := TOK_CASE_KW, case_sensitive := false, matches_ := some [99, 97, 115, 101] } ::
  { kind := TOK_DEFAULT_KW, case_sensitive := false, matches_ := some [100, 101, 102, 97, 117, 108, 116] } ::
  { kind := TOK_ENDSELECT_KW, case_sensitive := false, matches_ := some [101, 110, 100, 115, 101, 108, 101, 99, 116] } ::
  { kind := TOK_SELF_KW, case_sensitive := false, matches_ := some [115, 101, 108, 102] } ::
  { kind := TOK_SUPER_KW, case_sensitive := false, matches_ := some [115, 117, 112, 101, 114] } ::
  { kind := TOK_PI_KW, case_sensitive := false, matches_ := some [112, 105] } ::
  { kind := TOK_NEW_KW, case_sensitive := false, matches_ := some [110, 101, 119] } ::
  { kind := TOK_PROTOCOL_KW, case_sensitive := false, matches_ := some [112, 114, 111, 116, 111, 99, 111, 108] } ::
  { kind := TOK_ENDPROTOCOL_KW, case_sensitive := false, matches_ := some [101, 110, 100, 112, 114, 111, 116, 111, 99, 111, 108] } ::
  { kind := TOK_AUTO_KW, case_sensitive := false, matches_ := some [97, 117, 116, 111] } ::
  { kind := TOK_IMPLEMENTS_KW, case_sensitive := false, matches_ := some [105, 109, 112, 108, 101, 109, 101, 110, 116, 115] } ::
  { kind := TOK_COLON, case_sensitive := false, matches_ := some [58] } ::
  { kind := TOK_QUESTION, case_sensitive := false, matches_ := some [63] } ::
  { kind := TOK_BANG, case_sensitive := false, matches_ := some [33] } ::
  { kind := TOK_HASH, case_sensitive := false, matches_ := some [35] } ::
  { kind := TOK_DOLLAR, case_sensitive := false, matches_ := some [36] } ::
  { kind := TOK_PERCENT, case_sensitive := false, matches_ := some [37] } ::
  { kind := TOK_OPENPAREN, case_sensitive := false, matches_ := some [40] } ::
  { kind := TOK_CLOSEPAREN, case_sensitive := false, matches_ := some [41] } ::
  { kind := TOK_OPENBRACKET, case_sensitive := false, matches_ := some [91] } ::
  { kind := TOK_CLOSEBRACKET, case_sensitive := false, matches_ := some [93] } ::
  { kind := TOK_OPENCURL, case_sensitive := false, matches_ := some [123] } ::
  { kind := TOK_CLOSECURL, case_sensitive := false, matches_ := some [125] } ::
  { kind := TOK_GREATERTHAN, case_sensitive := false, matches_ := some [62] } ::
  { kind := TOK_LESSTHAN, case_sensitive := false, matches_ := some [60] } ::
  { kind := TOK_EQUALS, case_sensitive := false, matches_ := some [61] } ::
  { kind := TOK_MINUS, case_sensitive := false, matches_ := some [45] } ::
  { kind := TOK_PLUS, case_sensitive := false, matches_ := some [43] } ::
  { kind := TOK_ASTERISK, case_sensitive := false, matches_ := some [42] } ::
  { kind := TOK_CARET, case_sensitive := false, matches_ := some [94] } ::
  { kind := TOK_TILDE, case_sensitive := false, matches_ := some [126] } ::
  { kind := TOK_GRAVE, case_sensitive := false, matches_ := some [96] } ::
  { kind := TOK_BACKSLASH, case_sensitive := false, matches_ := some [92] } ::
  { kind := TOK_SLASH, case_sensitive := false, matches_ := some [47] } ::
  { kind := TOK_COMMA, case_sensitive := false, matches_ := some [44] } ::
  { kind := TOK_SEMICOLON, case_sensitive := false, matches_ := some [59] } ::
  { kind := TOK_PIPE, case_sensitive := false, matches_ := some [124] } ::
  { kind := TOK_AMPERSAND, case_sensitive := false, matches_ := some [38] } ::
  { kind := TOK_NEWLINE, case_sensitive := false, matches_ := some [10] } ::
  { kind := TOK_INVALID, case_sensitive := false, matches_ := none } ::
  []

def token_pairs : List token_pair_t := [
  { left := TOK_END_KW, right := TOK_REM_KW, kind := TOK_ENDREM_KW, range := 1 },
  { left := TOK_END_KW, right := TOK_METHOD_KW, kind := TOK_ENDMETHOD_KW, range := 1 },
  { left := TOK_END_KW, right := TOK_FUNCTION_KW, kind := TOK_ENDFUNCTION_KW, range := 1 },
  { left := TOK_END_KW, right := TOK_TYPE_KW, kind := TOK_ENDTYPE_KW, range := 1 },
  { left := TOK_END_KW, right := TOK_EXTERN_KW, kind := TOK_ENDEXTERN_KW, range := 1 },
  { left := TOK_END_KW, right := TOK_IF_KW, kind := TOK_ENDIF_KW, range := 1 },
  { left := TOK_END_KW, right := TOK_SELECT_KW, kind := TOK_ENDSELECT_KW, range := 1 },
  { left := TOK_END_KW, right := TOK_WHILE_KW, kind := TOK_ENDWHILE_KW, range := 1 },
  { left := TOK_END_KW, right := TOK_PROTOCOL_KW, kind := TOK_ENDPROTOCOL_KW, range := 1 },
  { left := TOK_COLON, right := TOK_PLUS, kind := TOK_ASSIGN_ADD, range := 0 },
  { left := TOK_COLON, right := TOK_MINUS, kind := TOK_ASSIGN_SUBTRACT, range := 0 },
  { left := TOK_COLON, right := TOK_SLASH, kind := TOK_ASSIGN_DIVIDE, range := 0 },
  { left := TOK_COLON, right := TOK_ASTERISK, kind := TOK_ASSIGN_MULTIPLY, range := 0 },
  { left := TOK_COLON, right := TOK_CARET, kind := TOK_ASSIGN_POWER, range := 0 },
  { left := TOK_COLON, right := TOK_SHL_KW, kind := TOK_ASSIGN_SHL, range := 0 },
  { left := TOK_COLON, right := TOK_SHR_KW, kind := TOK_ASSIGN_SHR, range := 0 },
  { left := TOK_COLON, right := TOK_SAR_KW, kind := TOK_ASSIGN_SAR, range := 0 },
  { left := TOK_COLON, right := TOK_MOD_KW, kind := TOK_ASSIGN_MOD, range := 0 },
  { left := TOK_COLON, right := TOK_TILDE, kind := TOK_ASSIGN_XOR, range := 0 },
  { left := TOK_COLON, right := TOK_AMPERSAND, kind := TOK_ASSIGN_AND, range := 0 },
  { left := TOK_COLON, right := TOK_PIPE, kind := TOK_ASSIGN_OR, range := 0 },
  { left := TOK_COLON, right := TOK_EQUALS, kind := TOK_ASSIGN_AUTO, range := 0 },
  { left := TOK_MINUS, right := TOK_MINUS, kind := TOK_DOUBLEMINUS, range := 0 },
  { left := TOK_PLUS, right := TOK_PLUS, kind := TOK_DOUBLEPLUS, range := 0 },
  { left := TOK_INVALID, right := TOK_INVALID, kind := TOK_INVALID, range := 18446744073709551615 }]

/-! ## `lexer.c`: token buffer and cursor -/

/-- A token with every field zero, as `lexer_new_token` leaves it and as
`token_t comment = {.kind=TOK_INVALID}` initialises it. -/
def token_zero : token_t :=
  { kind := TOK_INVALID, from_ := none, to_ := none, line := 0, column := 0 }

/-- The function `lexer_new`, for a valid range (`source_begin <= source_end`, both
non-null); `sentinel` is the byte that memory holds at `source_end`. -/
def lexer_new (source : List Nat) (sentinel : Nat) : lexer_t :=
  { source := source, sentinel := sentinel, tokens := [],
    current := { place := 0, line := 1, column := 1, token := 0 }, error := none }

/-- The read `*p` of the byte at offset `p` from `source_begin`, for `p <= source_end`. -/
def lexer_deref (lexer : lexer_t) (p : Nat) : Nat :=
  (lexer.source ++ [lexer.sentinel]).getD p 0

/-- The assignment `tokens[i] = t` (the array has room for index `i`: `lexer_tokens_fit`). -/
def tokens_write (tokens : List token_t) (i : Nat) (t : token_t) : List token_t :=
  if i < tokens.length then tokens.set i t else tokens.take i ++ [t]

/-- The function `lexer_new_token`: takes the next slot of the array, zeroes it and
returns its index (the C function returns the pointer to it). -/
def lexer_new_token (lexer : lexer_t) : Nat × lexer_t :=
  let index := lexer.current.token + 1
  (lexer.current.token,
   { lexer with
     tokens := tokens_write lexer.tokens lexer.current.token token_zero,
     current := { lexer.current with token := index } })

/-- The statement `*lexer_new_token(lexer) = token;`. -/
def lexer_push_token (lexer : lexer_t) (token : token_t) : lexer_t :=
  let r := lexer_new_token lexer
  { r.2 with tokens := r.2.tokens.set r.1 token }

/-- The `for` loop of `lexer_merge_tokens`, `n` iterations from `idx`:
`tokens[idx+offset] = tokens[idx]`. -/
def lexer_merge_shift : Nat → List token_t → Nat → Int → List token_t
  | 0, tokens, _, _ => tokens
  | n + 1, tokens, idx, offset =>
    lexer_merge_shift n
      (tokens.set ((idx : Int) + offset).toNat (tokens.getD idx token_zero)) (idx + 1) offset

/-- The function `lexer_merge_tokens` (its loop runs `current.token - (to+1)` times). -/
def lexer_merge_tokens (lexer : lexer_t) (from_ to_ : Nat) (newKind : token_kind_t) :
    lexer_t :=
  let t_from := lexer.tokens.getD from_ token_zero
  let t_to := lexer.tokens.getD to_ token_zero
  let tokens := lexer.tokens.set from_ { t_from with to_ := t_to.to_, kind := newKind }
  let offset : Int := (from_ : Int) - (to_ : Int)
  let idx := to_ + 1
  let tokens := lexer_merge_shift (lexer.current.token - idx) tokens idx offset
  { lexer with
    tokens := tokens,
    current := { lexer.current with token := ((lexer.current.token : Int) + offset).toNat } }

/-- The function `lexer_mark`. -/
def lexer_mark (lexer : lexer_t) : token_mark_t := lexer.current

/-- The function `lexer_reset`. -/
def lexer_reset (lexer : lexer_t) (mark : token_mark_t) : lexer_t :=
  { lexer with current := mark }

/-- The function `lexer_current`: `0` only when the cursor is *behind* `source_end`;
at `source_end` itself it reads the byte stored there. -/
def lexer_current (lexer : lexer_t) : Nat :=
  if lexer.source.length < lexer.current.place then 0
  else lexer_deref lexer lexer.current.place

/-- The function `lexer_has_next`. -/
def lexer_has_next (lexer : lexer_t) : Bool :=
  decide (lexer.current.place < lexer.source.length)

/-- The function `lexer_next`: the byte it returns and the lexer it leaves. -/
def lexer_next (lexer : lexer_t) : Nat × lexer_t :=
  let lexer1 : lexer_t :=
    if lexer_current lexer = 10 then
      { lexer with current := { lexer.current with line := lexer.current.line + 1, column := 1 } }
    else
      { lexer with current := { lexer.current with column := lexer.current.column + 1 } }
  if lexer_has_next lexer1 then
    (lexer_deref lexer1 (lexer1.current.place + 1),
     { lexer1 with current := { lexer1.current with place := lexer1.current.place + 1 } })
  else (0, lexer1)

/-- The function `lexer_peek`. -/
def lexer_peek (lexer : lexer_t) : Nat :=
  if lexer_has_next lexer then lexer_deref lexer (lexer.current.place + 1) else 0

/-- The function `lexer_skip_whitespace`. -/
def lexer_skip_whitespace : Nat → lexer_t → Option lexer_t
  | 0, _ => none
  | fuel + 1, lexer =>
    let cur := lexer_current lexer
    if cur ≠ 0 ∧ (cur = 32 ∨ cur = 9 ∨ cur = 13) then
      lexer_skip_whitespace fuel (lexer_next lexer).2
    else some lexer

/-- The call `lexer_asprintf(&lexer->error, format, ...)`. -/
def lexer_asprintf (lexer : lexer_t) (format : String) (args : List Nat) : lexer_t :=
  { lexer with error := some { format := format, args := args } }

/-- The token every sub-scanner starts from: `kind` at the mark, `to = NULL`. -/
def token_at (kind : token_kind_t) (mark : token_mark_t) : token_t :=
  { kind := kind, line := mark.line, column := mark.column,
    from_ := some (mark.place : Int), to_ := none }

/-! ## `lexer.c`: the sub-scanners -/

/-- The loop of `lexer_read_base_number` for `'%'`:
`while (lexer_has_next(lexer) && (cur = lexer_next(lexer)) == '0' || cur == '1');`
(`&&` binds tighter than `||`, and `cur` keeps its value when `lexer_has_next` fails). -/
def lexer_read_base_number_bin : Nat → lexer_t → Nat → Option lexer_t
  | 0, _, _ => none
  | fuel + 1, lexer, cur =>
    if lexer_has_next lexer then
      let r := lexer_next lexer
      let cur := r.1
      if cur = 48 ∨ cur = 49 then lexer_read_base_number_bin fuel r.2 cur
      else some r.2
    else if cur = 49 then lexer_read_base_number_bin fuel lexer cur
    else some lexer

/-- The loop of `lexer_read_base_number` for `'$'`:
`while (lexer_has_next(lexer) && isxdigit(lexer_next(lexer)));`. -/
def lexer_read_base_number_hex : Nat → lexer_t → Option lexer_t
  | 0, _ => none
  | fuel + 1, lexer =>
    if lexer_has_next lexer then
      let r := lexer_next lexer
      if isxdigit r.1 then lexer_read_base_number_hex fuel r.2
      else some r.2
    else some lexer

/-- The function `lexer_read_base_number`. -/
def lexer_read_base_number (fuel : Nat) (lexer : lexer_t) : Option (token_t × lexer_t) :=
  let cur := lexer_current lexer
  let mark := lexer_mark lexer
  let token := token_at TOK_NUMBER_LIT mark
  if cur = 37 ∨ cur = 36 then
    (if cur = 37 then lexer_read_base_number_bin fuel lexer cur
      else lexer_read_base_number_hex fuel lexer).bind fun lexer =>
    let lexer := (lexer_next lexer).2
    some ({ token with to_ := some (lexer.current.place : Int) }, lexer)
  else
    some ({ token with kind := TOK_INVALID },
      lexer_asprintf lexer "[%d:%d] Malformed number literal encountered, not a number\n"
        [lexer.current.line, lexer.current.column])

/-- The loop of `token_kind_for_single` over the entries from `iter` on; the table ends
with an entry of kind `TOK_INVALID`, and the loop returns `iter->kind` where it stops. -/
def token_kind_for_single_from : List token_single_t → List Nat → Nat → token_kind_t
  | [], _, _ => TOK_INVALID
  | iter :: rest, single, len =>
    if iter.kind ≠ TOK_INVALID then
      let m := iter.matches_.getD []
      if strlen m = len ∧
          (if iter.case_sensitive then strncmp m single len else strncasecmp m single len) = 0
      then iter.kind
      else token_kind_for_single_from rest single len
    else iter.kind

/-- The function `token_kind_for_single`; `single` holds the bytes from the pointer on. -/
def token_kind_for_single (single : List Nat) (len : Nat) : token_kind_t :=
  token_kind_for_single_from token_singles single len

/-- The loop of `lexer_read_number`; the result is `true` with the lexer where the loop
is left, or `false` with the lexer holding the error when the function returns early. -/
def lexer_read_number_loop : Nat → lexer_t → Bool → Bool → Option (Bool × lexer_t)
  | 0, _, _, _ => none
  | fuel + 1, lexer, isDec, isExp =>
    if lexer_has_next lexer then
      let r := lexer_next lexer
      let cur := r.1
      let lexer := r.2
      if cur ≠ 0 then
        if cur = 46 then
          if isDec then some (true, lexer)
          else lexer_read_number_loop fuel lexer true isExp
        else if isdigit cur then lexer_read_number_loop fuel lexer isDec isExp
        else if tolower cur = 101 then
          if isExp then
            some (false, lexer_asprintf lexer
              "[%d:%d] Malformed number literal encountered, exponent already provided\n"
              [lexer.current.line, lexer.current.column])
          else
            let cur := lexer_peek lexer
            let signed := decide (cur = 45 ∨ cur = 43)
            let lexer := if signed then (lexer_next lexer).2 else lexer
            let cur := if signed then lexer_peek lexer else cur
            if !isdigit cur then
              some (false, lexer_asprintf lexer
                "[%d:%d] Malformed number literal encountered, exponent expected but not found (%c:%d)\n"
                [lexer.current.line, lexer.current.column, cur, cur])
            else lexer_read_number_loop fuel lexer isDec true
        else some (true, lexer)
      else some (true, lexer)
    else some (true, lexer)

/-- The function `lexer_read_number`. -/
def lexer_read_number (fuel : Nat) (lexer : lexer_t) : Option (token_t × lexer_t) :=
  let cur := lexer_current lexer
  let mark := lexer_mark lexer
  let isDec := decide (cur = 46)
  let isExp := false
  let token := token_at TOK_NUMBER_LIT mark
  (lexer_read_number_loop fuel lexer isDec isExp).map fun r =>
    if r.1 then ({ token with to_ := some (r.2.current.place : Int) }, r.2)
    else ({ token with kind := TOK_INVALID }, r.2)

/-- The loop of `lexer_read_word`. -/
def lexer_read_word_loop : Nat → lexer_t → Option lexer_t
  | 0, _ => none
  | fuel + 1, lexer =>
    if lexer_has_next lexer then
      let cur := lexer_peek lexer
      if cur ≠ 95 ∧ !isalnum cur then some lexer
      else lexer_read_word_loop fuel (lexer_next lexer).2
    else some lexer

/-- The function `lexer_read_word`. -/
def lexer_read_word (fuel : Nat) (lexer : lexer_t) : Option (token_t × lexer_t) :=
  let mark := lexer_mark lexer
  let token := token_at TOK_ID mark
  (lexer_read_word_loop fuel lexer).map fun lexer =>
    let lexer := (lexer_next lexer).2
    let token := { token with to_ := some (lexer.current.place : Int) }
    let alter := token_kind_for_single
      ((lexer.source ++ [lexer.sentinel]).drop mark.place) (lexer.current.place - mark.place)
    (if alter ≠ TOK_INVALID then { token with kind := alter } else token, lexer)

/-- The loop of `lexer_read_string`; `false` is the early return with the error set. -/
def lexer_read_string_loop : Nat → lexer_t → Option (Bool × lexer_t)
  | 0, _ => none
  | fuel + 1, lexer =>
    if lexer_has_next lexer then
      let r := lexer_next lexer
      let cur := r.1
      let lexer := r.2
      if cur ≠ 34 then
        if cur = 10 then
          some (false, lexer_asprintf lexer
            "[%d:%d] String literal does not terminate before newline or EOF\n"
            [lexer.current.line, lexer.current.column])
        else lexer_read_string_loop fuel lexer
      else some (true, lexer)
    else some (true, lexer)

/-- The function `lexer_read_string`. -/
def lexer_read_string (fuel : Nat) (lexer : lexer_t) : Option (token_t × lexer_t) :=
  let mark := lexer_mark lexer
  let token := token_at TOK_STRING_LIT mark
  (lexer_read_string_loop fuel lexer).map fun r =>
    if r.1 then
      let lexer := (lexer_next r.2).2
      ({ token with to_ := some (lexer.current.place : Int) }, lexer)
    else ({ token with kind := TOK_INVALID }, r.2)

/-- The `do ... while` loop of `lexer_read_line_comment`. -/
def lexer_read_line_comment_loop : Nat → lexer_t → Option lexer_t
  | 0, _ => none
  | fuel + 1, lexer =>
    let r := lexer_next lexer
    if r.1 ≠ 0 ∧ r.1 ≠ 10 then lexer_read_line_comment_loop fuel r.2
    else some r.2

/-- The function `lexer_read_line_comment`. -/
def lexer_read_line_comment (fuel : Nat) (lexer : lexer_t) : Option (token_t × lexer_t) :=
  let mark := lexer_mark lexer
  let token := token_at TOK_LINE_COMMENT mark
  (lexer_read_line_comment_loop fuel lexer).map fun lexer =>
    ({ token with to_ := some (lexer.current.place : Int) }, lexer)

/-! ## `lexer.c`: the driver `lexer_run` -/

/-- The span of a token scanned by the driver itself: from the mark to the cursor. -/
def token_span (kind : token_kind_t) (mark : token_mark_t) (lexer : lexer_t) : token_t :=
  { kind := kind, from_ := some (mark.place : Int), to_ := some (lexer.current.place : Int),
    line := mark.line, column := mark.column }

/-- The loop `while(token.kind <= TOK_TRIPLEDOT && lexer_next(lexer) == '.') ++token.kind;`
of the driver (`BMAX_USE_ADDITIONS` is defined in `lexer.h`). -/
def lexer_run_dots : Nat → lexer_t → token_kind_t → Option (token_kind_t × lexer_t)
  | 0, _, _ => none
  | fuel + 1, lexer, kind =>
    if kind ≤ TOK_TRIPLEDOT then
      let r := lexer_next lexer
      if r.1 = 46 then lexer_run_dots fuel r.2 (kind + 1)
      else some (kind, r.2)
    else some (kind, lexer)

/-- The part of the loop body of `lexer_run` guarded by `comment.kind == TOK_INVALID`:
the chain of tests on the first character `cur`; `s` is the pair of `token` and the lexer
after each test. -/
def lexer_run_scan (fuel : Nat) (lexer : lexer_t) (mark : token_mark_t) (cur : Nat)
    (token : token_t) : Option (token_t × lexer_t) :=
  -- if (cur == '@')
  let s : token_t × lexer_t :=
    if cur = 64 then
      let r := lexer_next lexer
      if r.1 = 64 then
        let lexer := (lexer_next r.2).2
        (token_span TOK_DOUBLEAT mark lexer, lexer)
      else (token_span TOK_AT mark r.2, r.2)
    else (token, lexer)
  -- if (cur == '.')
  (if cur = 46 then
      if isdigit (lexer_peek s.2) then lexer_read_number fuel s.2
      else (lexer_run_dots fuel s.2 TOK_DOT).map fun r => (token_span r.1 mark r.2, r.2)
    else some s).bind fun s =>
  -- if (cur == '\'')
  (if cur = 39 then lexer_read_line_comment fuel s.2 else some s).bind fun s =>
  -- if (cur == '%') with peek == '1' || peek == '0'
  (if cur = 37 ∧ (lexer_peek s.2 = 49 ∨ lexer_peek s.2 = 48) then
      lexer_read_base_number fuel s.2
    else some s).bind fun s =>
  -- if (cur == '$' && isxdigit(lexer_peek(lexer)))
  (if cur = 36 ∧ isxdigit (lexer_peek s.2) then lexer_read_base_number fuel s.2
    else some s).bind fun s =>
  -- if (cur == '"')
  (if cur = 34 then lexer_read_string fuel s.2 else some s).bind fun s =>
  -- if (isdigit(cur))
  (if isdigit cur then lexer_read_number fuel s.2 else some s).bind fun s =>
  -- if (token.kind == TOK_INVALID)
  if s.1.kind = TOK_INVALID then
    let alter := token_kind_for_single [cur] 1
    if alter ≠ TOK_INVALID then
      let lexer := (lexer_next s.2).2
      some (token_span alter mark lexer, lexer)
    else some s
  else some s

/-- The test `if (token.kind == TOK_END_KW)` inside a block comment: the probe for a
following `Rem`, undone by `lexer_reset` when the next word is another one; the result
is `token`, `cur` and the lexer. -/
def lexer_run_probe (fuel : Nat) (lexer : lexer_t) (cur : Nat) (token : token_t) :
    Option (token_t × Nat × lexer_t) :=
  if token.kind = TOK_END_KW then
    let lexer := if lexer_current lexer = 32 then (lexer_next lexer).2 else lexer
    let cur := lexer_current lexer
    if cur = 95 ∨ isalpha cur then
      let next_mark := lexer_mark lexer
      (lexer_read_word fuel lexer).bind fun r =>
        if r.1.kind = TOK_REM_KW then
          some ({ token with kind := TOK_ENDREM_KW, to_ := r.1.to_ }, cur, r.2)
        else some (token, cur, lexer_reset r.2 next_mark)
    else some (token, cur, lexer)
  else some (token, cur, lexer)

/-- The part of the loop body of `lexer_run` guarded by `comment.kind != TOK_INVALID`;
the result is `token`, `comment`, `cur` and the lexer. -/
def lexer_run_comment (fuel : Nat) (lexer : lexer_t) (cur : Nat) (comment token : token_t) :
    Option (token_t × token_t × Nat × lexer_t) :=
  -- if (token.kind == TOK_END_KW)
  (lexer_run_probe fuel lexer cur token).bind fun s =>
  let token := s.1
  -- if (token.kind == TOK_ENDREM_KW)
  let block : token_t :=
    { kind := TOK_BLOCK_COMMENT, line := comment.line, column := comment.column,
      from_ := comment.to_.map (· + 1), to_ := token.from_.map (· - 1) }
  let c : token_t × lexer_t :=
    if token.kind = TOK_ENDREM_KW then
      ({ comment with kind := TOK_INVALID }, lexer_push_token s.2.2 block)
    else (comment, s.2.2)
  -- if (token.kind == TOK_INVALID)
  (if token.kind = TOK_INVALID then lexer_skip_whitespace fuel (lexer_next c.2).2
    else some c.2).bind fun lexer =>
  some (token, c.1, s.2.1, lexer)

/-- How control leaves the body of the loop of phase 1. -/
inductive loop_exit where
  | next_iteration
  | break_loop
  | return_1
deriving DecidableEq, Repr

/-- The end of the loop body of `lexer_run`, from `if (token.kind != TOK_INVALID &&
comment.kind == TOK_INVALID)` on. -/
def lexer_run_emit (lexer : lexer_t) (cur : Nat) (token comment : token_t) :
    loop_exit × token_t × lexer_t :=
  let lexer :=
    if token.kind ≠ TOK_INVALID ∧ comment.kind = TOK_INVALID then lexer_push_token lexer token
    else lexer
  let comment :=
    if comment.kind = TOK_INVALID ∧ token.kind = TOK_REM_KW then token else comment
  let lexer :=
    if comment.kind = TOK_INVALID ∧ token.kind = TOK_INVALID ∧ lexer.error = none then
      lexer_asprintf lexer "[%d:%d] Invalid token: %c:%d\n"
        [lexer.current.line, lexer.current.column, cur, cur]
    else lexer
  if lexer.error ≠ none then (loop_exit.return_1, comment, lexer)
  else (loop_exit.next_iteration, comment, lexer)

/-- The body of the `while(lexer_current(lexer) != 0)` loop of `lexer_run`. The fields of
`token` other than `kind` are only read after the iteration assigned them, so that each
iteration starts from the zero token. -/
def lexer_run_body (fuel : Nat) (lexer : lexer_t) (comment : token_t) :
    Option (loop_exit × token_t × lexer_t) :=
  let token := token_zero
  (lexer_skip_whitespace fuel lexer).bind fun lexer =>
  let mark := lexer_mark lexer
  let cur := lexer_current lexer
  if cur = 0 then some (loop_exit.break_loop, comment, lexer)
  else
    (if comment.kind = TOK_INVALID then lexer_run_scan fuel lexer mark cur token
      else some (token, lexer)).bind fun s =>
    (if cur = 95 ∨ isalpha cur then lexer_read_word fuel s.2 else some s).bind fun s =>
    (if comment.kind ≠ TOK_INVALID then lexer_run_comment fuel s.2 cur comment s.1
      else some (s.1, comment, cur, s.2)).bind fun r =>
    some (lexer_run_emit r.2.2.2 r.2.2.1 r.1 r.2.1)

/-- Phase 1 of `lexer_run`: the loop `while(lexer_current(lexer) != 0)`; the result is
`false` when the body returned `1`, and `true` when the loop was left. -/
def lexer_run_scan_loop (fuel : Nat) : Nat → lexer_t → token_t → Option (Bool × lexer_t)
  | 0, _, _ => none
  | n + 1, lexer, comment =>
    if lexer_current lexer ≠ 0 then
      match lexer_run_body fuel lexer comment with
      | none => none
      | some (loop_exit.return_1, _, lexer) => some (false, lexer)
      | some (loop_exit.break_loop, _, lexer) => some (true, lexer)
      | some (loop_exit.next_iteration, comment, lexer) =>
        lexer_run_scan_loop fuel n lexer comment
    else some (true, lexer)

/-- The comparison `p <= q` of two pointers (`NULL` is below every pointer into the
source). -/
def ptr_le : Option Int → Option Int → Bool
  | none, _ => true
  | some _, none => false
  | some a, some b => decide (a ≤ b)

/-- The inner loop of phase 2 over the rules from `pair_iter` on:
`while (pair_iter->left != TOK_INVALID && !merged)`. -/
def lexer_run_pairs : List token_pair_t → lexer_t → Nat → token_t → token_t → Bool →
    lexer_t × Bool
  | [], lexer, _, _, _, merged => (lexer, merged)
  | pair_iter :: rest, lexer, tok_index, left, right, merged =>
    if pair_iter.left ≠ TOK_INVALID ∧ merged = false then
      if pair_iter.left = left.kind ∧ pair_iter.right = right.kind ∧
          ptr_le right.from_ (left.to_.map (· + (pair_iter.range : Int))) = true then
        lexer_run_pairs rest (lexer_merge_tokens lexer tok_index (tok_index + 1) pair_iter.kind)
          tok_index left right true
      else lexer_run_pairs rest lexer tok_index left right merged
    else (lexer, merged)

/-- Phase 2 of `lexer_run`: the loop `while (lexer->tokens[tok_index].kind != TOK_EOF)`;
a read behind the end of the array yields `none`. -/
def lexer_run_merge : Nat → lexer_t → Nat → Option lexer_t
  | 0, _, _ => none
  | fuel + 1, lexer, tok_index =>
    match lexer.tokens.get? tok_index with
    | none => none
    | some left =>
      if left.kind ≠ TOK_EOF then
        match lexer.tokens.get? (tok_index + 1) with
        | none => none
        | some right =>
          let r := lexer_run_pairs token_pairs lexer tok_index left right false
          if r.2 = false then lexer_run_merge fuel r.1 (tok_index + 1)
          else lexer_run_merge fuel r.1 tok_index
      else some lexer

/-- The function `lexer_run`: the value it returns and the lexer it leaves. -/
def lexer_run (fuel : Nat) (lexer : lexer_t) : Option (Int × lexer_t) :=
  if lexer.error ≠ none then some (1, lexer)
  else
    (lexer_run_scan_loop fuel fuel lexer token_zero).bind fun s =>
      if s.1 then
        let r := lexer_new_token s.2
        let slot := r.2.tokens.getD r.1 token_zero
        let lexer := { r.2 with tokens := r.2.tokens.set r.1 { slot with kind := TOK_EOF } }
        (lexer_run_merge fuel lexer 0).map fun lexer => (0, lexer)
      else some (1, s.2)

/-- The function `lexer_copy_tokens`: the tokens below the token count. -/
def lexer_copy_tokens (lexer : lexer_t) : List token_t :=
  lexer.tokens.take lexer.current.token

/-- The function `lexer_get_num_tokens`. -/
def lexer_get_num_tokens (lexer : lexer_t) : Nat := lexer.current.token

/-- The function `lexer_get_error`. -/
def lexer_get_error (lexer : lexer_t) : Option lexer_error := lexer.error

/-- The bytes of a string literal of the proofs. -/
def bytes (s : String) : List Nat := s.toList.map Char.toNat

/-- What the caller of `lexer_run` observes: the value returned, `lexer_get_error` and
`lexer_copy_tokens`. -/
def lexer_outcome (fuel : Nat) (lexer : lexer_t) :
    Option (Int × Option lexer_error × List token_t) :=
  (lexer_run fuel lexer).map fun r => (r.1, lexer_get_error r.2, lexer_copy_tokens r.2)

/-- The bytes of the source that a token spans, `[from, to)`. -/
def token_bytes (source : List Nat) (token : token_t) : List Nat :=
  match token.from_, token.to_ with
  | some a, some b => (source.drop a.toNat).take (b - a).toNat
  | _, _ => []

/-- The end-of-input token that `lexer_run` appends. -/
def token_eof : token_t :=
  { kind := TOK_EOF, from_ := none, to_ := none, line := 0, column := 0 }

/-! ## The cursor on a C string -/

/-- The lexer with the cursor moved `k` bytes forward on one line. -/
def lexer_advance (lexer : lexer_t) (k : Nat) : lexer_t :=
  { lexer with current :=
      { lexer.current with place := lexer.current.place + k,
                           column := lexer.current.column + k } }

/-- The cursor of `lexer` stands in front of the bytes `rest` of a NUL-terminated source. -/
def cursor_at (lexer : lexer_t) (rest : List Nat) : Prop :=
  lexer.sentinel = 0 ∧ lexer.source.drop lexer.current.place = rest ∧
    lexer.current.place ≤ lexer.source.length

/-! ## Specification of the loop of `lexer_read_number` on the bytes after the cursor -/

/-- How the loop of `lexer_read_number` ends. -/
inductive number_end where
  | done
  | exponent_twice
  | exponent_missing (cur : Nat)
deriving DecidableEq, Repr

/-- The count of `number_scan` after `k` more bytes. -/
def number_bump (k : Nat) (r : Nat × number_end) : Nat × number_end := (r.1 + k, r.2)

/-- The run of the loop of `lexer_read_number` over the bytes `rest` that follow the
cursor: how many bytes the cursor moves, and how the loop ends. -/
def number_scan : Bool → Bool → List Nat → Nat × number_end
  | _, _, [] => (1, number_end.done)
  | isDec, isExp, [x] =>
    if x = 0 then (1, number_end.done)
    else if x = 46 then
      if isDec then (1, number_end.done) else number_bump 1 (number_scan true isExp [])
    else if isdigit x then number_bump 1 (number_scan isDec isExp [])
    else if tolower x = 101 then
      if isExp then (1, number_end.exponent_twice) else (1, number_end.exponent_missing 0)
    else (1, number_end.done)
  | isDec, isExp, x :: y :: rest =>
    if x = 0 then (1, number_end.done)
    else if x = 46 then
      if isDec then (1, number_end.done) else number_bump 1 (number_scan true isExp (y :: rest))
    else if isdigit x then number_bump 1 (number_scan isDec isExp (y :: rest))
    else if tolower x = 101 then
      if isExp then (1, number_end.exponent_twice)
      else if y = 45 ∨ y = 43 then
        if isdigit (rest.headD 0) then number_bump 2 (number_scan isDec true rest)
        else (2, number_end.exponent_missing (rest.headD 0))
      else if isdigit y then number_bump 1 (number_scan isDec true (y :: rest))
      else (1, number_end.exponent_missing y)
    else (1, number_end.done)

/-- The result of the loop of `lexer_read_number` that `number_scan` describes. -/
def number_result (lexer : lexer_t) (r : Nat × number_end) : Bool × lexer_t :=
  let lexer := lexer_advance lexer r.1
  match r.2 with
  | number_end.done => (true, lexer)
  | number_end.exponent_twice =>
    (false, lexer_asprintf lexer
      "[%d:%d] Malformed number literal encountered, exponent already provided\n"
      [lexer.current.line, lexer.current.column])
  | number_end.exponent_missing cur =>
    (false, lexer_asprintf lexer
      "[%d:%d] Malformed number literal encountered, exponent expected but not found (%c:%d)\n"
      [lexer.current.line, lexer.current.column, cur, cur])

/-! ## The numerals of the specification -/

/-- One or more decimal digits. -/
def is_digits (ds : List Nat) : Prop := ds ≠ [] ∧ ∀ x ∈ ds, isdigit x = true

instance (ds : List Nat) : Decidable (is_digits ds) := inferInstanceAs (Decidable (_ ∧ _))

/-- The optional fraction `'.' digit+`. -/
def is_fraction (fr : List Nat) : Prop := fr = [] ∨ ∃ fd, is_digits fd ∧ fr = 46 :: fd

/-- The part of a numeral before its exponent: `digit+ ('.' digit+)?` or `'.' digit+`. -/
def is_mantissa (mant : List Nat) : Prop :=
  ∃ ip fr, mant = ip ++ fr ∧
    ((is_digits ip ∧ is_fraction fr) ∨ (ip = [] ∧ ∃ fd, is_digits fd ∧ fr = 46 :: fd))

/-- A byte that continues a word: `_` or alphanumeric. -/
def is_word_byte (x : Nat) : Prop := x = 95 ∨ isalnum x = true

instance (x : Nat) : Decidable (is_word_byte x) := inferInstanceAs (Decidable (_ ∨ _))

/-- The bytes `w` are an upper/lower-case variation of the bytes `m`. -/
def is_case_variation (w m : List Nat) : Prop := w.map tolower = m.map tolower

instance (w m : List Nat) : Decidable (is_case_variation w m) :=
  inferInstanceAs (Decidable (_ = _))

/-- The kind `lexer_read_word` gives the word: that of `token_kind_for_single`, or
`TOK_ID`. -/
def word_kind (word : List Nat) : token_kind_t :=
  if token_kind_for_single word word.length ≠ TOK_INVALID then
    token_kind_for_single word word.length
  else TOK_ID

/-! ## Specification of phase 2 on the list of tokens -/

/-- The token that `lexer_merge_tokens` leaves at `from`: the left token up to the end of
the right one, with the new kind. -/
def token_fuse (left right : token_t) (kind : token_kind_t) : token_t :=
  { left with to_ := right.to_, kind := kind }

/-- The kind of the first rule, in the order of the table and before its closing entry,
that the pair of tokens matches under its gap constraint. -/
def pair_find : List token_pair_t → token_t → token_t → Option token_kind_t
  | [], _, _ => none
  | p :: rest, left, right =>
    if p.left ≠ TOK_INVALID then
      if p.left = left.kind ∧ p.right = right.kind ∧
          ptr_le right.from_ (left.to_.map (· + (p.range : Int))) = true then some p.kind
      else pair_find rest left right
    else none

/-- Phase 2 as a function on the tokens from `tok_index` on: left to right, fusing the
first two tokens while a rule matches them, up to the first end-of-input token. -/
def merge_pass : Nat → List token_t → Option (List token_t)
  | 0, _ => none
  | _ + 1, [] => none
  | _ + 1, [a] => if a.kind ≠ TOK_EOF then none else some [a]
  | fuel + 1, a :: b :: rest =>
    if a.kind ≠ TOK_EOF then
      match pair_find token_pairs a b with
      | some kind => merge_pass fuel (token_fuse a b kind :: rest)
      | none => (merge_pass fuel (b :: rest)).map (fun out => a :: out)
    else some (a :: b :: rest)

/-- No pair of neighbours matches a rule, up to the first end-of-input token. -/
def merge_done : List token_t → Prop
  | a :: b :: rest =>
    a.kind = TOK_EOF ∨ (pair_find token_pairs a b = none ∧ merge_done (b :: rest))
  | _ => True

/-- The lexers agree on everything but the token array and the token count. -/
def same_scan (l1 l2 : lexer_t) : Prop :=
  l2.source = l1.source ∧ l2.sentinel = l1.sentinel ∧ l2.error = l1.error ∧
    l2.current.place = l1.current.place ∧ l2.current.line = l1.current.line ∧
    l2.current.column = l1.current.column

/-! ## Positions, and the end of a block comment -/

/-- The line and column of the cursor after it has passed the bytes `bs` from the line and
column `pos`: what `lexer_next` counts. -/
def position_after (pos : Nat × Nat) (bs : List Nat) : Nat × Nat :=
  bs.foldl (fun p b => if b = 10 then (p.1 + 1, 1) else (p.1, p.2 + 1)) pos

/-- The lexer with the cursor moved over the bytes `bs`. -/
def lexer_pass (lexer : lexer_t) (bs : List Nat) : lexer_t :=
  { lexer with current :=
      { lexer.current with
        place := lexer.current.place + bs.length,
        line := (position_after (lexer.current.line, lexer.current.column) bs).1,
        column := (position_after (lexer.current.line, lexer.current.column) bs).2 } }

/-- A byte that `lexer_skip_whitespace` skips: space, tab or carriage return. -/
def is_blank (x : Nat) : Prop := x = 32 ∨ x = 9 ∨ x = 13

instance (x : Nat) : Decidable (is_blank x) := inferInstanceAs (Decidable (_ ∨ _))

/-- The lexer after the iteration that closes the block comment opened by the token
`comment`, when the cursor of `lexer` stood in front of the closing `EndRem`: the cursor
behind `EndRem`, and the block-comment token and the `EndRem` token appended. -/
def comment_closed (lexer : lexer_t) (comment : token_t) : lexer_t :=
  lexer_push_token
    (lexer_push_token (lexer_pass lexer (bytes "EndRem"))
      { kind := TOK_BLOCK_COMMENT, line := comment.line, column := comment.column,
        from_ := comment.to_.map (· + 1),
        to_ := some ((lexer.current.place : Int) - 1) })
    { kind := TOK_ENDREM_KW, from_ := some (lexer.current.place : Int),
      to_ := some ((lexer.current.place + 6 : Nat) : Int),
      line := lexer.current.line, column := lexer.current.column }

/-! ## `lexer.c`: the display names and the accessors -/

/-- The table `token_strings`, in the order of `lexer.c`. -/
def token_strings : List String :=
  "INVALID" :: "Identifier" :: "End" :: "Function" :: "End Function" :: "Method" ::
  "End Method" :: "Type" :: "Extends" :: "Abstract" :: "Final" :: "No Debug" :: "End Type" ::
  "Extern" :: "End Extern" :: "Rem" :: "End Rem" :: "Float" :: "Double" :: "Byte" ::
  "Short" :: "Int" :: "String" :: "Object" :: "Local" :: "Global" :: "Const" :: "VarPtr" ::
  "Ptr" :: "Var" :: "Null" :: "Strict" :: "SuperStrict" :: "Framework" :: "Module" ::
  "ModuleInfo" :: "Import" :: "Include" :: "Private" :: "Public" :: "Or" :: "And" :: "Shr" ::
  "Shl" :: "Sar" :: "Mod" :: "Not" :: "While" :: "Wend" :: "End While" :: "For" :: "Next" ::
  "Until" :: "To" :: "EachIn" :: "Repeat" :: "Forever" :: "If" :: "End If" :: "Else" ::
  "Else If" :: "Then" :: "Select" :: "Case" :: "Default" :: "End Select" :: "Self" ::
  "Super" :: "Pi" :: "New" :: "Protocol" :: "End Protocol" :: "Auto" :: "Implements" :: ":" ::
  "?" :: "!" :: "#" :: "." :: ".." :: "..." :: "@" :: "@@" :: "$" :: "%" :: "\x27" :: "(" ::
  ")" :: "[" :: "]" :: "\x7b" :: "\x7d" :: ">" :: "<" :: "=" :: "-" :: "+" :: "*" :: "^" ::
  "~" :: "\x60" :: "\\" :: "/" :: "," :: ";" :: "|" :: "&" :: "\\n" :: ":+" :: ":-" :: ":/" ::
  ":*" :: ":^" :: ":Shl" :: ":Shr" :: ":Sar" :: ":Mod" :: ":~" :: ":&" :: ":|" :: ":=" ::
  "--" :: "++" :: "Number Literal" :: "Hex Literal" :: "Bin Literal" :: "String Literal" ::
  "Line Comment" :: "Block Comment" :: "<EOF>" :: []

/-- The function `token_to_string`, as the bytes of the C string it returns; `tok = none`
is the `NULL` token. A read behind the end of `token_strings`, and a length `to - from`
below zero, yield `none`. The copy made by `strncpy` ends at the first NUL byte. -/
def token_to_string (lexer : lexer_t) (tok : Option token_t) : Option (List Nat) :=
  match tok with
  | none => (token_strings.get? TOK_INVALID).map fun orig => (bytes orig).take (strlen (bytes orig))
  | some tok =>
    match tok.from_, tok.to_ with
    | some a, some b =>
      if tok.kind ≠ TOK_EOF ∧ tok.kind ≠ TOK_INVALID ∧ tok.kind ≠ TOK_NEWLINE then
        if a ≤ b then
          some ((((lexer.source ++ [lexer.sentinel]).drop a.toNat).take (b - a).toNat).takeWhile
            (fun x => decide (x ≠ 0)))
        else none
      else (token_strings.get? tok.kind).map fun orig => (bytes orig).take (strlen (bytes orig))
    | _, _ => (token_strings.get? tok.kind).map fun orig => (bytes orig).take (strlen (bytes orig))

/-- The function `lexer_get_token`; `lexer = none` and `token = none` are the `NULL`
arguments, and the result is the kind returned with the token left in `*token`. The last
statement, `return token->kind;`, reads through `token`: with `token == NULL` it has no
result, and so has a read outside the array. -/
def lexer_get_token (lexer : Option lexer_t) (index : Int) (token : Option token_t) :
    Option (token_kind_t × Option token_t) :=
  match lexer with
  | none => some (TOK_INVALID, token)
  | some lexer =>
    if index < 0 ∨ (lexer.current.token : Int) ≤ index then
      some (TOK_INVALID, token.map fun t => { t with kind := TOK_INVALID })
    else
      match token with
      | some _ => (lexer.tokens.get? index.toNat).map fun t => (t.kind, some t)
      | none => none

/-- Two calls of `lexer_run` on one lexer: the value returned by each, with the tokens it
leaves. -/
def lexer_run_twice (fuel : Nat) (lexer : lexer_t) :
    Option ((Int × List token_t) × (Int × List token_t)) :=
  (lexer_run fuel lexer).bind fun first =>
    (lexer_run fuel first.2).map fun second =>
      ((first.1, lexer_copy_tokens first.2), (second.1, lexer_copy_tokens second.2))

/-! ## The merge pass as a function on lists, in the words of the specification -/

/-- The rules of `token_pairs`: its entries in front of the closing entry. -/
def merge_rules : List token_pair_t :=
  token_pairs.takeWhile fun r => decide (r.left ≠ TOK_INVALID)

/-- The rule `r` matches the neighbours `a` and `b`: `r.left = a.kind`,
`r.right = b.kind` and `b.from <= a.to + r.range`. -/
def rule_matches (a b : token_t) (r : token_pair_t) : Bool :=
  decide (r.left = a.kind) && decide (r.right = b.kind) &&
    ptr_le b.from_ (a.to_.map (· + (r.range : Int)))

/-- The fused token: `a`'s `from`, line and column, `b`'s `to` and the result kind of the
rule. -/
def fuse (a b : token_t) (r : token_pair_t) : token_t :=
  { kind := r.kind, from_ := a.from_, to_ := b.to_, line := a.line, column := a.column }

/-- The pure left-to-right merge, `n` steps of it:
`merge (a :: b :: rest) = merge (fuse a b r :: rest)` when `r` is the first rule that
matches `a` and `b`, and `a :: merge (b :: rest)` when there is none. -/
def merge_steps : Nat → List token_t → List token_t
  | n + 1, a :: b :: rest =>
    match merge_rules.find? (rule_matches a b) with
    | some r => merge_steps n (fuse a b r :: rest)
    | none => a :: merge_steps n (b :: rest)
  | _, tokens => tokens

/-- The pure left-to-right merge of a list of tokens; every step shortens the list that is
left to do, so that as many steps as the list is long are all the steps there are. -/
def merge_tokens (tokens : List token_t) : List token_t :=
  merge_steps tokens.length tokens

/-- The list holds an end-of-input token, and behind the first one nothing but
end-of-input tokens: the buffer as phase 2 finds it, after one `lexer_run` or more. -/
def ends_at_eof : List token_t → Prop
  | [] => False
  | a :: rest => if a.kind = TOK_EOF then ∀ t ∈ rest, t.kind = TOK_EOF else ends_at_eof rest

/-! ## The words that close a block comment -/

/-- The words of a text as the driver meets them inside a block comment, each with the
bytes that follow it. The first argument is the word being read. -/
def comment_words_rest : Option (List Nat) → List Nat → List (List Nat × List Nat)
  | none, [] => []
  | some w, [] => [(w, [])]
  | none, x :: xs =>
    if x = 95 ∨ isalpha x = true then comment_words_rest (some [x]) xs
    else comment_words_rest none xs
  | some w, x :: xs =>
    if is_word_byte x then comment_words_rest (some (w ++ [x])) xs
    else (w, x :: xs) :: comment_words_rest none xs

/-- The word at the front of the bytes: from a first letter or `_`, the letters, digits
and `_` that follow; no word when the bytes start otherwise. -/
def front_word : List Nat → List Nat
  | [] => []
  | x :: xs =>
    if x = 95 ∨ isalpha x = true then x :: xs.takeWhile fun y => decide (is_word_byte y)
    else []

/-- The word `w`, followed by the bytes `rest`, closes a block comment: it is `EndRem`, or
it is `End` and the word `Rem` follows it after at most one space (in any letter case). -/
def closes_comment (w rest : List Nat) : Prop :=
  word_kind w = TOK_ENDREM_KW ∨
    (word_kind w = TOK_END_KW ∧
      word_kind (front_word (if rest.headD 0 = 32 then rest.tail else rest)) = TOK_REM_KW)

instance (w rest : List Nat) : Decidable (closes_comment w rest) :=
  inferInstanceAs (Decidable (_ ∨ _))

/-! ## Invariants of the token buffer -/

/-- The lexer `l2` is `l1` with the cursor moved forward: the same source, the same tokens,
a place not in front of the old one, and a line and column that stay from 1 on. -/
def moved (l1 l2 : lexer_t) : Prop :=
  l2.source = l1.source ∧ l2.sentinel = l1.sentinel ∧ l2.tokens = l1.tokens ∧
    l2.current.token = l1.current.token ∧ l1.current.place ≤ l2.current.place ∧
    (1 ≤ l1.current.line → 1 ≤ l2.current.line) ∧
    (1 ≤ l1.current.column → 1 ≤ l2.current.column)

/-- A token as phase 1 appends it: no end-of-input token, a line and a column from 1 on,
and a span that ends at `hi` or before it and that, unless the token is a block comment,
does not end before it starts. -/
def token_wf (hi : Int) (t : token_t) : Prop :=
  t.kind ≠ TOK_EOF ∧ 1 ≤ t.line ∧ 1 ≤ t.column ∧
    ∃ a b, t.from_ = some a ∧ t.to_ = some b ∧ (t.kind ≠ TOK_BLOCK_COMMENT → a ≤ b) ∧ b ≤ hi

/-- The token `a` ends where `b` starts, or before. -/
def token_le (a b : token_t) : Prop :=
  ∀ x y, a.to_ = some x → b.from_ = some y → x ≤ y

/-- The invariant of phase 1 on the lexer: the tokens below the count are well formed, end
at the cursor or before it, and lie in the order of the source. -/
def buffer_ok (lexer : lexer_t) : Prop :=
  lexer.current.token ≤ lexer.tokens.length ∧
    1 ≤ lexer.current.line ∧ 1 ≤ lexer.current.column ∧
    (∀ t ∈ lexer_copy_tokens lexer, token_wf (lexer.current.place : Int) t) ∧
    List.Pairwise token_le (lexer_copy_tokens lexer)

/-- The invariant of phase 1 on the variable `comment`: outside a block comment its kind is
`TOK_INVALID`; inside one it has a line and a column from 1 on, and no token of the buffer
ends behind its end. -/
def comment_ok (lexer : lexer_t) (comment : token_t) : Prop :=
  comment.kind = TOK_INVALID ∨
    (1 ≤ comment.line ∧ 1 ≤ comment.column ∧
      ∃ b, comment.to_ = some b ∧ b ≤ (lexer.current.place : Int) ∧
        ∀ t ∈ lexer_copy_tokens lexer, ∀ x, t.to_ = some x → x ≤ b)

/-- What a scan that started at the lexer `l` has reached: the cursor moved forward, and
the token is still invalid, or it is no end-of-input token, has its line and column from 1
on when the cursor of `l` had, and spans bytes between the cursor of `l` and the cursor
now. -/
def scan_ok (l : lexer_t) (s : token_t × lexer_t) : Prop :=
  moved l s.2 ∧
    (s.1.kind = TOK_INVALID ∨
      (s.1.kind ≠ TOK_EOF ∧ (1 ≤ l.current.line → 1 ≤ s.1.line) ∧
        (1 ≤ l.current.column → 1 ≤ s.1.column) ∧
        ∃ a b : Nat, s.1.from_ = some (a : Int) ∧ s.1.to_ = some (b : Int) ∧
          l.current.place ≤ a ∧ a ≤ b ∧ b ≤ s.2.current.place))

/-- The lexers read the same source. -/
def moved_source (l1 l2 : lexer_t) : Prop :=
  l2.source = l1.source ∧ l2.sentinel = l1.sentinel

/-- The lexer that `lexer_run` leaves on the source `x :+ 1`: four tokens below the count,
and behind them the slot that the merge of `:` and `+` freed. -/
def lexer_after_assign_add : lexer_t :=
  { source := bytes "x :+ 1", sentinel := 0,
    tokens :=
      [{ kind := TOK_ID, from_ := some 0, to_ := some 1, line := 1, column := 1 },
       { kind := TOK_ASSIGN_ADD, from_ := some 2, to_ := some 4, line := 1, column := 3 },
       { kind := TOK_NUMBER_LIT, from_ := some 5, to_ := some 6, line := 1, column := 6 },
       token_eof, token_eof],
    current := { place := 6, line := 1, column := 7, token := 4 },
    error := none }
/-! ## The cursor against the source, and the kinds and positions of the tokens -/

/-- The cursor stands in the source or at its end. -/
def in_source (l : lexer_t) : Prop := l.current.place ≤ l.source.length

/-- The line and the column of the cursor are those of its place: what `lexer_next` has
counted over the bytes in front of it. Only a place in front of the end of the source is
meant: `lexer_next` at the end counts on without moving. -/
def synced (l : lexer_t) : Prop :=
  l.current.place < l.source.length →
    (l.current.line, l.current.column) = position_after (1, 1) (l.source.take l.current.place)

/-- The lexer `l2` is `l1` with the cursor moved forward, staying in the source and keeping
its line and column in step with its place. -/
def walked (l1 l2 : lexer_t) : Prop :=
  moved l1 l2 ∧ (in_source l1 → in_source l2) ∧ (synced l1 → synced l2)

/-- A kind other than the four kinds of `token_kind_t` that nothing in `lexer.c` assigns
to a token. -/
def kind_made (k : token_kind_t) : Prop :=
  k ≠ TOK_HEX_LIT ∧ k ≠ TOK_BIN_LIT ∧ k ≠ TOK_LONG_KW ∧ k ≠ TOK_SINGLEQUOTE

instance (k : token_kind_t) : Decidable (kind_made k) := inferInstanceAs (Decidable (_ ∧ _))

/-- The line of the offset `n` of the source: 1 plus the number of newlines in front of
it. -/
def line_of (source : List Nat) (n : Nat) : Nat := 1 + (source.take n).count 10

/-- The column of the offset `n` of the source: 1 plus the number of bytes between the last
newline in front of it, or the start of the source, and the offset. -/
def column_of (source : List Nat) (n : Nat) : Nat :=
  1 + ((source.take n).reverse.takeWhile fun b => decide (b ≠ 10)).length

/-- What a scan that started at the lexer `l` has reached: the cursor walked forward, and
the token is still invalid, or it has a kind that `lexer.c` assigns, starts at the cursor
of `l` with its line and column, and the cursor has left the place where it stood (when
this was a place in the source). -/
def scan_at (l : lexer_t) (s : token_t × lexer_t) : Prop :=
  walked l s.2 ∧
    (s.1.kind = TOK_INVALID ∨
      (kind_made s.1.kind ∧ s.1.from_ = some (l.current.place : Int) ∧
        s.1.line = l.current.line ∧ s.1.column = l.current.column ∧
        (l.current.place < l.source.length → l.current.place < s.2.current.place)))

/-- A token as phase 1 appends it to the buffer of a lexer on `source`: it has a kind that
`lexer.c` assigns, and unless it is a block comment its span starts at an offset of the
source (in front of its end, when the source is a C string) and its line and column are
those that `lexer_next` counts up to this offset. -/
def token_placed (source : List Nat) (sentinel : Nat) (t : token_t) : Prop :=
  kind_made t.kind ∧
    (t.kind ≠ TOK_BLOCK_COMMENT → ∀ a : Int, t.from_ = some a →
      ∃ n : Nat, a = (n : Int) ∧ (sentinel = 0 → n < source.length) ∧
        (n < source.length →
          (t.line, t.column) = position_after (1, 1) (source.take n)))

/-- The invariant of phase 1 on the places: the cursor stands in the source with its line
and column in step, and every token of the buffer is placed. -/
def places_ok (l : lexer_t) : Prop :=
  in_source l ∧ synced l ∧ l.current.token ≤ l.tokens.length ∧
    ∀ t ∈ lexer_copy_tokens l, token_placed l.source l.sentinel t

/-- The lexer `l2` is `l1` with the cursor walked forward and the tokens `new` appended to
the buffer. -/
def grown (l1 l2 : lexer_t) (new : List token_t) : Prop :=
  l2.source = l1.source ∧ l2.sentinel = l1.sentinel ∧
    l1.current.place ≤ l2.current.place ∧
    (in_source l1 → in_source l2) ∧ (synced l1 → synced l2) ∧
    l2.current.token ≤ l2.tokens.length ∧
    lexer_copy_tokens l2 = lexer_copy_tokens l1 ++ new

/-- A token that the driver scanned in an iteration that started at the lexer `l`: it
starts at a place to which the cursor of `l` walked and at which it read no NUL, with the
line and column of the cursor there, and its kind is one that `lexer.c` assigns. -/
def token_scanned (l : lexer_t) (t : token_t) : Prop :=
  kind_made t.kind ∧
    ∃ m : lexer_t, walked l m ∧ lexer_current m ≠ 0 ∧
      t.from_ = some (m.current.place : Int) ∧ t.line = m.current.line ∧
      t.column = m.current.column

/-- The lexer reads a C string (the byte at `source_end` is the NUL), its cursor stands in
the source or at its end, and `fuel` exceeds the number of bytes that are left. -/
def fits (fuel : Nat) (l : lexer_t) : Prop :=
  l.sentinel = 0 ∧ in_source l ∧ l.source.length - l.current.place < fuel

/-- Phase 2 of `lexer_run` with its reads checked and its iterations counted: as
`lexer_run_merge`, but a read of `tokens[tok_index]` or `tokens[tok_index+1]` at or behind
the token count yields `none`, and the result carries the number of iterations that merged
or advanced. -/
def lexer_run_merge_counted : Nat → lexer_t → Nat → Option (Nat × lexer_t)
  | 0, _, _ => none
  | fuel + 1, lexer, tok_index =>
    if tok_index < lexer.current.token then
      match lexer.tokens.get? tok_index with
      | none => none
      | some left =>
        if left.kind ≠ TOK_EOF then
          if tok_index + 1 < lexer.current.token then
            match lexer.tokens.get? (tok_index + 1) with
            | none => none
            | some right =>
              let r := lexer_run_pairs token_pairs lexer tok_index left right false
              (if r.2 = false then lexer_run_merge_counted fuel r.1 (tok_index + 1)
                else lexer_run_merge_counted fuel r.1 tok_index).map fun q => (q.1 + 1, q.2)
          else none
        else some (0, lexer)
    else none


/-- A fuelled computation is monotone when more fuel never changes a result. -/
def fuel_mono {α : Type} (f : Nat → Option α) : Prop :=
  ∀ n r, f n = some r → ∀ m, n ≤ m → f m = some r

/-! ## Fuel: a result never depends on the amount of fuel -/

theorem fuel_mono_const {α : Type} (x : Option α) : fuel_mono (fun _ => x) :=
  fun _ _ h _ _ => h

theorem fuel_mono_bind {α β : Type} {f : Nat → Option α} {g : Nat → α → Option β}
    (hf : fuel_mono f) (hg : ∀ a, fuel_mono (fun n => g n a)) :
    fuel_mono (fun n => (f n).bind (g n)) := by
  intro n r h m hm
  cases hfn : f n with
  | none => simp [hfn] at h
  | some a =>
    simp only [hfn, Option.some_bind] at h
    simp only [hf n a hfn m hm, Option.some_bind]
    exact hg a n r h m hm

theorem fuel_mono_map {α β : Type} {f : Nat → Option α} (g : α → β) (hf : fuel_mono f) :
    fuel_mono (fun n => (f n).map g) := by
  intro n r h m hm
  cases hfn : f n with
  | none => simp [hfn] at h
  | some a =>
    simp only [hfn, Option.map_some'] at h
    simp only [hf n a hfn m hm, Option.map_some']
    exact h

theorem fuel_mono_ite {α : Type} (c : Prop) [Decidable c] {f g : Nat → Option α}
    (hf : fuel_mono f) (hg : fuel_mono g) : fuel_mono (fun n => if c then f n else g n) := by
  by_cases hc : c
  · simpa [hc] using hf
  · simpa [hc] using hg

theorem lexer_skip_whitespace_mono (lexer : lexer_t) :
    fuel_mono (fun n => lexer_skip_whitespace n lexer) := by
  intro n
  induction n generalizing lexer with
  | zero => intro r h; simp [lexer_skip_whitespace] at h
  | succ n ih =>
    intro r h m hm
    obtain ⟨m, rfl⟩ : ∃ k, m = k + 1 := ⟨m - 1, by omega⟩
    simp only [lexer_skip_whitespace] at h ⊢
    split_ifs at h ⊢
    · exact ih _ _ h _ (by omega)
    · exact h

theorem lexer_read_base_number_bin_mono (lexer : lexer_t) (cur : Nat) :
    fuel_mono (fun n => lexer_read_base_number_bin n lexer cur) := by
  intro n
  induction n generalizing lexer cur with
  | zero => intro r h; simp [lexer_read_base_number_bin] at h
  | succ n ih =>
    intro r h m hm
    obtain ⟨m, rfl⟩ : ∃ k, m = k + 1 := ⟨m - 1, by omega⟩
    simp only [lexer_read_base_number_bin] at h ⊢
    split_ifs at h ⊢
    · exact ih _ _ _ h _ (by omega)
    · exact h
    · exact ih _ _ _ h _ (by omega)
    · exact h

theorem lexer_read_base_number_hex_mono (lexer : lexer_t) :
    fuel_mono (fun n => lexer_read_base_number_hex n lexer) := by
  intro n
  induction n generalizing lexer with
  | zero => intro r h; simp [lexer_read_base_number_hex] at h
  | succ n ih =>
    intro r h m hm
    obtain ⟨m, rfl⟩ : ∃ k, m = k + 1 := ⟨m - 1, by omega⟩
    simp only [lexer_read_base_number_hex] at h ⊢
    split_ifs at h ⊢
    · exact ih _ _ h _ (by omega)
    · exact h
    · exact h

theorem lexer_read_base_number_mono (lexer : lexer_t) :
    fuel_mono (fun n => lexer_read_base_number n lexer) := by
  unfold lexer_read_base_number
  apply fuel_mono_ite
  · apply fuel_mono_bind
    · apply fuel_mono_ite
      · exact lexer_read_base_number_bin_mono _ _
      · exact lexer_read_base_number_hex_mono _
    · intro a; exact fuel_mono_const _
  · exact fuel_mono_const _

theorem lexer_read_number_loop_mono (lexer : lexer_t) (isDec isExp : Bool) :
    fuel_mono (fun n => lexer_read_number_loop n lexer isDec isExp) := by
  intro n
  induction n generalizing lexer isDec isExp with
  | zero => intro r h; simp [lexer_read_number_loop] at h
  | succ n ih =>
    intro r h m hm
    obtain ⟨m, rfl⟩ : ∃ k, m = k + 1 := ⟨m - 1, by omega⟩
    simp only [lexer_read_number_loop] at h ⊢
    by_cases h1 : lexer_has_next lexer = true
    · rw [if_pos h1] at h ⊢
      by_cases h2 : (lexer_next lexer).1 ≠ 0
      · rw [if_pos h2] at h ⊢
        by_cases h3 : (lexer_next lexer).1 = 46
        · rw [if_pos h3] at h ⊢
          cases isDec with
          | true => exact h
          | false => exact ih _ _ _ _ h _ (by omega)
        · rw [if_neg h3] at h ⊢
          by_cases h4 : isdigit (lexer_next lexer).1 = true
          · rw [if_pos h4] at h ⊢
            exact ih _ _ _ _ h _ (by omega)
          · rw [if_neg h4] at h ⊢
            by_cases h5 : tolower (lexer_next lexer).1 = 101
            · rw [if_pos h5] at h ⊢
              cases isExp with
              | true => exact h
              | false =>
                simp only [Bool.false_eq_true, if_false] at h ⊢
                split_ifs at h ⊢ <;> first | exact h | exact ih _ _ _ _ h _ (by omega)
            · rw [if_neg h5] at h ⊢
              exact h
      · rw [if_neg h2] at h ⊢
        exact h
    · rw [if_neg h1] at h ⊢
      exact h

theorem lexer_read_number_mono (lexer : lexer_t) :
    fuel_mono (fun n => lexer_read_number n lexer) := by
  unfold lexer_read_number
  exact fuel_mono_map _ (lexer_read_number_loop_mono _ _ _)

theorem lexer_read_word_loop_mono (lexer : lexer_t) :
    fuel_mono (fun n => lexer_read_word_loop n lexer) := by
  intro n
  induction n generalizing lexer with
  | zero => intro r h; simp [lexer_read_word_loop] at h
  | succ n ih =>
    intro r h m hm
    obtain ⟨m, rfl⟩ : ∃ k, m = k + 1 := ⟨m - 1, by omega⟩
    simp only [lexer_read_word_loop] at h ⊢
    split_ifs at h ⊢ <;> first | exact h | exact ih _ _ h _ (by omega)

theorem lexer_read_word_mono (lexer : lexer_t) :
    fuel_mono (fun n => lexer_read_word n lexer) := by
  unfold lexer_read_word
  exact fuel_mono_map _ (lexer_read_word_loop_mono _)

theorem lexer_read_string_loop_mono (lexer : lexer_t) :
    fuel_mono (fun n => lexer_read_string_loop n lexer) := by
  intro n
  induction n generalizing lexer with
  | zero => intro r h; simp [lexer_read_string_loop] at h
  | succ n ih =>
    intro r h m hm
    obtain ⟨m, rfl⟩ : ∃ k, m = k + 1 := ⟨m - 1, by omega⟩
    simp only [lexer_read_string_loop] at h ⊢
    split_ifs at h ⊢ <;> first | exact h | exact ih _ _ h _ (by omega)

theorem lexer_read_string_mono (lexer : lexer_t) :
    fuel_mono (fun n => lexer_read_string n lexer) := by
  unfold lexer_read_string
  exact fuel_mono_map _ (lexer_read_string_loop_mono _)

theorem lexer_read_line_comment_loop_mono (lexer : lexer_t) :
    fuel_mono (fun n => lexer_read_line_comment_loop n lexer) := by
  intro n
  induction n generalizing lexer with
  | zero => intro r h; simp [lexer_read_line_comment_loop] at h
  | succ n ih =>
    intro r h m hm
    obtain ⟨m, rfl⟩ : ∃ k, m = k + 1 := ⟨m - 1, by omega⟩
    simp only [lexer_read_line_comment_loop] at h ⊢
    split_ifs at h ⊢ <;> first | exact h | exact ih _ _ h _ (by omega)

theorem lexer_read_line_comment_mono (lexer : lexer_t) :
    fuel_mono (fun n => lexer_read_line_comment n lexer) := by
  unfold lexer_read_line_comment
  exact fuel_mono_map _ (lexer_read_line_comment_loop_mono _)

theorem lexer_run_dots_mono (lexer : lexer_t) (kind : token_kind_t) :
    fuel_mono (fun n => lexer_run_dots n lexer kind) := by
  intro n
  induction n generalizing lexer kind with
  | zero => intro r h; simp [lexer_run_dots] at h
  | succ n ih =>
    intro r h m hm
    obtain ⟨m, rfl⟩ : ∃ k, m = k + 1 := ⟨m - 1, by omega⟩
    simp only [lexer_run_dots] at h ⊢
    split_ifs at h ⊢ <;> first | exact h | exact ih _ _ _ h _ (by omega)

theorem lexer_run_scan_mono (lexer : lexer_t) (mark : token_mark_t) (cur : Nat)
    (token : token_t) : fuel_mono (fun n => lexer_run_scan n lexer mark cur token) := by
  unfold lexer_run_scan
  refine fuel_mono_bind (fuel_mono_ite _ (fuel_mono_ite _ (lexer_read_number_mono _)
    (fuel_mono_map _ (lexer_run_dots_mono _ _))) (fuel_mono_const _)) fun s => ?_
  refine fuel_mono_bind (fuel_mono_ite _ (lexer_read_line_comment_mono _)
    (fuel_mono_const _)) fun s => ?_
  refine fuel_mono_bind (fuel_mono_ite _ (lexer_read_base_number_mono _)
    (fuel_mono_const _)) fun s => ?_
  refine fuel_mono_bind (fuel_mono_ite _ (lexer_read_base_number_mono _)
    (fuel_mono_const _)) fun s => ?_
  refine fuel_mono_bind (fuel_mono_ite _ (lexer_read_string_mono _)
    (fuel_mono_const _)) fun s => ?_
  refine fuel_mono_bind (fuel_mono_ite _ (lexer_read_number_mono _)
    (fuel_mono_const _)) fun s => ?_
  exact fuel_mono_const _

theorem lexer_run_probe_mono (lexer : lexer_t) (cur : Nat) (token : token_t) :
    fuel_mono (fun n => lexer_run_probe n lexer cur token) := by
  unfold lexer_run_probe
  refine fuel_mono_ite _ (fuel_mono_ite _ ?_ (fuel_mono_const _)) (fuel_mono_const _)
  exact fuel_mono_bind (lexer_read_word_mono _) fun r => fuel_mono_const _

theorem lexer_run_comment_mono (lexer : lexer_t) (cur : Nat) (comment token : token_t) :
    fuel_mono (fun n => lexer_run_comment n lexer cur comment token) := by
  unfold lexer_run_comment
  refine fuel_mono_bind (lexer_run_probe_mono _ _ _) fun s => ?_
  refine fuel_mono_bind (fuel_mono_ite _ (lexer_skip_whitespace_mono _)
    (fuel_mono_const _)) fun l => ?_
  exact fuel_mono_const _

theorem lexer_run_body_mono (lexer : lexer_t) (comment : token_t) :
    fuel_mono (fun n => lexer_run_body n lexer comment) := by
  unfold lexer_run_body
  refine fuel_mono_bind (lexer_skip_whitespace_mono _) fun l => ?_
  refine fuel_mono_ite _ (fuel_mono_const _) ?_
  refine fuel_mono_bind (fuel_mono_ite _ (lexer_run_scan_mono _ _ _ _)
    (fuel_mono_const _)) fun s => ?_
  refine fuel_mono_bind (fuel_mono_ite _ (lexer_read_word_mono _)
    (fuel_mono_const _)) fun s => ?_
  refine fuel_mono_bind (fuel_mono_ite _ (lexer_run_comment_mono _ _ _ _)
    (fuel_mono_const _)) fun s => ?_
  exact fuel_mono_const _

theorem lexer_run_merge_mono (lexer : lexer_t) (tok_index : Nat) :
    fuel_mono (fun n => lexer_run_merge n lexer tok_index) := by
  intro n
  induction n generalizing lexer tok_index with
  | zero => intro r h; simp [lexer_run_merge] at h
  | succ n ih =>
    intro r h m hm
    obtain ⟨m, rfl⟩ : ∃ k, m = k + 1 := ⟨m - 1, by omega⟩
    simp only [lexer_run_merge] at h ⊢
    split at h
    · exact absurd h (by simp)
    · rename_i left hl
      split_ifs at h ⊢ with hk
      · split at h
        · exact absurd h (by simp)
        · rename_i right hr
          split_ifs at h ⊢ with hq
          · exact ih _ _ _ h _ (by omega)
          · exact ih _ _ _ h _ (by omega)
      · exact h

theorem getD_of_drop_cons {s : List Nat} {p c : Nat} {t : List Nat}
    (h : s.drop p = c :: t) : s.getD p 0 = c ∧ p < s.length ∧ s.drop (p + 1) = t := by
  have hp : p < s.length := by
    by_contra hc
    rw [List.drop_eq_nil_of_le (by omega)] at h
    exact absurd h (by simp)
  refine ⟨?_, hp, ?_⟩
  · have := List.drop_eq_getElem_cons hp
    rw [this] at h
    simp only [List.cons.injEq] at h
    rw [List.getD_eq_getElem _ _ hp]
    exact h.1
  · have := List.drop_eq_getElem_cons hp
    rw [this] at h
    simp only [List.cons.injEq] at h
    exact h.2

theorem deref_of_sentinel {lexer : lexer_t} (hs : lexer.sentinel = 0) (p : Nat) :
    lexer_deref lexer p = lexer.source.getD p 0 := by
  unfold lexer_deref
  rw [hs]
  by_cases hp : p < lexer.source.length
  · rw [List.getD_eq_getElem _ _
      (by simp only [List.length_append, List.length_singleton]; omega),
      List.getD_eq_getElem _ _ hp, List.getElem_append_left hp]
  · rw [List.getD_eq_default (l := lexer.source) _ (by omega)]
    by_cases hq : p = lexer.source.length
    · subst hq
      simp [List.getD_eq_getElem?_getD]
    · rw [List.getD_eq_default _ _
        (by simp only [List.length_append, List.length_singleton]; omega)]

theorem cursor_at_new (s : List Nat) : cursor_at (lexer_new s 0) s := by
  simp [cursor_at, lexer_new]

theorem cursor_at_advance {lexer : lexer_t} {c : Nat} {t : List Nat}
    (h : cursor_at lexer (c :: t)) : cursor_at (lexer_advance lexer 1) t := by
  obtain ⟨hs, hd, _⟩ := h
  obtain ⟨_, hp, hd2⟩ := getD_of_drop_cons hd
  exact ⟨hs, hd2, hp⟩

theorem lexer_current_of_cursor {lexer : lexer_t} {rest : List Nat}
    (h : cursor_at lexer rest) : lexer_current lexer = rest.headD 0 := by
  obtain ⟨hs, hd, hle⟩ := h
  unfold lexer_current
  rw [if_neg (by omega), deref_of_sentinel hs]
  cases rest with
  | nil =>
    rw [List.getD_eq_default _ _ (List.drop_eq_nil_iff.mp hd)]
    rfl
  | cons c t => exact (getD_of_drop_cons hd).1

theorem lexer_has_next_of_cursor {lexer : lexer_t} {rest : List Nat}
    (h : cursor_at lexer rest) : lexer_has_next lexer = decide (rest ≠ []) := by
  obtain ⟨hs, hd, hle⟩ := h
  unfold lexer_has_next
  cases rest with
  | nil =>
    have := List.drop_eq_nil_iff.mp hd
    simp; omega
  | cons c t =>
    have := (getD_of_drop_cons hd).2.1
    simp [this]

theorem lexer_peek_of_cursor {lexer : lexer_t} {c : Nat} {t : List Nat}
    (h : cursor_at lexer (c :: t)) : lexer_peek lexer = t.headD 0 := by
  have h2 := lexer_current_of_cursor (cursor_at_advance h)
  have hn := lexer_has_next_of_cursor h
  obtain ⟨hs, hd, hle⟩ := h
  unfold lexer_peek
  rw [hn]
  simp only [ne_eq, reduceCtorEq, not_false_eq_true, decide_True, if_true]
  rw [← h2]
  unfold lexer_current
  have hp := (getD_of_drop_cons hd).2.1
  rw [if_neg (by simp [lexer_advance]; omega)]
  rfl

theorem lexer_peek_of_cursor_nil {lexer : lexer_t} (h : cursor_at lexer []) :
    lexer_peek lexer = 0 := by
  have hn := lexer_has_next_of_cursor h
  unfold lexer_peek
  rw [hn]
  simp

theorem lexer_next_of_cursor {lexer : lexer_t} {c : Nat} {t : List Nat}
    (h : cursor_at lexer (c :: t)) (hc : c ≠ 10) :
    lexer_next lexer = (t.headD 0, lexer_advance lexer 1) := by
  have hcur := lexer_current_of_cursor h
  have hpk := lexer_peek_of_cursor h
  have hn := lexer_has_next_of_cursor h
  simp only [List.headD_cons] at hcur
  unfold lexer_next
  rw [hcur, if_neg hc]
  simp only [lexer_has_next, lexer_peek, lexer_deref] at hn hpk ⊢
  rw [hn] at hpk
  rw [hn]
  simp only [ne_eq, reduceCtorEq, not_false_eq_true, decide_True, if_true] at hpk ⊢
  rw [hpk]
  rfl

theorem lexer_advance_zero (lexer : lexer_t) : lexer_advance lexer 0 = lexer := rfl

theorem lexer_advance_advance (lexer : lexer_t) (a b : Nat) :
    lexer_advance (lexer_advance lexer a) b = lexer_advance lexer (a + b) := by
  simp [lexer_advance, Nat.add_assoc]

theorem cursor_at_advance_append {lexer : lexer_t} (xs ys : List Nat)
    (h : cursor_at lexer (xs ++ ys)) : cursor_at (lexer_advance lexer xs.length) ys := by
  induction xs generalizing lexer with
  | nil => simpa [lexer_advance_zero] using h
  | cons x xs ih =>
    have h1 := ih (cursor_at_advance h)
    rw [lexer_advance_advance] at h1
    simpa [Nat.add_comm] using h1

theorem lexer_skip_whitespace_stay (lexer : lexer_t) (fuel : Nat)
    (h : lexer_current lexer ≠ 32 ∧ lexer_current lexer ≠ 9 ∧ lexer_current lexer ≠ 13) :
    lexer_skip_whitespace (fuel + 1) lexer = some lexer := by
  rw [lexer_skip_whitespace]
  simp [h.1, h.2.1, h.2.2]

theorem number_result_bump (lexer : lexer_t) (k : Nat) (r : Nat × number_end) :
    number_result lexer (number_bump k r) = number_result (lexer_advance lexer k) r := by
  simp only [number_result, number_bump, lexer_advance_advance, Nat.add_comm]

theorem isdigit_ne {x : Nat} (h : isdigit x = true) :
    x ≠ 10 ∧ x ≠ 0 ∧ x ≠ 46 ∧ x ≠ 45 ∧ x ≠ 43 ∧ tolower x ≠ 101 := by
  simp only [isdigit, Bool.and_eq_true, decide_eq_true_eq] at h
  refine ⟨by omega, by omega, by omega, by omega, by omega, ?_⟩
  unfold tolower
  split_ifs <;> omega

theorem tolower_e_ne {x : Nat} (h : tolower x = 101) : x ≠ 10 ∧ x ≠ 0 ∧ x ≠ 46 := by
  unfold tolower at h
  split_ifs at h <;> omega

/-- The loop of `lexer_read_number` does what `number_scan` says of the bytes after the
cursor. -/
theorem lexer_read_number_loop_scan :
    ∀ (fuel : Nat) (rest : List Nat) (lexer : lexer_t) (c : Nat) (isDec isExp : Bool),
      cursor_at lexer (c :: rest) → c ≠ 10 → rest.length + 1 ≤ fuel →
      lexer_read_number_loop fuel lexer isDec isExp =
        some (number_result lexer (number_scan isDec isExp rest)) := by
  intro fuel
  induction fuel with
  | zero => intro rest lexer c isDec isExp _ _ h; omega
  | succ fuel ih =>
    intro rest lexer c isDec isExp hcur hc hfuel
    rw [lexer_read_number_loop, lexer_has_next_of_cursor hcur, lexer_next_of_cursor hcur hc]
    simp only [ne_eq, reduceCtorEq, not_false_eq_true, decide_True, if_true]
    have hcur1 := cursor_at_advance hcur
    match rest, hcur, hfuel, hcur1 with
    | [], _, _, _ => simp [number_scan, number_result]
    | [x], hcur, hfuel, hcur1 =>
      have hpk := lexer_peek_of_cursor hcur1
      simp only [List.headD_cons, List.headD_nil, List.length_cons] at hfuel hpk ⊢
      have ih0 := fun (d e : Bool) (hx : x ≠ 10) => ih [] _ x d e hcur1 hx (by simp; omega)
      by_cases hx0 : x = 0
      · simp [hx0, number_scan, number_result]
      by_cases hdot : x = 46
      · subst hdot
        cases isDec with
        | true => simp [number_scan, number_result]
        | false => simp [number_scan, ih0 true isExp (by decide), number_result_bump]
      by_cases hdig : isdigit x = true
      · simp [number_scan, hx0, hdot, hdig, ih0 isDec isExp (isdigit_ne hdig).1,
          number_result_bump]
      by_cases he : tolower x = 101
      · cases isExp with
        | true => simp [number_scan, hx0, hdot, hdig, he, number_result]
        | false =>
          have h0 : isdigit 0 = false := by decide
          simp [number_scan, hx0, hdot, hdig, he, number_result, hpk, h0]
      · simp [number_scan, hx0, hdot, hdig, he, number_result]
    | x :: y :: rest2, hcur, hfuel, hcur1 =>
      have hpk := lexer_peek_of_cursor hcur1
      have hcur2 := cursor_at_advance hcur1
      have hpk2 := lexer_peek_of_cursor hcur2
      simp only [List.headD_cons, List.length_cons] at hfuel hpk ⊢
      have ih1 := fun (d e : Bool) (hx : x ≠ 10) =>
        ih (y :: rest2) _ x d e hcur1 hx (by simp only [List.length_cons]; omega)
      by_cases hx0 : x = 0
      · simp [hx0, number_scan, number_result]
      by_cases hdot : x = 46
      · subst hdot
        cases isDec with
        | true => simp [number_scan, number_result]
        | false => simp [number_scan, ih1 true isExp (by decide), number_result_bump]
      by_cases hdig : isdigit x = true
      · simp [number_scan, hx0, hdot, hdig, ih1 isDec isExp (isdigit_ne hdig).1,
          number_result_bump]
      by_cases he : tolower x = 101
      · have hx10 := (tolower_e_ne he).1
        cases isExp with
        | true => simp [number_scan, hx0, hdot, hdig, he, number_result]
        | false =>
          by_cases hsign : y = 45 ∨ y = 43
          · have hy10 : y ≠ 10 := by rcases hsign with h | h <;> omega
            have ih2 := ih rest2 _ y isDec true hcur2 hy10 (by omega)
            rw [lexer_advance_advance] at ih2 hpk2
            by_cases hz : isdigit (rest2.head?.getD 0) = true
            · simp [number_scan, hx0, hdot, hdig, he, hsign, hz, hpk, hpk2,
                lexer_next_of_cursor hcur1 hx10, lexer_advance_advance, ih2,
                number_result_bump]
            · simp [number_scan, hx0, hdot, hdig, he, hsign, hz, hpk, hpk2,
                lexer_next_of_cursor hcur1 hx10, lexer_advance_advance, number_result]
          · by_cases hy : isdigit y = true
            · simp [number_scan, hx0, hdot, hdig, he, hsign, hy, hpk, ih1 isDec true hx10,
                number_result_bump]
            · simp [number_scan, hx0, hdot, hdig, he, hsign, hy, hpk, number_result]
      · simp [number_scan, hx0, hdot, hdig, he, number_result]

theorem number_bump_bump (a b : Nat) (r : Nat × number_end) :
    number_bump a (number_bump b r) = number_bump (b + a) r := by
  simp [number_bump, Nat.add_assoc]

theorem number_scan_digit {x : Nat} (hx : isdigit x = true) (isDec isExp : Bool)
    (rest : List Nat) :
    number_scan isDec isExp (x :: rest) = number_bump 1 (number_scan isDec isExp rest) := by
  have h := isdigit_ne hx
  cases rest <;> simp [number_scan, h.2.1, h.2.2.1, hx]

theorem number_scan_digits (isDec isExp : Bool) (rest : List Nat) :
    ∀ ds : List Nat, (∀ x ∈ ds, isdigit x = true) →
      number_scan isDec isExp (ds ++ rest) =
        number_bump ds.length (number_scan isDec isExp rest) := by
  intro ds
  induction ds with
  | nil => intro _; simp [number_bump]
  | cons x ds ih =>
    intro h
    rw [List.cons_append, number_scan_digit (h x (List.mem_cons_self _ _)),
      ih (fun y hy => h y (List.mem_cons_of_mem _ hy)), number_bump_bump]
    simp

theorem number_scan_dot (isExp : Bool) (rest : List Nat) :
    number_scan false isExp (46 :: rest) = number_bump 1 (number_scan true isExp rest) := by
  cases rest <;> simp [number_scan]

theorem exponent_marker {m : Nat} (h : m = 101 ∨ m = 69) :
    m ≠ 0 ∧ m ≠ 46 ∧ isdigit m = false ∧ tolower m = 101 := by
  rcases h with rfl | rfl <;> decide

/-- Over a mantissa of the specification, started on its first byte, the loop of
`lexer_read_number` runs on into what follows. -/
theorem number_scan_mantissa {mant : List Nat} (h : is_mantissa mant) :
    ∃ c rest, mant = c :: rest ∧ c ≠ 10 ∧
      (isdigit c = true ∨ (c = 46 ∧ isdigit (rest.headD 0) = true)) ∧
      ∀ tail, ∃ isDec, number_scan (decide (c = 46)) false (rest ++ tail) =
        number_bump rest.length (number_scan isDec false tail) := by
  obtain ⟨ip, fr, rfl, hcase⟩ := h
  rcases hcase with ⟨⟨hne, hip⟩, hfr⟩ | ⟨rfl, fd, ⟨hne, hfd⟩, rfl⟩
  · obtain ⟨c, ip', rfl⟩ : ∃ c' ip', ip = c' :: ip' := by
      cases ip with
      | nil => exact absurd rfl hne
      | cons y ds' => exact ⟨y, ds', rfl⟩
    have hc := hip c (List.mem_cons_self _ _)
    have hc46 : decide (c = 46) = false := by simp [(isdigit_ne hc).2.2.1]
    refine ⟨c, ip' ++ fr, rfl, (isdigit_ne hc).1, Or.inl hc, fun tail => ?_⟩
    rw [hc46, List.append_assoc,
      number_scan_digits _ _ _ _ (fun y hy => hip y (List.mem_cons_of_mem _ hy))]
    rcases hfr with rfl | ⟨fd, ⟨_, hfd⟩, rfl⟩
    · exact ⟨false, by simp⟩
    · refine ⟨true, ?_⟩
      rw [List.cons_append, number_scan_dot, number_scan_digits _ _ _ _ hfd]
      simp [number_bump]
      omega
  · obtain ⟨y, fd', rfl⟩ : ∃ y fd', fd = y :: fd' := by
      cases fd with
      | nil => exact absurd rfl hne
      | cons y ds' => exact ⟨y, ds', rfl⟩
    refine ⟨46, y :: fd', rfl, by decide,
      Or.inr ⟨rfl, by simpa using hfd y (List.mem_cons_self _ _)⟩, fun tail => ⟨true, ?_⟩⟩
    rw [number_scan_digits _ _ _ _ hfd]
    rfl

/-- The function `lexer_read_number` in terms of `number_scan`. -/
theorem lexer_read_number_scan (fuel : Nat) {lexer : lexer_t} {c : Nat} {rest : List Nat}
    (hcur : cursor_at lexer (c :: rest)) (hc : c ≠ 10) (hfuel : rest.length + 1 ≤ fuel) :
    lexer_read_number fuel lexer =
      some (
        if (number_result lexer (number_scan (decide (c = 46)) false rest)).1 = true then
          ({ token_at TOK_NUMBER_LIT lexer.current with
             to_ := some ((number_result lexer
               (number_scan (decide (c = 46)) false rest)).2.current.place : Int) },
           (number_result lexer (number_scan (decide (c = 46)) false rest)).2)
        else
          ({ token_at TOK_NUMBER_LIT lexer.current with kind := TOK_INVALID },
           (number_result lexer (number_scan (decide (c = 46)) false rest)).2)) := by
  have hc0 : lexer_current lexer = c := by
    rw [lexer_current_of_cursor hcur]; rfl
  rw [lexer_read_number, hc0, lexer_read_number_loop_scan fuel rest lexer c _ _ hcur hc hfuel]
  simp [lexer_mark]

theorem number_scan_exponent_missing (isDec : Bool) {m : Nat} (hm : m = 101 ∨ m = 69)
    {sg : List Nat} (hsg : sg = [] ∨ sg = [43] ∨ sg = [45]) (rest : List Nat)
    (hrest : isdigit (rest.headD 0) = false)
    (hns : sg = [] → rest.headD 0 ≠ 43 ∧ rest.headD 0 ≠ 45) :
    number_scan isDec false (m :: (sg ++ rest)) =
      (sg.length + 1, number_end.exponent_missing (rest.headD 0)) := by
  have h := exponent_marker hm
  rcases hsg with rfl | rfl | rfl
  · have hns := hns rfl
    cases rest with
    | nil => simp [number_scan, h.1, h.2.1, h.2.2.1, h.2.2.2]
    | cons y r =>
      simp only [List.headD_cons] at hns hrest
      simp [number_scan, h.1, h.2.1, h.2.2.1, h.2.2.2, hns.1, hns.2, hrest]
  · have hrest' : isdigit (rest.head?.getD 0) = false := by simpa using hrest
    simp [number_scan, h.1, h.2.1, h.2.2.1, h.2.2.2, hrest']
  · have hrest' : isdigit (rest.head?.getD 0) = false := by simpa using hrest
    simp [number_scan, h.1, h.2.1, h.2.2.1, h.2.2.2, hrest']

theorem token_kind_for_single_digit {c : Nat} (h : isdigit c = true ∨ c = 46) :
    token_kind_for_single [c] 1 = TOK_INVALID := by
  rcases h with h | rfl
  · simp only [isdigit, Bool.and_eq_true, decide_eq_true_eq] at h
    obtain ⟨h1, h2⟩ := h
    interval_cases c <;> decide
  · decide

/-- A run whose first scan fails with an error. -/
theorem lexer_outcome_scan_failed {s : List Nat} (t : token_t) (l1 : lexer_t)
    {e : lexer_error} {fuel : Nat} (hfuel : 1 ≤ fuel)
    (hws : s.headD 0 ≠ 32 ∧ s.headD 0 ≠ 9 ∧ s.headD 0 ≠ 13) (hc : s.headD 0 ≠ 0)
    (hnw : ¬ (s.headD 0 = 95 ∨ isalpha (s.headD 0) = true))
    (hscan : lexer_run_scan fuel (lexer_new s 0) (lexer_new s 0).current (s.headD 0)
        token_zero = some (t, l1))
    (hk : t.kind = TOK_INVALID) (he : l1.error = some e) (htok : l1.current.token = 0) :
    lexer_outcome fuel (lexer_new s 0) = some (1, some e, []) := by
  have hc0 : lexer_current (lexer_new s 0) = s.headD 0 :=
    lexer_current_of_cursor (cursor_at_new s)
  obtain ⟨f, rfl⟩ : ∃ f, fuel = f + 1 := ⟨fuel - 1, by omega⟩
  have hbody : lexer_run_body (f + 1) (lexer_new s 0) token_zero =
      some (loop_exit.return_1, token_zero, l1) := by
    rw [lexer_run_body, lexer_skip_whitespace_stay _ _ (by rw [hc0]; exact hws)]
    simp only [Option.some_bind, hc0, hc, if_false, lexer_mark, hscan, hnw]
    simp [token_zero, lexer_run_emit, hk, he]
  have hloop : lexer_run_scan_loop (f + 1) (f + 1) (lexer_new s 0) token_zero =
      some (false, l1) := by
    rw [lexer_run_scan_loop, if_pos (by rw [hc0]; exact hc), hbody]
  have he0 : (lexer_new s 0).error = none := rfl
  simp [lexer_outcome, lexer_run, he0, hloop, lexer_get_error, he, lexer_copy_tokens, htok]

/-- C9 (amended): for every source that is a mantissa `digit+ ('.' digit+)?` or `'.' digit+`,
an exponent marker `e` or `E`, an optional sign, and then anything that does not start with
a digit (nor, without a sign, with a sign), with any fuel from the length of the source
plus 1 on, `lexer_run` returns `1`, appends no token, and sets the error 'exponent expected
but not found'; the position it reports is that of the cursor, which stands on the marker,
or on the sign when there is one: line 1 and the column of that byte. -/
theorem C9_exponent_expected (mant : List Nat) (m : Nat) (sg rest : List Nat)
    (hmant : is_mantissa mant) (hm : m = 101 ∨ m = 69)
    (hsg : sg = [] ∨ sg = [43] ∨ sg = [45]) (hrest : isdigit (rest.headD 0) = false)
    (hns : sg = [] → rest.headD 0 ≠ 43 ∧ rest.headD 0 ≠ 45)
    (fuel : Nat) (hfuel : (mant ++ m :: (sg ++ rest)).length + 1 ≤ fuel) :
    lexer_outcome fuel (lexer_new (mant ++ m :: (sg ++ rest)) 0) =
      some (1,
        some { format :=
                 "[%d:%d] Malformed number literal encountered, exponent expected but not found (%c:%d)\n",
               args := [1, mant.length + sg.length + 1, rest.headD 0, rest.headD 0] },
        []) := by
  obtain ⟨c, rest0, rfl, hc10, hfirst, hscan⟩ := number_scan_mantissa hmant
  obtain ⟨isDec, hscan⟩ := hscan (m :: (sg ++ rest))
  rw [number_scan_exponent_missing isDec hm hsg rest hrest hns] at hscan
  simp only [List.cons_append, List.length_cons] at hfuel ⊢
  have hcur := cursor_at_new (c :: (rest0 ++ m :: (sg ++ rest)))
  have hread := lexer_read_number_scan fuel hcur hc10
    (by omega)
  rw [hscan] at hread
  have hpk : lexer_peek (lexer_new (c :: (rest0 ++ m :: (sg ++ rest))) 0)
      = (rest0 ++ m :: (sg ++ rest)).headD 0 := lexer_peek_of_cursor hcur
  have hsingle : token_kind_for_single [c] 1 = TOK_INVALID :=
    token_kind_for_single_digit (by
      rcases hfirst with h | ⟨h, _⟩
      · exact Or.inl h
      · exact Or.inr h)
  refine lexer_outcome_scan_failed
    { kind := TOK_INVALID, from_ := some 0, to_ := none, line := 1, column := 1 }
    (lexer_asprintf (lexer_advance (lexer_new (c :: (rest0 ++ m :: (sg ++ rest))) 0)
        (rest0.length + (sg.length + 1)))
      "[%d:%d] Malformed number literal encountered, exponent expected but not found (%c:%d)\n"
      [1, 1 + (rest0.length + (sg.length + 1)), rest.headD 0, rest.headD 0])
    (by omega) ?_ ?_ ?_ ?_ rfl ?_ rfl
  · rcases hfirst with h | ⟨rfl, _⟩
    · simp only [isdigit, Bool.and_eq_true, decide_eq_true_eq] at h
      simp only [List.headD_cons]; omega
    · simp
  · rcases hfirst with h | ⟨rfl, _⟩
    · simp only [List.headD_cons]; exact (isdigit_ne h).2.1
    · simp
  · rcases hfirst with h | ⟨rfl, _⟩
    · simp only [isdigit, Bool.and_eq_true, decide_eq_true_eq] at h
      simp only [List.headD_cons, isalpha, Bool.or_eq_true,
        Bool.and_eq_true, decide_eq_true_eq]
      omega
    · simp [isalpha]
  · rcases hfirst with h | ⟨rfl, h⟩
    · have h2 := isdigit_ne h
      have h3 : c ≠ 64 ∧ c ≠ 39 ∧ c ≠ 37 ∧ c ≠ 36 ∧ c ≠ 34 := by
        simp only [isdigit, Bool.and_eq_true, decide_eq_true_eq] at h
        omega
      simp [lexer_run_scan, hread, h, h2.2.2.1, h3.1, h3.2.1, h3.2.2.1, h3.2.2.2.1,
        h3.2.2.2.2, number_result, number_bump, hsingle]
      simp [token_at, lexer_new, lexer_advance, lexer_asprintf, Nat.add_comm]
    · have h46 : isdigit 46 = false := by decide
      cases rest0 with
      | nil => simp [isdigit] at h
      | cons y r =>
        simp only [List.headD_cons, List.cons_append] at h hpk hread
        simp [lexer_run_scan, hread, hpk, h, h46, number_result, number_bump, hsingle]
        simp [token_at, lexer_new, lexer_advance, lexer_asprintf, Nat.add_comm]
  · simp [lexer_asprintf]
    omega

/-! ## Keyword classification -/

theorem tolower_tolower (x : Nat) : tolower (tolower x) = tolower x := by
  unfold tolower
  split_ifs <;> omega

theorem strncasecmp_map_tolower :
    ∀ (n : Nat) (m w : List Nat), strncasecmp m (w.map tolower) n = strncasecmp m w n := by
  intro n
  induction n with
  | zero => intro m w; simp [strncasecmp]
  | succ n ih =>
    intro m w
    cases w with
    | nil => simp [strncasecmp]
    | cons x w =>
      simp only [strncasecmp, List.map_cons, List.headD_cons, List.tail_cons,
        tolower_tolower, ih]

theorem strncasecmp_append (tail : List Nat) :
    ∀ (w m : List Nat), strncasecmp m (w ++ tail) w.length = strncasecmp m w w.length := by
  intro w
  induction w with
  | nil => intro m; simp [strncasecmp]
  | cons x w ih =>
    intro m
    simp only [List.cons_append, List.length_cons, strncasecmp, List.headD_cons,
      List.tail_cons, ih]

theorem token_kind_for_single_from_lower (w : List Nat) (n : Nat) :
    ∀ table : List token_single_t, (∀ e ∈ table, e.case_sensitive = false) →
      token_kind_for_single_from table (w.map tolower) n =
        token_kind_for_single_from table w n := by
  intro table
  induction table with
  | nil => intro _; rfl
  | cons e table ih =>
    intro h
    have he := h e (List.mem_cons_self _ _)
    simp only [token_kind_for_single_from, he, strncasecmp_map_tolower,
      ih (fun x hx => h x (List.mem_cons_of_mem _ hx))]
    simp

theorem token_kind_for_single_from_append (w tail : List Nat) :
    ∀ table : List token_single_t, (∀ e ∈ table, e.case_sensitive = false) →
      token_kind_for_single_from table (w ++ tail) w.length =
        token_kind_for_single_from table w w.length := by
  intro table
  induction table with
  | nil => intro _; rfl
  | cons e table ih =>
    intro h
    have he := h e (List.mem_cons_self _ _)
    by_cases hl : strlen (e.matches_.getD []) = w.length
    · simp only [token_kind_for_single_from, he, strncasecmp_append,
        ih (fun x hx => h x (List.mem_cons_of_mem _ hx))]
      simp
    · simp only [token_kind_for_single_from, hl, false_and, if_false,
        ih (fun x hx => h x (List.mem_cons_of_mem _ hx))]

/-- No entry of `token_singles` is case sensitive. -/
theorem token_singles_case_insensitive : ∀ e ∈ token_singles, e.case_sensitive = false := by
  decide

set_option maxRecDepth 100000 in
/-- Every entry of `token_singles` is the first one that its own text matches. -/
theorem token_singles_first_match :
    ∀ e ∈ token_singles,
      token_kind_for_single (e.matches_.getD []) (e.matches_.getD []).length = e.kind := by
  decide

theorem token_kind_for_single_lower (w : List Nat) (n : Nat) :
    token_kind_for_single (w.map tolower) n = token_kind_for_single w n :=
  token_kind_for_single_from_lower w n _ token_singles_case_insensitive

theorem token_kind_for_single_append (w tail : List Nat) :
    token_kind_for_single (w ++ tail) w.length = token_kind_for_single w w.length :=
  token_kind_for_single_from_append w tail _ token_singles_case_insensitive

/-- The classification sees only the lower-cased bytes of the word. -/
theorem token_kind_for_single_variation {w m : List Nat} (h : is_case_variation w m) :
    token_kind_for_single w w.length = token_kind_for_single m m.length := by
  have hl : w.length = m.length := by
    have := congrArg List.length h
    simpa using this
  rw [← token_kind_for_single_lower w, ← token_kind_for_single_lower m, h, hl]

/-! ## Words -/

theorem is_word_byte_ne {x : Nat} (h : is_word_byte x) : x ≠ 10 ∧ x ≠ 0 ∧ x ≠ 32 := by
  rcases h with rfl | h
  · decide
  · simp only [isalnum, isalpha, isdigit, Bool.or_eq_true, Bool.and_eq_true,
      decide_eq_true_eq] at h
    omega

theorem lexer_read_word_loop_word (rest : List Nat) (hrest : ¬ is_word_byte (rest.headD 0)) :
    ∀ (w : List Nat) (lexer : lexer_t) (c fuel : Nat),
      cursor_at lexer (c :: (w ++ rest)) → c ≠ 10 → (∀ x ∈ w, is_word_byte x) →
      lexer_read_word_loop (fuel + w.length + 1) lexer = some (lexer_advance lexer w.length) := by
  intro w
  induction w with
  | nil =>
    intro lexer c fuel hcur hc _
    have hr : ¬ (rest.head?.getD 0 = 95 ∨ isalnum (rest.head?.getD 0) = true) := by
      simpa [is_word_byte] using hrest
    rw [not_or] at hr
    rw [lexer_read_word_loop, lexer_has_next_of_cursor hcur, lexer_peek_of_cursor hcur]
    simp [hr.1, hr.2, lexer_advance_zero]
  | cons x w ih =>
    intro lexer c fuel hcur hc hw
    have hx := hw x (List.mem_cons_self _ _)
    have hx2 : ¬ (x ≠ 95 ∧ (!isalnum x) = true) := by
      rcases hx with h | h <;> simp [h]
    rw [lexer_read_word_loop, lexer_has_next_of_cursor hcur, lexer_peek_of_cursor hcur]
    simp only [List.cons_append, List.headD_cons, ne_eq, reduceCtorEq, not_false_eq_true,
      decide_True, if_true]
    rw [if_neg hx2, lexer_next_of_cursor hcur hc]
    have := ih (lexer_advance lexer 1) x fuel (cursor_at_advance hcur) (is_word_byte_ne hx).1
      (fun y hy => hw y (List.mem_cons_of_mem _ hy))
    rw [lexer_advance_advance] at this
    simpa [Nat.add_comm, Nat.add_left_comm, Nat.add_assoc] using this

theorem cons_eq_append_last (c : Nat) (w : List Nat) :
    ∃ init z, c :: w = init ++ [z] ∧ init.length = w.length ∧ (z = c ∨ z ∈ w) := by
  induction w generalizing c with
  | nil => exact ⟨[], c, rfl, rfl, Or.inl rfl⟩
  | cons x w ih =>
    obtain ⟨init, z, h, hl, hz⟩ := ih x
    refine ⟨c :: init, z, by rw [h]; rfl, by simp [hl], ?_⟩
    rcases hz with rfl | hz
    · exact Or.inr (List.mem_cons_self _ _)
    · exact Or.inr (List.mem_cons_of_mem _ hz)

/-- The function `lexer_read_word` on a word `c :: w` followed by a byte that does not
continue it: the token spans the word, and its kind is the one `token_kind_for_single`
gives for the word, or `TOK_ID`. -/
theorem lexer_read_word_word (fuel : Nat) {lexer : lexer_t} {c : Nat} {w rest : List Nat}
    (hcur : cursor_at lexer (c :: (w ++ rest))) (hc : c ≠ 10)
    (hw : ∀ x ∈ w, is_word_byte x) (hrest : ¬ is_word_byte (rest.headD 0))
    (hfuel : w.length + 1 ≤ fuel) :
    lexer_read_word fuel lexer =
      some ({ kind := if token_kind_for_single (c :: w) (w.length + 1) ≠ TOK_INVALID
                      then token_kind_for_single (c :: w) (w.length + 1) else TOK_ID,
              from_ := some (lexer.current.place : Int),
              to_ := some ((lexer.current.place + (w.length + 1) : Nat) : Int),
              line := lexer.current.line, column := lexer.current.column },
            lexer_advance lexer (w.length + 1)) := by
  have hloop : lexer_read_word_loop fuel lexer = some (lexer_advance lexer w.length) :=
    lexer_read_word_loop_mono lexer _ _
      (lexer_read_word_loop_word rest hrest w lexer c 0 hcur hc hw) fuel (by omega)
  obtain ⟨init, z, hsplit, hlen, hz⟩ := cons_eq_append_last c w
  have hz10 : z ≠ 10 := by
    rcases hz with rfl | hz
    · exact hc
    · exact (is_word_byte_ne (hw z hz)).1
  have hq : cursor_at (lexer_advance lexer w.length) (z :: rest) := by
    have h1 : cursor_at lexer (init ++ (z :: rest)) := by
      have : c :: (w ++ rest) = init ++ (z :: rest) := by
        rw [← List.cons_append, hsplit]; simp
      rw [← this]; exact hcur
    have := cursor_at_advance_append init _ h1
    rwa [hlen] at this
  have hdrop : (lexer.source ++ [lexer.sentinel]).drop lexer.current.place =
      (c :: w) ++ (rest ++ [lexer.sentinel]) := by
    rw [List.drop_append_of_le_length hcur.2.2, hcur.2.1]
    simp
  have hsub : lexer.current.place + (w.length + 1) - lexer.current.place = (c :: w).length := by
    simp
  simp only [lexer_read_word, hloop, Option.map_some', lexer_next_of_cursor hq hz10,
    lexer_advance_advance, lexer_mark, token_at]
  simp only [lexer_advance, hdrop, hsub, token_kind_for_single_append]
  simp only [List.length_cons]
  split_ifs <;> rfl

theorem is_word_byte_tolower {x : Nat} (h : is_word_byte (tolower x)) : is_word_byte x := by
  unfold is_word_byte tolower at *
  simp only [isalnum, isalpha, isdigit, Bool.or_eq_true, Bool.and_eq_true,
    decide_eq_true_eq] at *
  split_ifs at h <;> omega

theorem is_word_byte_of_tolower {x : Nat} (h : is_word_byte x) : is_word_byte (tolower x) := by
  unfold is_word_byte tolower at *
  simp only [isalnum, isalpha, isdigit, Bool.or_eq_true, Bool.and_eq_true,
    decide_eq_true_eq] at *
  split_ifs <;> omega

/-- The entries of `token_singles` that start with a letter are words, and every entry
with a text has a kind other than `TOK_INVALID`. -/
theorem token_singles_words :
    ∀ e ∈ token_singles, e.matches_ ≠ none →
      e.kind ≠ TOK_INVALID ∧
      (isalpha ((e.matches_.getD []).headD 0) = true →
        ∀ x ∈ (e.matches_.getD []).tail, x = 95 ∨ isalnum x = true) := by
  decide

theorem is_word_bytes_of_variation {w m : List Nat} (h : is_case_variation w m)
    (hm : ∀ x ∈ m, is_word_byte x) : ∀ x ∈ w, is_word_byte x := by
  intro x hx
  have h1 : tolower x ∈ m.map tolower := by
    rw [← h]; exact List.mem_map_of_mem _ hx
  obtain ⟨y, hy, hyx⟩ := List.mem_map.mp h1
  apply is_word_byte_tolower
  rw [← hyx]
  exact is_word_byte_of_tolower (hm y hy)

/-- C5: keyword classification is case-insensitive and exact-length. For every entry of
`token_singles` and every upper/lower-case variation `w` of its text,
`token_kind_for_single` returns the kind of the entry, and so does `lexer_read_word` on the
word `w` (for an entry that starts with a letter, followed by anything that does not
continue the word), in a token that spans `w`. `If`, `IF`, `if` and `iF` yield
`TOK_IF_KW`; `Iffy` matches no entry and is a `TOK_ID` spanning its four bytes. -/
theorem C5_keyword_case_insensitive :
    (∀ e ∈ token_singles, ∀ m, e.matches_ = some m → ∀ w, is_case_variation w m →
      token_kind_for_single w w.length = e.kind ∧
      (isalpha (m.headD 0) = true → ∀ rest, ¬ is_word_byte (rest.headD 0) →
        ∀ fuel, w.length ≤ fuel →
          lexer_read_word fuel (lexer_new (w ++ rest) 0) =
            some ({ kind := e.kind, from_ := some 0, to_ := some ((w.length : Nat) : Int),
                    line := 1, column := 1 },
                  lexer_advance (lexer_new (w ++ rest) 0) w.length))) ∧
    (∀ v ∈ [bytes "If", bytes "IF", bytes "if", bytes "iF"],
      token_kind_for_single v v.length = TOK_IF_KW ∧
      (lexer_read_word 2 (lexer_new v 0)).map (fun r => r.1.kind) = some TOK_IF_KW) ∧
    (token_kind_for_single (bytes "Iffy") 4 = TOK_INVALID ∧
      (lexer_read_word 4 (lexer_new (bytes "Iffy") 0)).map (fun r => r.1) =
        some { kind := TOK_ID, from_ := some 0, to_ := some 4, line := 1, column := 1 }) := by
  refine ⟨?_, by decide, by decide⟩
  intro e he m hm w hw
  have hkind : token_kind_for_single w w.length = e.kind := by
    rw [token_kind_for_single_variation hw]
    have := token_singles_first_match e he
    rwa [hm] at this
  refine ⟨hkind, ?_⟩
  intro hfirst rest hrest fuel hfuel
  have htab := token_singles_words e he (by rw [hm]; simp)
  rw [hm] at htab
  simp only [Option.getD_some] at htab
  have hlen : w.length = m.length := by
    have := congrArg List.length hw
    simpa using this
  obtain ⟨c, w', rfl⟩ : ∃ c w', w = c :: w' := by
    cases w with
    | cons c w' => exact ⟨c, w', rfl⟩
    | nil =>
      cases m with
      | nil => simp [isalpha] at hfirst
      | cons a b => simp at hlen
  obtain ⟨a, m', rfl⟩ : ∃ a m', m = a :: m' := by
    cases m with
    | cons a m' => exact ⟨a, m', rfl⟩
    | nil => simp at hlen
  have hw' : is_case_variation w' m' := by
    unfold is_case_variation at hw ⊢
    simp only [List.map_cons, List.cons.injEq] at hw
    exact hw.2
  have hc : tolower c = tolower a := by
    unfold is_case_variation at hw
    simp only [List.map_cons, List.cons.injEq] at hw
    exact hw.1
  have hc10 : c ≠ 10 := by
    intro h
    subst h
    simp only [List.headD_cons, isalpha, Bool.or_eq_true, Bool.and_eq_true,
      decide_eq_true_eq] at hfirst
    unfold tolower at hc
    split_ifs at hc <;> omega
  have hwb : ∀ x ∈ w', is_word_byte x :=
    is_word_bytes_of_variation hw' (fun x hx => htab.2 hfirst x (by simpa using hx))
  have hcur : cursor_at (lexer_new (c :: w' ++ rest) 0) (c :: (w' ++ rest)) := by
    simpa using cursor_at_new (c :: w' ++ rest)
  have hread := lexer_read_word_word fuel hcur hc10 hwb hrest (by simpa using hfuel)
  simp only [List.length_cons] at hkind
  rw [hread, hkind]
  simp [htab.1, lexer_new]

/-! ## Phase 2: the array and the list -/

theorem lexer_run_pairs_merged (table : List token_pair_t) (lexer : lexer_t) (i : Nat)
    (left right : token_t) :
    lexer_run_pairs table lexer i left right true = (lexer, true) := by
  cases table <;> simp [lexer_run_pairs]

/-- The inner loop of phase 2 applies the first matching rule, if there is one. -/
theorem lexer_run_pairs_find (lexer : lexer_t) (i : Nat) (left right : token_t) :
    ∀ table : List token_pair_t,
      lexer_run_pairs table lexer i left right false =
        match pair_find table left right with
        | some kind => (lexer_merge_tokens lexer i (i + 1) kind, true)
        | none => (lexer, false) := by
  intro table
  induction table with
  | nil => simp [lexer_run_pairs, pair_find]
  | cons p table ih =>
    rw [lexer_run_pairs, pair_find]
    by_cases hp : p.left ≠ TOK_INVALID
    · by_cases hm : p.left = left.kind ∧ p.right = right.kind ∧
          ptr_le right.from_ (left.to_.map (· + (p.range : Int))) = true
      · rw [if_pos ⟨hp, rfl⟩, if_pos hm, if_pos hp, if_pos hm, lexer_run_pairs_merged]
      · rw [if_pos ⟨hp, rfl⟩, if_neg hm, if_pos hp, if_neg hm, ih]
    · rw [if_neg (fun h => hp h.1), if_neg hp]

theorem lexer_merge_shift_length :
    ∀ (n : Nat) (tokens : List token_t) (idx : Nat) (offset : Int),
      (lexer_merge_shift n tokens idx offset).length = tokens.length := by
  intro n
  induction n with
  | zero => intro tokens idx offset; rfl
  | succ n ih => intro tokens idx offset; simp [lexer_merge_shift, ih]

/-- The loop of `lexer_merge_tokens` with `offset = -1`, from `idx = k + 1`: the `n`
entries from `k + 1` on move one place down. -/
theorem lexer_merge_shift_get :
    ∀ (n : Nat) (tokens : List token_t) (k : Nat), k + 1 + n ≤ tokens.length →
      ∀ j, (lexer_merge_shift n tokens (k + 1) (-1))[j]? =
        if j < k then tokens[j]?
        else if j < k + n then tokens[j + 1]?
        else tokens[j]? := by
  intro n
  induction n with
  | zero =>
    intro tokens k _ j
    simp only [lexer_merge_shift, Nat.add_zero]
    split_ifs <;> rfl
  | succ n ih =>
    intro tokens k hlen j
    have hto : (((k + 1 : Nat) : Int) + -1).toNat = k := by omega
    have hb : k + 1 < tokens.length := by omega
    have hget : tokens.getD (k + 1) token_zero = tokens[k + 1] :=
      List.getD_eq_getElem _ _ hb
    rw [lexer_merge_shift, hto, ih _ (k + 1) (by simp; omega), hget]
    simp only [List.getElem?_set]
    have hk : tokens[k + 1]? = some tokens[k + 1] := List.getElem?_eq_getElem (by omega)
    split_ifs <;> first
      | rfl
      | omega
      | (subst_vars; simp_all)

theorem getElem?_fused (pre post : List token_t) (a b f : token_t) (j : Nat) :
    (pre ++ f :: post)[j]? =
      if j < pre.length then (pre ++ a :: b :: post)[j]?
      else if j = pre.length then some f
      else (pre ++ a :: b :: post)[j + 1]? := by
  by_cases h1 : j < pre.length
  · rw [if_pos h1, List.getElem?_append_left h1, List.getElem?_append_left h1]
  · rw [if_neg h1, List.getElem?_append_right (by omega)]
    by_cases h2 : j = pre.length
    · rw [if_pos h2, h2]
      simp
    · rw [if_neg h2, List.getElem?_append_right (by omega)]
      obtain ⟨d, hd⟩ : ∃ d, j = pre.length + (d + 1) := ⟨j - pre.length - 1, by omega⟩
      subst hd
      have e1 : pre.length + (d + 1) - pre.length = d + 1 := by omega
      have e2 : pre.length + (d + 1) + 1 - pre.length = d + 2 := by omega
      rw [e1, e2]
      simp

/-- What `lexer_merge_tokens` does to the tokens below the count: the tokens at `i` and
`i + 1` are fused, the others keep their order. -/
theorem lexer_merge_tokens_copy (lexer : lexer_t) (kind : token_kind_t)
    (pre post : List token_t) (a b : token_t)
    (hcopy : lexer_copy_tokens lexer = pre ++ a :: b :: post)
    (hcount : lexer.current.token ≤ lexer.tokens.length) :
    lexer_copy_tokens (lexer_merge_tokens lexer pre.length (pre.length + 1) kind) =
        pre ++ token_fuse a b kind :: post ∧
      (lexer_merge_tokens lexer pre.length (pre.length + 1) kind).current.token + 1 =
        lexer.current.token ∧
      (lexer_merge_tokens lexer pre.length (pre.length + 1) kind).tokens.length =
        lexer.tokens.length := by
  have hn : lexer.current.token = pre.length + 2 + post.length := by
    have := congrArg List.length hcopy
    simp only [lexer_copy_tokens, List.length_take, List.length_append, List.length_cons] at this
    omega
  have hget : ∀ j, j < lexer.current.token →
      lexer.tokens[j]? = (pre ++ a :: b :: post)[j]? := by
    intro j hj
    rw [← hcopy, lexer_copy_tokens, List.getElem?_take_of_lt hj]
  have ha : lexer.tokens.getD pre.length token_zero = a := by
    rw [List.getD_eq_getElem?_getD, hget _ (by omega),
      List.getElem?_append_right (by omega)]
    simp
  have hb : lexer.tokens.getD (pre.length + 1) token_zero = b := by
    rw [List.getD_eq_getElem?_getD, hget _ (by omega),
      List.getElem?_append_right (by omega)]
    simp
  have hoff : ((pre.length : Int) - ((pre.length + 1 : Nat) : Int)) = -1 := by omega
  have hcnt : (((lexer.current.token : Nat) : Int) + -1).toNat = pre.length + 1 + post.length := by
    omega
  have hit : lexer.current.token - (pre.length + 1 + 1) = post.length := by omega
  refine ⟨?_, ?_, ?_⟩
  · simp only [lexer_copy_tokens, lexer_merge_tokens, ha, hb, hoff, hcnt, hit]
    apply List.ext_getElem?
    intro j
    rw [getElem?_fused pre post a b]
    by_cases hj : j < pre.length + 1 + post.length
    · rw [List.getElem?_take_of_lt hj,
        lexer_merge_shift_get _ _ (pre.length + 1) (by simp; omega)]
      simp only [List.getElem?_set]
      by_cases h1 : j < pre.length
      · have h2 : j < pre.length + 1 := by omega
        have h3 : ¬ pre.length = j := by omega
        rw [if_pos h2, if_neg h3, if_pos h1, hget _ (by omega)]
      · by_cases h2 : j = pre.length
        · have h3 : j < pre.length + 1 := by omega
          have h4 : pre.length < lexer.tokens.length := by omega
          rw [if_pos h3, if_pos h2.symm, if_pos h4, if_neg h1, if_pos h2]
          rfl
        · have h3 : ¬ j < pre.length + 1 := by omega
          have h4 : ¬ pre.length = j + 1 := by omega
          rw [if_neg h3, if_pos (by omega), if_neg h4, if_neg h1, if_neg h2,
            hget _ (by omega)]
    · rw [List.getElem?_eq_none (by simp; omega)]
      have h1 : ¬ j < pre.length := by omega
      have h2 : ¬ j = pre.length := by omega
      rw [if_neg h1, if_neg h2, List.getElem?_eq_none (by simp; omega)]
  · simp only [lexer_merge_tokens, hoff]
    omega
  · simp only [lexer_merge_tokens, lexer_merge_shift_length, List.length_set]

theorem same_scan_refl (l : lexer_t) : same_scan l l := ⟨rfl, rfl, rfl, rfl, rfl, rfl⟩

theorem same_scan_trans {l1 l2 l3 : lexer_t} (h1 : same_scan l1 l2) (h2 : same_scan l2 l3) :
    same_scan l1 l3 := by
  unfold same_scan at h1 h2 ⊢
  simp only [h2, h1, and_self]

theorem same_scan_merge_tokens (l : lexer_t) (i j : Nat) (kind : token_kind_t) :
    same_scan l (lexer_merge_tokens l i j kind) := ⟨rfl, rfl, rfl, rfl, rfl, rfl⟩

theorem copy_tokens_get (lexer : lexer_t) (pre suf : List token_t) (a : token_t)
    (hcopy : lexer_copy_tokens lexer = pre ++ a :: suf) :
    lexer.tokens.get? pre.length = some a := by
  have h1 : (lexer_copy_tokens lexer)[pre.length]? = some a := by
    rw [hcopy, List.getElem?_append_right (by omega)]
    simp
  rw [lexer_copy_tokens, List.getElem?_take] at h1
  rw [List.get?_eq_getElem?]
  split_ifs at h1
  exact h1

/-- Phase 2 on the array computes what `merge_pass` computes on the list of the tokens
from `tok_index` on. -/
theorem lexer_run_merge_list :
    ∀ (fuel : Nat) (lexer : lexer_t) (pre suf out : List token_t),
      lexer_copy_tokens lexer = pre ++ suf → lexer.current.token ≤ lexer.tokens.length →
      merge_pass fuel suf = some out →
      ∃ l2, lexer_run_merge fuel lexer pre.length = some l2 ∧
        lexer_copy_tokens l2 = pre ++ out ∧ l2.current.token ≤ l2.tokens.length ∧
        same_scan lexer l2 := by
  intro fuel
  induction fuel with
  | zero => intro lexer pre suf out _ _ h; simp [merge_pass] at h
  | succ fuel ih =>
    intro lexer pre suf out hcopy hcount hout
    match suf, hcopy, hout with
    | [], _, hout => simp [merge_pass] at hout
    | [a], hcopy, hout =>
      rw [merge_pass] at hout
      split_ifs at hout with ha
      rw [lexer_run_merge, copy_tokens_get _ _ _ _ hcopy]
      simp only [if_neg ha]
      simp only [Option.some.injEq] at hout
      exact ⟨lexer, rfl, by rw [hcopy, hout], hcount, same_scan_refl _⟩
    | a :: b :: rest, hcopy, hout =>
      have hb : lexer.tokens.get? (pre.length + 1) = some b := by
        have := copy_tokens_get lexer (pre ++ [a]) rest b (by rw [hcopy]; simp)
        simpa using this
      rw [merge_pass] at hout
      rw [lexer_run_merge, copy_tokens_get _ _ _ _ hcopy]
      by_cases ha : a.kind ≠ TOK_EOF
      · simp only [if_pos ha, hb, lexer_run_pairs_find] at hout ⊢
        cases hf : pair_find token_pairs a b with
        | some kind =>
          simp only [hf] at hout ⊢
          obtain ⟨h1, h2, h3⟩ := lexer_merge_tokens_copy lexer kind pre rest a b hcopy hcount
          obtain ⟨l2, hl2, hc2, hn2, hs2⟩ := ih _ pre _ out h1 (by omega) hout
          refine ⟨l2, ?_, hc2, hn2, same_scan_trans (same_scan_merge_tokens _ _ _ _) hs2⟩
          simpa using hl2
        | none =>
          simp only [hf] at hout ⊢
          cases hm : merge_pass fuel (b :: rest) with
          | none => simp [hm] at hout
          | some out2 =>
            simp only [hm, Option.map_some', Option.some.injEq] at hout
            obtain ⟨l2, hl2, hc2, hn2, hs2⟩ :=
              ih lexer (pre ++ [a]) (b :: rest) out2 (by rw [hcopy]; simp) hcount hm
            refine ⟨l2, ?_, ?_, hn2, hs2⟩
            · simpa using hl2
            · rw [hc2, ← hout]; simp
      · simp only [if_neg ha, Option.some.injEq] at hout ⊢
        exact ⟨lexer, rfl, by rw [hcopy, hout], hcount, same_scan_refl _⟩

/-! ## Phase 2 on the list: termination, and no match is left -/

theorem pair_find_some {left right : token_t} {kind : token_kind_t} :
    ∀ table : List token_pair_t, pair_find table left right = some kind →
      ∃ p ∈ table, p.left ≠ TOK_INVALID ∧ p.left = left.kind ∧ p.right = right.kind ∧
        p.kind = kind := by
  intro table
  induction table with
  | nil => intro h; simp [pair_find] at h
  | cons p table ih =>
    intro h
    rw [pair_find] at h
    split_ifs at h with hp hm
    · simp only [Option.some.injEq] at h
      exact ⟨p, List.mem_cons_self _ _, hp, hm.1, hm.2.1, h⟩
    · obtain ⟨q, hq, hq2⟩ := ih h
      exact ⟨q, List.mem_cons_of_mem _ hq, hq2⟩

theorem pair_find_none_of_kind {left right : token_t}
    (h : ∀ p ∈ token_pairs, p.left ≠ TOK_INVALID → ¬ (p.left = left.kind ∧ p.right = right.kind)) :
    pair_find token_pairs left right = none := by
  cases hf : pair_find token_pairs left right with
  | none => rfl
  | some kind =>
    obtain ⟨p, hp, h1, h2, h3, _⟩ := pair_find_some _ hf
    exact absurd ⟨h2, h3⟩ (h p hp h1)

/-- The kind that a rule of `token_pairs` produces is the left or right kind of no rule,
and no rule takes or produces `TOK_EOF`. -/
theorem token_pairs_kinds :
    ∀ p ∈ token_pairs, p.left ≠ TOK_INVALID →
      p.right ≠ TOK_EOF ∧ p.kind ≠ TOK_EOF ∧
      ∀ q ∈ token_pairs, q.left ≠ TOK_INVALID → q.left ≠ p.kind ∧ q.right ≠ p.kind := by
  decide

theorem pair_find_fused_right {a b : token_t} {kind : token_kind_t}
    (h : pair_find token_pairs a b = some kind) (c : token_t) (z : token_t) :
    pair_find token_pairs z (token_fuse a c kind) = none := by
  obtain ⟨p, hp, h1, _, _, h4⟩ := pair_find_some _ h
  apply pair_find_none_of_kind
  intro q hq hq1 hq2
  have := ((token_pairs_kinds p hp h1).2.2 q hq hq1).2
  apply this
  rw [h4, hq2.2]
  rfl

theorem pair_find_right_not_eof {a b : token_t} {kind : token_kind_t}
    (h : pair_find token_pairs a b = some kind) : b.kind ≠ TOK_EOF := by
  obtain ⟨p, hp, h1, _, h3, _⟩ := pair_find_some _ h
  rw [← h3]
  exact (token_pairs_kinds p hp h1).1

/-- After the pass no neighbours match up to the first end-of-input token; and the first
token of the result is the first token of the input or a fused token, which is the right
part of no rule. -/
theorem merge_pass_done :
    ∀ (fuel : Nat) (suf out : List token_t), merge_pass fuel suf = some out →
      merge_done out ∧
      ∀ x rest, suf = x :: rest → ∃ y rest2, out = y :: rest2 ∧
        (y = x ∨ ∀ z, pair_find token_pairs z y = none) := by
  intro fuel
  induction fuel with
  | zero => intro suf out h; simp [merge_pass] at h
  | succ fuel ih =>
    intro suf out h
    match suf, h with
    | [], h => simp [merge_pass] at h
    | [a], h =>
      rw [merge_pass] at h
      split_ifs at h
      simp only [Option.some.injEq] at h
      subst h
      exact ⟨trivial, fun x rest hx => ⟨a, [], rfl, Or.inl (by simp at hx; exact hx.1)⟩⟩
    | a :: b :: rest, h =>
      rw [merge_pass] at h
      by_cases ha : a.kind ≠ TOK_EOF
      · rw [if_pos ha] at h
        cases hf : pair_find token_pairs a b with
        | some kind =>
          simp only [hf] at h
          obtain ⟨hd, hh⟩ := ih _ _ h
          refine ⟨hd, fun x rest' _ => ?_⟩
          obtain ⟨y, rest2, hy, hy2⟩ := hh _ _ rfl
          refine ⟨y, rest2, hy, Or.inr ?_⟩
          rcases hy2 with rfl | hy2
          · exact pair_find_fused_right hf b
          · exact hy2
        | none =>
          simp only [hf] at h
          cases hm : merge_pass fuel (b :: rest) with
          | none => simp [hm] at h
          | some out2 =>
            simp only [hm, Option.map_some', Option.some.injEq] at h
            subst h
            obtain ⟨hd, hh⟩ := ih _ _ hm
            obtain ⟨y, rest2, rfl, hy2⟩ := hh _ _ rfl
            refine ⟨?_, fun x rest' hx => ⟨a, y :: rest2, rfl, Or.inl (by simp at hx; exact hx.1)⟩⟩
            refine Or.inr ⟨?_, hd⟩
            rcases hy2 with rfl | hy2
            · exact hf
            · exact hy2 a
      · rw [if_neg ha] at h
        simp only [Option.some.injEq] at h
        subst h
        exact ⟨Or.inl (by simpa using ha),
          fun x rest' hx => ⟨a, b :: rest, rfl, Or.inl (by simp at hx; exact hx.1)⟩⟩

/-- The pass keeps an end-of-input token. -/
theorem merge_pass_eof :
    ∀ (fuel : Nat) (suf out : List token_t), merge_pass fuel suf = some out →
      (∃ t ∈ suf, t.kind = TOK_EOF) → ∃ t ∈ out, t.kind = TOK_EOF := by
  intro fuel
  induction fuel with
  | zero => intro suf out h; simp [merge_pass] at h
  | succ fuel ih =>
    intro suf out h heof
    match suf, h, heof with
    | [], h, _ => simp [merge_pass] at h
    | [a], h, heof =>
      rw [merge_pass] at h
      split_ifs at h
      simp only [Option.some.injEq] at h
      subst h
      exact heof
    | a :: b :: rest, h, heof =>
      rw [merge_pass] at h
      by_cases ha : a.kind ≠ TOK_EOF
      · rw [if_pos ha] at h
        obtain ⟨t, ht, hk⟩ := heof
        have ht2 : t ∈ b :: rest := by
          rcases List.mem_cons.mp ht with rfl | h2
          · exact absurd hk ha
          · exact h2
        cases hf : pair_find token_pairs a b with
        | some kind =>
          simp only [hf] at h
          refine ih _ _ h ⟨t, ?_, hk⟩
          rcases List.mem_cons.mp ht2 with rfl | h3
          · exact absurd hk (pair_find_right_not_eof hf)
          · exact List.mem_cons_of_mem _ h3
        | none =>
          simp only [hf] at h
          cases hm : merge_pass fuel (b :: rest) with
          | none => simp [hm] at h
          | some out2 =>
            simp only [hm, Option.map_some', Option.some.injEq] at h
            subst h
            obtain ⟨u, hu, huk⟩ := ih _ _ hm ⟨t, ht2, hk⟩
            exact ⟨u, List.mem_cons_of_mem _ hu, huk⟩
      · rw [if_neg ha] at h
        simp only [Option.some.injEq] at h
        subst h
        exact heof

/-- The pass ends on every list that holds an end-of-input token, within as many steps as
the list has tokens. -/
theorem merge_pass_terminates :
    ∀ (fuel : Nat) (suf : List token_t), (∃ t ∈ suf, t.kind = TOK_EOF) → suf.length ≤ fuel →
      ∃ out, merge_pass fuel suf = some out := by
  intro fuel
  induction fuel with
  | zero =>
    intro suf heof hlen
    obtain ⟨t, ht, _⟩ := heof
    cases suf with
    | nil => simp at ht
    | cons a r => simp at hlen
  | succ fuel ih =>
    intro suf heof hlen
    match suf, heof, hlen with
    | [], heof, _ => obtain ⟨t, ht, _⟩ := heof; simp at ht
    | [a], heof, _ =>
      obtain ⟨t, ht, hk⟩ := heof
      simp only [List.mem_singleton] at ht
      subst ht
      exact ⟨[t], by simp [merge_pass, hk]⟩
    | a :: b :: rest, heof, hlen =>
      rw [merge_pass]
      by_cases ha : a.kind ≠ TOK_EOF
      · rw [if_pos ha]
        obtain ⟨t, ht, hk⟩ := heof
        have ht2 : t ∈ b :: rest := by
          rcases List.mem_cons.mp ht with rfl | h2
          · exact absurd hk ha
          · exact h2
        simp only [List.length_cons] at hlen
        cases hf : pair_find token_pairs a b with
        | some kind =>
          simp only []
          refine ih _ ⟨t, ?_, hk⟩ (by simp only [List.length_cons]; omega)
          rcases List.mem_cons.mp ht2 with rfl | h3
          · exact absurd hk (pair_find_right_not_eof hf)
          · exact List.mem_cons_of_mem _ h3
        | none =>
          simp only []
          obtain ⟨out2, ho⟩ := ih (b :: rest) ⟨t, ht2, hk⟩
            (by simp only [List.length_cons]; omega)
          exact ⟨a :: out2, by simp [ho]⟩
      · rw [if_neg ha]
        exact ⟨_, rfl⟩

/-- A list in which no neighbours match is a fixed point of the pass. -/
theorem merge_pass_fixed :
    ∀ (fuel : Nat) (out : List token_t), merge_done out → (∃ t ∈ out, t.kind = TOK_EOF) →
      out.length ≤ fuel → merge_pass fuel out = some out := by
  intro fuel
  induction fuel with
  | zero =>
    intro out _ heof hlen
    obtain ⟨t, ht, _⟩ := heof
    cases out with
    | nil => simp at ht
    | cons a r => simp at hlen
  | succ fuel ih =>
    intro out hd heof hlen
    match out, hd, heof, hlen with
    | [], _, heof, _ => obtain ⟨t, ht, _⟩ := heof; simp at ht
    | [a], _, heof, _ =>
      obtain ⟨t, ht, hk⟩ := heof
      simp only [List.mem_singleton] at ht
      subst ht
      simp [merge_pass, hk]
    | a :: b :: rest, hd, heof, hlen =>
      rw [merge_pass]
      by_cases ha : a.kind ≠ TOK_EOF
      · rw [if_pos ha]
        rw [merge_done] at hd
        rcases hd with hd | ⟨hf, hd⟩
        · exact absurd hd ha
        · obtain ⟨t, ht, hk⟩ := heof
          have ht2 : t ∈ b :: rest := by
            rcases List.mem_cons.mp ht with rfl | h2
            · exact absurd hk ha
            · exact h2
          simp only [List.length_cons] at hlen
          simp only [hf]
          rw [ih (b :: rest) hd ⟨t, ht2, hk⟩ (by simp only [List.length_cons]; omega)]
          rfl
      · rw [if_neg ha]
/-- The pass leaves no end-of-input token in front of the last token when there was none. -/
theorem merge_pass_body :
    ∀ (fuel : Nat) (suf out : List token_t), merge_pass fuel suf = some out →
      (∀ t ∈ suf.dropLast, t.kind ≠ TOK_EOF) → ∀ t ∈ out.dropLast, t.kind ≠ TOK_EOF := by
  intro fuel
  induction fuel with
  | zero => intro suf out h; simp [merge_pass] at h
  | succ fuel ih =>
    intro suf out h hne
    match suf, h, hne with
    | [], h, _ => simp [merge_pass] at h
    | [a], h, _ =>
      rw [merge_pass] at h
      split_ifs at h
      simp only [Option.some.injEq] at h
      subst h
      simp
    | a :: b :: rest, h, hne =>
      rw [merge_pass] at h
      rw [List.dropLast_cons₂] at hne
      have ha : a.kind ≠ TOK_EOF := hne a (List.mem_cons_self _ _)
      rw [if_pos ha] at h
      cases hf : pair_find token_pairs a b with
      | some kind =>
        simp only [hf] at h
        refine ih _ _ h ?_
        cases rest with
        | nil => simp
        | cons c r =>
          rw [List.dropLast_cons₂]
          intro t ht
          rcases List.mem_cons.1 ht with rfl | ht
          · obtain ⟨p, hp, h1, _, _, h4⟩ := pair_find_some _ hf
            have := (token_pairs_kinds p hp h1).2.1
            rw [h4] at this
            exact this
          · refine hne t (List.mem_cons_of_mem _ ?_)
            rw [List.dropLast_cons₂]
            exact List.mem_cons_of_mem _ ht
      | none =>
        simp only [hf] at h
        cases hm : merge_pass fuel (b :: rest) with
        | none => simp [hm] at h
        | some out2 =>
          simp only [hm, Option.map_some', Option.some.injEq] at h
          subst h
          obtain ⟨y, rest2, rfl, _⟩ := (merge_pass_done fuel _ _ hm).2 _ _ rfl
          rw [List.dropLast_cons₂]
          intro t ht
          rcases List.mem_cons.1 ht with rfl | ht
          · exact ha
          · exact ih _ _ hm (fun u hu => hne u (List.mem_cons_of_mem _ hu)) t ht

/-- When only the last token is an end-of-input token, `merge_done` speaks of every pair of
neighbours. -/
theorem merge_done_all :
    ∀ (pre out : List token_t), merge_done out → (∀ t ∈ out.dropLast, t.kind ≠ TOK_EOF) →
      ∀ (a b : token_t) (suf : List token_t), out = pre ++ a :: b :: suf →
        pair_find token_pairs a b = none := by
  intro pre
  induction pre with
  | nil =>
    intro out hd hne a b suf ho
    subst ho
    rw [List.nil_append, List.dropLast_cons₂] at hne
    rcases hd with h | h
    · exact absurd h (hne a (List.mem_cons_self _ _))
    · exact h.1
  | cons x pre ih =>
    intro out hd hne a b suf ho
    subst ho
    obtain ⟨y, rest, hy⟩ : ∃ y rest, pre ++ a :: b :: suf = y :: rest := by
      cases pre with
      | nil => exact ⟨a, b :: suf, rfl⟩
      | cons p pre => exact ⟨p, pre ++ a :: b :: suf, rfl⟩
    rw [List.cons_append, hy] at hd hne
    rw [List.dropLast_cons₂] at hne
    rcases hd with h | h
    · exact absurd h (hne x (List.mem_cons_self _ _))
    · rw [← hy] at h hne
      exact ih _ h.2 (fun t ht => hne t (List.mem_cons_of_mem _ ht)) a b suf rfl

theorem merge_pass_length :
    ∀ (fuel : Nat) (suf out : List token_t), merge_pass fuel suf = some out →
      out.length ≤ suf.length := by
  intro fuel
  induction fuel with
  | zero => intro suf out h; simp [merge_pass] at h
  | succ fuel ih =>
    intro suf out h
    match suf, h with
    | [], h => simp [merge_pass] at h
    | [a], h =>
      rw [merge_pass] at h
      split_ifs at h
      simp only [Option.some.injEq] at h
      subst h
      exact Nat.le_refl _
    | a :: b :: rest, h =>
      rw [merge_pass] at h
      by_cases ha : a.kind ≠ TOK_EOF
      · rw [if_pos ha] at h
        cases hf : pair_find token_pairs a b with
        | some kind =>
          simp only [hf] at h
          have := ih _ _ h
          simp only [List.length_cons] at this ⊢
          omega
        | none =>
          simp only [hf] at h
          cases hm : merge_pass fuel (b :: rest) with
          | none => simp [hm] at h
          | some out2 =>
            simp only [hm, Option.map_some', Option.some.injEq] at h
            subst h
            have := ih _ _ hm
            simp only [List.length_cons] at this ⊢
            omega
      · rw [if_neg ha] at h
        simp only [Option.some.injEq] at h
        subst h
        exact Nat.le_refl _

theorem lexer_copy_tokens_length {lexer : lexer_t}
    (h : lexer.current.token ≤ lexer.tokens.length) :
    (lexer_copy_tokens lexer).length = lexer.current.token := by
  simp [lexer_copy_tokens, h]

/-- C7: compound-merge idempotence. For every lexer whose tokens (the entries of the array
below the token count) end with an end-of-input token, phase 2 with fuel of at least the
token count returns; nothing matches a rule of `token_pairs` any more between neighbours up
to the first end-of-input token, which is between all neighbours when only the last token
is an end-of-input token; and phase 2 applied to the result returns it unchanged: the same
tokens and the same count. -/
theorem C7_merge_idempotent (lexer : lexer_t) (body : List token_t) (last : token_t)
    (hcopy : lexer_copy_tokens lexer = body ++ [last]) (hlast : last.kind = TOK_EOF)
    (hcount : lexer.current.token ≤ lexer.tokens.length)
    (fuel : Nat) (hfuel : lexer.current.token ≤ fuel) :
    ∃ l1, lexer_run_merge fuel lexer 0 = some l1 ∧ merge_done (lexer_copy_tokens l1) ∧
      ((∀ t ∈ body, t.kind ≠ TOK_EOF) →
        ∀ (pre : List token_t) (a b : token_t) (suf : List token_t),
          lexer_copy_tokens l1 = pre ++ a :: b :: suf → pair_find token_pairs a b = none) ∧
      ∃ l2, lexer_run_merge fuel l1 0 = some l2 ∧
        lexer_copy_tokens l2 = lexer_copy_tokens l1 ∧
        lexer_get_num_tokens l2 = lexer_get_num_tokens l1 := by
  have hlen := lexer_copy_tokens_length hcount
  have heof : ∃ t ∈ body ++ [last], t.kind = TOK_EOF := ⟨last, by simp, hlast⟩
  obtain ⟨out, hout⟩ := merge_pass_terminates fuel (body ++ [last]) heof
    (by rw [← hcopy, hlen]; exact hfuel)
  obtain ⟨l1, hl1, hc1, hn1, _⟩ := lexer_run_merge_list fuel lexer [] _ out hcopy hcount hout
  have hdone := (merge_pass_done fuel _ out hout).1
  have heof1 := merge_pass_eof fuel _ out hout heof
  have hlen1 : out.length ≤ fuel := by
    have := merge_pass_length fuel _ out hout
    rw [← hcopy, hlen] at this
    omega
  have hfix := merge_pass_fixed fuel out hdone heof1 hlen1
  simp only [List.nil_append, List.length_nil] at hc1 hl1
  obtain ⟨l2, hl2, hc2, hn2, _⟩ := lexer_run_merge_list fuel l1 [] out out hc1 hn1 hfix
  simp only [List.nil_append, List.length_nil] at hc2 hl2
  refine ⟨l1, hl1, by rw [hc1]; exact hdone, ?_, l2, hl2, by rw [hc1, hc2], ?_⟩
  · intro hbody pre a b suf hpre
    rw [hc1] at hpre
    exact merge_done_all pre out hdone
      (merge_pass_body fuel _ out hout (by simpa using hbody)) a b suf hpre
  · have e1 := lexer_copy_tokens_length hn1
    have e2 := lexer_copy_tokens_length hn2
    rw [hc1] at e1
    rw [hc2] at e2
    simp only [lexer_get_num_tokens]
    omega

/-! ## Iterations of phase 1 that scan a word -/

theorem lexer_skip_whitespace_spaces (rest : List Nat)
    (hrest : rest.headD 0 ≠ 32 ∧ rest.headD 0 ≠ 9 ∧ rest.headD 0 ≠ 13) :
    ∀ (n : Nat) (lexer : lexer_t) (fuel : Nat),
      cursor_at lexer (List.replicate n 32 ++ rest) →
      lexer_skip_whitespace (fuel + n + 1) lexer = some (lexer_advance lexer n) := by
  intro n
  induction n with
  | zero =>
    intro lexer fuel hcur
    simp only [List.replicate_zero, List.nil_append] at hcur
    have := lexer_skip_whitespace_stay lexer fuel (by rw [lexer_current_of_cursor hcur]; exact hrest)
    simpa [lexer_advance_zero] using this
  | succ n ih =>
    intro lexer fuel hcur
    simp only [List.replicate_succ, List.cons_append] at hcur
    have hc : lexer_current lexer = 32 := by rw [lexer_current_of_cursor hcur]; rfl
    rw [lexer_skip_whitespace, hc]
    simp only [ne_eq, OfNat.ofNat_ne_zero, not_false_eq_true, true_or, and_self, if_true,
      lexer_next_of_cursor hcur (by decide)]
    have := ih (lexer_advance lexer 1) fuel (cursor_at_advance hcur)
    rw [lexer_advance_advance] at this
    simpa [Nat.add_comm, Nat.add_left_comm, Nat.add_assoc] using this

set_option maxRecDepth 100000 in
theorem token_kind_for_single_letter {c : Nat} (h : isalpha c = true ∨ c = 95) :
    token_kind_for_single [c] 1 = TOK_INVALID := by
  rcases h with h | rfl
  · simp only [isalpha, Bool.or_eq_true, Bool.and_eq_true, decide_eq_true_eq] at h
    rcases h with ⟨h1, h2⟩ | ⟨h1, h2⟩ <;> interval_cases c <;> decide
  · decide

/-- On a letter or `_` the chain of tests of the driver scans nothing. -/
theorem lexer_run_scan_letter {c : Nat} (h : isalpha c = true ∨ c = 95) (fuel : Nat)
    (lexer : lexer_t) (mark : token_mark_t) :
    lexer_run_scan fuel lexer mark c token_zero = some (token_zero, lexer) := by
  have hs := token_kind_for_single_letter h
  have hne : c ≠ 64 ∧ c ≠ 46 ∧ c ≠ 39 ∧ c ≠ 37 ∧ c ≠ 36 ∧ c ≠ 34 ∧ isdigit c = false := by
    rcases h with h | rfl
    · simp only [isalpha, Bool.or_eq_true, Bool.and_eq_true, decide_eq_true_eq] at h
      refine ⟨by omega, by omega, by omega, by omega, by omega, by omega, ?_⟩
      simp only [isdigit, Bool.and_eq_false_iff, decide_eq_false_iff_not]
      omega
    · decide
  simp [lexer_run_scan, hne.1, hne.2.1, hne.2.2.1, hne.2.2.2.1, hne.2.2.2.2.1,
    hne.2.2.2.2.2.1, hne.2.2.2.2.2.2, hs, token_zero]

/-- An iteration of the loop of phase 1, outside a block comment, over `n` blanks and a
word: the word is appended as one token. -/
theorem lexer_run_body_word (fuel : Nat) {lexer : lexer_t} {n c : Nat} {w rest : List Nat}
    (hcur : cursor_at lexer (List.replicate n 32 ++ c :: (w ++ rest)))
    (hc : isalpha c = true ∨ c = 95) (hw : ∀ x ∈ w, is_word_byte x)
    (hrest : ¬ is_word_byte (rest.headD 0)) (he : lexer.error = none)
    (hfuel : n + w.length + 2 ≤ fuel) :
    lexer_run_body fuel lexer token_zero =
      some (loop_exit.next_iteration,
        (if word_kind (c :: w) = TOK_REM_KW then
          { kind := word_kind (c :: w),
            from_ := some ((lexer.current.place + n : Nat) : Int),
            to_ := some ((lexer.current.place + n + (w.length + 1) : Nat) : Int),
            line := lexer.current.line, column := lexer.current.column + n }
         else token_zero),
        lexer_push_token (lexer_advance lexer (n + (w.length + 1)))
          { kind := word_kind (c :: w),
            from_ := some ((lexer.current.place + n : Nat) : Int),
            to_ := some ((lexer.current.place + n + (w.length + 1) : Nat) : Int),
            line := lexer.current.line, column := lexer.current.column + n }) := by
  have hcw : is_word_byte c := by
    rcases hc with h | h
    · exact Or.inr (by simp [isalnum, h])
    · exact Or.inl h
  have hcne := is_word_byte_ne hcw
  have hc9 : c ≠ 9 ∧ c ≠ 13 := by
    rcases hc with h | h
    · simp only [isalpha, Bool.or_eq_true, Bool.and_eq_true, decide_eq_true_eq] at h
      omega
    · omega
  have hskip : lexer_skip_whitespace fuel lexer = some (lexer_advance lexer n) :=
    lexer_skip_whitespace_mono lexer _ _
      (lexer_skip_whitespace_spaces (c :: (w ++ rest))
        (by simp only [List.headD_cons]; exact ⟨hcne.2.2, hc9.1, hc9.2⟩) n lexer 0 hcur)
      fuel (by omega)
  have hcur2 : cursor_at (lexer_advance lexer n) (c :: (w ++ rest)) := by
    have := cursor_at_advance_append (List.replicate n 32) _ hcur
    simpa using this
  have hc0 : lexer_current (lexer_advance lexer n) = c := by
    rw [lexer_current_of_cursor hcur2]; rfl
  have hread := lexer_read_word_word fuel hcur2 hcne.1 hw hrest (by omega)
  have hwk : (if token_kind_for_single (c :: w) (w.length + 1) ≠ TOK_INVALID
      then token_kind_for_single (c :: w) (w.length + 1) else TOK_ID) = word_kind (c :: w) := by
    simp [word_kind]
  rw [hwk, lexer_advance_advance] at hread
  have hkne : word_kind (c :: w) ≠ TOK_INVALID := by
    unfold word_kind
    split_ifs with h
    · exact h
    · decide
  have hc' : c = 95 ∨ isalpha c = true := hc.symm
  have hz : token_zero.kind = TOK_INVALID := rfl
  rw [lexer_run_body, hskip]
  simp only [Option.some_bind, hc0, hcne.2.1, if_false, hz, if_true,
    lexer_run_scan_letter hc, hc', hread, ne_eq, not_true_eq_false, lexer_mark]
  have he2 : ∀ t, (lexer_push_token (lexer_advance lexer (n + (w.length + 1))) t).error
      = none := by
    intro t
    simp [lexer_push_token, lexer_new_token, lexer_advance, he]
  simp only [lexer_run_emit, hkne, hz, ne_eq, not_false_eq_true, and_self, if_true,
    true_and, false_and, if_false, and_false, he2, not_true_eq_false]
  simp [lexer_advance]

/-! ## From the scan loop to the outcome -/

theorem cursor_at_push_token {lexer : lexer_t} {rest : List Nat} (t : token_t)
    (h : cursor_at lexer rest) : cursor_at (lexer_push_token lexer t) rest := h

theorem lexer_push_token_tokens {lexer : lexer_t} (t : token_t)
    (h : lexer.current.token = lexer.tokens.length) :
    (lexer_push_token lexer t).tokens = lexer.tokens ++ [t] ∧
      (lexer_push_token lexer t).current.token = (lexer.tokens ++ [t]).length := by
  simp [lexer_push_token, lexer_new_token, tokens_write, h]

/-- When phase 1 leaves its loop with the tokens `ts` and no error, `lexer_run` returns
`0` with what `merge_pass` makes of `ts` and the end-of-input token. -/
theorem lexer_outcome_of_scan {l0 l1 : lexer_t} {fuel : Nat} {out : List token_t}
    (he0 : l0.error = none)
    (hloop : lexer_run_scan_loop fuel fuel l0 token_zero = some (true, l1))
    (hcnt : l1.current.token = l1.tokens.length) (he1 : l1.error = none)
    (hmerge : merge_pass fuel (l1.tokens ++ [token_eof]) = some out) :
    lexer_outcome fuel l0 = some (0, none, out) := by
  have hcopy : lexer_copy_tokens
      { source := l1.source, sentinel := l1.sentinel,
        tokens := (tokens_write l1.tokens l1.current.token token_zero).set l1.current.token
          { kind := TOK_EOF, from_ := token_zero.from_, to_ := token_zero.to_,
            line := token_zero.line, column := token_zero.column },
        current := { place := l1.current.place, line := l1.current.line,
                     column := l1.current.column, token := l1.current.token + 1 },
        error := l1.error } = [] ++ (l1.tokens ++ [token_eof]) := by
    simp [lexer_copy_tokens, tokens_write, hcnt, token_eof, token_zero]
  obtain ⟨l2, hl2, hc2, _, hs2⟩ := lexer_run_merge_list fuel _ [] _ out hcopy
    (by simp [tokens_write, hcnt]) hmerge
  simp only [List.length_nil, List.nil_append] at hl2 hc2
  have he2 : l2.error = none := by rw [hs2.2.2.1]; exact he1
  simp only [lexer_outcome, lexer_run, he0, ne_eq, not_true_eq_false, if_false, hloop,
    Option.some_bind, if_true, lexer_new_token]
  have hget : (tokens_write l1.tokens l1.current.token token_zero).getD l1.current.token
      token_zero = token_zero := by
    simp [tokens_write, hcnt, List.getD_eq_getElem?_getD]
  simp only [hget]
  rw [hl2]
  simp [lexer_get_error, he2, hc2]

/-! ## `End` and `Function` -/

/-- C5 (instance): `fUnCtIoN` is a case variation of the entry `function`. -/
theorem C5_keyword_case_insensitive_witness :
    token_kind_for_single (bytes "fUnCtIoN") (bytes "fUnCtIoN").length = TOK_FUNCTION_KW :=
  (C5_keyword_case_insensitive.1
    { kind := TOK_FUNCTION_KW, case_sensitive := false, matches_ := some (bytes "function") }
    (by decide) (bytes "function") rfl (bytes "fUnCtIoN") (by decide)).1

/-- C7 (instance): the tokens `End`, `Function`, end of input of the source `End Function`. -/
theorem C7_merge_idempotent_witness :
    ∃ l1, lexer_run_merge 3
        { source := bytes "End Function", sentinel := 0,
          tokens :=
            [{ kind := TOK_END_KW, from_ := some 0, to_ := some 3, line := 1, column := 1 },
             { kind := TOK_FUNCTION_KW, from_ := some 4, to_ := some 12, line := 1, column := 5 },
             token_eof],
          current := { place := 12, line := 1, column := 13, token := 3 },
          error := none } 0 = some l1 ∧
      merge_done (lexer_copy_tokens l1) ∧
      ((∀ t ∈ [({ kind := TOK_END_KW, from_ := some 0, to_ := some 3, line := 1,
                  column := 1 } : token_t),
               { kind := TOK_FUNCTION_KW, from_ := some 4, to_ := some 12, line := 1,
                 column := 5 }], t.kind ≠ TOK_EOF) →
        ∀ (pre : List token_t) (a b : token_t) (suf : List token_t),
          lexer_copy_tokens l1 = pre ++ a :: b :: suf → pair_find token_pairs a b = none) ∧
      ∃ l2, lexer_run_merge 3 l1 0 = some l2 ∧
        lexer_copy_tokens l2 = lexer_copy_tokens l1 ∧
        lexer_get_num_tokens l2 = lexer_get_num_tokens l1 :=
  C7_merge_idempotent _
    [{ kind := TOK_END_KW, from_ := some 0, to_ := some 3, line := 1, column := 1 },
     { kind := TOK_FUNCTION_KW, from_ := some 4, to_ := some 12, line := 1, column := 5 }]
    token_eof (by decide) (by decide) (by decide) 3 (by decide)

/-- C9 (instance): `1.5e+x`, where the cursor stands on the sign, in column 5. -/
theorem C9_exponent_expected_witness :
    lexer_outcome 7 (lexer_new (bytes "1.5" ++ 101 :: ([43] ++ bytes "x")) 0) =
      some (1,
        some { format :=
                 "[%d:%d] Malformed number literal encountered, exponent expected but not found (%c:%d)\n",
               args := [1, (bytes "1.5").length + [43].length + 1, (bytes "x").headD 0,
                        (bytes "x").headD 0] },
        []) :=
  C9_exponent_expected (bytes "1.5") 101 [43] (bytes "x")
    ⟨bytes "1", bytes ".5", by decide,
      Or.inl ⟨⟨by decide, by decide⟩, Or.inr ⟨bytes "5", ⟨by decide, by decide⟩, by decide⟩⟩⟩
    (Or.inl rfl) (Or.inr (Or.inl rfl)) (by decide) (by intro h; exact absurd h (by decide))
    7 (by decide)

/-- C9 (counterexample): on the source `1e` the error does not report line 1, column 3; it
reports line 1, column 2, the column of the `e`. -/
theorem C9_column_counterexample :
    lexer_outcome 3 (lexer_new (bytes "1e") 0) =
        some (1,
          some { format :=
                   "[%d:%d] Malformed number literal encountered, exponent expected but not found (%c:%d)\n",
                 args := [1, 2, 0, 0] },
          []) ∧
      ¬ ∃ (e : lexer_error) (tokens : List token_t),
        lexer_outcome 3 (lexer_new (bytes "1e") 0) = some (1, some e, tokens) ∧
          e.args.take 2 = [1, 3] := by
  have h0 : lexer_outcome 3 (lexer_new (bytes "1e") 0) =
      some (1,
        some { format :=
                 "[%d:%d] Malformed number literal encountered, exponent expected but not found (%c:%d)\n",
               args := [1, 2, 0, 0] },
        []) := by decide
  refine ⟨h0, ?_⟩
  rintro ⟨e, tokens, h, h2⟩
  rw [h0] at h
  simp only [Option.some.injEq, Prod.mk.injEq, true_and] at h
  obtain ⟨rfl, _⟩ := h
  revert h2
  decide
/-! ## The cursor over bytes of several lines -/

theorem position_after_append (pos : Nat × Nat) (a b : List Nat) :
    position_after pos (a ++ b) = position_after (position_after pos a) b := by
  simp [position_after, List.foldl_append]

theorem position_after_line (pos : Nat × Nat) (bs : List Nat) (h : ∀ x ∈ bs, x ≠ 10) :
    position_after pos bs = (pos.1, pos.2 + bs.length) := by
  induction bs generalizing pos with
  | nil => rfl
  | cons x xs ih =>
    have hx : x ≠ 10 := h x (List.mem_cons_self _ _)
    have := ih (pos.1, pos.2 + 1) (fun y hy => h y (List.mem_cons_of_mem _ hy))
    simp only [position_after, List.foldl_cons, hx, if_false] at this ⊢
    rw [this]
    simp [Nat.add_assoc, Nat.add_comm 1]

theorem lexer_pass_nil (lexer : lexer_t) : lexer_pass lexer [] = lexer := rfl

theorem lexer_pass_append (lexer : lexer_t) (a b : List Nat) :
    lexer_pass (lexer_pass lexer a) b = lexer_pass lexer (a ++ b) := by
  simp [lexer_pass, position_after_append, Nat.add_assoc]

theorem lexer_advance_eq_pass (lexer : lexer_t) (bs : List Nat) (h : ∀ x ∈ bs, x ≠ 10) :
    lexer_advance lexer bs.length = lexer_pass lexer bs := by
  simp [lexer_advance, lexer_pass, position_after_line _ bs h]

theorem cursor_at_pass {lexer : lexer_t} (xs ys : List Nat)
    (h : cursor_at lexer (xs ++ ys)) : cursor_at (lexer_pass lexer xs) ys :=
  cursor_at_advance_append xs ys h

/-- The function `lexer_next` on any byte of the source, a newline included. -/
theorem lexer_next_pass {lexer : lexer_t} {c : Nat} {t : List Nat}
    (h : cursor_at lexer (c :: t)) :
    lexer_next lexer = (t.headD 0, lexer_pass lexer [c]) := by
  by_cases hc : c = 10
  · subst hc
    have hcur := lexer_current_of_cursor h
    have hpk := lexer_peek_of_cursor h
    have hn := lexer_has_next_of_cursor h
    simp only [List.headD_cons] at hcur
    unfold lexer_next
    rw [hcur, if_pos rfl]
    simp only [lexer_has_next, lexer_peek, lexer_deref] at hn hpk ⊢
    rw [hn] at hpk
    rw [hn]
    simp only [ne_eq, reduceCtorEq, not_false_eq_true, decide_True, if_true] at hpk ⊢
    rw [hpk]
    rfl
  · rw [lexer_next_of_cursor h hc]
    have := lexer_advance_eq_pass lexer [c] (by simpa using hc)
    simpa using this

theorem is_blank_ne {x : Nat} (h : is_blank x) :
    x ≠ 10 ∧ x ≠ 0 ∧ ¬ is_word_byte x ∧ ¬ (x = 95 ∨ isalpha x = true) := by
  rcases h with rfl | rfl | rfl <;> decide

/-- The function `lexer_skip_whitespace` passes a run of blanks. -/
theorem lexer_skip_whitespace_blanks (rest : List Nat) (hrest : ¬ is_blank (rest.headD 0)) :
    ∀ (ws : List Nat) (lexer : lexer_t) (fuel : Nat), (∀ x ∈ ws, is_blank x) →
      cursor_at lexer (ws ++ rest) → ws.length + 1 ≤ fuel →
      lexer_skip_whitespace fuel lexer = some (lexer_pass lexer ws) := by
  intro ws
  induction ws with
  | nil =>
    intro lexer fuel _ hcur hfuel
    obtain ⟨f, rfl⟩ : ∃ f, fuel = f + 1 := ⟨fuel - 1, by simp at hfuel; omega⟩
    simp only [List.nil_append] at hcur
    have hc := lexer_current_of_cursor hcur
    have h3 : lexer_current lexer ≠ 32 ∧ lexer_current lexer ≠ 9 ∧ lexer_current lexer ≠ 13 := by
      rw [hc]
      refine ⟨fun h => hrest (Or.inl h), fun h => hrest (Or.inr (Or.inl h)),
        fun h => hrest (Or.inr (Or.inr h))⟩
    rw [lexer_skip_whitespace_stay lexer f h3, lexer_pass_nil]
  | cons b ws ih =>
    intro lexer fuel hws hcur hfuel
    obtain ⟨f, rfl⟩ : ∃ f, fuel = f + 1 := ⟨fuel - 1, by simp at hfuel; omega⟩
    simp only [List.cons_append] at hcur
    have hb : is_blank b := hws b (List.mem_cons_self _ _)
    have hc : lexer_current lexer = b := by rw [lexer_current_of_cursor hcur]; rfl
    have hb0 := (is_blank_ne hb).2.1
    have hb' : b = 32 ∨ b = 9 ∨ b = 13 := hb
    rw [lexer_skip_whitespace, hc]
    simp only [ne_eq, hb0, not_false_eq_true, hb', and_self, if_true, lexer_next_pass hcur]
    have hcur1 : cursor_at (lexer_pass lexer [b]) (ws ++ rest) := cursor_at_pass [b] _ hcur
    rw [ih (lexer_pass lexer [b]) f (fun y hy => hws y (List.mem_cons_of_mem _ hy)) hcur1
      (by simp at hfuel; omega), lexer_pass_append]
    rfl

/-- A list splits into its longest prefix of bytes with a property and the rest. -/
theorem span_split (p : Nat → Prop) [DecidablePred p] (xs : List Nat) :
    ∃ a b, xs = a ++ b ∧ (∀ x ∈ a, p x) ∧ (b = [] ∨ ∃ y t, b = y :: t ∧ ¬ p y) := by
  induction xs with
  | nil => exact ⟨[], [], rfl, by simp, Or.inl rfl⟩
  | cons x xs ih =>
    by_cases hx : p x
    · obtain ⟨a, b, hab, ha, hb⟩ := ih
      refine ⟨x :: a, b, by rw [hab]; rfl, ?_, hb⟩
      intro y hy
      rcases List.mem_cons.1 hy with rfl | hy
      · exact hx
      · exact ha y hy
    · exact ⟨[], x :: xs, rfl, by simp, Or.inr ⟨x, xs, rfl, hx⟩⟩

theorem is_word_byte_of_letter {x : Nat} (h : x = 95 ∨ isalpha x = true) : is_word_byte x := by
  rcases h with h | h
  · exact Or.inl h
  · exact Or.inr (by simp [isalnum, h])

/-! ## Iterations of phase 1 inside a block comment -/

/-- The blanks that open an iteration are passed before anything else is looked at. -/
theorem lexer_run_body_skip {fuel : Nat} {l0 l1 : lexer_t} (comment : token_t)
    (h0 : lexer_skip_whitespace fuel l0 = some l1)
    (h1 : lexer_skip_whitespace fuel l1 = some l1) :
    lexer_run_body fuel l0 comment = lexer_run_body fuel l1 comment := by
  unfold lexer_run_body
  rw [h0, h1]

theorem word_kind_ne_invalid (w : List Nat) : word_kind w ≠ TOK_INVALID := by
  unfold word_kind
  split_ifs with h
  · exact h
  · decide

theorem letter_ne {c : Nat} (hc : c = 95 ∨ isalpha c = true) :
    c ≠ 10 ∧ c ≠ 0 ∧ ¬ is_blank c := by
  have h := is_word_byte_ne (is_word_byte_of_letter hc)
  refine ⟨h.1, h.2.1, ?_⟩
  rintro (rfl | rfl | rfl) <;> revert hc <;> decide

/-- Inside a block comment a word that is neither `End` nor `EndRem` is read and dropped. -/
theorem lexer_run_body_comment_word (fuel : Nat) {lexer : lexer_t} {c : Nat}
    {w rest : List Nat} (comment : token_t)
    (hcur : cursor_at lexer (c :: (w ++ rest)))
    (hc : c = 95 ∨ isalpha c = true) (hw : ∀ x ∈ w, is_word_byte x)
    (hrest : ¬ is_word_byte (rest.headD 0)) (hcomment : comment.kind ≠ TOK_INVALID)
    (hkind : word_kind (c :: w) ≠ TOK_END_KW ∧ word_kind (c :: w) ≠ TOK_ENDREM_KW)
    (he : lexer.error = none) (hfuel : w.length + 2 ≤ fuel) :
    lexer_run_body fuel lexer comment =
      some (loop_exit.next_iteration, comment, lexer_pass lexer (c :: w)) := by
  obtain ⟨f, rfl⟩ : ∃ f, fuel = f + 1 := ⟨fuel - 1, by omega⟩
  have hcne := letter_ne hc
  have hc0 : lexer_current lexer = c := by rw [lexer_current_of_cursor hcur]; rfl
  have hskip : lexer_skip_whitespace (f + 1) lexer = some lexer :=
    lexer_skip_whitespace_stay lexer f (by
      rw [hc0]
      exact ⟨fun h => hcne.2.2 (Or.inl h), fun h => hcne.2.2 (Or.inr (Or.inl h)),
        fun h => hcne.2.2 (Or.inr (Or.inr h))⟩)
  have hread := lexer_read_word_word (f + 1) hcur hcne.1 hw hrest (by omega)
  have hwk : (if token_kind_for_single (c :: w) (w.length + 1) ≠ TOK_INVALID
      then token_kind_for_single (c :: w) (w.length + 1) else TOK_ID) = word_kind (c :: w) := by
    simp [word_kind]
  have hpass : lexer_advance lexer (w.length + 1) = lexer_pass lexer (c :: w) := by
    have := lexer_advance_eq_pass lexer (c :: w) (by
      intro x hx
      rcases List.mem_cons.1 hx with rfl | hx
      · exact hcne.1
      · exact (is_word_byte_ne (hw x hx)).1)
    simpa using this
  rw [hwk, hpass] at hread
  have hkne := word_kind_ne_invalid (c :: w)
  have hz : token_zero.kind = TOK_INVALID := rfl
  have hep : (lexer_pass lexer (c :: w)).error = none := he
  rw [lexer_run_body, hskip]
  simp only [Option.some_bind, hc0, hcne.2.1, if_false, hcomment, hc, if_true, hread, ne_eq,
    not_false_eq_true, lexer_run_comment, lexer_run_probe, hkind.1, hkind.2, hkne,
    lexer_run_emit, false_and, and_false, hep, not_true_eq_false]

/-- Inside a block comment a byte that starts no word is passed, with the blanks behind
it. -/
theorem lexer_run_body_comment_byte (fuel : Nat) {lexer : lexer_t} {x : Nat}
    {ws rest : List Nat} (comment : token_t)
    (hcur : cursor_at lexer (x :: (ws ++ rest)))
    (hx : ¬ (x = 95 ∨ isalpha x = true)) (hx0 : x ≠ 0) (hxb : ¬ is_blank x)
    (hws : ∀ b ∈ ws, is_blank b) (hrest : ¬ is_blank (rest.headD 0))
    (hcomment : comment.kind ≠ TOK_INVALID)
    (he : lexer.error = none) (hfuel : ws.length + 2 ≤ fuel) :
    lexer_run_body fuel lexer comment =
      some (loop_exit.next_iteration, comment, lexer_pass lexer (x :: ws)) := by
  obtain ⟨f, rfl⟩ : ∃ f, fuel = f + 1 := ⟨fuel - 1, by omega⟩
  have hc0 : lexer_current lexer = x := by rw [lexer_current_of_cursor hcur]; rfl
  have hskip : lexer_skip_whitespace (f + 1) lexer = some lexer :=
    lexer_skip_whitespace_stay lexer f (by
      rw [hc0]
      exact ⟨fun h => hxb (Or.inl h), fun h => hxb (Or.inr (Or.inl h)),
        fun h => hxb (Or.inr (Or.inr h))⟩)
  have hnext := lexer_next_pass hcur
  have hcur1 : cursor_at (lexer_pass lexer [x]) (ws ++ rest) := cursor_at_pass [x] _ hcur
  have hskip2 := lexer_skip_whitespace_blanks rest hrest ws (lexer_pass lexer [x]) (f + 1) hws
    hcur1 (by omega)
  rw [lexer_pass_append] at hskip2
  have hz : token_zero.kind = TOK_INVALID := rfl
  have hep : (lexer_pass lexer ([x] ++ ws)).error = none := he
  rw [lexer_run_body, hskip]
  simp only [Option.some_bind, hc0, hx0, if_false, hcomment, hx, ne_eq, not_false_eq_true,
    if_true, lexer_run_comment, lexer_run_probe, hz,
    show ¬ (TOK_INVALID = TOK_END_KW) by decide, show ¬ (TOK_INVALID = TOK_ENDREM_KW) by decide,
    hnext, hskip2, lexer_run_emit, false_and, and_false, hep, not_true_eq_false]
  rfl
/-- The lexer after the iteration that closes a block comment: the cursor behind `EndRem`,
and the block-comment token and the `EndRem` token appended. -/
theorem lexer_run_body_comment_close (fuel : Nat) {lexer : lexer_t} (comment : token_t)
    (hcur : cursor_at lexer (bytes "EndRem"))
    (hcomment : comment.kind ≠ TOK_INVALID)
    (he : lexer.error = none) (hfuel : 7 ≤ fuel) :
    lexer_run_body fuel lexer comment =
      some (loop_exit.next_iteration, { comment with kind := TOK_INVALID },
        lexer_push_token
          (lexer_push_token (lexer_pass lexer (bytes "EndRem"))
            { kind := TOK_BLOCK_COMMENT, line := comment.line, column := comment.column,
              from_ := comment.to_.map (· + 1),
              to_ := some ((lexer.current.place : Int) - 1) })
          { kind := TOK_ENDREM_KW, from_ := some (lexer.current.place : Int),
            to_ := some ((lexer.current.place + 6 : Nat) : Int),
            line := lexer.current.line, column := lexer.current.column }) := by
  obtain ⟨f, rfl⟩ : ∃ f, fuel = f + 1 := ⟨fuel - 1, by omega⟩
  have hb : bytes "EndRem" = 69 :: (bytes "ndRem" ++ []) := by decide
  rw [hb] at hcur
  have hc0 : lexer_current lexer = 69 := by rw [lexer_current_of_cursor hcur]; rfl
  have hskip : lexer_skip_whitespace (f + 1) lexer = some lexer :=
    lexer_skip_whitespace_stay lexer f (by rw [hc0]; decide)
  have hread := lexer_read_word_word (f + 1) hcur (by decide)
    (by unfold is_word_byte; decide) (by unfold is_word_byte; decide) (by simp [bytes]; omega)
  have hk : token_kind_for_single (69 :: bytes "ndRem") ((bytes "ndRem").length + 1) =
      TOK_ENDREM_KW := by decide
  have hpass : lexer_advance lexer ((bytes "ndRem").length + 1) =
      lexer_pass lexer (bytes "EndRem") := by
    have := lexer_advance_eq_pass lexer (bytes "EndRem") (by decide)
    simpa [bytes] using this
  rw [hk, hpass] at hread
  rw [if_pos (by decide)] at hread
  have hz : token_zero.kind = TOK_INVALID := rfl
  rw [lexer_run_body, hskip]
  simp only [Option.some_bind, hc0, show ¬ ((69 : Nat) = 0) by decide, if_false, hcomment,
    show ((69 : Nat) = 95 ∨ isalpha 69 = true) by decide, if_true, hread, ne_eq,
    not_false_eq_true, lexer_run_comment, lexer_run_probe,
    show ¬ (TOK_ENDREM_KW = TOK_END_KW) by decide,
    show ¬ (TOK_ENDREM_KW = TOK_INVALID) by decide,
    show ¬ (TOK_ENDREM_KW = TOK_REM_KW) by decide,
    lexer_run_emit, and_self, and_false, false_and, true_and, Option.map_some']
  simp [lexer_push_token, lexer_new_token, lexer_pass, he, bytes]

/-- The scan loop from the front of the closing `EndRem`, which ends the source. -/
theorem lexer_run_scan_loop_comment_close (fuel n : Nat) {lexer : lexer_t} (comment : token_t)
    (hcur : cursor_at lexer (bytes "EndRem"))
    (hcomment : comment.kind ≠ TOK_INVALID)
    (he : lexer.error = none) (hfuel : 7 ≤ fuel) :
    lexer_run_scan_loop fuel (n + 2) lexer comment =
      some (true,
        lexer_push_token
          (lexer_push_token (lexer_pass lexer (bytes "EndRem"))
            { kind := TOK_BLOCK_COMMENT, line := comment.line, column := comment.column,
              from_ := comment.to_.map (· + 1),
              to_ := some ((lexer.current.place : Int) - 1) })
          { kind := TOK_ENDREM_KW, from_ := some (lexer.current.place : Int),
            to_ := some ((lexer.current.place + 6 : Nat) : Int),
            line := lexer.current.line, column := lexer.current.column }) := by
  have hc0 : lexer_current lexer ≠ 0 := by
    rw [lexer_current_of_cursor hcur]; decide
  have hend : cursor_at (lexer_pass lexer (bytes "EndRem")) [] :=
    cursor_at_pass (bytes "EndRem") [] (by simpa using hcur)
  rw [lexer_run_scan_loop, if_pos hc0, lexer_run_body_comment_close fuel comment hcur hcomment
    he hfuel]
  simp only
  rw [lexer_run_scan_loop, if_neg]
  rw [lexer_current_of_cursor (cursor_at_push_token _ (cursor_at_push_token _ hend))]
  simp
theorem lexer_run_scan_loop_skip {fuel : Nat} {l0 l1 : lexer_t} (n : Nat) (comment : token_t)
    (h0 : lexer_skip_whitespace fuel l0 = some l1)
    (h1 : lexer_skip_whitespace fuel l1 = some l1)
    (hc0 : lexer_current l0 ≠ 0) (hc1 : lexer_current l1 ≠ 0) :
    lexer_run_scan_loop fuel (n + 1) l0 comment = lexer_run_scan_loop fuel (n + 1) l1 comment := by
  rw [lexer_run_scan_loop, lexer_run_scan_loop, if_pos hc0, if_pos hc1,
    lexer_run_body_skip comment h0 h1]

theorem lexer_run_scan_loop_step {fuel : Nat} {l0 l1 : lexer_t} (n : Nat) {c0 c1 : token_t}
    (hc0 : lexer_current l0 ≠ 0)
    (hb : lexer_run_body fuel l0 c0 = some (loop_exit.next_iteration, c1, l1)) :
    lexer_run_scan_loop fuel (n + 1) l0 c0 = lexer_run_scan_loop fuel n l1 c1 := by
  rw [lexer_run_scan_loop, if_pos hc0, hb]

/-! ## The display names and the accessors -/

set_option maxRecDepth 100000 in
theorem token_strings_length : token_strings.length = 130 := by decide

set_option maxRecDepth 100000 in
theorem token_strings_eof : token_strings.get? TOK_EOF = none := by decide

/-- C12: `token_strings` has 130 entries for the 131 kinds of `token_kind_t`: the name of
`TOK_LONG_KW` is missing, so that from `TOK_LONG_KW` on every kind reads the name of the
kind after it (`TOK_LONG_KW` reads `String`, `TOK_BLOCK_COMMENT` reads `<EOF>`), and
`token_to_string` on the end-of-input token reads behind the end of the table. On the `NULL`
token and on an invalid token it returns `INVALID`. -/
theorem C12_token_strings_one_short (lexer : lexer_t) :
    token_strings.length = 130 ∧ TOK_COUNT = 131 ∧
      token_strings.get? TOK_EOF = none ∧
      token_to_string lexer (some token_eof) = none ∧
      token_to_string lexer none = some (bytes "INVALID") ∧
      token_to_string lexer (some token_zero) = some (bytes "INVALID") ∧
      token_strings.get? TOK_INT_KW = some "Int" ∧
      token_strings.get? TOK_LONG_KW = some "String" ∧
      token_strings.get? TOK_STRING_KW = some "Object" ∧
      token_strings.get? TOK_BLOCK_COMMENT = some "<EOF>" := by
  have h0 : token_strings.get? TOK_INVALID = some "INVALID" := by decide
  have h1 := token_strings_eof
  have hb : (bytes "INVALID").take (strlen (bytes "INVALID")) = bytes "INVALID" := by decide
  refine ⟨token_strings_length, by decide, h1, ?_, ?_, ?_, by decide, by decide, by decide,
    by decide⟩
  · simp only [token_to_string, token_eof]
    rw [h1]
    rfl
  · simp only [token_to_string]
    rw [h0, Option.map_some', hb]
  · simp only [token_to_string, token_zero]
    rw [h0, Option.map_some', hb]

/-- C13: `lexer_get_token` without an output token. For an index below zero or from the
token count on it returns `TOK_INVALID`; for an index in range it has no result, because
`return token->kind;` reads through the `NULL` pointer. With an output token it returns
`TOK_INVALID` and sets the kind of the output out of range, and in range it copies the token
at the index and returns its kind. -/
theorem C13_get_token_without_output (lexer : lexer_t) (index : Int) :
    lexer_get_token (some lexer) index none =
        (if index < 0 ∨ (lexer.current.token : Int) ≤ index then some (TOK_INVALID, none)
         else none) ∧
      ∀ out : token_t,
        lexer_get_token (some lexer) index (some out) =
          if index < 0 ∨ (lexer.current.token : Int) ≤ index then
            some (TOK_INVALID, some { out with kind := TOK_INVALID })
          else (lexer.tokens.get? index.toNat).map fun t => (t.kind, some t) := by
  constructor
  · simp only [lexer_get_token]
    split_ifs <;> rfl
  · intro out
    simp only [lexer_get_token]
    split_ifs <;> rfl

/-- C13 (instance): after the run on `x`, which leaves two tokens, `lexer_get_token` at
index 0 without an output token has no result, and with an output token it returns
`TOK_ID`. -/
theorem C13_get_token_null_dereference :
    (lexer_run 3 (lexer_new (bytes "x") 0)).map (fun r => lexer_get_num_tokens r.2) = some 2 ∧
      (lexer_run 3 (lexer_new (bytes "x") 0)).bind
          (fun r => lexer_get_token (some r.2) 0 none) = none ∧
      (lexer_run 3 (lexer_new (bytes "x") 0)).bind
          (fun r => lexer_get_token (some r.2) 0 (some token_zero)) =
        some (TOK_ID,
          some { kind := TOK_ID, from_ := some 0, to_ := some 1, line := 1, column := 1 }) ∧
      (lexer_run 3 (lexer_new (bytes "x") 0)).bind
          (fun r => lexer_get_token (some r.2) 2 none) = some (TOK_INVALID, none) := by
  refine ⟨by decide, by decide, by decide, by decide⟩

/-- C16: a second `lexer_run` does not scan again. On `x :+ 1` the first run leaves four
tokens; the second run returns `0` and leaves five: the four tokens of the first run and
one more end-of-input token. -/
theorem C16_second_run_appends_eof :
    lexer_run_twice 8 (lexer_new (bytes "x :+ 1") 0) =
      some ((0,
          [{ kind := TOK_ID, from_ := some 0, to_ := some 1, line := 1, column := 1 },
           { kind := TOK_ASSIGN_ADD, from_ := some 2, to_ := some 4, line := 1, column := 3 },
           { kind := TOK_NUMBER_LIT, from_ := some 5, to_ := some 6, line := 1, column := 6 },
           token_eof]),
        (0,
          [{ kind := TOK_ID, from_ := some 0, to_ := some 1, line := 1, column := 1 },
           { kind := TOK_ASSIGN_ADD, from_ := some 2, to_ := some 4, line := 1, column := 3 },
           { kind := TOK_NUMBER_LIT, from_ := some 5, to_ := some 6, line := 1, column := 6 },
           token_eof, token_eof])) := by
  decide

/-- C17: behind the digits of a based literal one more byte is consumed. On `$FF+1` and on
`%10+1` the literal spans four bytes, the `+` included, and the `+` is no token of its
own: the tokens are two number literals and the end-of-input token. -/
theorem C17_based_literal_swallows_next :
    lexer_outcome 7 (lexer_new (bytes "$FF+1") 0) =
        some (0, none,
          [{ kind := TOK_NUMBER_LIT, from_ := some 0, to_ := some 4, line := 1, column := 1 },
           { kind := TOK_NUMBER_LIT, from_ := some 4, to_ := some 5, line := 1, column := 5 },
           token_eof]) ∧
      token_bytes (bytes "$FF+1")
        { kind := TOK_NUMBER_LIT, from_ := some 0, to_ := some 4, line := 1, column := 1 } =
        bytes "$FF+" ∧
      lexer_outcome 7 (lexer_new (bytes "%10+1") 0) =
        some (0, none,
          [{ kind := TOK_NUMBER_LIT, from_ := some 0, to_ := some 4, line := 1, column := 1 },
           { kind := TOK_NUMBER_LIT, from_ := some 4, to_ := some 5, line := 1, column := 5 },
           token_eof]) := by
  refine ⟨by decide, by decide, by decide⟩

/-- C18: on four dots the first token spans three dots and has the kind `TOK_AT`, the kind
after `TOK_TRIPLEDOT`: the loop counts the kind up once more on the fourth dot before its
test `token.kind <= TOK_TRIPLEDOT` fails. The fourth dot is a `TOK_DOT`. On three dots the
token is a `TOK_TRIPLEDOT`. -/
theorem C18_four_dots_give_at :
    lexer_outcome 6 (lexer_new (bytes "....") 0) =
        some (0, none,
          [{ kind := TOK_AT, from_ := some 0, to_ := some 3, line := 1, column := 1 },
           { kind := TOK_DOT, from_ := some 3, to_ := some 4, line := 1, column := 4 },
           token_eof]) ∧
      lexer_outcome 6 (lexer_new (bytes "...") 0) =
        some (0, none,
          [{ kind := TOK_TRIPLEDOT, from_ := some 0, to_ := some 3, line := 1, column := 1 },
           token_eof]) ∧
      TOK_AT = TOK_TRIPLEDOT + 1 := by
  refine ⟨by decide, by decide, by decide⟩
/-! ## Iterations of phase 1 that scan a token of one character, or a number -/

/-- On a byte that none of the sub-scanners takes, the chain of tests of the driver gives
the kind that `token_kind_for_single` has for the byte. -/
theorem lexer_run_scan_single {c : Nat}
    (hc : c ≠ 64 ∧ c ≠ 46 ∧ c ≠ 39 ∧ c ≠ 37 ∧ c ≠ 36 ∧ c ≠ 34 ∧ isdigit c = false)
    (hk : token_kind_for_single [c] 1 ≠ TOK_INVALID) (fuel : Nat)
    (lexer : lexer_t) (mark : token_mark_t) :
    lexer_run_scan fuel lexer mark c token_zero =
      some (token_span (token_kind_for_single [c] 1) mark (lexer_next lexer).2,
        (lexer_next lexer).2) := by
  unfold lexer_run_scan
  generalize token_kind_for_single [c] 1 = kind at hk ⊢
  simp [hc.1, hc.2.1, hc.2.2.1, hc.2.2.2.1, hc.2.2.2.2.1,
    hc.2.2.2.2.2.1, hc.2.2.2.2.2.2, hk, token_zero]

theorem lexer_skip_whitespace_at {lexer : lexer_t} {c : Nat} {rest : List Nat}
    (hcur : cursor_at lexer (c :: rest)) (hc : ¬ is_blank c) (fuel : Nat) :
    lexer_skip_whitespace (fuel + 1) lexer = some lexer :=
  lexer_skip_whitespace_stay lexer fuel (by
    rw [lexer_current_of_cursor hcur]
    exact ⟨fun h => hc (Or.inl h), fun h => hc (Or.inr (Or.inl h)),
      fun h => hc (Or.inr (Or.inr h))⟩)

theorem pair_find_eq_find (a b : token_t) :
    ∀ table : List token_pair_t,
      pair_find table a b =
        ((table.takeWhile fun r => decide (r.left ≠ TOK_INVALID)).find?
          (rule_matches a b)).map fun r => r.kind := by
  intro table
  induction table with
  | nil => rfl
  | cons p table ih =>
    rw [pair_find]
    by_cases hp : p.left ≠ TOK_INVALID
    · rw [if_pos hp, List.takeWhile_cons_of_pos (by simpa using hp)]
      by_cases hm : p.left = a.kind ∧ p.right = b.kind ∧
          ptr_le b.from_ (a.to_.map (· + (p.range : Int))) = true
      · rw [if_pos hm, List.find?_cons_of_pos _ (by simp [rule_matches, hm.1, hm.2.1, hm.2.2])]
        rfl
      · rw [if_neg hm, List.find?_cons_of_neg _ (by
          simp only [rule_matches, Bool.and_eq_true, decide_eq_true_eq]
          tauto)]
        exact ih
    · rw [if_neg hp, List.takeWhile_cons_of_neg (by simpa using hp)]
      rfl

theorem token_fuse_eq_fuse (a b : token_t) (r : token_pair_t) :
    token_fuse a b r.kind = fuse a b r := rfl

theorem ends_at_eof_append (body tail : List token_t) (htail : tail ≠ [])
    (heofs : ∀ t ∈ tail, t.kind = TOK_EOF)
    (hbody : ∀ t ∈ body, t.kind ≠ TOK_EOF) : ends_at_eof (body ++ tail) := by
  induction body with
  | nil =>
    cases tail with
    | nil => exact absurd rfl htail
    | cons a rest =>
      rw [List.nil_append, ends_at_eof, if_pos (heofs a (List.mem_cons_self _ _))]
      exact fun t ht => heofs t (List.mem_cons_of_mem _ ht)
  | cons a body ih =>
    rw [List.cons_append, ends_at_eof, if_neg (hbody a (List.mem_cons_self _ _))]
    exact ih (fun t ht => hbody t (List.mem_cons_of_mem _ ht))

set_option maxRecDepth 100000 in
/-- No rule of `token_pairs` takes an end-of-input token. -/
theorem token_pairs_no_eof :
    ∀ p ∈ token_pairs, p.left ≠ TOK_INVALID → p.left ≠ TOK_EOF ∧ p.right ≠ TOK_EOF := by
  decide

theorem pair_find_eof_left {a b : token_t} (ha : a.kind = TOK_EOF) :
    pair_find token_pairs a b = none := by
  apply pair_find_none_of_kind
  intro p hp hp1 hm
  exact (token_pairs_no_eof p hp hp1).1 (hm.1.trans ha)

theorem find_rule_eof_left {a b : token_t} (ha : a.kind = TOK_EOF) :
    merge_rules.find? (rule_matches a b) = none := by
  have h := pair_find_eq_find a b token_pairs
  rw [pair_find_eof_left ha] at h
  cases hf : merge_rules.find? (rule_matches a b) with
  | none => rfl
  | some r =>
    unfold merge_rules at hf
    rw [hf] at h
    simp at h

/-- The pure merge leaves a list of end-of-input tokens as it is. -/
theorem merge_steps_eofs :
    ∀ (n : Nat) (tokens : List token_t), (∀ t ∈ tokens, t.kind = TOK_EOF) →
      merge_steps n tokens = tokens := by
  intro n
  induction n with
  | zero => intro tokens _; rfl
  | succ n ih =>
    intro tokens h
    match tokens, h with
    | [], _ => rfl
    | [a], _ => rfl
    | a :: b :: rest, h =>
      rw [merge_steps, find_rule_eof_left (h a (List.mem_cons_self _ _))]
      simp only
      rw [ih (b :: rest) (fun t ht => h t (List.mem_cons_of_mem _ ht))]

/-- On a list that holds an end-of-input token, with nothing but end-of-input tokens behind
the first one, the pass of the code computes the pure merge. -/
theorem merge_pass_steps :
    ∀ (fuel : Nat) (tokens : List token_t), ends_at_eof tokens → tokens.length ≤ fuel →
      merge_pass fuel tokens = some (merge_steps fuel tokens) := by
  intro fuel
  induction fuel with
  | zero =>
    intro tokens he hlen
    cases tokens with
    | nil => exact absurd he (by simp [ends_at_eof])
    | cons a rest => simp at hlen
  | succ fuel ih =>
    intro tokens he hlen
    match tokens, he, hlen with
    | [], he, _ => exact absurd he (by simp [ends_at_eof])
    | [a], he, _ =>
      have ha : a.kind = TOK_EOF := by
        rw [ends_at_eof] at he
        by_cases h : a.kind = TOK_EOF
        · exact h
        · rw [if_neg h] at he
          exact absurd he (by simp [ends_at_eof])
      rw [merge_pass, merge_steps, if_neg (by simpa using ha)]
      · intro n x y rest _ h
        simp at h
    | a :: b :: rest, he, hlen =>
      rw [ends_at_eof] at he
      by_cases ha : a.kind = TOK_EOF
      · rw [if_pos ha] at he
        rw [merge_pass, if_neg (by simpa using ha), merge_steps_eofs]
        intro t ht
        rcases List.mem_cons.1 ht with rfl | ht
        · exact ha
        · exact he t ht
      rw [if_neg ha] at he
      rw [merge_pass, merge_steps, if_pos ha]
      have hpf := pair_find_eq_find a b token_pairs
      cases hf : merge_rules.find? (rule_matches a b) with
      | none =>
        have hpf2 : pair_find token_pairs a b = none := by
          rw [hpf]
          unfold merge_rules at hf
          rw [hf]
          rfl
        simp only [hpf2]
        rw [ih (b :: rest) he (by simp at hlen ⊢; omega)]
        rfl
      | some r =>
        have hpf2 : pair_find token_pairs a b = some r.kind := by
          rw [hpf]
          unfold merge_rules at hf
          rw [hf]
          rfl
        simp only [hpf2]
        have hb : b.kind ≠ TOK_EOF := pair_find_right_not_eof hpf2
        have hk : r.kind ≠ TOK_EOF := by
          obtain ⟨p, hp, h1, _, _, h4⟩ := pair_find_some _ hpf2
          rw [← h4]
          exact (token_pairs_kinds p hp h1).2.1
        have he3 : ends_at_eof (fuse a b r :: rest) := by
          rw [ends_at_eof, if_neg hb] at he
          have hk2 : (fuse a b r).kind ≠ TOK_EOF := hk
          rw [ends_at_eof, if_neg hk2]
          exact he
        rw [token_fuse_eq_fuse, ih (fuse a b r :: rest) he3 (by simp at hlen ⊢; omega)]

/-- More steps than the list is long change nothing. -/
theorem merge_steps_enough :
    ∀ (n m : Nat) (tokens : List token_t), tokens.length ≤ n → tokens.length ≤ m →
      merge_steps n tokens = merge_steps m tokens := by
  intro n
  induction n with
  | zero =>
    intro m tokens hn _
    have : tokens = [] := List.length_eq_zero.1 (Nat.le_zero.1 hn)
    subst this
    cases m <;> rfl
  | succ n ih =>
    intro m tokens hn hm
    match tokens, hn, hm with
    | [], _, _ => cases m <;> rfl
    | [a], _, _ =>
      cases m with
      | zero => rfl
      | succ m => rfl
    | a :: b :: rest, hn, hm =>
      obtain ⟨m, rfl⟩ : ∃ k, m = k + 1 := ⟨m - 1, by simp at hm; omega⟩
      rw [merge_steps, merge_steps]
      cases merge_rules.find? (rule_matches a b) with
      | none =>
        simp only
        rw [ih m (b :: rest) (by simp at hn ⊢; omega) (by simp at hm ⊢; omega)]
      | some r =>
        simp only
        rw [ih m (fuse a b r :: rest) (by simp at hn ⊢; omega) (by simp at hm ⊢; omega)]

/-- C19: the in-place merge pass computes the pure left-to-right merge. For every lexer
whose tokens (the entries of the array below the token count) are tokens that are no
end-of-input tokens followed by one end-of-input token or more (the buffer as phase 2 finds
it), phase 2 with fuel of at least the token count returns, and leaves the list
`merge_tokens` of the tokens, with the token count equal to its length and the rest of the
lexer unchanged. And one call of `lexer_merge_tokens` on two neighbours replaces them by
the left token with the `to` of the right one and the new kind, keeps the tokens before and
behind them in their order, and lowers the token count by one. -/
theorem C19_merge_refines_pure_merge (lexer : lexer_t) (body tail : List token_t)
    (hcopy : lexer_copy_tokens lexer = body ++ tail) (htail : tail ≠ [])
    (heofs : ∀ t ∈ tail, t.kind = TOK_EOF) (hbody : ∀ t ∈ body, t.kind ≠ TOK_EOF)
    (hcount : lexer.current.token ≤ lexer.tokens.length)
    (fuel : Nat) (hfuel : lexer.current.token ≤ fuel) :
    (∃ l1, lexer_run_merge fuel lexer 0 = some l1 ∧
        lexer_copy_tokens l1 = merge_tokens (lexer_copy_tokens lexer) ∧
        lexer_get_num_tokens l1 = (merge_tokens (lexer_copy_tokens lexer)).length ∧
        same_scan lexer l1) ∧
      ∀ (pre post : List token_t) (a b : token_t) (kind : token_kind_t),
        lexer_copy_tokens lexer = pre ++ a :: b :: post →
          lexer_copy_tokens (lexer_merge_tokens lexer pre.length (pre.length + 1) kind) =
              pre ++ { kind := kind, from_ := a.from_, to_ := b.to_, line := a.line,
                       column := a.column } :: post ∧
            lexer_get_num_tokens (lexer_merge_tokens lexer pre.length (pre.length + 1) kind)
              + 1 = lexer_get_num_tokens lexer := by
  have hlen := lexer_copy_tokens_length hcount
  have he := ends_at_eof_append body tail htail heofs hbody
  have hpass := merge_pass_steps fuel (body ++ tail) he (by rw [← hcopy, hlen]; exact hfuel)
  rw [merge_steps_enough fuel (body ++ tail).length _ (by rw [← hcopy, hlen]; exact hfuel)
    (Nat.le_refl _)] at hpass
  obtain ⟨l1, hl1, hc1, hn1, hs1⟩ := lexer_run_merge_list fuel lexer [] _ _ hcopy hcount hpass
  simp only [List.nil_append, List.length_nil] at hc1 hl1
  constructor
  · refine ⟨l1, hl1, ?_, ?_, hs1⟩
    · rw [hc1, hcopy]; rfl
    · have e1 := lexer_copy_tokens_length hn1
      rw [hc1] at e1
      rw [hcopy]
      exact e1.symm
  · intro pre post a b kind h
    have := lexer_merge_tokens_copy lexer kind pre post a b h hcount
    exact ⟨this.1, this.2.1⟩

/-- C19 (instance): the tokens `End`, `Function`, end of input of the source
`End Function`. -/
theorem C19_merge_refines_pure_merge_witness :
    (∃ l1, lexer_run_merge 3
          { source := bytes "End Function", sentinel := 0,
            tokens :=
              [{ kind := TOK_END_KW, from_ := some 0, to_ := some 3, line := 1, column := 1 },
               { kind := TOK_FUNCTION_KW, from_ := some 4, to_ := some 12, line := 1,
                 column := 5 },
               token_eof],
            current := { place := 12, line := 1, column := 13, token := 3 },
            error := none } 0 = some l1 ∧
        lexer_copy_tokens l1 =
          [{ kind := TOK_ENDFUNCTION_KW, from_ := some 0, to_ := some 12, line := 1,
             column := 1 },
           token_eof] ∧
        lexer_get_num_tokens l1 = 2 ∧
        same_scan
          { source := bytes "End Function", sentinel := 0,
            tokens :=
              [{ kind := TOK_END_KW, from_ := some 0, to_ := some 3, line := 1, column := 1 },
               { kind := TOK_FUNCTION_KW, from_ := some 4, to_ := some 12, line := 1,
                 column := 5 },
               token_eof],
            current := { place := 12, line := 1, column := 13, token := 3 },
            error := none } l1) :=
  (C19_merge_refines_pure_merge _
    [{ kind := TOK_END_KW, from_ := some 0, to_ := some 3, line := 1, column := 1 },
     { kind := TOK_FUNCTION_KW, from_ := some 4, to_ := some 12, line := 1, column := 5 }]
    [token_eof] (by decide) (by decide) (by decide) (by decide) (by decide) 3 (by decide)).1
/-! ## A block comment that is not closed -/

theorem comment_words_rest_skip {x : Nat} (rest : List Nat)
    (hx : ¬ (x = 95 ∨ isalpha x = true)) :
    comment_words_rest none (x :: rest) = comment_words_rest none rest := by
  simp [comment_words_rest, hx]

theorem comment_words_rest_blanks (ws rest : List Nat) (hws : ∀ x ∈ ws, is_blank x) :
    comment_words_rest none (ws ++ rest) = comment_words_rest none rest := by
  induction ws with
  | nil => rfl
  | cons b ws ih =>
    rw [List.cons_append,
      comment_words_rest_skip _ (is_blank_ne (hws b (List.mem_cons_self _ _))).2.2.2]
    exact ih (fun y hy => hws y (List.mem_cons_of_mem _ hy))

theorem comment_words_rest_from_word (acc w rest : List Nat) (hw : ∀ x ∈ w, is_word_byte x)
    (hrest : ¬ is_word_byte (rest.headD 0)) :
    comment_words_rest (some acc) (w ++ rest) =
      (acc ++ w, rest) :: comment_words_rest none rest := by
  induction w generalizing acc with
  | nil =>
    cases rest with
    | nil => simp [comment_words_rest]
    | cons y r =>
      simp only [List.headD_cons] at hrest
      have hy : ¬ (y = 95 ∨ isalpha y = true) := fun h => hrest (is_word_byte_of_letter h)
      simp [comment_words_rest, hrest, hy]
  | cons x w ih =>
    have hx : is_word_byte x := hw x (List.mem_cons_self _ _)
    have h := ih (acc ++ [x]) (fun y hy => hw y (List.mem_cons_of_mem _ hy))
    rw [List.cons_append, comment_words_rest, if_pos hx, h]
    simp

theorem comment_words_rest_word {c : Nat} (w rest : List Nat) (hc : c = 95 ∨ isalpha c = true)
    (hw : ∀ x ∈ w, is_word_byte x) (hrest : ¬ is_word_byte (rest.headD 0)) :
    comment_words_rest none (c :: (w ++ rest)) =
      (c :: w, rest) :: comment_words_rest none rest := by
  have := comment_words_rest_from_word [c] w rest hw hrest
  simpa [comment_words_rest, hc] using this

theorem take_while_span (p : Nat → Bool) (a b : List Nat) (ha : ∀ x ∈ a, p x = true)
    (hb : b = [] ∨ ∃ y t, b = y :: t ∧ p y = false) : (a ++ b).takeWhile p = a := by
  induction a with
  | nil =>
    rcases hb with rfl | ⟨y, t, rfl, hy⟩
    · rfl
    · simp [List.takeWhile, hy]
  | cons x a ih =>
    rw [List.cons_append, List.takeWhile_cons_of_pos (ha x (List.mem_cons_self _ _)),
      ih (fun y hy => ha y (List.mem_cons_of_mem _ hy))]

theorem front_word_word {c : Nat} (w rest : List Nat) (hc : c = 95 ∨ isalpha c = true)
    (hw : ∀ x ∈ w, is_word_byte x) (hrest : ¬ is_word_byte (rest.headD 0)) :
    front_word (c :: (w ++ rest)) = c :: w := by
  rw [front_word, if_pos hc, take_while_span _ w rest (by simpa using hw)]
  cases rest with
  | nil => exact Or.inl rfl
  | cons y t => exact Or.inr ⟨y, t, rfl, by simpa using hrest⟩

/-- The probe behind an `End` inside a block comment, when the word `Rem` does not
follow: the cursor is left behind the one space that may follow `End`. -/
theorem lexer_run_probe_end (fuel : Nat) {lexer : lexer_t} {rest : List Nat} (cur : Nat)
    (token : token_t) (hcur : cursor_at lexer rest) (hkind : token.kind = TOK_END_KW)
    (hnext : word_kind (front_word (if rest.headD 0 = 32 then rest.tail else rest)) ≠
      TOK_REM_KW)
    (hfuel : rest.length + 1 ≤ fuel) :
    ∃ cur2, lexer_run_probe fuel lexer cur token =
      some (token, cur2, lexer_pass lexer (if rest.headD 0 = 32 then [32] else [])) := by
  have hc0 := lexer_current_of_cursor hcur
  -- the cursor behind the space
  obtain ⟨t, ht, hcur3⟩ : ∃ t, t = (if rest.headD 0 = 32 then rest.tail else rest) ∧
      cursor_at (lexer_pass lexer (if rest.headD 0 = 32 then [32] else [])) t := by
    by_cases h32 : rest.headD 0 = 32
    · rw [if_pos h32, if_pos h32]
      cases rest with
      | nil => simp at h32
      | cons x xs =>
        simp only [List.headD_cons] at h32
        subst h32
        exact ⟨xs, rfl, cursor_at_pass [32] xs hcur⟩
    · rw [if_neg h32, if_neg h32]
      exact ⟨rest, rfl, hcur⟩
  have hl3 : (if lexer_current lexer = 32 then (lexer_next lexer).2 else lexer) =
      lexer_pass lexer (if rest.headD 0 = 32 then [32] else []) := by
    rw [hc0]
    by_cases h32 : rest.headD 0 = 32
    · rw [if_pos h32, if_pos h32]
      cases rest with
      | nil => simp at h32
      | cons x xs =>
        simp only [List.headD_cons] at h32
        subst h32
        rw [lexer_next_pass hcur]
    · rw [if_neg h32, if_neg h32, lexer_pass_nil]
  rw [← ht] at hnext
  have hlen : t.length ≤ rest.length := by
    rw [ht]
    split_ifs
    · simp
    · exact Nat.le_refl _
  generalize lexer_pass lexer (if rest.headD 0 = 32 then [32] else []) = l3 at hcur3 hl3
  have hc3 := lexer_current_of_cursor hcur3
  unfold lexer_run_probe
  simp only [hkind, if_true, hl3, hc3]
  by_cases hl : t.headD 0 = 95 ∨ isalpha (t.headD 0) = true
  · rw [if_pos hl]
    obtain ⟨x, xs, rfl⟩ : ∃ x xs, t = x :: xs := by
      cases t with
      | nil => exact absurd hl (by decide)
      | cons x xs => exact ⟨x, xs, rfl⟩
    simp only [List.headD_cons] at hl
    obtain ⟨w, r, hsplit, hw, hr⟩ := span_split is_word_byte xs
    subst hsplit
    have hrw : ¬ is_word_byte (r.headD 0) := by
      rcases hr with rfl | ⟨y, t2, rfl, hy⟩
      · unfold is_word_byte; decide
      · simpa using hy
    have hread := lexer_read_word_word fuel hcur3 (letter_ne hl).1 hw hrw (by
      simp at hlen; omega)
    have hwk : (if token_kind_for_single (x :: w) (w.length + 1) ≠ TOK_INVALID
        then token_kind_for_single (x :: w) (w.length + 1) else TOK_ID) = word_kind (x :: w) := by
      simp [word_kind]
    rw [hwk] at hread
    rw [front_word_word w r hl hw hrw] at hnext
    rw [hread]
    simp only [Option.some_bind, hnext, if_false]
    exact ⟨x, rfl⟩
  · rw [if_neg hl]
    exact ⟨_, rfl⟩
/-- Inside a block comment an `End` that the word `Rem` does not follow is read and
dropped, with the one space that may follow it. -/
theorem lexer_run_body_comment_end (fuel : Nat) {lexer : lexer_t} {c : Nat}
    {w rest : List Nat} (comment : token_t)
    (hcur : cursor_at lexer (c :: (w ++ rest)))
    (hc : c = 95 ∨ isalpha c = true) (hw : ∀ x ∈ w, is_word_byte x)
    (hrest : ¬ is_word_byte (rest.headD 0)) (hcomment : comment.kind ≠ TOK_INVALID)
    (hkind : word_kind (c :: w) = TOK_END_KW)
    (hnext : word_kind (front_word (if rest.headD 0 = 32 then rest.tail else rest)) ≠
      TOK_REM_KW)
    (he : lexer.error = none) (hfuel : w.length + rest.length + 2 ≤ fuel) :
    lexer_run_body fuel lexer comment =
      some (loop_exit.next_iteration, comment,
        lexer_pass lexer (c :: w ++ (if rest.headD 0 = 32 then [32] else []))) := by
  obtain ⟨f, rfl⟩ : ∃ f, fuel = f + 1 := ⟨fuel - 1, by omega⟩
  have hcne := letter_ne hc
  have hc0 : lexer_current lexer = c := by rw [lexer_current_of_cursor hcur]; rfl
  have hskip := lexer_skip_whitespace_at hcur hcne.2.2 f
  have hread := lexer_read_word_word (f + 1) hcur hcne.1 hw hrest (by omega)
  have hwk : (if token_kind_for_single (c :: w) (w.length + 1) ≠ TOK_INVALID
      then token_kind_for_single (c :: w) (w.length + 1) else TOK_ID) = word_kind (c :: w) := by
    simp [word_kind]
  have hpass : lexer_advance lexer (w.length + 1) = lexer_pass lexer (c :: w) := by
    have := lexer_advance_eq_pass lexer (c :: w) (by
      intro x hx
      rcases List.mem_cons.1 hx with rfl | hx
      · exact hcne.1
      · exact (is_word_byte_ne (hw x hx)).1)
    simpa using this
  rw [hwk, hpass, hkind] at hread
  have hcur2 : cursor_at (lexer_pass lexer (c :: w)) rest :=
    cursor_at_pass (c :: w) rest (by simpa using hcur)
  obtain ⟨cur2, hprobe⟩ := lexer_run_probe_end (f + 1) c
    { kind := TOK_END_KW, from_ := some (lexer.current.place : Int),
      to_ := some ((lexer.current.place + (w.length + 1) : Nat) : Int),
      line := lexer.current.line, column := lexer.current.column }
    hcur2 rfl hnext (by omega)
  rw [lexer_pass_append] at hprobe
  have hep : (lexer_pass lexer (c :: w ++ (if rest.headD 0 = 32 then [32] else []))).error =
      none := he
  rw [lexer_run_body, hskip]
  simp only [Option.some_bind, hc0, hcne.2.1, if_false, hcomment, hc, if_true, hread, ne_eq,
    not_false_eq_true, lexer_run_comment, hprobe,
    show ¬ (TOK_END_KW = TOK_ENDREM_KW) by decide, show ¬ (TOK_END_KW = TOK_INVALID) by decide,
    lexer_run_emit, false_and, and_false, hep, not_true_eq_false]

theorem take_while_end (p : Nat → Bool) (a b : List Nat) {s : Nat} (hs : p s = false) :
    (a ++ s :: b).takeWhile p = a.takeWhile p := by
  induction a with
  | nil => simp [List.takeWhile, hs]
  | cons x a ih =>
    by_cases hx : p x = true
    · rw [List.cons_append, List.takeWhile_cons_of_pos hx, List.takeWhile_cons_of_pos hx, ih]
    · rw [List.cons_append, List.takeWhile_cons_of_neg hx, List.takeWhile_cons_of_neg hx]

/-- The word at the front of some bytes does not depend on what stands behind a byte that
is no letter, digit or `_`. -/
theorem front_word_end {s : Nat} (hs : ¬ is_word_byte s) (a b : List Nat) :
    front_word (a ++ s :: b) = front_word a := by
  cases a with
  | nil =>
    have hl : ¬ (s = 95 ∨ isalpha s = true) := fun h => hs (is_word_byte_of_letter h)
    simp [front_word, hl]
  | cons x a =>
    simp only [List.cons_append, front_word]
    rw [take_while_end _ a b (by simpa using hs)]

/-- A word of a text closes the block comment in front of a separator and the closing
`EndRem` only when it closes the comment in the text alone. -/
theorem closes_comment_end {s : Nat} (hs : ¬ is_word_byte s) (w r : List Nat)
    (h : closes_comment w (r ++ s :: bytes "EndRem")) : closes_comment w r := by
  rcases h with h | ⟨hend, h⟩
  · exact Or.inl h
  · refine Or.inr ⟨hend, ?_⟩
    cases r with
    | nil =>
      exfalso
      have hl : ¬ (s = 95 ∨ isalpha s = true) := fun h => hs (is_word_byte_of_letter h)
      simp only [List.nil_append, List.headD_cons, List.tail_cons] at h
      split_ifs at h
      · revert h; decide
      · rw [front_word, if_neg hl] at h
        revert h; decide
    | cons x xs =>
      simp only [List.cons_append, List.headD_cons, List.tail_cons] at h ⊢
      split_ifs at h ⊢
      · rwa [front_word_end hs] at h
      · rwa [← List.cons_append, front_word_end hs] at h

theorem comment_words_rest_end {sep : Nat} (hsep : ¬ is_word_byte sep) (text : List Nat) :
    ∀ acc, comment_words_rest acc (text ++ [sep]) =
      (comment_words_rest acc text).map fun p => (p.1, p.2 ++ [sep]) := by
  have hl : ¬ (sep = 95 ∨ isalpha sep = true) := fun h => hsep (is_word_byte_of_letter h)
  induction text with
  | nil =>
    intro acc
    cases acc <;> simp [comment_words_rest, hsep, hl]
  | cons x xs ih =>
    intro acc
    cases acc with
    | none =>
      simp only [List.cons_append, comment_words_rest]
      split_ifs <;> exact ih _
    | some w =>
      simp only [List.cons_append, comment_words_rest]
      split_ifs
      · exact ih _
      · show (w, x :: (xs ++ [sep])) :: comment_words_rest none (xs ++ [sep]) = _
        rw [ih none]
        rfl

/-- The scan loop inside a block comment, from any place of its text to the end of the
closing `EndRem`, which ends the source: when the text holds no NUL byte and no word that
closes the comment, and does not end in a byte of a word, the loop is left with the
comment closed at that `EndRem`. -/
theorem lexer_run_scan_loop_comment (fuel : Nat) (comment : token_t)
    (hcomment : comment.kind ≠ TOK_INVALID) :
    ∀ (k : Nat) (rem : List Nat) (lexer : lexer_t) (n : Nat), rem.length ≤ k →
      cursor_at lexer (rem ++ bytes "EndRem") → lexer.error = none →
      (∀ x ∈ rem, x ≠ 0) →
      (∀ p ∈ comment_words_rest none rem, ¬ closes_comment p.1 (p.2 ++ bytes "EndRem")) →
      (∀ init z, rem = init ++ [z] → ¬ is_word_byte z) →
      rem.length + 7 ≤ fuel →
      lexer_run_scan_loop fuel (n + k + 2) lexer comment =
        some (true, comment_closed (lexer_pass lexer rem) comment) := by
  intro k
  induction k with
  | zero =>
    intro rem lexer n hk hcur he _ _ _ hfuel
    have hrem : rem = [] := List.length_eq_zero.1 (Nat.le_zero.1 hk)
    subst hrem
    exact lexer_run_scan_loop_comment_close fuel n comment (by simpa using hcur) hcomment he
      (by simp at hfuel; omega)
  | succ k ih =>
    intro rem lexer n hk hcur he h0 hwords hlast hfuel
    obtain ⟨ws, r, hsplit, hws, hr⟩ := span_split is_blank rem
    subst hsplit
    have hE : (bytes "EndRem").headD 0 = 69 := by decide
    have hE6 : (bytes "EndRem").length = 6 := by decide
    have hrb : ¬ is_blank ((r ++ bytes "EndRem").headD 0) := by
      rcases hr with rfl | ⟨y, t, rfl, hy⟩
      · rw [List.nil_append, hE]; decide
      · simpa using hy
    have hr0 : (r ++ bytes "EndRem").headD 0 ≠ 0 := by
      rcases hr with rfl | ⟨y, t, rfl, hy⟩
      · rw [List.nil_append, hE]; decide
      · simpa using h0 y (by simp)
    have hcur' : cursor_at lexer (ws ++ (r ++ bytes "EndRem")) := by
      simpa [List.append_assoc] using hcur
    have hcur1 : cursor_at (lexer_pass lexer ws) (r ++ bytes "EndRem") :=
      cursor_at_pass ws _ hcur'
    have hskip0 := lexer_skip_whitespace_blanks _ hrb ws lexer fuel hws hcur'
      (by simp at hfuel; omega)
    have hskip1 := lexer_skip_whitespace_blanks _ hrb [] (lexer_pass lexer ws) fuel (by simp)
      hcur1 (by simp; omega)
    rw [lexer_pass_nil] at hskip1
    have hc0 : lexer_current lexer ≠ 0 := by
      rw [lexer_current_of_cursor hcur']
      cases ws with
      | nil => simpa using hr0
      | cons b ws => simpa using h0 b (by simp)
    have hc1 : lexer_current (lexer_pass lexer ws) ≠ 0 := by
      rw [lexer_current_of_cursor hcur1]; exact hr0
    have he1 : (lexer_pass lexer ws).error = none := he
    have hn : n + (k + 1) + 2 = (n + k + 2) + 1 := by omega
    rw [hn, lexer_run_scan_loop_skip _ comment hskip0 hskip1 hc0 hc1]
    have hwords1 : ∀ p ∈ comment_words_rest none r,
        ¬ closes_comment p.1 (p.2 ++ bytes "EndRem") := by
      rw [comment_words_rest_blanks ws r hws] at hwords
      exact hwords
    rcases hr with rfl | ⟨y, t, rfl, hy⟩
    · have := lexer_run_scan_loop_comment_close fuel (n + k + 1) comment
        (by simpa using hcur1) hcomment he1 (by omega)
      simpa [comment_closed] using this
    · have hy0 : y ≠ 0 := h0 y (by simp)
      have hlen : t.length ≤ k := by simp at hk; omega
      by_cases hyl : y = 95 ∨ isalpha y = true
      · obtain ⟨w, r3, hsplit, hw, hr3⟩ := span_split is_word_byte t
        subst hsplit
        rcases hr3 with rfl | ⟨z, t3, rfl, hz⟩
        · exfalso
          obtain ⟨init, z, hiz, _, hzz⟩ := cons_eq_append_last y w
          refine hlast (ws ++ init) z (by simp [hiz]) ?_
          rcases hzz with rfl | hzz
          · exact is_word_byte_of_letter hyl
          · exact hw z hzz
        · have hcur2 :
              cursor_at (lexer_pass lexer ws) (y :: (w ++ (z :: t3 ++ bytes "EndRem"))) := by
            simpa using hcur1
          have hzw : ¬ is_word_byte ((z :: t3 ++ bytes "EndRem").headD 0) := by simpa using hz
          have hcw := comment_words_rest_word w (z :: t3) hyl hw (by simpa using hz)
          have hclose : ¬ closes_comment (y :: w) (z :: t3 ++ bytes "EndRem") :=
            hwords1 (y :: w, z :: t3) (by rw [hcw]; exact List.mem_cons_self _ _)
          have hwords3 : ∀ p ∈ comment_words_rest none (z :: t3),
              ¬ closes_comment p.1 (p.2 ++ bytes "EndRem") :=
            fun p hp => hwords1 p (by rw [hcw]; exact List.mem_cons_of_mem _ hp)
          by_cases hend : word_kind (y :: w) = TOK_END_KW
          · have hb := lexer_run_body_comment_end fuel comment hcur2 hyl hw hzw hcomment hend
              (fun h => hclose (Or.inr ⟨hend, h⟩)) he1 (by simp [hE6] at hfuel ⊢; omega)
            rw [lexer_run_scan_loop_step _ hc1 hb, lexer_pass_append]
            by_cases h32 : z = 32
            · subst h32
              simp only [List.cons_append, List.headD_cons, if_true]
              have hcur3 : cursor_at (lexer_pass lexer (ws ++ (y :: (w ++ [32]))))
                  (t3 ++ bytes "EndRem") :=
                cursor_at_pass _ _ (by simpa using hcur)
              have := ih t3 (lexer_pass lexer (ws ++ (y :: (w ++ [32])))) n
                (by simp at hlen ⊢; omega) hcur3 he
                (fun x hx => h0 x (by simp at hx ⊢; tauto))
                (fun p hp => hwords3 p (by
                  rw [comment_words_rest_skip _ (by decide)]
                  exact hp))
                (fun init u hu => hlast (ws ++ y :: w ++ 32 :: init) u (by simp [hu]))
                (by simp at hfuel ⊢; omega)
              rw [this, lexer_pass_append]
              simp
            · simp only [List.cons_append, List.headD_cons, h32, if_false, List.append_nil]
              have hcur3 : cursor_at (lexer_pass lexer (ws ++ y :: w))
                  (z :: t3 ++ bytes "EndRem") :=
                cursor_at_pass _ _ (by simpa using hcur)
              have := ih (z :: t3) (lexer_pass lexer (ws ++ y :: w)) n
                (by simp at hlen ⊢; omega) hcur3 he
                (fun x hx => h0 x (by simp at hx ⊢; tauto)) hwords3
                (fun init u hu => hlast (ws ++ y :: w ++ init) u (by simp [hu]))
                (by simp at hfuel ⊢; omega)
              rw [this, lexer_pass_append]
              simp
          · have hb := lexer_run_body_comment_word fuel comment hcur2 hyl hw hzw
              hcomment ⟨hend, fun h => hclose (Or.inl h)⟩ he1
              (by simp at hfuel; omega)
            rw [lexer_run_scan_loop_step _ hc1 hb, lexer_pass_append]
            have hcur3 : cursor_at (lexer_pass lexer (ws ++ y :: w))
                (z :: t3 ++ bytes "EndRem") :=
              cursor_at_pass _ _ (by simpa using hcur)
            have := ih (z :: t3) (lexer_pass lexer (ws ++ y :: w)) n
              (by simp at hlen ⊢; omega) hcur3 he
              (fun x hx => h0 x (by simp at hx ⊢; tauto)) hwords3
              (fun init u hu => hlast (ws ++ y :: w ++ init) u (by simp [hu]))
              (by simp at hfuel ⊢; omega)
            rw [this, lexer_pass_append]
            simp
      · obtain ⟨ws2, r2, hsplit, hws2, hr2⟩ := span_split is_blank t
        subst hsplit
        have hr2b : ¬ is_blank ((r2 ++ bytes "EndRem").headD 0) := by
          rcases hr2 with rfl | ⟨u, t2, rfl, hu⟩
          · rw [List.nil_append, hE]; decide
          · simpa using hu
        have hcur2 :
            cursor_at (lexer_pass lexer ws) (y :: (ws2 ++ (r2 ++ bytes "EndRem"))) := by
          simpa using hcur1
        have hb := lexer_run_body_comment_byte fuel comment hcur2 hyl hy0 hy hws2 hr2b
          hcomment he1 (by simp at hfuel; omega)
        rw [lexer_run_scan_loop_step _ hc1 hb, lexer_pass_append]
        have hcur3 : cursor_at (lexer_pass lexer (ws ++ y :: ws2)) (r2 ++ bytes "EndRem") :=
          cursor_at_pass _ _ (by simpa using hcur)
        have hcw : comment_words_rest none (y :: (ws2 ++ r2)) = comment_words_rest none r2 := by
          rw [comment_words_rest_skip _ hyl, comment_words_rest_blanks ws2 r2 hws2]
        have := ih r2 (lexer_pass lexer (ws ++ y :: ws2)) n (by simp at hlen ⊢; omega)
          hcur3 he (fun x hx => h0 x (by simp at hx ⊢; tauto))
          (fun v hv => hwords1 v (by rw [hcw]; exact hv))
          (fun init u hu => hlast (ws ++ y :: ws2 ++ init) u (by simp [hu]))
          (by simp at hfuel ⊢; omega)
        rw [this, lexer_pass_append]
        simp

/-- The scan loop over `Rem`, a separator, a text, a separator and `EndRem`. -/
theorem lexer_run_scan_loop_rem (sep1 sep2 : Nat) (text : List Nat)
    (hsep1 : sep1 ≠ 0 ∧ ¬ is_word_byte sep1) (hsep2 : sep2 ≠ 0 ∧ ¬ is_word_byte sep2)
    (htext : ∀ x ∈ text, x ≠ 0)
    (hwords : ∀ p ∈ comment_words_rest none text, ¬ closes_comment p.1 p.2)
    (fuel : Nat) (hfuel : text.length + 13 ≤ fuel) :
    lexer_run_scan_loop fuel fuel
        (lexer_new (bytes "Rem" ++ sep1 :: (text ++ sep2 :: bytes "EndRem")) 0) token_zero =
      some (true,
        comment_closed
          (lexer_pass
            (lexer_push_token
              (lexer_advance
                (lexer_new (bytes "Rem" ++ sep1 :: (text ++ sep2 :: bytes "EndRem")) 0) 3)
              { kind := TOK_REM_KW, from_ := some 0, to_ := some 3, line := 1, column := 1 })
            (sep1 :: (text ++ [sep2])))
          { kind := TOK_REM_KW, from_ := some 0, to_ := some 3, line := 1, column := 1 }) := by
  have hs : bytes "Rem" ++ sep1 :: (text ++ sep2 :: bytes "EndRem") =
      List.replicate 0 32 ++ 82 :: ([101, 109] ++ (sep1 :: (text ++ [sep2]) ++ bytes "EndRem")) := by
    have h1 : bytes "Rem" = [82, 101, 109] := by decide
    rw [h1]
    simp
  generalize hl0 : lexer_new (bytes "Rem" ++ sep1 :: (text ++ sep2 :: bytes "EndRem")) 0 = l0
  have hcur0 : cursor_at l0 (List.replicate 0 32 ++ 82 :: ([101, 109] ++
      (sep1 :: (text ++ [sep2]) ++ bytes "EndRem"))) := by
    rw [← hl0, ← hs]; exact cursor_at_new _
  have hp0 : l0.current = { place := 0, line := 1, column := 1, token := 0 } := by
    rw [← hl0]; rfl
  have he0 : l0.error = none := by rw [← hl0]; rfl
  have hem : ∀ x ∈ [101, 109], is_word_byte x := by
    unfold is_word_byte; decide
  have hk1 : word_kind (82 :: [101, 109]) = TOK_REM_KW := by decide
  have hb1 := lexer_run_body_word fuel hcur0 (Or.inl (by decide)) hem
    (by simpa using hsep1.2) he0 (by simp; omega)
  rw [hk1] at hb1
  simp only [if_true, hp0] at hb1
  have hc0 : lexer_current l0 ≠ 0 := by
    rw [lexer_current_of_cursor hcur0]; simp
  have hcur1 : cursor_at (lexer_push_token (lexer_advance l0 3)
      { kind := TOK_REM_KW, from_ := some 0, to_ := some 3, line := 1, column := 1 })
      (sep1 :: (text ++ [sep2]) ++ bytes "EndRem") := by
    apply cursor_at_push_token
    have := cursor_at_advance_append [82, 101, 109]
      (sep1 :: (text ++ [sep2]) ++ bytes "EndRem") (by simpa using hcur0)
    simpa using this
  have hwords1 : ∀ p ∈ comment_words_rest none (sep1 :: (text ++ [sep2])),
      ¬ closes_comment p.1 (p.2 ++ bytes "EndRem") := by
    rw [comment_words_rest_skip _ (fun h => hsep1.2 (is_word_byte_of_letter h)),
      comment_words_rest_end hsep2.2]
    intro p hp hclose
    obtain ⟨q, hq, rfl⟩ := List.mem_map.1 hp
    refine hwords q hq (closes_comment_end hsep2.2 q.1 q.2 ?_)
    simpa using hclose
  have hlast : ∀ init z, sep1 :: (text ++ [sep2]) = init ++ [z] → ¬ is_word_byte z := by
    intro init z h
    have h2 : (sep1 :: text) ++ [sep2] = init ++ [z] := by simpa using h
    have h3 := (List.append_inj' h2 rfl).2
    simp only [List.cons.injEq, and_true] at h3
    rw [← h3]
    exact hsep2.2
  obtain ⟨n, rfl⟩ : ∃ n, fuel = (n + (text.length + 2) + 2) + 1 :=
    ⟨fuel - (text.length + 5), by omega⟩
  have hloop := lexer_run_scan_loop_comment (n + (text.length + 2) + 2 + 1)
    { kind := TOK_REM_KW, from_ := some 0, to_ := some 3, line := 1, column := 1 }
    (by decide) (text.length + 2) (sep1 :: (text ++ [sep2])) _ n (by simp) hcur1
    (by simp [lexer_push_token, lexer_new_token, lexer_advance, he0])
    (by
      intro x hx
      simp only [List.mem_cons, List.mem_append, List.mem_singleton, List.not_mem_nil,
        or_false] at hx
      rcases hx with rfl | hx | rfl
      · exact hsep1.1
      · exact htext x hx
      · exact hsep2.1)
    hwords1 hlast (by simp; omega)
  rw [lexer_run_scan_loop_step _ hc0 (by simpa using hb1)]
  exact hloop

/-- C8 (amended): block comment recognition. For every source of the form `Rem`, one
separator byte, a text, one separator byte, `EndRem`, in which each separator is neither NUL
nor a letter, digit or `_`, and the text holds no NUL byte and no word that closes the
comment (no word of the text is `EndRem`, and no word `End` of the text is followed, after
at most one space, by the word `Rem`), `lexer_run` returns `0` with no error whatever else
the text contains, with any fuel from the length of the source plus two on. The tokens are
`Rem`, one block-comment token, `EndRem` and the end-of-input token; the block comment
carries the line and column of `Rem`, and it spans exactly the text: from one byte behind
the end of `Rem` to one byte before the start of `EndRem`, the two separators left out. -/
theorem C8_block_comment (sep1 sep2 : Nat) (text : List Nat)
    (hsep1 : sep1 ≠ 0 ∧ ¬ is_word_byte sep1) (hsep2 : sep2 ≠ 0 ∧ ¬ is_word_byte sep2)
    (htext : ∀ x ∈ text, x ≠ 0)
    (hwords : ∀ p ∈ comment_words_rest none text, ¬ closes_comment p.1 p.2)
    (fuel : Nat) (hfuel : text.length + 13 ≤ fuel) :
    lexer_outcome fuel
        (lexer_new (bytes "Rem" ++ sep1 :: (text ++ sep2 :: bytes "EndRem")) 0) =
      some (0, none,
        [{ kind := TOK_REM_KW, from_ := some 0, to_ := some 3, line := 1, column := 1 },
         { kind := TOK_BLOCK_COMMENT, from_ := some 4,
           to_ := some ((text.length + 4 : Nat) : Int), line := 1, column := 1 },
         { kind := TOK_ENDREM_KW, from_ := some ((text.length + 5 : Nat) : Int),
           to_ := some ((text.length + 11 : Nat) : Int),
           line := (position_after (1, 4) (sep1 :: (text ++ [sep2]))).1,
           column := (position_after (1, 4) (sep1 :: (text ++ [sep2]))).2 },
         token_eof]) ∧
      token_bytes (bytes "Rem" ++ sep1 :: (text ++ sep2 :: bytes "EndRem"))
        { kind := TOK_BLOCK_COMMENT, from_ := some 4,
          to_ := some ((text.length + 4 : Nat) : Int), line := 1, column := 1 } = text := by
  constructor
  · have hloop := lexer_run_scan_loop_rem sep1 sep2 text hsep1 hsep2 htext hwords fuel hfuel
    have ht : (comment_closed
        (lexer_pass
          (lexer_push_token
            (lexer_advance
              (lexer_new (bytes "Rem" ++ sep1 :: (text ++ sep2 :: bytes "EndRem")) 0) 3)
            { kind := TOK_REM_KW, from_ := some 0, to_ := some 3, line := 1, column := 1 })
          (sep1 :: (text ++ [sep2])))
        { kind := TOK_REM_KW, from_ := some 0, to_ := some 3, line := 1, column := 1 }).tokens =
        [{ kind := TOK_REM_KW, from_ := some 0, to_ := some 3, line := 1, column := 1 },
         { kind := TOK_BLOCK_COMMENT, from_ := some 4,
           to_ := some ((text.length + 4 : Nat) : Int), line := 1, column := 1 },
         { kind := TOK_ENDREM_KW, from_ := some ((text.length + 5 : Nat) : Int),
           to_ := some ((text.length + 11 : Nat) : Int),
           line := (position_after (1, 4) (sep1 :: (text ++ [sep2]))).1,
           column := (position_after (1, 4) (sep1 :: (text ++ [sep2]))).2 }] := by
      simp [comment_closed, lexer_push_token, lexer_new_token, lexer_pass, lexer_advance,
        lexer_new, tokens_write]
      omega
    refine lexer_outcome_of_scan rfl hloop ?_ ?_ ?_
    · rw [ht]
      simp [comment_closed, lexer_push_token, lexer_new_token, lexer_pass, lexer_advance,
        lexer_new]
    · simp [comment_closed, lexer_push_token, lexer_new_token, lexer_pass, lexer_advance,
        lexer_new]
    · rw [ht]
      obtain ⟨f, rfl⟩ : ∃ f, fuel = f + 4 := ⟨fuel - 4, by omega⟩
      simp [merge_pass, pair_find, token_pairs, ptr_le, token_eof]
  · have h1 : bytes "Rem" = [82, 101, 109] := by decide
    simp [token_bytes, h1]

/-- C8 (instance): the source `Rem`, newline, `anything "unterminated string`, newline,
`EndRem`: the block comment spans the 29 bytes of the text, from offset 4 to offset 33, and
`EndRem` stands on line 3. And the source `Rem`, newline, `The End of it`, newline,
`EndRem`, whose text holds a word `End` that does not close the comment: the block comment
spans the 13 bytes of the text, from offset 4 to offset 17. -/
theorem C8_block_comment_witness :
    (lexer_outcome 42
        (lexer_new (bytes "Rem" ++ 10 :: (bytes "anything \"unterminated string" ++
          10 :: bytes "EndRem")) 0) =
      some (0, none,
        [{ kind := TOK_REM_KW, from_ := some 0, to_ := some 3, line := 1, column := 1 },
         { kind := TOK_BLOCK_COMMENT, from_ := some 4, to_ := some 33, line := 1, column := 1 },
         { kind := TOK_ENDREM_KW, from_ := some 34, to_ := some 40, line := 3, column := 1 },
         token_eof]) ∧
      token_bytes (bytes "Rem" ++ 10 :: (bytes "anything \"unterminated string" ++
          10 :: bytes "EndRem"))
        { kind := TOK_BLOCK_COMMENT, from_ := some 4, to_ := some 33, line := 1, column := 1 } =
        bytes "anything \"unterminated string") ∧
    (lexer_outcome 26
        (lexer_new (bytes "Rem" ++ 10 :: (bytes "The End of it" ++ 10 :: bytes "EndRem")) 0) =
      some (0, none,
        [{ kind := TOK_REM_KW, from_ := some 0, to_ := some 3, line := 1, column := 1 },
         { kind := TOK_BLOCK_COMMENT, from_ := some 4, to_ := some 17, line := 1, column := 1 },
         { kind := TOK_ENDREM_KW, from_ := some 18, to_ := some 24, line := 3, column := 1 },
         token_eof]) ∧
      token_bytes (bytes "Rem" ++ 10 :: (bytes "The End of it" ++ 10 :: bytes "EndRem"))
        { kind := TOK_BLOCK_COMMENT, from_ := some 4, to_ := some 17, line := 1, column := 1 } =
        bytes "The End of it") :=
  ⟨C8_block_comment 10 10 (bytes "anything \"unterminated string") (by decide) (by decide)
      (by decide) (by decide) 42 (by decide),
    C8_block_comment 10 10 (bytes "The End of it") (by decide) (by decide)
      (by decide) (by decide) 26 (by decide)⟩

/-- C8 (counterexample): four sources of the form `Rem`, a body, `EndRem`. On `Rem`,
newline, `EndRem "`, newline, `EndRem` the comment is closed by the first `EndRem`, and the
quote behind it makes `lexer_run` return `1` with the error of a string that meets a
newline. On `Rem`, newline, `End Rem "`, newline, `EndRem` the same happens at `End Rem`,
which closes the comment as `EndRem` does. On `Rem`, newline, `abcEndRem` the body ends in
a letter, `abcEndRem` is read as one word, and `lexer_run` returns `0` with the tokens
`Rem` and end of input: no block comment. On `Rem`, newline, a NUL byte, newline, `EndRem`
the scan stops at the NUL byte, and the tokens are again `Rem` and end of input. -/
theorem C8_block_comment_counterexample :
    lexer_outcome 21 (lexer_new (bytes "Rem\nEndRem \"\nEndRem") 0) =
        some (1,
          some { format := "[%d:%d] String literal does not terminate before newline or EOF\n",
                 args := [2, 9] },
          [{ kind := TOK_REM_KW, from_ := some 0, to_ := some 3, line := 1, column := 1 },
           { kind := TOK_BLOCK_COMMENT, from_ := some 4, to_ := some 3, line := 1, column := 1 },
           { kind := TOK_ENDREM_KW, from_ := some 4, to_ := some 10, line := 2,
             column := 1 }]) ∧
      lexer_outcome 22 (lexer_new (bytes "Rem\nEnd Rem \"\nEndRem") 0) =
        some (1,
          some { format := "[%d:%d] String literal does not terminate before newline or EOF\n",
                 args := [2, 10] },
          [{ kind := TOK_REM_KW, from_ := some 0, to_ := some 3, line := 1, column := 1 },
           { kind := TOK_BLOCK_COMMENT, from_ := some 4, to_ := some 3, line := 1, column := 1 },
           { kind := TOK_ENDREM_KW, from_ := some 4, to_ := some 11, line := 2,
             column := 1 }]) ∧
      lexer_outcome 15 (lexer_new (bytes "Rem\nabcEndRem") 0) =
        some (0, none,
          [{ kind := TOK_REM_KW, from_ := some 0, to_ := some 3, line := 1, column := 1 },
           token_eof]) ∧
      lexer_outcome 14 (lexer_new (bytes "Rem" ++ 10 :: 0 :: 10 :: bytes "EndRem") 0) =
        some (0, none,
          [{ kind := TOK_REM_KW, from_ := some 0, to_ := some 3, line := 1, column := 1 },
           token_eof]) := by
  refine ⟨?_, ?_, ?_, ?_⟩ <;> decide
/-! ## The cursor only moves forward -/

theorem moved_refl (l : lexer_t) : moved l l :=
  ⟨rfl, rfl, rfl, rfl, Nat.le_refl _, id, id⟩

theorem moved_trans {l1 l2 l3 : lexer_t} (h1 : moved l1 l2) (h2 : moved l2 l3) :
    moved l1 l3 :=
  ⟨h2.1.trans h1.1, h2.2.1.trans h1.2.1, h2.2.2.1.trans h1.2.2.1,
    h2.2.2.2.1.trans h1.2.2.2.1, Nat.le_trans h1.2.2.2.2.1 h2.2.2.2.2.1,
    fun h => h2.2.2.2.2.2.1 (h1.2.2.2.2.2.1 h), fun h => h2.2.2.2.2.2.2 (h1.2.2.2.2.2.2 h)⟩

theorem lexer_next_moved (l : lexer_t) : moved l (lexer_next l).2 := by
  unfold lexer_next
  simp only [lexer_has_next]
  split_ifs <;> simp [moved]

theorem lexer_asprintf_moved (l : lexer_t) (format : String) (args : List Nat) :
    moved l (lexer_asprintf l format args) :=
  ⟨rfl, rfl, rfl, rfl, Nat.le_refl _, id, id⟩

theorem lexer_skip_whitespace_moved :
    ∀ (fuel : Nat) (l l1 : lexer_t), lexer_skip_whitespace fuel l = some l1 → moved l l1 := by
  intro fuel
  induction fuel with
  | zero => intro l l1 h; simp [lexer_skip_whitespace] at h
  | succ fuel ih =>
    intro l l1 h
    rw [lexer_skip_whitespace] at h
    split_ifs at h
    · exact moved_trans (lexer_next_moved l) (ih _ _ h)
    · simp only [Option.some.injEq] at h
      subst h
      exact moved_refl _

theorem lexer_read_base_number_bin_moved :
    ∀ (fuel : Nat) (l l1 : lexer_t) (cur : Nat),
      lexer_read_base_number_bin fuel l cur = some l1 → moved l l1 := by
  intro fuel
  induction fuel with
  | zero => intro l l1 cur h; simp [lexer_read_base_number_bin] at h
  | succ fuel ih =>
    intro l l1 cur h
    rw [lexer_read_base_number_bin] at h
    dsimp only at h
    split_ifs at h
    · exact moved_trans (lexer_next_moved l) (ih _ _ _ h)
    · simp only [Option.some.injEq] at h
      subst h
      exact lexer_next_moved l
    · exact ih _ _ _ h
    · simp only [Option.some.injEq] at h
      subst h
      exact moved_refl _

theorem lexer_read_base_number_hex_moved :
    ∀ (fuel : Nat) (l l1 : lexer_t),
      lexer_read_base_number_hex fuel l = some l1 → moved l l1 := by
  intro fuel
  induction fuel with
  | zero => intro l l1 h; simp [lexer_read_base_number_hex] at h
  | succ fuel ih =>
    intro l l1 h
    rw [lexer_read_base_number_hex] at h
    dsimp only at h
    split_ifs at h
    · exact moved_trans (lexer_next_moved l) (ih _ _ h)
    · simp only [Option.some.injEq] at h
      subst h
      exact lexer_next_moved l
    · simp only [Option.some.injEq] at h
      subst h
      exact moved_refl _

theorem lexer_read_number_loop_moved :
    ∀ (fuel : Nat) (l : lexer_t) (isDec isExp : Bool) (r : Bool × lexer_t),
      lexer_read_number_loop fuel l isDec isExp = some r → moved l r.2 := by
  intro fuel
  induction fuel with
  | zero => intro l isDec isExp r h; simp [lexer_read_number_loop] at h
  | succ fuel ih =>
    intro l isDec isExp r h
    rw [lexer_read_number_loop] at h
    dsimp only at h
    have hn := lexer_next_moved l
    have hnn := lexer_next_moved (lexer_next l).2
    by_cases h1 : lexer_has_next l = true
    · rw [if_pos h1] at h
      by_cases h2 : (lexer_next l).1 ≠ 0
      · rw [if_pos h2] at h
        by_cases h3 : (lexer_next l).1 = 46
        · rw [if_pos h3] at h
          by_cases hd : isDec = true
          · rw [if_pos hd] at h
            simp only [Option.some.injEq] at h
            subst h
            exact hn
          · rw [if_neg hd] at h
            exact moved_trans hn (ih _ _ _ _ h)
        · rw [if_neg h3] at h
          by_cases h4 : isdigit (lexer_next l).1 = true
          · rw [if_pos h4] at h
            exact moved_trans hn (ih _ _ _ _ h)
          · rw [if_neg h4] at h
            by_cases h5 : tolower (lexer_next l).1 = 101
            · rw [if_pos h5] at h
              by_cases h6 : isExp = true
              · rw [if_pos h6] at h
                simp only [Option.some.injEq] at h
                subst h
                exact moved_trans hn (lexer_asprintf_moved _ _ _)
              · rw [if_neg h6] at h
                by_cases hs : lexer_peek (lexer_next l).2 = 45 ∨ lexer_peek (lexer_next l).2 = 43
                · simp only [hs, decide_True, if_true] at h
                  split_ifs at h
                  · simp only [Option.some.injEq] at h
                    subst h
                    exact moved_trans hn (moved_trans hnn (lexer_asprintf_moved _ _ _))
                  · exact moved_trans hn (moved_trans hnn (ih _ _ _ _ h))
                · simp only [hs, decide_False, if_false, Bool.false_eq_true] at h
                  split_ifs at h
                  · simp only [Option.some.injEq] at h
                    subst h
                    exact moved_trans hn (lexer_asprintf_moved _ _ _)
                  · exact moved_trans hn (ih _ _ _ _ h)
            · rw [if_neg h5] at h
              simp only [Option.some.injEq] at h
              subst h
              exact hn
      · rw [if_neg h2] at h
        simp only [Option.some.injEq] at h
        subst h
        exact hn
    · rw [if_neg h1] at h
      simp only [Option.some.injEq] at h
      subst h
      exact moved_refl _

theorem lexer_read_word_loop_moved :
    ∀ (fuel : Nat) (l l1 : lexer_t), lexer_read_word_loop fuel l = some l1 → moved l l1 := by
  intro fuel
  induction fuel with
  | zero => intro l l1 h; simp [lexer_read_word_loop] at h
  | succ fuel ih =>
    intro l l1 h
    rw [lexer_read_word_loop] at h
    dsimp only at h
    split_ifs at h
    · simp only [Option.some.injEq] at h
      subst h
      exact moved_refl _
    · exact moved_trans (lexer_next_moved l) (ih _ _ h)
    · simp only [Option.some.injEq] at h
      subst h
      exact moved_refl _

theorem lexer_read_string_loop_moved :
    ∀ (fuel : Nat) (l : lexer_t) (r : Bool × lexer_t),
      lexer_read_string_loop fuel l = some r → moved l r.2 := by
  intro fuel
  induction fuel with
  | zero => intro l r h; simp [lexer_read_string_loop] at h
  | succ fuel ih =>
    intro l r h
    rw [lexer_read_string_loop] at h
    dsimp only at h
    have hn := lexer_next_moved l
    split_ifs at h
    · simp only [Option.some.injEq] at h
      subst h
      exact moved_trans hn (lexer_asprintf_moved _ _ _)
    · exact moved_trans hn (ih _ _ h)
    · simp only [Option.some.injEq] at h
      subst h
      exact hn
    · simp only [Option.some.injEq] at h
      subst h
      exact moved_refl _

theorem lexer_read_line_comment_loop_moved :
    ∀ (fuel : Nat) (l l1 : lexer_t),
      lexer_read_line_comment_loop fuel l = some l1 → moved l l1 := by
  intro fuel
  induction fuel with
  | zero => intro l l1 h; simp [lexer_read_line_comment_loop] at h
  | succ fuel ih =>
    intro l l1 h
    rw [lexer_read_line_comment_loop] at h
    split_ifs at h
    · exact moved_trans (lexer_next_moved l) (ih _ _ h)
    · simp only [Option.some.injEq] at h
      subst h
      exact lexer_next_moved l

theorem lexer_run_dots_moved :
    ∀ (fuel : Nat) (l : lexer_t) (kind : token_kind_t) (r : token_kind_t × lexer_t),
      lexer_run_dots fuel l kind = some r → TOK_DOT ≤ kind → kind ≤ TOK_AT →
        moved l r.2 ∧ TOK_DOT ≤ r.1 ∧ r.1 ≤ TOK_AT := by
  intro fuel
  induction fuel with
  | zero => intro l kind r h; simp [lexer_run_dots] at h
  | succ fuel ih =>
    intro l kind r h hk hk2
    rw [lexer_run_dots] at h
    dsimp only at h
    split_ifs at h with h1 h2
    · obtain ⟨hm, h3, h4⟩ := ih _ _ _ h (Nat.le_succ_of_le hk)
        (Nat.succ_le_of_lt (Nat.lt_of_le_of_lt h1 (by decide)))
      exact ⟨moved_trans (lexer_next_moved l) hm, h3, h4⟩
    · simp only [Option.some.injEq] at h
      subst h
      exact ⟨lexer_next_moved l, hk, hk2⟩
    · simp only [Option.some.injEq] at h
      subst h
      exact ⟨moved_refl _, hk, hk2⟩
/-! ## What the sub-scanners return -/

theorem scan_ok_of_moved {l l1 : lexer_t} {s : token_t × lexer_t} (h1 : moved l l1)
    (h2 : scan_ok l1 s) : scan_ok l s := by
  refine ⟨moved_trans h1 h2.1, ?_⟩
  rcases h2.2 with h | ⟨hk, hl, hc, a, b, ha, hb, h3, h4, h5⟩
  · exact Or.inl h
  · exact Or.inr ⟨hk, fun h => hl (h1.2.2.2.2.2.1 h), fun h => hc (h1.2.2.2.2.2.2 h), a, b, ha,
      hb, Nat.le_trans h1.2.2.2.2.1 h3, h4, h5⟩

theorem token_kind_for_single_from_ne_eof (single : List Nat) (len : Nat) :
    ∀ table : List token_single_t, (∀ e ∈ table, e.kind ≠ TOK_EOF) →
      token_kind_for_single_from table single len ≠ TOK_EOF := by
  intro table
  induction table with
  | nil =>
    intro _
    rw [token_kind_for_single_from]
    decide
  | cons e table ih =>
    intro h
    rw [token_kind_for_single_from]
    dsimp only
    split_ifs
    · exact h e (List.mem_cons_self _ _)
    · exact ih (fun x hx => h x (List.mem_cons_of_mem _ hx))
    · exact h e (List.mem_cons_self _ _)
    · exact ih (fun x hx => h x (List.mem_cons_of_mem _ hx))
    · exact h e (List.mem_cons_self _ _)

set_option maxRecDepth 100000 in
theorem token_singles_ne_eof : ∀ e ∈ token_singles, e.kind ≠ TOK_EOF := by decide

theorem token_kind_for_single_ne_eof (single : List Nat) (len : Nat) :
    token_kind_for_single single len ≠ TOK_EOF :=
  token_kind_for_single_from_ne_eof single len token_singles token_singles_ne_eof

theorem lexer_read_base_number_ok (fuel : Nat) (l : lexer_t) (r : token_t × lexer_t)
    (h : lexer_read_base_number fuel l = some r) : scan_ok l r := by
  rw [lexer_read_base_number] at h
  dsimp only at h
  split_ifs at h with h1 h2
  · cases hb : lexer_read_base_number_bin fuel l (lexer_current l) with
    | none => simp [hb] at h
    | some l1 =>
      simp only [hb, Option.some_bind, Option.some.injEq] at h
      subst h
      have hm := lexer_read_base_number_bin_moved _ _ _ _ hb
      have hn := lexer_next_moved l1
      refine ⟨moved_trans hm hn, Or.inr ⟨by simp [token_at], ?_, ?_, l.current.place,
        (lexer_next l1).2.current.place, ?_, rfl, Nat.le_refl _, ?_, Nat.le_refl _⟩⟩
      · intro h; simpa [token_at, lexer_mark] using h
      · intro h; simpa [token_at, lexer_mark] using h
      · simp [token_at, lexer_mark]
      · exact Nat.le_trans hm.2.2.2.2.1 hn.2.2.2.2.1
  · cases hb : lexer_read_base_number_hex fuel l with
    | none => simp [hb] at h
    | some l1 =>
      simp only [hb, Option.some_bind, Option.some.injEq] at h
      subst h
      have hm := lexer_read_base_number_hex_moved _ _ _ hb
      have hn := lexer_next_moved l1
      refine ⟨moved_trans hm hn, Or.inr ⟨by simp [token_at], ?_, ?_, l.current.place,
        (lexer_next l1).2.current.place, ?_, rfl, Nat.le_refl _, ?_, Nat.le_refl _⟩⟩
      · intro h; simpa [token_at, lexer_mark] using h
      · intro h; simpa [token_at, lexer_mark] using h
      · simp [token_at, lexer_mark]
      · exact Nat.le_trans hm.2.2.2.2.1 hn.2.2.2.2.1
  · simp only [Option.some.injEq] at h
    subst h
    exact ⟨lexer_asprintf_moved _ _ _, Or.inl rfl⟩

theorem lexer_read_number_ok (fuel : Nat) (l : lexer_t) (r : token_t × lexer_t)
    (h : lexer_read_number fuel l = some r) : scan_ok l r := by
  rw [lexer_read_number] at h
  cases hb : lexer_read_number_loop fuel l (decide (lexer_current l = 46)) false with
  | none => simp [hb] at h
  | some q =>
    simp only [hb, Option.map_some', Option.some.injEq] at h
    have hm := lexer_read_number_loop_moved _ _ _ _ _ hb
    split_ifs at h
    · subst h
      refine ⟨hm, Or.inr ⟨by simp [token_at], ?_, ?_, l.current.place,
        q.2.current.place, ?_, rfl, Nat.le_refl _, hm.2.2.2.2.1, Nat.le_refl _⟩⟩
      · intro h; simpa [token_at, lexer_mark] using h
      · intro h; simpa [token_at, lexer_mark] using h
      · simp [token_at, lexer_mark]
    · subst h
      exact ⟨hm, Or.inl rfl⟩

theorem lexer_read_string_ok (fuel : Nat) (l : lexer_t) (r : token_t × lexer_t)
    (h : lexer_read_string fuel l = some r) : scan_ok l r := by
  rw [lexer_read_string] at h
  dsimp only at h
  cases hb : lexer_read_string_loop fuel l with
  | none => simp [hb] at h
  | some q =>
    simp only [hb, Option.map_some', Option.some.injEq] at h
    have hm := lexer_read_string_loop_moved _ _ _ hb
    have hn := lexer_next_moved q.2
    split_ifs at h
    · subst h
      refine ⟨moved_trans hm hn, Or.inr ⟨by simp [token_at], ?_, ?_, l.current.place,
        (lexer_next q.2).2.current.place, ?_, rfl, Nat.le_refl _, ?_, Nat.le_refl _⟩⟩
      · intro h; simpa [token_at, lexer_mark] using h
      · intro h; simpa [token_at, lexer_mark] using h
      · simp [token_at, lexer_mark]
      · exact Nat.le_trans hm.2.2.2.2.1 hn.2.2.2.2.1
    · subst h
      exact ⟨hm, Or.inl rfl⟩

theorem lexer_read_line_comment_ok (fuel : Nat) (l : lexer_t) (r : token_t × lexer_t)
    (h : lexer_read_line_comment fuel l = some r) : scan_ok l r := by
  rw [lexer_read_line_comment] at h
  cases hb : lexer_read_line_comment_loop fuel l with
  | none => simp [hb] at h
  | some l1 =>
    simp only [hb, Option.map_some', Option.some.injEq] at h
    have hm := lexer_read_line_comment_loop_moved _ _ _ hb
    subst h
    refine ⟨hm, Or.inr ⟨by simp [token_at], ?_, ?_, l.current.place,
      l1.current.place, ?_, rfl, Nat.le_refl _, hm.2.2.2.2.1, Nat.le_refl _⟩⟩
    · intro h; simpa [token_at, lexer_mark] using h
    · intro h; simpa [token_at, lexer_mark] using h
    · simp [token_at, lexer_mark]

/-- The function `lexer_read_word` always returns a token: an identifier or a keyword. -/
theorem lexer_read_word_ok (fuel : Nat) (l : lexer_t) (r : token_t × lexer_t)
    (h : lexer_read_word fuel l = some r) :
    moved l r.2 ∧ r.1.kind ≠ TOK_INVALID ∧ r.1.kind ≠ TOK_EOF ∧
      r.1.line = l.current.line ∧ r.1.column = l.current.column ∧
      r.1.from_ = some (l.current.place : Int) ∧
      r.1.to_ = some (r.2.current.place : Int) := by
  rw [lexer_read_word] at h
  dsimp only at h
  cases hb : lexer_read_word_loop fuel l with
  | none => simp [hb] at h
  | some l1 =>
    simp only [hb, Option.map_some', Option.some.injEq] at h
    have hm := lexer_read_word_loop_moved _ _ _ hb
    have hn := lexer_next_moved l1
    have hne := token_kind_for_single_ne_eof
      (List.drop (lexer_mark l).place ((lexer_next l1).2.source ++ [(lexer_next l1).2.sentinel]))
      ((lexer_next l1).2.current.place - (lexer_mark l).place)
    generalize token_kind_for_single
      (List.drop (lexer_mark l).place ((lexer_next l1).2.source ++ [(lexer_next l1).2.sentinel]))
      ((lexer_next l1).2.current.place - (lexer_mark l).place) = alter at h hne
    subst h
    refine ⟨moved_trans hm hn, ?_, ?_, ?_, ?_, ?_, ?_⟩
    · split_ifs with ha
      · exact ha
      · simp [token_at]
    · split_ifs with ha
      · exact hne
      · simp [token_at]
    · split_ifs <;> simp [token_at, lexer_mark]
    · split_ifs <;> simp [token_at, lexer_mark]
    · split_ifs <;> simp [token_at, lexer_mark]
    · split_ifs <;> simp [token_at, lexer_mark]
theorem token_span_ok {l l1 : lexer_t} (kind : token_kind_t) (hm : moved l l1)
    (hk : kind ≠ TOK_EOF) : scan_ok l (token_span kind l.current l1, l1) :=
  ⟨hm, Or.inr ⟨hk, id, id, l.current.place, l1.current.place, rfl, rfl, Nat.le_refl _,
    hm.2.2.2.2.1, Nat.le_refl _⟩⟩

theorem scan_ok_stage {l : lexer_t} {c : Prop} [Decidable c]
    {f : lexer_t → Option (token_t × lexer_t)}
    (hf : ∀ l1 r, f l1 = some r → scan_ok l1 r) {s r : token_t × lexer_t}
    (hs : scan_ok l s) (h : (if c then f s.2 else some s) = some r) : scan_ok l r := by
  split_ifs at h
  · exact scan_ok_of_moved hs.1 (hf _ _ h)
  · simp only [Option.some.injEq] at h
    subst h
    exact hs

/-- The chain of tests of the driver returns an invalid token, or a token that spans bytes
from the mark on. -/
theorem lexer_run_scan_ok (fuel : Nat) (l : lexer_t) (cur : Nat) (token : token_t)
    (r : token_t × lexer_t) (htok : token.kind = TOK_INVALID)
    (h : lexer_run_scan fuel l l.current cur token = some r) : scan_ok l r := by
  unfold lexer_run_scan at h
  dsimp only at h
  have hn := lexer_next_moved l
  have hnn := lexer_next_moved (lexer_next l).2
  -- if (cur == '@')
  have h0 : scan_ok l
      (if cur = 64 then
        if (lexer_next l).1 = 64 then
          (token_span TOK_DOUBLEAT l.current (lexer_next (lexer_next l).2).2,
            (lexer_next (lexer_next l).2).2)
        else (token_span TOK_AT l.current (lexer_next l).2, (lexer_next l).2)
      else (token, l)) := by
    split_ifs
    · exact token_span_ok _ (moved_trans hn hnn) (by decide)
    · exact token_span_ok _ hn (by decide)
    · exact ⟨moved_refl _, Or.inl htok⟩
  generalize (if cur = 64 then
        if (lexer_next l).1 = 64 then
          (token_span TOK_DOUBLEAT l.current (lexer_next (lexer_next l).2).2,
            (lexer_next (lexer_next l).2).2)
        else (token_span TOK_AT l.current (lexer_next l).2, (lexer_next l).2)
      else (token, l)) = s0 at h h0
  -- if (cur == '.')
  obtain ⟨s1, hs1, h⟩ := Option.bind_eq_some.1 h
  have h1 : scan_ok l s1 := by
    split_ifs at hs1
    · exact scan_ok_of_moved h0.1 (lexer_read_number_ok _ _ _ hs1)
    · obtain ⟨q, hq, rfl⟩ := Option.map_eq_some'.1 hs1
      obtain ⟨hm, hk1, hk2⟩ := lexer_run_dots_moved _ _ _ _ hq (Nat.le_refl _) (by decide)
      exact token_span_ok _ (moved_trans h0.1 hm)
        (Nat.ne_of_lt (Nat.lt_of_le_of_lt hk2 (by decide)))
    · simp only [Option.some.injEq] at hs1
      subst hs1
      exact h0
  -- if (cur == '\'')
  obtain ⟨s2, hs2, h⟩ := Option.bind_eq_some.1 h
  have h2 : scan_ok l s2 := scan_ok_stage (lexer_read_line_comment_ok fuel) h1 hs2
  -- if (cur == '%')
  obtain ⟨s3, hs3, h⟩ := Option.bind_eq_some.1 h
  have h3 : scan_ok l s3 := scan_ok_stage (lexer_read_base_number_ok fuel) h2 hs3
  -- if (cur == '$')
  obtain ⟨s4, hs4, h⟩ := Option.bind_eq_some.1 h
  have h4 : scan_ok l s4 := scan_ok_stage (lexer_read_base_number_ok fuel) h3 hs4
  -- if (cur == '"')
  obtain ⟨s5, hs5, h⟩ := Option.bind_eq_some.1 h
  have h5 : scan_ok l s5 := scan_ok_stage (lexer_read_string_ok fuel) h4 hs5
  -- if (isdigit(cur))
  obtain ⟨s6, hs6, h⟩ := Option.bind_eq_some.1 h
  have h6 : scan_ok l s6 := scan_ok_stage (lexer_read_number_ok fuel) h5 hs6
  -- if (token.kind == TOK_INVALID)
  have hne := token_kind_for_single_ne_eof [cur] 1
  generalize token_kind_for_single [cur] 1 = alter at h hne
  split_ifs at h
  · simp only [Option.some.injEq] at h
    subst h
    exact token_span_ok _ (moved_trans h6.1 (lexer_next_moved _)) hne
  · simp only [Option.some.injEq] at h
    subst h
    exact h6
  · simp only [Option.some.injEq] at h
    subst h
    exact h6
/-! ## The invariant of the token buffer in phase 1 -/

theorem lexer_copy_tokens_moved {l l1 : lexer_t} (h : moved l l1) :
    lexer_copy_tokens l1 = lexer_copy_tokens l := by
  simp [lexer_copy_tokens, h.2.2.1, h.2.2.2.1]

theorem token_wf_mono {hi hi2 : Int} {t : token_t} (h : token_wf hi t) (hle : hi ≤ hi2) :
    token_wf hi2 t := by
  obtain ⟨h1, h2, h3, a, b, ha, hb, hab, hbh⟩ := h
  exact ⟨h1, h2, h3, a, b, ha, hb, hab, Int.le_trans hbh hle⟩

theorem buffer_ok_moved {l l1 : lexer_t} (hb : buffer_ok l) (h : moved l l1) :
    buffer_ok l1 := by
  obtain ⟨h1, h2, h3, h4, h5⟩ := hb
  refine ⟨by rw [h.2.2.1, h.2.2.2.1]; exact h1, h.2.2.2.2.2.1 h2, h.2.2.2.2.2.2 h3, ?_, ?_⟩
  · rw [lexer_copy_tokens_moved h]
    intro t ht
    exact token_wf_mono (h4 t ht) (by exact_mod_cast h.2.2.2.2.1)
  · rw [lexer_copy_tokens_moved h]
    exact h5

theorem comment_ok_moved {l l1 : lexer_t} {c : token_t} (hc : comment_ok l c)
    (h : moved l l1) : comment_ok l1 c := by
  rcases hc with hc | ⟨h1, h2, b, hb, hbl, hall⟩
  · exact Or.inl hc
  · refine Or.inr ⟨h1, h2, b, hb, ?_, ?_⟩
    · exact Int.le_trans hbl (by exact_mod_cast h.2.2.2.2.1)
    · rw [lexer_copy_tokens_moved h]
      exact hall

/-- What `lexer_push_token` does to the tokens below the count. -/
theorem lexer_copy_tokens_push (l : lexer_t) (t : token_t)
    (h : l.current.token ≤ l.tokens.length) :
    lexer_copy_tokens (lexer_push_token l t) = lexer_copy_tokens l ++ [t] ∧
      (lexer_push_token l t).current.token ≤ (lexer_push_token l t).tokens.length := by
  rcases Nat.lt_or_ge l.current.token l.tokens.length with hlt | hge
  · constructor
    · simp only [lexer_copy_tokens, lexer_push_token, lexer_new_token, tokens_write, if_pos hlt,
        List.set_set]
      rw [List.take_succ, List.set_take, List.set_eq_of_length_le (by simp)]
      simp [hlt]
    · simp [lexer_push_token, lexer_new_token, tokens_write, hlt]
      omega
  · have heq : l.current.token = l.tokens.length := Nat.le_antisymm h hge
    have := lexer_push_token_tokens t heq
    constructor
    · simp [lexer_copy_tokens, this.1, this.2, heq]
    · rw [this.1, this.2]

theorem buffer_ok_push {l : lexer_t} {t : token_t} (hb : buffer_ok l)
    (ht : token_wf (l.current.place : Int) t)
    (hle : ∀ u ∈ lexer_copy_tokens l, token_le u t) : buffer_ok (lexer_push_token l t) := by
  obtain ⟨h1, h2, h3, h4, h5⟩ := hb
  obtain ⟨hcopy, hcount⟩ := lexer_copy_tokens_push l t h1
  refine ⟨hcount, h2, h3, ?_, ?_⟩
  · rw [hcopy]
    intro u hu
    rcases List.mem_append.1 hu with hu | hu
    · exact h4 u hu
    · rw [List.mem_singleton.1 hu]
      exact ht
  · rw [hcopy, List.pairwise_append]
    exact ⟨h5, List.pairwise_singleton _ _, fun u hu v hv => by
      rw [List.mem_singleton.1 hv]; exact hle u hu⟩

theorem scan_ok_lexer {l0 l2 l3 : lexer_t} {tok : token_t} (hs : scan_ok l0 (tok, l2))
    (hm : moved l2 l3) : scan_ok l0 (tok, l3) := by
  refine ⟨moved_trans hs.1 hm, ?_⟩
  rcases hs.2 with h | ⟨hk, hl, hc, a, b, ha, hb, h3, h4, h5⟩
  · exact Or.inl h
  · exact Or.inr ⟨hk, hl, hc, a, b, ha, hb, h3, h4, Nat.le_trans h5 hm.2.2.2.2.1⟩

theorem lexer_reset_moved {l q : lexer_t} (h : moved l q) :
    moved l (lexer_reset q (lexer_mark l)) :=
  ⟨h.1, h.2.1, h.2.2.1, rfl, Nat.le_refl _, id, id⟩

/-- The probe behind an `End` inside a block comment keeps the token, or makes it an
`EndRem` that ends behind the `Rem`. -/
theorem lexer_run_probe_ok (fuel : Nat) (l0 l2 : lexer_t) (cur : Nat) (tok : token_t)
    (r : token_t × Nat × lexer_t) (hs : scan_ok l0 (tok, l2))
    (h : lexer_run_probe fuel l2 cur tok = some r) : scan_ok l0 (r.1, r.2.2) := by
  unfold lexer_run_probe at h
  dsimp only at h
  have hm3 : moved l2 (if lexer_current l2 = 32 then (lexer_next l2).2 else l2) := by
    split_ifs
    · exact lexer_next_moved l2
    · exact moved_refl _
  generalize (if lexer_current l2 = 32 then (lexer_next l2).2 else l2) = l3 at h hm3
  split_ifs at h with hend hl
  · obtain ⟨q, hq, h⟩ := Option.bind_eq_some.1 h
    obtain ⟨hmq, _, _, _, _, _, hto⟩ := lexer_read_word_ok _ _ _ hq
    split_ifs at h
    · simp only [Option.some.injEq] at h
      subst h
      refine ⟨moved_trans hs.1 (moved_trans hm3 hmq), ?_⟩
      rcases hs.2 with hi | ⟨hk, hl1, hc1, a, b, ha, hb, h3, h4, h5⟩
      · rw [hend] at hi
        exact absurd hi (by decide)
      · exact Or.inr ⟨show TOK_ENDREM_KW ≠ TOK_EOF by decide, hl1, hc1, a,
          q.2.current.place, ha, hto, h3,
          Nat.le_trans h4 (Nat.le_trans h5 (Nat.le_trans hm3.2.2.2.2.1 hmq.2.2.2.2.1)),
          Nat.le_refl _⟩
    · simp only [Option.some.injEq] at h
      subst h
      exact scan_ok_lexer hs (moved_trans hm3 (lexer_reset_moved hmq))
  · simp only [Option.some.injEq] at h
    subst h
    exact scan_ok_lexer hs hm3
  · simp only [Option.some.injEq] at h
    subst h
    exact hs
/-- The end of the loop body keeps the invariant when the token, if it is appended, is well
formed and starts behind the tokens of the buffer. -/
theorem lexer_run_emit_ok (lexer : lexer_t) (cur : Nat) (token comment : token_t)
    (hb : buffer_ok lexer) (hc : comment_ok lexer comment)
    (ht : token.kind = TOK_INVALID ∨ comment.kind ≠ TOK_INVALID ∨
      (token_wf (lexer.current.place : Int) token ∧
        ∀ u ∈ lexer_copy_tokens lexer, token_le u token)) :
    buffer_ok (lexer_run_emit lexer cur token comment).2.2 ∧
      comment_ok (lexer_run_emit lexer cur token comment).2.2
        (lexer_run_emit lexer cur token comment).2.1 ∧
      moved_source lexer (lexer_run_emit lexer cur token comment).2.2 := by
  unfold lexer_run_emit
  dsimp only
  by_cases hpush : token.kind ≠ TOK_INVALID ∧ comment.kind = TOK_INVALID
  · obtain ⟨hwf, hle⟩ : token_wf (lexer.current.place : Int) token ∧
        ∀ u ∈ lexer_copy_tokens lexer, token_le u token := by
      rcases ht with h | h | h
      · exact absurd h hpush.1
      · exact absurd hpush.2 h
      · exact h
    have hb1 := buffer_ok_push hb hwf hle
    have hc1 : comment_ok (lexer_push_token lexer token)
        (if comment.kind = TOK_INVALID ∧ token.kind = TOK_REM_KW then token else comment) := by
      split_ifs with hrem
      · obtain ⟨_, h2, h3, a, b, ha, hb2, hab, hbh⟩ := hwf
        have hab2 : a ≤ b := hab (by rw [hrem.2]; decide)
        refine Or.inr ⟨h2, h3, b, hb2, hbh, ?_⟩
        rw [(lexer_copy_tokens_push lexer token hb.1).1]
        intro u hu x hx
        rcases List.mem_append.1 hu with hu | hu
        · exact Int.le_trans (hle u hu x a hx ha) hab2
        · rw [List.mem_singleton.1 hu, hb2] at hx
          simp only [Option.some.injEq] at hx
          omega
      · exact Or.inl hpush.2
    simp only [if_pos hpush]
    generalize (if comment.kind = TOK_INVALID ∧ token.kind = TOK_REM_KW then token
      else comment) = c2 at hc1 ⊢
    have hne : ¬ (c2.kind = TOK_INVALID ∧ token.kind = TOK_INVALID ∧
        (lexer_push_token lexer token).error = none) := fun h => hpush.1 h.2.1
    rw [if_neg hne]
    split_ifs <;> exact ⟨hb1, hc1, rfl, rfl⟩
  · simp only [if_neg hpush]
    have hc1 : comment_ok lexer
        (if comment.kind = TOK_INVALID ∧ token.kind = TOK_REM_KW then token else comment) := by
      split_ifs with hrem
      · exact absurd ⟨by rw [hrem.2]; decide, hrem.1⟩ hpush
      · exact hc
    generalize (if comment.kind = TOK_INVALID ∧ token.kind = TOK_REM_KW then token
      else comment) = c2 at hc1 ⊢
    split_ifs <;> exact ⟨hb, hc1, rfl, rfl⟩

/-- The part of the loop body inside a block comment keeps the invariant; when it closes
the comment it appends the block comment, and the token `EndRem` starts behind it. -/
theorem lexer_run_comment_ok (fuel : Nat) (l0 l2 : lexer_t) (cur : Nat) (c tok : token_t)
    (r : token_t × token_t × Nat × lexer_t)
    (hb : buffer_ok l0) (hc : comment_ok l0 c) (hck : c.kind ≠ TOK_INVALID)
    (hs : scan_ok l0 (tok, l2))
    (h : lexer_run_comment fuel l2 cur c tok = some r) :
    buffer_ok r.2.2.2 ∧ comment_ok r.2.2.2 r.2.1 ∧ moved_source l0 r.2.2.2 ∧
      (r.1.kind = TOK_INVALID ∨ r.2.1.kind ≠ TOK_INVALID ∨
        (token_wf (r.2.2.2.current.place : Int) r.1 ∧
          ∀ u ∈ lexer_copy_tokens r.2.2.2, token_le u r.1)) := by
  unfold lexer_run_comment at h
  obtain ⟨p, hp, h⟩ := Option.bind_eq_some.1 h
  dsimp only at h
  have hsp := lexer_run_probe_ok fuel l0 l2 cur tok p hs hp
  have hb3 : buffer_ok p.2.2 := buffer_ok_moved hb hsp.1
  by_cases hend : p.1.kind = TOK_ENDREM_KW
  · simp only [hend, if_true, show ¬ (TOK_ENDREM_KW = TOK_INVALID) by decide, if_false,
      Option.some_bind, Option.some.injEq] at h
    subst h
    dsimp only
    rcases hc with hc | ⟨hcl, hcc, b, hcb, hbl, hall⟩
    · exact absurd hc hck
    rcases hsp.2 with hi | ⟨hk, hl1, hc1, a, e, ha, he, h3, h4, h5⟩
    · have hi2 : p.1.kind = TOK_INVALID := hi
      rw [hend] at hi2
      exact absurd hi2 (by decide)
    have ha2 : p.1.from_ = some (a : Int) := ha
    have he2 : p.1.to_ = some (e : Int) := he
    have h52 : e ≤ p.2.2.current.place := h5
    have hblock : buffer_ok (lexer_push_token p.2.2
        { kind := TOK_BLOCK_COMMENT, line := c.line, column := c.column,
          from_ := c.to_.map (· + 1), to_ := p.1.from_.map (· - 1) }) := by
      refine buffer_ok_push hb3 ⟨show TOK_BLOCK_COMMENT ≠ TOK_EOF by decide, hcl, hcc, b + 1,
        (a : Int) - 1, by simp [hcb], by simp [ha2], fun hne => absurd rfl hne, ?_⟩ ?_
      · have : (a : Int) ≤ (p.2.2.current.place : Int) := by exact_mod_cast Nat.le_trans h4 h52
        omega
      · intro u hu x y hx hy
        rw [lexer_copy_tokens_moved hsp.1] at hu
        simp only [hcb, Option.map_some', Option.some.injEq] at hy
        have := hall u hu x hx
        omega
    refine ⟨hblock, Or.inl rfl, ⟨hsp.1.1, hsp.1.2.1⟩, Or.inr (Or.inr ⟨?_, ?_⟩)⟩
    · exact ⟨hk, hl1 hb.2.1, hc1 hb.2.2.1, a, e, ha2, he2, fun _ => by exact_mod_cast h4,
        by exact_mod_cast h52⟩
    · rw [(lexer_copy_tokens_push p.2.2 _ hb3.1).1]
      intro u hu x y hx hy
      rw [ha2] at hy
      simp only [Option.some.injEq] at hy
      rcases List.mem_append.1 hu with hu | hu
      · rw [lexer_copy_tokens_moved hsp.1] at hu
        obtain ⟨_, _, _, a1, b1, _, hb1, _, hbh⟩ := hb.2.2.2.1 u hu
        rw [hb1] at hx
        simp only [Option.some.injEq] at hx
        have : (l0.current.place : Int) ≤ (a : Int) := by exact_mod_cast h3
        omega
      · rw [List.mem_singleton.1 hu] at hx
        simp only [ha2, Option.map_some', Option.some.injEq] at hx
        omega
  · simp only [if_neg hend] at h
    obtain ⟨l4, hl4, h⟩ := Option.bind_eq_some.1 h
    simp only [Option.some.injEq] at h
    subst h
    dsimp only
    have hm4 : moved p.2.2 l4 := by
      split_ifs at hl4
      · exact moved_trans (lexer_next_moved _) (lexer_skip_whitespace_moved _ _ _ hl4)
      · simp only [Option.some.injEq] at hl4
        subst hl4
        exact moved_refl _
    have hm := moved_trans hsp.1 hm4
    exact ⟨buffer_ok_moved hb hm, comment_ok_moved hc hm, ⟨hm.1, hm.2.1⟩,
      Or.inr (Or.inl hck)⟩

/-- The body of the loop of phase 1 keeps the invariant of the token buffer. -/
theorem lexer_run_body_ok (fuel : Nat) (l : lexer_t) (c : token_t)
    (r : loop_exit × token_t × lexer_t)
    (hb : buffer_ok l) (hc : comment_ok l c)
    (h : lexer_run_body fuel l c = some r) :
    buffer_ok r.2.2 ∧ comment_ok r.2.2 r.2.1 ∧ moved_source l r.2.2 := by
  unfold lexer_run_body at h
  obtain ⟨l0, hl0, h⟩ := Option.bind_eq_some.1 h
  dsimp only at h
  have hm0 := lexer_skip_whitespace_moved _ _ _ hl0
  have hb0 := buffer_ok_moved hb hm0
  have hc0 := comment_ok_moved hc hm0
  by_cases hz : lexer_current l0 = 0
  · rw [if_pos hz] at h
    simp only [Option.some.injEq] at h
    subst h
    exact ⟨hb0, hc0, hm0.1, hm0.2.1⟩
  rw [if_neg hz] at h
  obtain ⟨s1, hs1, h⟩ := Option.bind_eq_some.1 h
  have h1 : scan_ok l0 s1 := by
    split_ifs at hs1
    · exact lexer_run_scan_ok _ _ _ _ _ rfl hs1
    · simp only [Option.some.injEq] at hs1
      subst hs1
      exact ⟨moved_refl _, Or.inl rfl⟩
  obtain ⟨s2, hs2, h⟩ := Option.bind_eq_some.1 h
  have h2 : scan_ok l0 s2 := by
    split_ifs at hs2
    · obtain ⟨hmw, _, hk, hl, hcol, hf, ht⟩ := lexer_read_word_ok _ _ _ hs2
      refine ⟨moved_trans h1.1 hmw, Or.inr ⟨hk, ?_, ?_, s1.2.current.place,
        s2.2.current.place, hf, ht, h1.1.2.2.2.2.1, hmw.2.2.2.2.1, Nat.le_refl _⟩⟩
      · intro h; rw [hl]; exact h1.1.2.2.2.2.2.1 h
      · intro h; rw [hcol]; exact h1.1.2.2.2.2.2.2 h
    · simp only [Option.some.injEq] at hs2
      subst hs2
      exact h1
  obtain ⟨q, hq, h⟩ := Option.bind_eq_some.1 h
  simp only [Option.some.injEq] at h
  subst h
  by_cases hck : c.kind ≠ TOK_INVALID
  · rw [if_pos hck] at hq
    obtain ⟨hb4, hc4, hsrc, htok⟩ := lexer_run_comment_ok fuel l0 s2.2 _ c s2.1 q hb0 hc0 hck
      h2 hq
    obtain ⟨e1, e2, e3⟩ := lexer_run_emit_ok q.2.2.2 q.2.2.1 q.1 q.2.1 hb4 hc4 htok
    exact ⟨e1, e2, e3.1.trans (hsrc.1.trans hm0.1), e3.2.trans (hsrc.2.trans hm0.2.1)⟩
  · rw [if_neg hck] at hq
    simp only [Option.some.injEq] at hq
    subst hq
    have hb2 := buffer_ok_moved hb0 h2.1
    have hc2 := comment_ok_moved hc0 h2.1
    have htok : s2.1.kind = TOK_INVALID ∨ c.kind ≠ TOK_INVALID ∨
        (token_wf (s2.2.current.place : Int) s2.1 ∧
          ∀ u ∈ lexer_copy_tokens s2.2, token_le u s2.1) := by
      rcases h2.2 with hi | ⟨hk, hl1, hc1, a, e, ha, he, h3, h4, h5⟩
      · exact Or.inl hi
      · refine Or.inr (Or.inr ⟨⟨hk, hl1 hb0.2.1, hc1 hb0.2.2.1, a, e, ha, he,
          fun _ => by exact_mod_cast h4, by exact_mod_cast h5⟩, ?_⟩)
        intro u hu x y hx hy
        rw [lexer_copy_tokens_moved h2.1] at hu
        obtain ⟨_, _, _, a1, b1, _, hb1, _, hbh⟩ := hb0.2.2.2.1 u hu
        rw [hb1] at hx
        rw [ha] at hy
        simp only [Option.some.injEq] at hx hy
        have : (l0.current.place : Int) ≤ (a : Int) := by exact_mod_cast h3
        omega
    obtain ⟨e1, e2, e3⟩ := lexer_run_emit_ok s2.2 (lexer_current l0) s2.1 c hb2 hc2 htok
    exact ⟨e1, e2, e3.1.trans (h2.1.1.trans hm0.1), e3.2.trans (h2.1.2.1.trans hm0.2.1)⟩
/-- The loop of phase 1 keeps the invariant of the token buffer, however it is left. -/
theorem lexer_run_scan_loop_ok (fuel : Nat) :
    ∀ (n : Nat) (l : lexer_t) (c : token_t) (r : Bool × lexer_t),
      lexer_run_scan_loop fuel n l c = some r → buffer_ok l → comment_ok l c →
        buffer_ok r.2 ∧ moved_source l r.2 := by
  intro n
  induction n with
  | zero => intro l c r h; simp [lexer_run_scan_loop] at h
  | succ n ih =>
    intro l c r h hb hc
    rw [lexer_run_scan_loop] at h
    by_cases hz : lexer_current l ≠ 0
    · rw [if_pos hz] at h
      cases hbody : lexer_run_body fuel l c with
      | none => simp [hbody] at h
      | some q =>
        obtain ⟨ex, c1, l1⟩ := q
        obtain ⟨hb1, hc1, hs1⟩ := lexer_run_body_ok fuel l c _ hb hc hbody
        cases ex with
        | next_iteration =>
          simp only [hbody] at h
          obtain ⟨h1, h2⟩ := ih l1 c1 r h hb1 hc1
          exact ⟨h1, h2.1.trans hs1.1, h2.2.trans hs1.2⟩
        | break_loop =>
          simp only [hbody, Option.some.injEq] at h
          subst h
          exact ⟨hb1, hs1⟩
        | return_1 =>
          simp only [hbody, Option.some.injEq] at h
          subst h
          exact ⟨hb1, hs1⟩
    · rw [if_neg hz] at h
      simp only [Option.some.injEq] at h
      subst h
      exact ⟨hb, rfl, rfl⟩

theorem buffer_ok_new (s : List Nat) (sentinel : Nat) : buffer_ok (lexer_new s sentinel) := by
  refine ⟨Nat.le_refl _, Nat.le_refl _, Nat.le_refl _, ?_, ?_⟩
  · intro t ht
    simp [lexer_copy_tokens, lexer_new] at ht
  · simp [lexer_copy_tokens, lexer_new]

/-! ## Phase 2 keeps the tokens well formed -/

set_option maxRecDepth 100000 in
/-- No rule of `token_pairs` takes a block comment. -/
theorem token_pairs_no_block :
    ∀ p ∈ token_pairs, p.left ≠ TOK_INVALID →
      p.left ≠ TOK_BLOCK_COMMENT ∧ p.right ≠ TOK_BLOCK_COMMENT := by
  decide

/-- The pass keeps every token that is no end-of-input token well formed, and keeps the
tokens in the order of the source. -/
theorem merge_pass_ok (hi : Int) :
    ∀ (fuel : Nat) (tokens out : List token_t), merge_pass fuel tokens = some out →
      (∀ t ∈ tokens, t.kind ≠ TOK_EOF → token_wf hi t) → List.Pairwise token_le tokens →
        (∀ t ∈ out, t.kind ≠ TOK_EOF → token_wf hi t) ∧ List.Pairwise token_le out ∧
          ∀ z : token_t, (∀ t ∈ tokens, token_le z t) → ∀ t ∈ out, token_le z t := by
  intro fuel
  induction fuel with
  | zero => intro tokens out h; simp [merge_pass] at h
  | succ fuel ih =>
    intro tokens out h hwf hpw
    match tokens, h, hwf, hpw with
    | [], h, _, _ => simp [merge_pass] at h
    | [a], h, hwf, hpw =>
      rw [merge_pass] at h
      split_ifs at h
      simp only [Option.some.injEq] at h
      subst h
      exact ⟨hwf, hpw, fun z hz => hz⟩
    | a :: b :: rest, h, hwf, hpw =>
      rw [merge_pass] at h
      by_cases ha : a.kind ≠ TOK_EOF
      · rw [if_pos ha] at h
        have hpa : ∀ t ∈ b :: rest, token_le a t := (List.pairwise_cons.1 hpw).1
        have hpr : List.Pairwise token_le (b :: rest) := (List.pairwise_cons.1 hpw).2
        cases hf : pair_find token_pairs a b with
        | some kind =>
          simp only [hf] at h
          obtain ⟨p, hp, hp1, hp2, hp3, hp4⟩ := pair_find_some _ hf
          have hkinds := token_pairs_kinds p hp hp1
          have hblock := token_pairs_no_block p hp hp1
          have hbk : b.kind ≠ TOK_EOF := by rw [← hp3]; exact hkinds.1
          obtain ⟨_, al, ac, a1, a2, haf, hat, haa, _⟩ := hwf a (List.mem_cons_self _ _) ha
          obtain ⟨_, _, _, b1, b2, hbf, hbt, hbb, hbh⟩ :=
            hwf b (List.mem_cons_of_mem _ (List.mem_cons_self _ _)) hbk
          have h12 : a2 ≤ b1 := hpa b (List.mem_cons_self _ _) a2 b1 hat hbf
          have haa2 : a1 ≤ a2 := haa (by rw [← hp2]; exact hblock.1)
          have hbb2 : b1 ≤ b2 := hbb (by rw [← hp3]; exact hblock.2)
          have hfwf : token_wf hi (token_fuse a b kind) :=
            ⟨by rw [← hp4]; exact hkinds.2.1, al, ac, a1, b2, haf, hbt, fun _ => by omega, hbh⟩
          have hfle : ∀ t ∈ rest, token_le (token_fuse a b kind) t := by
            intro t ht x y hx hy
            exact (List.pairwise_cons.1 hpr).1 t ht x y hx hy
          obtain ⟨o1, o2, o3⟩ := ih (token_fuse a b kind :: rest) out h
            (by
              intro t ht hk
              rcases List.mem_cons.1 ht with rfl | ht
              · exact hfwf
              · exact hwf t (List.mem_cons_of_mem _ (List.mem_cons_of_mem _ ht)) hk)
            (List.pairwise_cons.2 ⟨hfle, (List.pairwise_cons.1 hpr).2⟩)
          refine ⟨o1, o2, fun z hz => o3 z ?_⟩
          intro t ht
          rcases List.mem_cons.1 ht with rfl | ht
          · intro x y hx hy
            exact hz a (List.mem_cons_self _ _) x y hx hy
          · exact hz t (List.mem_cons_of_mem _ (List.mem_cons_of_mem _ ht))
        | none =>
          simp only [hf] at h
          cases hm : merge_pass fuel (b :: rest) with
          | none => simp [hm] at h
          | some out2 =>
            simp only [hm, Option.map_some', Option.some.injEq] at h
            subst h
            obtain ⟨o1, o2, o3⟩ := ih (b :: rest) out2 hm
              (fun t ht hk => hwf t (List.mem_cons_of_mem _ ht) hk) hpr
            refine ⟨?_, List.pairwise_cons.2 ⟨o3 a hpa, o2⟩, ?_⟩
            · intro t ht hk
              rcases List.mem_cons.1 ht with rfl | ht
              · exact hwf _ (List.mem_cons_self _ _) hk
              · exact o1 t ht hk
            · intro z hz t ht
              rcases List.mem_cons.1 ht with rfl | ht
              · exact hz _ (List.mem_cons_self _ _)
              · exact o3 z (fun u hu => hz u (List.mem_cons_of_mem _ hu)) t ht
      · rw [if_neg ha] at h
        simp only [Option.some.injEq] at h
        subst h
        exact ⟨hwf, hpw, fun z hz => hz⟩
/-! ## The first run of a lexer -/

theorem tokens_write_getD (tokens : List token_t) (i : Nat) :
    (tokens_write tokens i token_zero).getD i token_zero = token_zero := by
  unfold tokens_write
  split_ifs with h
  · simp [List.getD_eq_getElem?_getD, h]
  · rcases Nat.lt_or_ge i (tokens.take i ++ [token_zero]).length with h2 | h2
    · have h3 : i = tokens.length := by
        simp at h2
        omega
      subst h3
      simp [List.getD_eq_getElem?_getD]
    · simp [List.getD_eq_getElem?_getD, List.getElem?_eq_none h2]

/-- The statement `lexer_new_token(lexer)->kind = TOK_EOF;` appends the end-of-input
token. -/
theorem lexer_append_eof (l : lexer_t) :
    ({ (lexer_new_token l).2 with
        tokens := (lexer_new_token l).2.tokens.set (lexer_new_token l).1
          { ((lexer_new_token l).2.tokens.getD (lexer_new_token l).1 token_zero) with
            kind := TOK_EOF } } : lexer_t) = lexer_push_token l token_eof := by
  have h := tokens_write_getD l.tokens l.current.token
  simp only [lexer_new_token, lexer_push_token] at h ⊢
  rw [h]
  rfl

/-- What the first `lexer_run` of a new lexer leaves: when it returns `1`, the buffer of
phase 1; when it returns `0`, what the merge pass makes of the buffer of phase 1 and the
end-of-input token. It returns nothing else. -/
theorem lexer_run_first (s : List Nat) (sentinel fuel : Nat) (ret : Int) (l2 : lexer_t)
    (h : lexer_run fuel (lexer_new s sentinel) = some (ret, l2)) :
    (ret = 1 ∧ buffer_ok l2) ∨
      (ret = 0 ∧ ∃ (l1 : lexer_t) (fuel2 : Nat), buffer_ok l1 ∧
        merge_pass fuel2 (lexer_copy_tokens l1 ++ [token_eof]) =
          some (lexer_copy_tokens l2) ∧
        l2.current.token ≤ l2.tokens.length) := by
  simp only [lexer_run] at h
  rw [if_neg (by simp [lexer_new])] at h
  obtain ⟨q, hq, h⟩ := Option.bind_eq_some.1 h
  obtain ⟨hb1, _⟩ := lexer_run_scan_loop_ok fuel fuel _ _ q hq (buffer_ok_new s sentinel)
    (Or.inl rfl)
  by_cases hq1 : q.1 = true
  · rw [if_pos hq1, lexer_append_eof] at h
    obtain ⟨l3, hl3, h⟩ := Option.map_eq_some'.1 h
    simp only [Prod.mk.injEq] at h
    obtain ⟨hret, rfl⟩ := h
    obtain ⟨hcopy, hcount⟩ := lexer_copy_tokens_push q.2 token_eof hb1.1
    obtain ⟨out, hout⟩ := merge_pass_terminates
      (max fuel (lexer_copy_tokens q.2 ++ [token_eof]).length)
      (lexer_copy_tokens q.2 ++ [token_eof]) ⟨token_eof, by simp, rfl⟩ (Nat.le_max_right _ _)
    obtain ⟨l4, hl4, hc4, hn4, _⟩ := lexer_run_merge_list _ (lexer_push_token q.2 token_eof) []
      _ out hcopy hcount hout
    have hmono : lexer_run_merge (max fuel (lexer_copy_tokens q.2 ++ [token_eof]).length)
        (lexer_push_token q.2 token_eof) 0 = some l3 :=
      lexer_run_merge_mono (lexer_push_token q.2 token_eof) 0 fuel l3 hl3
        (max fuel (lexer_copy_tokens q.2 ++ [token_eof]).length) (Nat.le_max_left _ _)
    simp only [List.length_nil] at hl4
    rw [hl4] at hmono
    simp only [Option.some.injEq] at hmono
    subst hmono
    simp only [List.nil_append] at hc4
    refine Or.inr ⟨hret.symm, q.2, max fuel (lexer_copy_tokens q.2 ++ [token_eof]).length,
      hb1, ?_, hn4⟩
    rw [hc4]
    exact hout
  · rw [if_neg hq1] at h
    simp only [Option.some.injEq, Prod.mk.injEq] at h
    obtain ⟨hret, rfl⟩ := h
    exact Or.inl ⟨hret.symm, hb1⟩
/-- Every token that the pass leaves is a token of its input or a fused token, which is no
end-of-input token. -/
theorem merge_pass_mem :
    ∀ (fuel : Nat) (tokens out : List token_t), merge_pass fuel tokens = some out →
      ∀ t ∈ out, t ∈ tokens ∨ t.kind ≠ TOK_EOF := by
  intro fuel
  induction fuel with
  | zero => intro tokens out h; simp [merge_pass] at h
  | succ fuel ih =>
    intro tokens out h
    match tokens, h with
    | [], h => simp [merge_pass] at h
    | [a], h =>
      rw [merge_pass] at h
      split_ifs at h
      simp only [Option.some.injEq] at h
      subst h
      exact fun t ht => Or.inl ht
    | a :: b :: rest, h =>
      rw [merge_pass] at h
      by_cases ha : a.kind ≠ TOK_EOF
      · rw [if_pos ha] at h
        cases hf : pair_find token_pairs a b with
        | some kind =>
          simp only [hf] at h
          obtain ⟨p, hp, hp1, _, _, hp4⟩ := pair_find_some _ hf
          intro t ht
          rcases ih _ _ h t ht with h1 | h1
          · rcases List.mem_cons.1 h1 with rfl | h2
            · exact Or.inr (by
                show kind ≠ TOK_EOF
                rw [← hp4]
                exact (token_pairs_kinds p hp hp1).2.1)
            · exact Or.inl (List.mem_cons_of_mem _ (List.mem_cons_of_mem _ h2))
          · exact Or.inr h1
        | none =>
          simp only [hf] at h
          cases hm : merge_pass fuel (b :: rest) with
          | none => simp [hm] at h
          | some out2 =>
            simp only [hm, Option.map_some', Option.some.injEq] at h
            subst h
            intro t ht
            rcases List.mem_cons.1 ht with rfl | ht
            · exact Or.inl (List.mem_cons_self _ _)
            · rcases ih _ _ hm t ht with h1 | h1
              · exact Or.inl (List.mem_cons_of_mem _ h1)
              · exact Or.inr h1
      · rw [if_neg ha] at h
        simp only [Option.some.injEq] at h
        subst h
        exact fun t ht => Or.inl ht

/-- C14 (amended): the invariant of the tokens. After the first `lexer_run` of a new lexer
has returned `0`, every token of the buffer that is no end-of-input token has a line and a
column from 1 on; the end-of-input token is the token that `lexer_new_token` zeroes, with
line 0, column 0 and no span; and every token that carries a span and is no block comment
has `from <= to`. -/
theorem C14_token_invariant (s : List Nat) (sentinel fuel : Nat) (l2 : lexer_t)
    (h : lexer_run fuel (lexer_new s sentinel) = some (0, l2)) :
    ∀ t ∈ lexer_copy_tokens l2,
      (t.kind ≠ TOK_EOF → 1 ≤ t.line ∧ 1 ≤ t.column) ∧
      (t.kind = TOK_EOF → t = token_eof) ∧
      ∀ a b : Int, t.from_ = some a → t.to_ = some b → t.kind ≠ TOK_BLOCK_COMMENT →
        a ≤ b := by
  rcases lexer_run_first s sentinel fuel 0 l2 h with ⟨h01, _⟩ | ⟨_, l1, fuel2, hb1, hout, _⟩
  · exact absurd h01 (by decide)
  have hin : ∀ t ∈ lexer_copy_tokens l1 ++ [token_eof], t.kind ≠ TOK_EOF →
      token_wf (l1.current.place : Int) t := by
    intro t ht hk
    rcases List.mem_append.1 ht with ht | ht
    · exact hb1.2.2.2.1 t ht
    · rw [List.mem_singleton.1 ht] at hk
      exact absurd rfl hk
  have hpw : List.Pairwise token_le (lexer_copy_tokens l1 ++ [token_eof]) := by
    rw [List.pairwise_append]
    refine ⟨hb1.2.2.2.2, List.pairwise_singleton _ _, ?_⟩
    intro u _ v hv x y _ hy
    rw [List.mem_singleton.1 hv] at hy
    exact absurd hy (by simp [token_eof])
  obtain ⟨hwf, _, _⟩ := merge_pass_ok _ fuel2 _ _ hout hin hpw
  intro t ht
  have heof : t.kind = TOK_EOF → t = token_eof := by
    intro hk
    rcases merge_pass_mem fuel2 _ _ hout t ht with hm | hm
    · rcases List.mem_append.1 hm with hm | hm
      · exact absurd hk (hb1.2.2.2.1 t hm).1
      · exact List.mem_singleton.1 hm
    · exact absurd hk hm
  refine ⟨fun hk => ⟨(hwf t ht hk).2.1, (hwf t ht hk).2.2.1⟩, heof, ?_⟩
  intro a b ha hb hblock
  by_cases hk : t.kind = TOK_EOF
  · rw [heof hk] at ha
    exact absurd ha (by simp [token_eof])
  · obtain ⟨_, _, _, a1, b1, ha1, hb1', hab, _⟩ := hwf t ht hk
    rw [ha1] at ha
    rw [hb1'] at hb
    simp only [Option.some.injEq] at ha hb
    subst ha
    subst hb
    exact hab hblock

/-- C15: the end-of-input token. When the first `lexer_run` of a new lexer returns `0`, the
token count is at least 1, the last token has the kind `TOK_EOF` and no token in front of
it has; when it returns `1`, no token of the buffer has the kind `TOK_EOF`; and it returns
nothing but `0` and `1`. -/
theorem C15_eof_token_last (s : List Nat) (sentinel fuel : Nat) (ret : Int) (l2 : lexer_t)
    (h : lexer_run fuel (lexer_new s sentinel) = some (ret, l2)) :
    (ret = 0 ∨ ret = 1) ∧
      (ret = 0 → 1 ≤ lexer_get_num_tokens l2 ∧
        ∃ (body : List token_t) (last : token_t),
          lexer_copy_tokens l2 = body ++ [last] ∧ last.kind = TOK_EOF ∧
            ∀ t ∈ body, t.kind ≠ TOK_EOF) ∧
      (ret = 1 → ∀ t ∈ lexer_copy_tokens l2, t.kind ≠ TOK_EOF) := by
  rcases lexer_run_first s sentinel fuel ret l2 h with
    ⟨h1, hb⟩ | ⟨h0, l1, fuel2, hb1, hout, hcount⟩
  · refine ⟨Or.inr h1, fun h0 => ?_, fun _ t ht => (hb.2.2.2.1 t ht).1⟩
    rw [h1] at h0
    exact absurd h0 (by decide)
  · refine ⟨Or.inl h0, fun _ => ?_, fun h1 => ?_⟩
    · have hbody := merge_pass_body fuel2 _ _ hout (by
        intro t ht
        rw [List.dropLast_concat] at ht
        exact (hb1.2.2.2.1 t ht).1)
      obtain ⟨e, he, hek⟩ := merge_pass_eof fuel2 _ _ hout ⟨token_eof, by simp, rfl⟩
      have hne : lexer_copy_tokens l2 ≠ [] := List.ne_nil_of_mem he
      have hsplit := List.dropLast_append_getLast hne
      have hlast : ((lexer_copy_tokens l2).getLast hne).kind = TOK_EOF := by
        rw [← hsplit] at he
        rcases List.mem_append.1 he with he | he
        · exact absurd hek (hbody e he)
        · rw [← List.mem_singleton.1 he]
          exact hek
      refine ⟨?_, (lexer_copy_tokens l2).dropLast, (lexer_copy_tokens l2).getLast hne,
        hsplit.symm, hlast, hbody⟩
      have hlen := lexer_copy_tokens_length hcount
      have : 0 < (lexer_copy_tokens l2).length := List.length_pos.2 hne
      simp only [lexer_get_num_tokens]
      omega
    · rw [h0] at h1
      exact absurd h1 (by decide)

/-- C14 (instance): the four tokens of `x :+ 1`. -/
theorem C14_token_invariant_witness :
    lexer_run 8 (lexer_new (bytes "x :+ 1") 0) = some (0, lexer_after_assign_add) ∧
      ∀ t ∈ lexer_copy_tokens lexer_after_assign_add,
        (t.kind ≠ TOK_EOF → 1 ≤ t.line ∧ 1 ≤ t.column) ∧
        (t.kind = TOK_EOF → t = token_eof) ∧
        ∀ a b : Int, t.from_ = some a → t.to_ = some b → t.kind ≠ TOK_BLOCK_COMMENT →
          a ≤ b :=
  ⟨by decide, C14_token_invariant (bytes "x :+ 1") 0 8 lexer_after_assign_add (by decide)⟩

/-- C14 (counterexample): on `x` the run returns `0` and the end-of-input token of the
buffer has line 0 and column 0; on `Rem EndRem` the run returns `0` and the block comment
of the buffer has `from = 4` and `to = 3`. -/
theorem C14_token_invariant_counterexample :
    lexer_outcome 3 (lexer_new (bytes "x") 0) =
        some (0, none,
          [{ kind := TOK_ID, from_ := some 0, to_ := some 1, line := 1, column := 1 },
           { kind := TOK_EOF, from_ := none, to_ := none, line := 0, column := 0 }]) ∧
      lexer_outcome 12 (lexer_new (bytes "Rem EndRem") 0) =
        some (0, none,
          [{ kind := TOK_REM_KW, from_ := some 0, to_ := some 3, line := 1, column := 1 },
           { kind := TOK_BLOCK_COMMENT, from_ := some 4, to_ := some 3, line := 1, column := 1 },
           { kind := TOK_ENDREM_KW, from_ := some 4, to_ := some 10, line := 1, column := 5 },
           { kind := TOK_EOF, from_ := none, to_ := none, line := 0, column := 0 }]) := by
  constructor <;> decide

/-- C15 (instance): the run on `x :+ 1` returns `0`; the run on `1e` returns `1` and leaves
no token. -/
theorem C15_eof_token_last_witness :
    lexer_run 8 (lexer_new (bytes "x :+ 1") 0) = some (0, lexer_after_assign_add) ∧
      ((0 : Int) = 0 ∨ (0 : Int) = 1) ∧
      ((0 : Int) = 0 → 1 ≤ lexer_get_num_tokens lexer_after_assign_add ∧
        ∃ (body : List token_t) (last : token_t),
          lexer_copy_tokens lexer_after_assign_add = body ++ [last] ∧ last.kind = TOK_EOF ∧
            ∀ t ∈ body, t.kind ≠ TOK_EOF) ∧
      ((0 : Int) = 1 → ∀ t ∈ lexer_copy_tokens lexer_after_assign_add, t.kind ≠ TOK_EOF) :=
  ⟨by decide, C15_eof_token_last (bytes "x :+ 1") 0 8 0 lexer_after_assign_add (by decide)⟩
/-! ## The spans lie in the order of the source -/

/-- What `lexer_run` leaves on a new lexer lies in the order of the source. -/
theorem lexer_run_pairwise (s : List Nat) (sentinel fuel : Nat) (ret : Int) (l2 : lexer_t)
    (h : lexer_run fuel (lexer_new s sentinel) = some (ret, l2)) :
    List.Pairwise token_le (lexer_copy_tokens l2) := by
  rcases lexer_run_first s sentinel fuel ret l2 h with ⟨_, hb⟩ | ⟨_, l1, fuel2, hb1, hout, _⟩
  · exact hb.2.2.2.2
  have hin : ∀ t ∈ lexer_copy_tokens l1 ++ [token_eof], t.kind ≠ TOK_EOF →
      token_wf (l1.current.place : Int) t := by
    intro t ht hk
    rcases List.mem_append.1 ht with ht | ht
    · exact hb1.2.2.2.1 t ht
    · rw [List.mem_singleton.1 ht] at hk
      exact absurd rfl hk
  have hpw : List.Pairwise token_le (lexer_copy_tokens l1 ++ [token_eof]) := by
    rw [List.pairwise_append]
    refine ⟨hb1.2.2.2.2, List.pairwise_singleton _ _, ?_⟩
    intro u _ v hv x y _ hy
    rw [List.mem_singleton.1 hv] at hy
    exact absurd hy (by simp [token_eof])
  exact (merge_pass_ok _ fuel2 _ _ hout hin hpw).2.1

/-- C26: the spans lie in the order of the source. Whatever the first `lexer_run` of a new
lexer returns, on every source: of two tokens of the final sequence that follow one another
the left one ends where the right one starts or before it (whenever the left one has a `to`
and the right one a `from`), and the same holds for every two tokens of the sequence, the
left one of which stands in front of the right one. -/
theorem C26_spans_in_source_order (s : List Nat) (sentinel fuel : Nat) (ret : Int)
    (l2 : lexer_t) (h : lexer_run fuel (lexer_new s sentinel) = some (ret, l2)) :
    (∀ (pre suf : List token_t) (a b : token_t),
        lexer_copy_tokens l2 = pre ++ a :: b :: suf →
          ∀ x y : Int, a.to_ = some x → b.from_ = some y → x ≤ y) ∧
      List.Pairwise (fun a b => ∀ x y : Int, a.to_ = some x → b.from_ = some y → x ≤ y)
        (lexer_copy_tokens l2) := by
  have hp := lexer_run_pairwise s sentinel fuel ret l2 h
  refine ⟨?_, hp⟩
  intro pre suf a b hcopy
  rw [hcopy, List.pairwise_append] at hp
  exact (List.pairwise_cons.1 hp.2.1).1 b (List.mem_cons_self _ _)

/-- C26 (instance): the run on `x :+ 1`. -/
theorem C26_spans_in_source_order_witness :
    lexer_run 8 (lexer_new (bytes "x :+ 1") 0) = some (0, lexer_after_assign_add) ∧
      (∀ (pre suf : List token_t) (a b : token_t),
        lexer_copy_tokens lexer_after_assign_add = pre ++ a :: b :: suf →
          ∀ x y : Int, a.to_ = some x → b.from_ = some y → x ≤ y) ∧
      List.Pairwise (fun a b => ∀ x y : Int, a.to_ = some x → b.from_ = some y → x ≤ y)
        (lexer_copy_tokens lexer_after_assign_add) :=
  ⟨by decide, C26_spans_in_source_order (bytes "x :+ 1") 0 8 0 lexer_after_assign_add
    (by decide)⟩

/-! ## A string literal that meets a newline -/

theorem lexer_read_string_loop_newline (rest : List Nat) :
    ∀ (body : List Nat) (lexer : lexer_t) (c fuel : Nat),
      cursor_at lexer (c :: (body ++ 10 :: rest)) → c ≠ 10 →
      (∀ x ∈ body, x ≠ 10 ∧ x ≠ 34) →
      lexer_read_string_loop (fuel + body.length + 1) lexer =
        some (false, lexer_asprintf (lexer_advance lexer (body.length + 1))
          "[%d:%d] String literal does not terminate before newline or EOF\n"
          [lexer.current.line, lexer.current.column + (body.length + 1)]) := by
  intro body
  induction body with
  | nil =>
    intro lexer c fuel hcur hc _
    rw [lexer_read_string_loop, lexer_has_next_of_cursor hcur]
    simp [lexer_next_of_cursor hcur hc, lexer_advance]
  | cons x body ih =>
    intro lexer c fuel hcur hc hbody
    have hx := hbody x (List.mem_cons_self _ _)
    rw [lexer_read_string_loop, lexer_has_next_of_cursor hcur]
    simp only [List.cons_append, lexer_next_of_cursor hcur hc, List.headD_cons, ne_eq,
      reduceCtorEq, not_false_eq_true, decide_True, if_true, hx.1, hx.2, if_false]
    have := ih (lexer_advance lexer 1) x fuel (cursor_at_advance hcur) hx.1
      (fun y hy => hbody y (List.mem_cons_of_mem _ hy))
    rw [lexer_advance_advance] at this
    simpa [lexer_advance, Nat.add_comm, Nat.add_left_comm, Nat.add_assoc] using this

/-- The double quote has no entry in `token_singles`. -/
theorem token_kind_for_single_quote : token_kind_for_single [34] 1 = TOK_INVALID := by
  decide

/-- An iteration of the loop of phase 1, outside a block comment, at a double quote that a
newline follows before the next double quote: the iteration returns `1` with the error of
`lexer_read_string`, the cursor on the newline, and no token appended. -/
theorem lexer_run_body_string_newline (fuel : Nat) {lexer : lexer_t} (comment : token_t)
    {body rest : List Nat} (hcur : cursor_at lexer (34 :: (body ++ 10 :: rest)))
    (hbody : ∀ x ∈ body, x ≠ 10 ∧ x ≠ 34) (hcomment : comment.kind = TOK_INVALID)
    (hfuel : body.length + 1 ≤ fuel) :
    lexer_run_body fuel lexer comment =
      some (loop_exit.return_1, comment,
        lexer_asprintf (lexer_advance lexer (body.length + 1))
          "[%d:%d] String literal does not terminate before newline or EOF\n"
          [lexer.current.line, lexer.current.column + (body.length + 1)]) := by
  obtain ⟨f, rfl⟩ : ∃ f, fuel = f + 1 := ⟨fuel - 1, by omega⟩
  have hc0 : lexer_current lexer = 34 := by rw [lexer_current_of_cursor hcur]; rfl
  have hloop := lexer_read_string_loop_mono lexer _ _
    (lexer_read_string_loop_newline rest body lexer 34 0 hcur (by decide) hbody) (f + 1)
    (by omega)
  have hread : lexer_read_string (f + 1) lexer =
      some ({ token_at TOK_STRING_LIT lexer.current with kind := TOK_INVALID },
        lexer_asprintf (lexer_advance lexer (body.length + 1))
          "[%d:%d] String literal does not terminate before newline or EOF\n"
          [lexer.current.line, lexer.current.column + (body.length + 1)]) := by
    simp [lexer_read_string, hloop, lexer_mark]
  have hscan : lexer_run_scan (f + 1) lexer lexer.current 34 token_zero =
      some ({ token_at TOK_STRING_LIT lexer.current with kind := TOK_INVALID },
        lexer_asprintf (lexer_advance lexer (body.length + 1))
          "[%d:%d] String literal does not terminate before newline or EOF\n"
          [lexer.current.line, lexer.current.column + (body.length + 1)]) := by
    unfold lexer_run_scan
    have hk := token_kind_for_single_quote
    generalize token_kind_for_single [34] 1 = kind at hk ⊢
    simp [hread, isdigit, isxdigit, hk]
  rw [lexer_run_body, lexer_skip_whitespace_stay _ _ (by rw [hc0]; decide)]
  simp only [Option.some_bind, hc0, lexer_mark, hcomment, hscan]
  simp [isalpha, lexer_run_emit, hcomment, lexer_asprintf]

/-- C21: a string literal that meets a newline. For every lexer without an error whose
source is a C string and whose cursor stands on a double quote that is followed by bytes
other than the double quote and the newline and then by a newline, outside a block comment
(`comment.kind` is `TOK_INVALID`) and with fuel of at least the length of these bytes
plus 1: the loop of phase 1 leaves with the value `false` (`lexer_run` returns `1`), with
the error "String literal does not terminate before newline or EOF" at the line and column
of the newline, the cursor on the newline and the token array and the token count as they
were; and `lexer_run` on this lexer returns `1` with this error and appends no token. -/
theorem C21_string_newline_fails (lexer : lexer_t) (comment : token_t)
    (body rest : List Nat) (fuel n : Nat)
    (hcur : cursor_at lexer (34 :: (body ++ 10 :: rest)))
    (hbody : ∀ x ∈ body, x ≠ 10 ∧ x ≠ 34) (hcomment : comment.kind = TOK_INVALID)
    (he : lexer.error = none) (hfuel : body.length + 1 ≤ fuel) :
    lexer_run_scan_loop fuel (n + 1) lexer comment =
        some (false,
          { lexer with
            current := { lexer.current with
              place := lexer.current.place + (body.length + 1),
              column := lexer.current.column + (body.length + 1) },
            error := some
              { format := "[%d:%d] String literal does not terminate before newline or EOF\n",
                args := [lexer.current.line, lexer.current.column + (body.length + 1)] } }) ∧
      lexer_outcome fuel lexer =
        some (1,
          some
            { format := "[%d:%d] String literal does not terminate before newline or EOF\n",
              args := [lexer.current.line, lexer.current.column + (body.length + 1)] },
          lexer_copy_tokens lexer) := by
  have hc0 : lexer_current lexer = 34 := by rw [lexer_current_of_cursor hcur]; rfl
  have hb : ∀ c : token_t, c.kind = TOK_INVALID → lexer_run_body fuel lexer c = _ :=
    fun c hc => lexer_run_body_string_newline fuel c hcur hbody hc hfuel
  constructor
  · rw [lexer_run_scan_loop, if_pos (by rw [hc0]; decide), hb comment hcomment]
    rfl
  · obtain ⟨f, rfl⟩ : ∃ f, fuel = f + 1 := ⟨fuel - 1, by omega⟩
    rw [lexer_outcome, lexer_run, if_neg (by simp [he]), lexer_run_scan_loop,
      if_pos (by rw [hc0]; decide), hb token_zero rfl]
    rfl

/-- C21 (instance): the source `"ab`, newline, `cd"`. -/
theorem C21_string_newline_fails_witness :
    lexer_run_scan_loop 3 (0 + 1) (lexer_new (34 :: (bytes "ab" ++ 10 :: bytes "cd\"")) 0)
          token_zero =
        some (false,
          { lexer_new (34 :: (bytes "ab" ++ 10 :: bytes "cd\"")) 0 with
            current := { (lexer_new (34 :: (bytes "ab" ++ 10 :: bytes "cd\"")) 0).current with
              place := (lexer_new (34 :: (bytes "ab" ++ 10 :: bytes "cd\"")) 0).current.place
                + ((bytes "ab").length + 1),
              column := (lexer_new (34 :: (bytes "ab" ++ 10 :: bytes "cd\"")) 0).current.column
                + ((bytes "ab").length + 1) },
            error := some
              { format := "[%d:%d] String literal does not terminate before newline or EOF\n",
                args := [(lexer_new (34 :: (bytes "ab" ++ 10 :: bytes "cd\"")) 0).current.line,
                  (lexer_new (34 :: (bytes "ab" ++ 10 :: bytes "cd\"")) 0).current.column
                    + ((bytes "ab").length + 1)] } }) ∧
      lexer_outcome 3 (lexer_new (34 :: (bytes "ab" ++ 10 :: bytes "cd\"")) 0) =
        some (1,
          some
            { format := "[%d:%d] String literal does not terminate before newline or EOF\n",
              args := [(lexer_new (34 :: (bytes "ab" ++ 10 :: bytes "cd\"")) 0).current.line,
                (lexer_new (34 :: (bytes "ab" ++ 10 :: bytes "cd\"")) 0).current.column
                  + ((bytes "ab").length + 1)] },
          lexer_copy_tokens (lexer_new (34 :: (bytes "ab" ++ 10 :: bytes "cd\"")) 0)) :=
  C21_string_newline_fails (lexer_new (34 :: (bytes "ab" ++ 10 :: bytes "cd\"")) 0) token_zero
    (bytes "ab") (bytes "cd\"") 3 0 (cursor_at_new _) (by decide) rfl rfl (by decide)

/-! ## The word that the driver scans, and its kind -/

theorem tolower_eq_zero {x : Nat} (h : tolower x = 0) : x = 0 := by
  unfold tolower at h
  split_ifs at h
  omega

/-- Where `strncasecmp` finds two texts of the length `n` without a NUL equal, they are the
same up to the case of their letters. -/
theorem strncasecmp_eq_zero :
    ∀ (n : Nat) (m w : List Nat), m.length = n → w.length = n → (∀ x ∈ m, x ≠ 0) →
      strncasecmp m w n = 0 → w.map tolower = m.map tolower := by
  intro n
  induction n with
  | zero =>
    intro m w hm hw _ _
    rw [List.length_eq_zero.1 hm, List.length_eq_zero.1 hw]
  | succ n ih =>
    intro m w hm hw h0 h
    match m, w, hm, hw with
    | a :: m, b :: w, hm, hw =>
      simp only [strncasecmp, List.headD_cons, List.tail_cons] at h
      have ha : tolower a ≠ 0 := fun hz => h0 a (List.mem_cons_self _ _) (tolower_eq_zero hz)
      by_cases hab : tolower a = tolower b
      · rw [if_neg (by simpa using hab), if_neg ha] at h
        simp only [List.map_cons, hab]
        rw [ih m w (by simpa using hm) (by simpa using hw)
          (fun x hx => h0 x (List.mem_cons_of_mem _ hx)) h]
      · rw [if_pos hab] at h
        exact absurd (by omega) hab

/-- A kind other than `TOK_INVALID` that the loop of `token_kind_for_single` returns is
that of an entry whose text the word matches. -/
theorem token_kind_for_single_from_entry (w : List Nat) :
    ∀ table : List token_single_t, (∀ e ∈ table, e.case_sensitive = false) →
      (∀ e ∈ table, ∀ x ∈ e.matches_.getD [], x ≠ 0) →
      token_kind_for_single_from table w w.length ≠ TOK_INVALID →
      ∃ e ∈ table, e.kind = token_kind_for_single_from table w w.length ∧
        is_case_variation w (e.matches_.getD []) := by
  intro table
  induction table with
  | nil => intro _ _ h; exact absurd rfl h
  | cons e table ih =>
    intro hcs h0 h
    have he := hcs e (List.mem_cons_self _ _)
    rw [token_kind_for_single_from] at h ⊢
    by_cases hk : e.kind ≠ TOK_INVALID
    · rw [if_pos hk] at h ⊢
      dsimp only at h ⊢
      rw [he] at h ⊢
      simp only [Bool.false_eq_true, if_false] at h ⊢
      by_cases hm : strlen (e.matches_.getD []) = w.length ∧
          strncasecmp (e.matches_.getD []) w w.length = 0
      · rw [if_pos hm]
        exact ⟨e, List.mem_cons_self _ _, rfl,
          strncasecmp_eq_zero w.length _ w hm.1 rfl (h0 e (List.mem_cons_self _ _)) hm.2⟩
      · rw [if_neg hm] at h ⊢
        obtain ⟨e2, he2, hk2, hv2⟩ := ih (fun x hx => hcs x (List.mem_cons_of_mem _ hx))
          (fun x hx => h0 x (List.mem_cons_of_mem _ hx)) h
        exact ⟨e2, List.mem_cons_of_mem _ he2, hk2, hv2⟩
    · rw [if_neg hk] at h
      exact absurd (not_not.1 hk) h

set_option maxRecDepth 100000 in
/-- No text of `token_singles` holds a NUL. -/
theorem token_singles_no_nul : ∀ e ∈ token_singles, ∀ x ∈ e.matches_.getD [], x ≠ 0 := by
  decide

/-- The kind of a word is that of the entry of `token_singles` that the word is a
variation of, and `TOK_ID` when there is no such entry. -/
theorem word_kind_spec (word : List Nat) :
    (∀ e ∈ token_singles, ∀ m, e.matches_ = some m → is_case_variation word m →
      word_kind word = e.kind) ∧
    ((∀ e ∈ token_singles, ∀ m, e.matches_ = some m → ¬ is_case_variation word m) →
      word_kind word = TOK_ID) := by
  constructor
  · intro e he m hm hv
    have hk : token_kind_for_single word word.length = e.kind := by
      rw [token_kind_for_single_variation hv]
      have := token_singles_first_match e he
      rwa [hm] at this
    have hne : e.kind ≠ TOK_INVALID := (token_singles_words e he (by simp [hm])).1
    unfold word_kind
    rw [hk, if_pos hne]
  · intro hno
    unfold word_kind
    by_cases hk : token_kind_for_single word word.length ≠ TOK_INVALID
    · obtain ⟨e, he, hke, hv⟩ := token_kind_for_single_from_entry word token_singles
        token_singles_case_insensitive token_singles_no_nul hk
      cases hm : e.matches_ with
      | none =>
        have hlast : e.kind = TOK_INVALID := by
          have : ∀ e ∈ token_singles, e.matches_ = none → e.kind = TOK_INVALID := by decide
          exact this e he hm
        rw [hlast] at hke
        exact absurd hke.symm hk
      | some m =>
        rw [hm] at hv
        exact absurd hv (hno e he m hm)
    · rw [if_neg hk]

/-- An iteration of the loop of phase 1, outside a block comment, at a letter or `_`: the
word from there on is appended as one token. -/
theorem lexer_run_body_word_at (fuel : Nat) {lexer : lexer_t} (comment : token_t)
    {c : Nat} {w rest : List Nat}
    (hcur : cursor_at lexer (c :: (w ++ rest)))
    (hc : isalpha c = true ∨ c = 95) (hw : ∀ x ∈ w, is_word_byte x)
    (hrest : ¬ is_word_byte (rest.headD 0)) (hcomment : comment.kind = TOK_INVALID)
    (he : lexer.error = none) (hfuel : w.length + 2 ≤ fuel) :
    lexer_run_body fuel lexer comment =
      some (loop_exit.next_iteration,
        (if word_kind (c :: w) = TOK_REM_KW then
          { kind := word_kind (c :: w),
            from_ := some (lexer.current.place : Int),
            to_ := some ((lexer.current.place + (w.length + 1) : Nat) : Int),
            line := lexer.current.line, column := lexer.current.column }
         else comment),
        lexer_push_token (lexer_advance lexer (w.length + 1))
          { kind := word_kind (c :: w),
            from_ := some (lexer.current.place : Int),
            to_ := some ((lexer.current.place + (w.length + 1) : Nat) : Int),
            line := lexer.current.line, column := lexer.current.column }) := by
  obtain ⟨f, rfl⟩ : ∃ f, fuel = f + 1 := ⟨fuel - 1, by omega⟩
  have hcw : is_word_byte c := by
    rcases hc with h | h
    · exact Or.inr (by simp [isalnum, h])
    · exact Or.inl h
  have hcne := is_word_byte_ne hcw
  have hc9 : c ≠ 9 ∧ c ≠ 13 := by
    rcases hc with h | h
    · simp only [isalpha, Bool.or_eq_true, Bool.and_eq_true, decide_eq_true_eq] at h
      omega
    · omega
  have hc0 : lexer_current lexer = c := by
    rw [lexer_current_of_cursor hcur]; rfl
  have hread := lexer_read_word_word (f + 1) hcur hcne.1 hw hrest (by omega)
  have hwk : (if token_kind_for_single (c :: w) (w.length + 1) ≠ TOK_INVALID
      then token_kind_for_single (c :: w) (w.length + 1) else TOK_ID) = word_kind (c :: w) := by
    simp [word_kind]
  rw [hwk] at hread
  have hkne : word_kind (c :: w) ≠ TOK_INVALID := word_kind_ne_invalid _
  have hc' : c = 95 ∨ isalpha c = true := hc.symm
  rw [lexer_run_body, lexer_skip_whitespace_stay _ _ (by rw [hc0]; exact ⟨hcne.2.2, hc9⟩)]
  simp only [Option.some_bind, hc0, hcne.2.1, if_false, hcomment, if_true,
    lexer_run_scan_letter hc, hc', hread, ne_eq, not_true_eq_false, lexer_mark]
  have he2 : ∀ t, (lexer_push_token (lexer_advance lexer (w.length + 1)) t).error
      = none := by
    intro t
    simp [lexer_push_token, lexer_new_token, lexer_advance, he]
  simp only [lexer_run_emit, hkne, hcomment, ne_eq, not_false_eq_true, and_self, if_true,
    true_and, false_and, if_false, and_false, he2, not_true_eq_false]

theorem token_bytes_at {lexer : lexer_t} (xs rest : List Nat) (hcur : cursor_at lexer (xs ++ rest))
    (t : token_t) (hf : t.from_ = some (lexer.current.place : Int))
    (ht : t.to_ = some ((lexer.current.place + xs.length : Nat) : Int)) :
    token_bytes lexer.source t = xs := by
  unfold token_bytes
  rw [hf, ht]
  simp only [Int.toNat_ofNat, Nat.cast_add, add_sub_cancel_left, hcur.2.1]
  simp

/-- C22: word scanning takes the maximal run. For every lexer without an error whose source
is a C string and whose cursor stands on a letter or `_`, followed by the bytes `w` that
all are letters, digits or `_`, and then by a byte that is none of these (or by the end of
the source), outside a block comment (`comment.kind` is `TOK_INVALID`): the iteration of
the loop of phase 1 appends one token that starts at the cursor, ends behind the last byte
of `w` and so spans the first byte and `w`, with the line and column of the cursor; its
kind is the kind of every entry of `token_singles` whose text the word is an upper/lower
case variation of, and `TOK_ID` when there is no such entry; and the cursor is left behind
the word. -/
theorem C22_word_maximal_run (lexer : lexer_t) (comment : token_t) (c : Nat)
    (w rest : List Nat) (fuel : Nat)
    (hcur : cursor_at lexer (c :: (w ++ rest)))
    (hc : isalpha c = true ∨ c = 95) (hw : ∀ x ∈ w, is_word_byte x)
    (hrest : ¬ is_word_byte (rest.headD 0)) (hcomment : comment.kind = TOK_INVALID)
    (he : lexer.error = none) (hcount : lexer.current.token ≤ lexer.tokens.length)
    (hfuel : w.length + 2 ≤ fuel) :
    ∃ (token comment2 : token_t) (l2 : lexer_t),
      lexer_run_body fuel lexer comment = some (loop_exit.next_iteration, comment2, l2) ∧
      lexer_copy_tokens l2 = lexer_copy_tokens lexer ++ [token] ∧
      l2.current.place = lexer.current.place + (w.length + 1) ∧
      token.from_ = some (lexer.current.place : Int) ∧
      token.to_ = some ((lexer.current.place + (w.length + 1) : Nat) : Int) ∧
      token_bytes lexer.source token = c :: w ∧
      token.line = lexer.current.line ∧ token.column = lexer.current.column ∧
      (∀ e ∈ token_singles, ∀ m, e.matches_ = some m → is_case_variation (c :: w) m →
        token.kind = e.kind) ∧
      ((∀ e ∈ token_singles, ∀ m, e.matches_ = some m → ¬ is_case_variation (c :: w) m) →
        token.kind = TOK_ID) := by
  have hb := lexer_run_body_word_at fuel comment hcur hc hw hrest hcomment he hfuel
  have hpush := lexer_copy_tokens_push (lexer_advance lexer (w.length + 1))
    { kind := word_kind (c :: w), from_ := some (lexer.current.place : Int),
      to_ := some ((lexer.current.place + (w.length + 1) : Nat) : Int),
      line := lexer.current.line, column := lexer.current.column } hcount
  refine ⟨_, _, _, hb, hpush.1, rfl, rfl, rfl, ?_, rfl, rfl, (word_kind_spec (c :: w)).1,
    (word_kind_spec (c :: w)).2⟩
  exact token_bytes_at (c :: w) rest (by simpa using hcur) _ rfl rfl

/-- C22 (instance): the word `EndIf` in front of `(x)`. -/
theorem C22_word_maximal_run_witness :
    ∃ (token comment2 : token_t) (l2 : lexer_t),
      lexer_run_body 6 (lexer_new (bytes "EndIf(x)") 0) token_zero =
        some (loop_exit.next_iteration, comment2, l2) ∧
      lexer_copy_tokens l2 = lexer_copy_tokens (lexer_new (bytes "EndIf(x)") 0) ++ [token] ∧
      l2.current.place =
        (lexer_new (bytes "EndIf(x)") 0).current.place + ((bytes "ndIf").length + 1) ∧
      token.from_ = some ((lexer_new (bytes "EndIf(x)") 0).current.place : Int) ∧
      token.to_ = some (((lexer_new (bytes "EndIf(x)") 0).current.place
        + ((bytes "ndIf").length + 1) : Nat) : Int) ∧
      token_bytes (lexer_new (bytes "EndIf(x)") 0).source token = 69 :: bytes "ndIf" ∧
      token.line = (lexer_new (bytes "EndIf(x)") 0).current.line ∧
      token.column = (lexer_new (bytes "EndIf(x)") 0).current.column ∧
      (∀ e ∈ token_singles, ∀ m, e.matches_ = some m →
        is_case_variation (69 :: bytes "ndIf") m → token.kind = e.kind) ∧
      ((∀ e ∈ token_singles, ∀ m, e.matches_ = some m →
        ¬ is_case_variation (69 :: bytes "ndIf") m) → token.kind = TOK_ID) :=
  C22_word_maximal_run (lexer_new (bytes "EndIf(x)") 0) token_zero 69 (bytes "ndIf")
    (bytes "(x)") 6 (cursor_at_new _) (by decide) (by decide) (by decide) rfl rfl
    (by decide) (by decide)

/-! ## Line comments -/

/-- An iteration outside a block comment, on a first byte that is neither blank nor starts
a word, which scans a token. -/
theorem lexer_run_body_scanned_in {l0 l1 : lexer_t} {t : token_t} {fuel : Nat}
    (comment : token_t) (hcomment : comment.kind = TOK_INVALID)
    (hws : lexer_current l0 ≠ 32 ∧ lexer_current l0 ≠ 9 ∧ lexer_current l0 ≠ 13)
    (hc : lexer_current l0 ≠ 0)
    (hnw : ¬ (lexer_current l0 = 95 ∨ isalpha (lexer_current l0) = true))
    (hscan : lexer_run_scan (fuel + 1) l0 l0.current (lexer_current l0) token_zero
      = some (t, l1))
    (hk : t.kind ≠ TOK_INVALID) (hrem : t.kind ≠ TOK_REM_KW) (he : l1.error = none) :
    lexer_run_body (fuel + 1) l0 comment =
      some (loop_exit.next_iteration, comment, lexer_push_token l1 t) := by
  rw [lexer_run_body, lexer_skip_whitespace_stay _ _ hws]
  simp only [Option.some_bind, hc, if_false, lexer_mark, hcomment, if_true, hscan, hnw]
  simp [lexer_run_emit, hk, hrem, hcomment, lexer_push_token, lexer_new_token, he]

theorem lexer_read_line_comment_loop_line (rest : List Nat)
    (hrest : rest.headD 0 = 0 ∨ rest.headD 0 = 10) :
    ∀ (body : List Nat) (lexer : lexer_t) (c fuel : Nat),
      cursor_at lexer (c :: (body ++ rest)) → c ≠ 10 → (∀ x ∈ body, x ≠ 0 ∧ x ≠ 10) →
      lexer_read_line_comment_loop (fuel + body.length + 1) lexer =
        some (lexer_advance lexer (body.length + 1)) := by
  intro body
  induction body with
  | nil =>
    intro lexer c fuel hcur hc _
    rw [lexer_read_line_comment_loop]
    simp only [List.nil_append] at hcur
    rw [lexer_next_of_cursor hcur hc,
      if_neg (by rcases hrest with h | h <;> rw [h] <;> simp)]
    rfl
  | cons x body ih =>
    intro lexer c fuel hcur hc hbody
    have hx := hbody x (List.mem_cons_self _ _)
    rw [lexer_read_line_comment_loop]
    simp only [List.cons_append] at hcur
    rw [lexer_next_of_cursor hcur hc]
    simp only [List.headD_cons, ne_eq, hx.1, not_false_eq_true, hx.2, and_self, if_true]
    have := ih (lexer_advance lexer 1) x fuel (cursor_at_advance hcur) hx.2
      (fun y hy => hbody y (List.mem_cons_of_mem _ hy))
    rw [lexer_advance_advance] at this
    simpa [Nat.add_comm, Nat.add_left_comm, Nat.add_assoc] using this

/-- The newline has the entry of `TOK_NEWLINE` in `token_singles`. -/
theorem token_kind_for_single_newline : token_kind_for_single [10] 1 = TOK_NEWLINE := by
  decide

/-- An iteration of the loop of phase 1, outside a block comment, at a single quote: the
bytes up to the next newline or NUL, or to the end of the source, are appended as one line
comment. -/
theorem lexer_run_body_line_comment (fuel : Nat) {lexer : lexer_t} (comment : token_t)
    {body rest : List Nat} (hcur : cursor_at lexer (39 :: (body ++ rest)))
    (hbody : ∀ x ∈ body, x ≠ 0 ∧ x ≠ 10) (hrest : rest.headD 0 = 0 ∨ rest.headD 0 = 10)
    (hcomment : comment.kind = TOK_INVALID) (he : lexer.error = none)
    (hfuel : body.length + 1 ≤ fuel) :
    lexer_run_body fuel lexer comment =
      some (loop_exit.next_iteration, comment,
        lexer_push_token (lexer_advance lexer (body.length + 1))
          { kind := TOK_LINE_COMMENT, from_ := some (lexer.current.place : Int),
            to_ := some ((lexer.current.place + (body.length + 1) : Nat) : Int),
            line := lexer.current.line, column := lexer.current.column }) := by
  obtain ⟨f, rfl⟩ : ∃ f, fuel = f + 1 := ⟨fuel - 1, by omega⟩
  have hc0 : lexer_current lexer = 39 := by rw [lexer_current_of_cursor hcur]; rfl
  have hloop := lexer_read_line_comment_loop_mono lexer _ _
    (lexer_read_line_comment_loop_line rest hrest body lexer 39 0 hcur (by decide) hbody)
    (f + 1) (by omega)
  have hread : lexer_read_line_comment (f + 1) lexer =
      some ({ kind := TOK_LINE_COMMENT, from_ := some (lexer.current.place : Int),
              to_ := some ((lexer.current.place + (body.length + 1) : Nat) : Int),
              line := lexer.current.line, column := lexer.current.column },
        lexer_advance lexer (body.length + 1)) := by
    simp [lexer_read_line_comment, hloop, lexer_mark, token_at, lexer_advance]
  have hscan : lexer_run_scan (f + 1) lexer lexer.current (lexer_current lexer) token_zero =
      some ({ kind := TOK_LINE_COMMENT, from_ := some (lexer.current.place : Int),
              to_ := some ((lexer.current.place + (body.length + 1) : Nat) : Int),
              line := lexer.current.line, column := lexer.current.column },
        lexer_advance lexer (body.length + 1)) := by
    rw [hc0]
    unfold lexer_run_scan
    simp [hread, isdigit]
  exact lexer_run_body_scanned_in comment hcomment (by rw [hc0]; decide) (by rw [hc0]; decide)
    (by rw [hc0]; decide) hscan (show TOK_LINE_COMMENT ≠ TOK_INVALID by decide)
    (show TOK_LINE_COMMENT ≠ TOK_REM_KW by decide) he

/-- An iteration of the loop of phase 1, outside a block comment, at a newline: it is
appended as a token of its own. -/
theorem lexer_run_body_newline (fuel : Nat) {lexer : lexer_t} (comment : token_t)
    {rest : List Nat} (hcur : cursor_at lexer (10 :: rest))
    (hcomment : comment.kind = TOK_INVALID) (he : lexer.error = none) (hfuel : 1 ≤ fuel) :
    lexer_run_body fuel lexer comment =
      some (loop_exit.next_iteration, comment,
        lexer_push_token (lexer_pass lexer [10])
          { kind := TOK_NEWLINE, from_ := some (lexer.current.place : Int),
            to_ := some ((lexer.current.place + 1 : Nat) : Int),
            line := lexer.current.line, column := lexer.current.column }) := by
  obtain ⟨f, rfl⟩ : ∃ f, fuel = f + 1 := ⟨fuel - 1, by omega⟩
  have hc0 : lexer_current lexer = 10 := by rw [lexer_current_of_cursor hcur]; rfl
  have hk := token_kind_for_single_newline
  have hscan : lexer_run_scan (f + 1) lexer lexer.current (lexer_current lexer) token_zero =
      some ({ kind := TOK_NEWLINE, from_ := some (lexer.current.place : Int),
              to_ := some ((lexer.current.place + 1 : Nat) : Int),
              line := lexer.current.line, column := lexer.current.column },
        lexer_pass lexer [10]) := by
    rw [hc0, lexer_run_scan_single (by decide) (by rw [hk]; decide), lexer_next_pass hcur, hk]
    simp [token_span, lexer_pass]
  exact lexer_run_body_scanned_in comment hcomment (by rw [hc0]; decide) (by rw [hc0]; decide)
    (by rw [hc0]; decide) hscan (show TOK_NEWLINE ≠ TOK_INVALID by decide)
    (show TOK_NEWLINE ≠ TOK_REM_KW by decide) he

/-- C23: line comments. For every lexer without an error whose source is a C string and
whose cursor stands on a single quote, followed by the bytes `body` that hold neither a
newline nor a NUL, and then by a newline, a NUL or the end of the source, outside a block
comment (`comment.kind` is `TOK_INVALID`): the iteration of the loop of phase 1 appends one
token of the kind `TOK_LINE_COMMENT` that spans the quote and `body`, with the line and
column of the quote, and leaves the cursor behind `body`; and when a newline follows, the
next iteration appends a token of the kind `TOK_NEWLINE` that spans this newline. -/
theorem C23_line_comment (lexer : lexer_t) (comment : token_t) (body rest : List Nat)
    (fuel : Nat) (hcur : cursor_at lexer (39 :: (body ++ rest)))
    (hbody : ∀ x ∈ body, x ≠ 0 ∧ x ≠ 10) (hrest : rest.headD 0 = 0 ∨ rest.headD 0 = 10)
    (hcomment : comment.kind = TOK_INVALID) (he : lexer.error = none)
    (hcount : lexer.current.token ≤ lexer.tokens.length) (hfuel : body.length + 1 ≤ fuel) :
    ∃ (token : token_t) (l1 : lexer_t),
      lexer_run_body fuel lexer comment = some (loop_exit.next_iteration, comment, l1) ∧
      lexer_copy_tokens l1 = lexer_copy_tokens lexer ++ [token] ∧
      l1.current.place = lexer.current.place + (body.length + 1) ∧
      token =
        { kind := TOK_LINE_COMMENT, from_ := some (lexer.current.place : Int),
          to_ := some ((lexer.current.place + (body.length + 1) : Nat) : Int),
          line := lexer.current.line, column := lexer.current.column } ∧
      token_bytes lexer.source token = 39 :: body ∧
      (rest.headD 0 = 10 → ∃ l2 : lexer_t,
        lexer_run_body fuel l1 comment = some (loop_exit.next_iteration, comment, l2) ∧
        lexer_copy_tokens l2 = lexer_copy_tokens lexer ++
          [token,
           { kind := TOK_NEWLINE,
             from_ := some ((lexer.current.place + (body.length + 1) : Nat) : Int),
             to_ := some ((lexer.current.place + (body.length + 1) + 1 : Nat) : Int),
             line := lexer.current.line,
             column := lexer.current.column + (body.length + 1) }] ∧
        l2.current.place = lexer.current.place + (body.length + 1) + 1 ∧
        l2.current.line = lexer.current.line + 1 ∧ l2.current.column = 1) := by
  have hb := lexer_run_body_line_comment fuel comment hcur hbody hrest hcomment he hfuel
  have hpush := lexer_copy_tokens_push (lexer_advance lexer (body.length + 1))
    { kind := TOK_LINE_COMMENT, from_ := some (lexer.current.place : Int),
      to_ := some ((lexer.current.place + (body.length + 1) : Nat) : Int),
      line := lexer.current.line, column := lexer.current.column } hcount
  refine ⟨_, _, hb, hpush.1, rfl, rfl, ?_, ?_⟩
  · exact token_bytes_at (39 :: body) rest (by simpa using hcur) _ rfl rfl
  · intro hnl
    obtain ⟨rest2, rfl⟩ : ∃ rest2, rest = 10 :: rest2 := by
      cases rest with
      | nil => simp at hnl
      | cons x rest2 => exact ⟨rest2, by simpa using hnl⟩
    have hcur1 : cursor_at (lexer_advance lexer (body.length + 1)) (10 :: rest2) := by
      have := cursor_at_advance_append (39 :: body) (10 :: rest2) (by simpa using hcur)
      simpa using this
    have hcur2 := cursor_at_push_token
      { kind := TOK_LINE_COMMENT, from_ := some (lexer.current.place : Int),
        to_ := some ((lexer.current.place + (body.length + 1) : Nat) : Int),
        line := lexer.current.line, column := lexer.current.column } hcur1
    have hb2 := lexer_run_body_newline fuel comment hcur2 hcomment
      (by simp [lexer_push_token, lexer_new_token, lexer_advance, he]) (by omega)
    have hpush2 := lexer_copy_tokens_push
      (lexer_pass (lexer_push_token (lexer_advance lexer (body.length + 1))
        { kind := TOK_LINE_COMMENT, from_ := some (lexer.current.place : Int),
          to_ := some ((lexer.current.place + (body.length + 1) : Nat) : Int),
          line := lexer.current.line, column := lexer.current.column }) [10])
      { kind := TOK_NEWLINE,
        from_ := some ((lexer.current.place + (body.length + 1) : Nat) : Int),
        to_ := some ((lexer.current.place + (body.length + 1) + 1 : Nat) : Int),
        line := lexer.current.line,
        column := lexer.current.column + (body.length + 1) } hpush.2
    refine ⟨_, hb2, ?_, rfl, rfl, rfl⟩
    have hcp : lexer_copy_tokens (lexer_pass (lexer_push_token
        (lexer_advance lexer (body.length + 1))
        { kind := TOK_LINE_COMMENT, from_ := some (lexer.current.place : Int),
          to_ := some ((lexer.current.place + (body.length + 1) : Nat) : Int),
          line := lexer.current.line, column := lexer.current.column }) [10]) =
        lexer_copy_tokens (lexer_push_token (lexer_advance lexer (body.length + 1))
        { kind := TOK_LINE_COMMENT, from_ := some (lexer.current.place : Int),
          to_ := some ((lexer.current.place + (body.length + 1) : Nat) : Int),
          line := lexer.current.line, column := lexer.current.column }) := rfl
    have h2 := hpush2.1
    rw [hcp, hpush.1] at h2
    simpa using h2

/-- C23 (instance): the source `'ab`, newline, `y`. -/
theorem C23_line_comment_witness :
    ∃ (token : token_t) (l1 : lexer_t),
      lexer_run_body 3 (lexer_new (39 :: (bytes "ab" ++ 10 :: bytes "y")) 0) token_zero =
        some (loop_exit.next_iteration, token_zero, l1) ∧
      lexer_copy_tokens l1 =
        lexer_copy_tokens (lexer_new (39 :: (bytes "ab" ++ 10 :: bytes "y")) 0) ++ [token] ∧
      l1.current.place = (lexer_new (39 :: (bytes "ab" ++ 10 :: bytes "y")) 0).current.place
        + ((bytes "ab").length + 1) ∧
      token =
        { kind := TOK_LINE_COMMENT,
          from_ := some ((lexer_new (39 :: (bytes "ab" ++ 10 :: bytes "y")) 0).current.place : Int),
          to_ := some (((lexer_new (39 :: (bytes "ab" ++ 10 :: bytes "y")) 0).current.place
            + ((bytes "ab").length + 1) : Nat) : Int),
          line := (lexer_new (39 :: (bytes "ab" ++ 10 :: bytes "y")) 0).current.line,
          column := (lexer_new (39 :: (bytes "ab" ++ 10 :: bytes "y")) 0).current.column } ∧
      token_bytes (lexer_new (39 :: (bytes "ab" ++ 10 :: bytes "y")) 0).source token =
        39 :: bytes "ab" ∧
      ((10 :: bytes "y").headD 0 = 10 → ∃ l2 : lexer_t,
        lexer_run_body 3 l1 token_zero = some (loop_exit.next_iteration, token_zero, l2) ∧
        lexer_copy_tokens l2 =
          lexer_copy_tokens (lexer_new (39 :: (bytes "ab" ++ 10 :: bytes "y")) 0) ++
          [token,
           { kind := TOK_NEWLINE,
             from_ := some (((lexer_new (39 :: (bytes "ab" ++ 10 :: bytes "y")) 0).current.place
               + ((bytes "ab").length + 1) : Nat) : Int),
             to_ := some (((lexer_new (39 :: (bytes "ab" ++ 10 :: bytes "y")) 0).current.place
               + ((bytes "ab").length + 1) + 1 : Nat) : Int),
             line := (lexer_new (39 :: (bytes "ab" ++ 10 :: bytes "y")) 0).current.line,
             column := (lexer_new (39 :: (bytes "ab" ++ 10 :: bytes "y")) 0).current.column
               + ((bytes "ab").length + 1) }] ∧
        l2.current.place = (lexer_new (39 :: (bytes "ab" ++ 10 :: bytes "y")) 0).current.place
          + ((bytes "ab").length + 1) + 1 ∧
        l2.current.line = (lexer_new (39 :: (bytes "ab" ++ 10 :: bytes "y")) 0).current.line + 1 ∧
        l2.current.column = 1) :=
  C23_line_comment (lexer_new (39 :: (bytes "ab" ++ 10 :: bytes "y")) 0) token_zero (bytes "ab")
    (10 :: bytes "y") 3 (cursor_at_new _) (by decide) (by decide) rfl rfl (by decide) (by decide)

/-! ## The cursor walks through the source -/

theorem walked_refl (l : lexer_t) : walked l l := ⟨moved_refl l, id, id⟩

theorem walked_trans {l1 l2 l3 : lexer_t} (h1 : walked l1 l2) (h2 : walked l2 l3) :
    walked l1 l3 :=
  ⟨moved_trans h1.1 h2.1, fun h => h2.2.1 (h1.2.1 h), fun h => h2.2.2 (h1.2.2 h)⟩

theorem position_after_snoc (pos : Nat × Nat) (bs : List Nat) (b : Nat) :
    position_after pos (bs ++ [b]) =
      if b = 10 then ((position_after pos bs).1 + 1, 1)
      else ((position_after pos bs).1, (position_after pos bs).2 + 1) := by
  simp [position_after, List.foldl_append]

/-- The byte under a cursor that stands in front of the end of the source. -/
theorem lexer_current_in_source {l : lexer_t} (h : l.current.place < l.source.length) :
    lexer_current l = l.source.getD l.current.place 0 ∧
      l.source.take (l.current.place + 1) =
        l.source.take l.current.place ++ [l.source.getD l.current.place 0] := by
  constructor
  · unfold lexer_current lexer_deref
    rw [if_neg (by omega), List.getD_eq_getElem _ _
      (by simp only [List.length_append, List.length_singleton]; omega),
      List.getD_eq_getElem _ _ h, List.getElem_append_left h]
  · rw [List.take_succ, List.getD_eq_getElem _ _ h, List.getElem?_eq_getElem h]
    rfl

theorem lexer_next_current (l : lexer_t) :
    (lexer_next l).2.current.place =
        (if l.current.place < l.source.length then l.current.place + 1
         else l.current.place) ∧
      (lexer_next l).2.current.line =
        (if lexer_current l = 10 then l.current.line + 1 else l.current.line) ∧
      (lexer_next l).2.current.column =
        (if lexer_current l = 10 then 1 else l.current.column + 1) ∧
      (lexer_next l).2.source = l.source := by
  unfold lexer_next
  simp only [lexer_has_next]
  by_cases h1 : lexer_current l = 10 <;> by_cases h2 : l.current.place < l.source.length <;>
    simp [h1, h2]

theorem lexer_next_walked (l : lexer_t) : walked l (lexer_next l).2 := by
  obtain ⟨hplace, hline, hcol, hsrc⟩ := lexer_next_current l
  refine ⟨lexer_next_moved l, ?_, ?_⟩
  · intro h
    unfold in_source at h ⊢
    rw [hplace, hsrc]
    split_ifs <;> omega
  · intro hs hlt
    rw [hplace, hsrc] at hlt
    by_cases hn : l.current.place < l.source.length
    · obtain ⟨hc, ht⟩ := lexer_current_in_source hn
      have hs1 := hs hn
      have h1 : l.current.line = (position_after (1, 1) (l.source.take l.current.place)).1 :=
        congrArg Prod.fst hs1
      have h2 : l.current.column = (position_after (1, 1) (l.source.take l.current.place)).2 :=
        congrArg Prod.snd hs1
      rw [hplace, hsrc, if_pos hn, ht, position_after_snoc, ← h1, ← h2, ← hc, hline, hcol]
      split_ifs <;> rfl
    · rw [if_neg hn] at hlt
      exact absurd hlt hn

theorem lexer_asprintf_walked (l : lexer_t) (format : String) (args : List Nat) :
    walked l (lexer_asprintf l format args) :=
  ⟨lexer_asprintf_moved l format args, id, id⟩

theorem lexer_reset_walked {l q : lexer_t} (h : walked l q) :
    walked l (lexer_reset q (lexer_mark l)) := by
  refine ⟨lexer_reset_moved h.1, ?_, ?_⟩
  · intro hi
    unfold in_source at hi ⊢
    simpa [lexer_reset, lexer_mark, h.1.1] using hi
  · intro hs
    unfold synced at hs ⊢
    simpa [lexer_reset, lexer_mark, h.1.1] using hs

/-- The cursor on a C string that does not read a NUL stands in front of the end. -/
theorem place_lt_of_current {l : lexer_t} (hs : l.sentinel = 0) (hi : in_source l)
    (hc : lexer_current l ≠ 0) : l.current.place < l.source.length := by
  unfold in_source at hi
  rcases Nat.lt_or_ge l.current.place l.source.length with h | h
  · exact h
  · exfalso
    apply hc
    have he : l.current.place = l.source.length := Nat.le_antisymm hi h
    unfold lexer_current lexer_deref
    rw [if_neg (by omega), he, hs]
    simp [List.getD_eq_getElem?_getD]

/-- A call of `lexer_next` behind a walk from a place in the source leaves this place. -/
theorem lexer_next_progress {l l1 : lexer_t} (hm : moved l l1) (hi : in_source l1)
    (hlt : l.current.place < l.source.length) :
    l.current.place < (lexer_next l1).2.current.place := by
  have hle := hm.2.2.2.2.1
  unfold in_source at hi
  rw [(lexer_next_current l1).1, hm.1]
  rw [hm.1] at hi
  split_ifs <;> omega

/-! ## The loops of the sub-scanners walk the cursor -/

theorem lexer_skip_whitespace_walked :
    ∀ (fuel : Nat) (l l1 : lexer_t), lexer_skip_whitespace fuel l = some l1 → walked l l1 := by
  intro fuel
  induction fuel with
  | zero => intro l l1 h; simp [lexer_skip_whitespace] at h
  | succ fuel ih =>
    intro l l1 h
    rw [lexer_skip_whitespace] at h
    split_ifs at h
    · exact walked_trans (lexer_next_walked l) (ih _ _ h)
    · simp only [Option.some.injEq] at h
      subst h
      exact walked_refl _

theorem lexer_read_base_number_bin_walked :
    ∀ (fuel : Nat) (l l1 : lexer_t) (cur : Nat),
      lexer_read_base_number_bin fuel l cur = some l1 → walked l l1 := by
  intro fuel
  induction fuel with
  | zero => intro l l1 cur h; simp [lexer_read_base_number_bin] at h
  | succ fuel ih =>
    intro l l1 cur h
    rw [lexer_read_base_number_bin] at h
    dsimp only at h
    split_ifs at h
    · exact walked_trans (lexer_next_walked l) (ih _ _ _ h)
    · simp only [Option.some.injEq] at h
      subst h
      exact lexer_next_walked l
    · exact ih _ _ _ h
    · simp only [Option.some.injEq] at h
      subst h
      exact walked_refl _

theorem lexer_read_base_number_hex_walked :
    ∀ (fuel : Nat) (l l1 : lexer_t),
      lexer_read_base_number_hex fuel l = some l1 → walked l l1 := by
  intro fuel
  induction fuel with
  | zero => intro l l1 h; simp [lexer_read_base_number_hex] at h
  | succ fuel ih =>
    intro l l1 h
    rw [lexer_read_base_number_hex] at h
    dsimp only at h
    split_ifs at h
    · exact walked_trans (lexer_next_walked l) (ih _ _ h)
    · simp only [Option.some.injEq] at h
      subst h
      exact lexer_next_walked l
    · simp only [Option.some.injEq] at h
      subst h
      exact walked_refl _

theorem lexer_read_number_loop_walked :
    ∀ (fuel : Nat) (l : lexer_t) (isDec isExp : Bool) (r : Bool × lexer_t),
      lexer_read_number_loop fuel l isDec isExp = some r → walked l r.2 := by
  intro fuel
  induction fuel with
  | zero => intro l isDec isExp r h; simp [lexer_read_number_loop] at h
  | succ fuel ih =>
    intro l isDec isExp r h
    rw [lexer_read_number_loop] at h
    dsimp only at h
    have hn := lexer_next_walked l
    have hnn := lexer_next_walked (lexer_next l).2
    by_cases h1 : lexer_has_next l = true
    · rw [if_pos h1] at h
      by_cases h2 : (lexer_next l).1 ≠ 0
      · rw [if_pos h2] at h
        by_cases h3 : (lexer_next l).1 = 46
        · rw [if_pos h3] at h
          by_cases hd : isDec = true
          · rw [if_pos hd] at h
            simp only [Option.some.injEq] at h
            subst h
            exact hn
          · rw [if_neg hd] at h
            exact walked_trans hn (ih _ _ _ _ h)
        · rw [if_neg h3] at h
          by_cases h4 : isdigit (lexer_next l).1 = true
          · rw [if_pos h4] at h
            exact walked_trans hn (ih _ _ _ _ h)
          · rw [if_neg h4] at h
            by_cases h5 : tolower (lexer_next l).1 = 101
            · rw [if_pos h5] at h
              by_cases h6 : isExp = true
              · rw [if_pos h6] at h
                simp only [Option.some.injEq] at h
                subst h
                exact walked_trans hn (lexer_asprintf_walked _ _ _)
              · rw [if_neg h6] at h
                by_cases hs : lexer_peek (lexer_next l).2 = 45 ∨ lexer_peek (lexer_next l).2 = 43
                · simp only [hs, decide_True, if_true] at h
                  split_ifs at h
                  · simp only [Option.some.injEq] at h
                    subst h
                    exact walked_trans hn (walked_trans hnn (lexer_asprintf_walked _ _ _))
                  · exact walked_trans hn (walked_trans hnn (ih _ _ _ _ h))
                · simp only [hs, decide_False, if_false, Bool.false_eq_true] at h
                  split_ifs at h
                  · simp only [Option.some.injEq] at h
                    subst h
                    exact walked_trans hn (lexer_asprintf_walked _ _ _)
                  · exact walked_trans hn (ih _ _ _ _ h)
            · rw [if_neg h5] at h
              simp only [Option.some.injEq] at h
              subst h
              exact hn
      · rw [if_neg h2] at h
        simp only [Option.some.injEq] at h
        subst h
        exact hn
    · rw [if_neg h1] at h
      simp only [Option.some.injEq] at h
      subst h
      exact walked_refl _

theorem lexer_read_word_loop_walked :
    ∀ (fuel : Nat) (l l1 : lexer_t), lexer_read_word_loop fuel l = some l1 → walked l l1 := by
  intro fuel
  induction fuel with
  | zero => intro l l1 h; simp [lexer_read_word_loop] at h
  | succ fuel ih =>
    intro l l1 h
    rw [lexer_read_word_loop] at h
    dsimp only at h
    split_ifs at h
    · simp only [Option.some.injEq] at h
      subst h
      exact walked_refl _
    · exact walked_trans (lexer_next_walked l) (ih _ _ h)
    · simp only [Option.some.injEq] at h
      subst h
      exact walked_refl _

theorem lexer_read_string_loop_walked :
    ∀ (fuel : Nat) (l : lexer_t) (r : Bool × lexer_t),
      lexer_read_string_loop fuel l = some r → walked l r.2 := by
  intro fuel
  induction fuel with
  | zero => intro l r h; simp [lexer_read_string_loop] at h
  | succ fuel ih =>
    intro l r h
    rw [lexer_read_string_loop] at h
    dsimp only at h
    have hn := lexer_next_walked l
    split_ifs at h
    · simp only [Option.some.injEq] at h
      subst h
      exact walked_trans hn (lexer_asprintf_walked _ _ _)
    · exact walked_trans hn (ih _ _ h)
    · simp only [Option.some.injEq] at h
      subst h
      exact hn
    · simp only [Option.some.injEq] at h
      subst h
      exact walked_refl _

theorem lexer_read_line_comment_loop_walked :
    ∀ (fuel : Nat) (l l1 : lexer_t),
      lexer_read_line_comment_loop fuel l = some l1 → walked l l1 := by
  intro fuel
  induction fuel with
  | zero => intro l l1 h; simp [lexer_read_line_comment_loop] at h
  | succ fuel ih =>
    intro l l1 h
    rw [lexer_read_line_comment_loop] at h
    split_ifs at h
    · exact walked_trans (lexer_next_walked l) (ih _ _ h)
    · simp only [Option.some.injEq] at h
      subst h
      exact lexer_next_walked l

theorem lexer_run_dots_walked :
    ∀ (fuel : Nat) (l : lexer_t) (kind : token_kind_t) (r : token_kind_t × lexer_t),
      lexer_run_dots fuel l kind = some r → TOK_DOT ≤ kind → kind ≤ TOK_AT →
        walked l r.2 ∧ TOK_DOT ≤ r.1 ∧ r.1 ≤ TOK_AT := by
  intro fuel
  induction fuel with
  | zero => intro l kind r h; simp [lexer_run_dots] at h
  | succ fuel ih =>
    intro l kind r h hk hk2
    rw [lexer_run_dots] at h
    dsimp only at h
    split_ifs at h with h1 h2
    · obtain ⟨hm, h3, h4⟩ := ih _ _ _ h (Nat.le_succ_of_le hk)
        (Nat.succ_le_of_lt (Nat.lt_of_le_of_lt h1 (by decide)))
      exact ⟨walked_trans (lexer_next_walked l) hm, h3, h4⟩
    · simp only [Option.some.injEq] at h
      subst h
      exact ⟨lexer_next_walked l, hk, hk2⟩
    · simp only [Option.some.injEq] at h
      subst h
      exact ⟨walked_refl _, hk, hk2⟩

/-! ## What the sub-scanners return: kind, start and progress -/

theorem token_kind_for_single_from_made (single : List Nat) (len : Nat) :
    ∀ table : List token_single_t, (∀ e ∈ table, kind_made e.kind) →
      kind_made (token_kind_for_single_from table single len) := by
  intro table
  induction table with
  | nil =>
    intro _
    rw [token_kind_for_single_from]
    decide
  | cons e table ih =>
    intro h
    rw [token_kind_for_single_from]
    dsimp only
    split_ifs
    · exact h e (List.mem_cons_self _ _)
    · exact ih (fun x hx => h x (List.mem_cons_of_mem _ hx))
    · exact h e (List.mem_cons_self _ _)
    · exact ih (fun x hx => h x (List.mem_cons_of_mem _ hx))
    · exact h e (List.mem_cons_self _ _)

set_option maxRecDepth 100000 in
/-- No entry of `token_singles` has one of the four kinds. -/
theorem token_singles_made : ∀ e ∈ token_singles, kind_made e.kind := by decide

theorem token_kind_for_single_made (single : List Nat) (len : Nat) :
    kind_made (token_kind_for_single single len) :=
  token_kind_for_single_from_made single len token_singles token_singles_made

set_option maxRecDepth 100000 in
/-- No rule of `token_pairs` makes one of the four kinds. -/
theorem token_pairs_made : ∀ p ∈ token_pairs, kind_made p.kind := by decide

theorem lexer_next_place {l : lexer_t} (h : l.current.place < l.source.length) :
    (lexer_next l).2.current.place = l.current.place + 1 := by
  rw [(lexer_next_current l).1, if_pos h]

theorem has_next_iff (l : lexer_t) :
    lexer_has_next l = true ↔ l.current.place < l.source.length := by
  simp [lexer_has_next]

/-- The loop of `lexer_read_number` starts with a call of `lexer_next`. -/
theorem lexer_read_number_loop_first (fuel : Nat) (l : lexer_t) (isDec isExp : Bool)
    (r : Bool × lexer_t) (h : lexer_read_number_loop fuel l isDec isExp = some r)
    (h1 : lexer_has_next l = true) : moved (lexer_next l).2 r.2 := by
  cases fuel with
  | zero => simp [lexer_read_number_loop] at h
  | succ fuel =>
    rw [lexer_read_number_loop] at h
    dsimp only at h
    have hnn := lexer_next_moved (lexer_next l).2
    rw [if_pos h1] at h
    by_cases h2 : (lexer_next l).1 ≠ 0
    · rw [if_pos h2] at h
      by_cases h3 : (lexer_next l).1 = 46
      · rw [if_pos h3] at h
        by_cases hd : isDec = true
        · rw [if_pos hd] at h
          simp only [Option.some.injEq] at h
          subst h
          exact moved_refl _
        · rw [if_neg hd] at h
          exact lexer_read_number_loop_moved _ _ _ _ _ h
      · rw [if_neg h3] at h
        by_cases h4 : isdigit (lexer_next l).1 = true
        · rw [if_pos h4] at h
          exact lexer_read_number_loop_moved _ _ _ _ _ h
        · rw [if_neg h4] at h
          by_cases h5 : tolower (lexer_next l).1 = 101
          · rw [if_pos h5] at h
            by_cases h6 : isExp = true
            · rw [if_pos h6] at h
              simp only [Option.some.injEq] at h
              subst h
              exact lexer_asprintf_moved _ _ _
            · rw [if_neg h6] at h
              by_cases hs : lexer_peek (lexer_next l).2 = 45 ∨ lexer_peek (lexer_next l).2 = 43
              · simp only [hs, decide_True, if_true] at h
                split_ifs at h
                · simp only [Option.some.injEq] at h
                  subst h
                  exact moved_trans hnn (lexer_asprintf_moved _ _ _)
                · exact moved_trans hnn (lexer_read_number_loop_moved _ _ _ _ _ h)
              · simp only [hs, decide_False, if_false, Bool.false_eq_true] at h
                split_ifs at h
                · simp only [Option.some.injEq] at h
                  subst h
                  exact lexer_asprintf_moved _ _ _
                · exact lexer_read_number_loop_moved _ _ _ _ _ h
          · rw [if_neg h5] at h
            simp only [Option.some.injEq] at h
            subst h
            exact moved_refl _
    · rw [if_neg h2] at h
      simp only [Option.some.injEq] at h
      subst h
      exact moved_refl _

/-- The loop of `lexer_read_line_comment` starts with a call of `lexer_next`. -/
theorem lexer_read_line_comment_loop_first (fuel : Nat) (l l1 : lexer_t)
    (h : lexer_read_line_comment_loop fuel l = some l1) : moved (lexer_next l).2 l1 := by
  cases fuel with
  | zero => simp [lexer_read_line_comment_loop] at h
  | succ fuel =>
    rw [lexer_read_line_comment_loop] at h
    split_ifs at h
    · exact lexer_read_line_comment_loop_moved _ _ _ h
    · simp only [Option.some.injEq] at h
      subst h
      exact moved_refl _

/-- The loop of the dots starts with a call of `lexer_next`. -/
theorem lexer_run_dots_first (fuel : Nat) (l : lexer_t) (r : token_kind_t × lexer_t)
    (h : lexer_run_dots fuel l TOK_DOT = some r) : moved (lexer_next l).2 r.2 := by
  cases fuel with
  | zero => simp [lexer_run_dots] at h
  | succ fuel =>
    rw [lexer_run_dots] at h
    dsimp only at h
    rw [if_pos (by decide)] at h
    split_ifs at h
    · exact (lexer_run_dots_moved _ _ _ _ h (by decide) (by decide)).1
    · simp only [Option.some.injEq] at h
      subst h
      exact moved_refl _

theorem place_lt_of_first {l l1 : lexer_t} (hm : moved (lexer_next l).2 l1)
    (hlt : l.current.place < l.source.length) : l.current.place < l1.current.place := by
  have h1 := hm.2.2.2.2.1
  rw [lexer_next_place hlt] at h1
  omega

theorem scan_at_of_walked {l l1 : lexer_t} {kind : token_kind_t} {to_ : Option Int}
    (hw : walked l l1) (hk : kind_made kind)
    (hp : l.current.place < l.source.length → l.current.place < l1.current.place) :
    scan_at l ({ token_at kind (lexer_mark l) with to_ := to_ }, l1) :=
  ⟨hw, Or.inr ⟨hk, rfl, rfl, rfl, hp⟩⟩

theorem lexer_read_base_number_at (fuel : Nat) (l : lexer_t) (r : token_t × lexer_t)
    (h : lexer_read_base_number fuel l = some r) : scan_at l r := by
  rw [lexer_read_base_number] at h
  dsimp only at h
  split_ifs at h with h1 h2
  · cases hb : lexer_read_base_number_bin fuel l (lexer_current l) with
    | none => simp [hb] at h
    | some l1 =>
      simp only [hb, Option.some_bind, Option.some.injEq] at h
      subst h
      have hm := lexer_read_base_number_bin_walked _ _ _ _ hb
      exact scan_at_of_walked (walked_trans hm (lexer_next_walked l1)) (by decide)
        (fun hlt => lexer_next_progress hm.1 (hm.2.1 (Nat.le_of_lt hlt)) hlt)
  · cases hb : lexer_read_base_number_hex fuel l with
    | none => simp [hb] at h
    | some l1 =>
      simp only [hb, Option.some_bind, Option.some.injEq] at h
      subst h
      have hm := lexer_read_base_number_hex_walked _ _ _ hb
      exact scan_at_of_walked (walked_trans hm (lexer_next_walked l1)) (by decide)
        (fun hlt => lexer_next_progress hm.1 (hm.2.1 (Nat.le_of_lt hlt)) hlt)
  · simp only [Option.some.injEq] at h
    subst h
    exact ⟨lexer_asprintf_walked _ _ _, Or.inl rfl⟩

theorem lexer_read_number_at (fuel : Nat) (l : lexer_t) (r : token_t × lexer_t)
    (h : lexer_read_number fuel l = some r) : scan_at l r := by
  rw [lexer_read_number] at h
  cases hb : lexer_read_number_loop fuel l (decide (lexer_current l = 46)) false with
  | none => simp [hb] at h
  | some q =>
    simp only [hb, Option.map_some', Option.some.injEq] at h
    have hm := lexer_read_number_loop_walked _ _ _ _ _ hb
    split_ifs at h
    · subst h
      exact scan_at_of_walked hm (by decide) (fun hlt => place_lt_of_first
        (lexer_read_number_loop_first _ _ _ _ _ hb ((has_next_iff l).2 hlt)) hlt)
    · subst h
      exact ⟨hm, Or.inl rfl⟩

theorem lexer_read_string_at (fuel : Nat) (l : lexer_t) (r : token_t × lexer_t)
    (h : lexer_read_string fuel l = some r) : scan_at l r := by
  rw [lexer_read_string] at h
  dsimp only at h
  cases hb : lexer_read_string_loop fuel l with
  | none => simp [hb] at h
  | some q =>
    simp only [hb, Option.map_some', Option.some.injEq] at h
    have hm := lexer_read_string_loop_walked _ _ _ hb
    split_ifs at h
    · subst h
      exact scan_at_of_walked (walked_trans hm (lexer_next_walked q.2)) (by decide)
        (fun hlt => lexer_next_progress hm.1 (hm.2.1 (Nat.le_of_lt hlt)) hlt)
    · subst h
      exact ⟨hm, Or.inl rfl⟩

theorem lexer_read_line_comment_at (fuel : Nat) (l : lexer_t) (r : token_t × lexer_t)
    (h : lexer_read_line_comment fuel l = some r) : scan_at l r := by
  rw [lexer_read_line_comment] at h
  cases hb : lexer_read_line_comment_loop fuel l with
  | none => simp [hb] at h
  | some l1 =>
    simp only [hb, Option.map_some', Option.some.injEq] at h
    have hm := lexer_read_line_comment_loop_walked _ _ _ hb
    subst h
    exact scan_at_of_walked hm (by decide) (fun hlt => place_lt_of_first
      (lexer_read_line_comment_loop_first _ _ _ hb) hlt)

/-- The function `lexer_read_word` returns a token that starts at the cursor. -/
theorem lexer_read_word_at (fuel : Nat) (l : lexer_t) (r : token_t × lexer_t)
    (h : lexer_read_word fuel l = some r) :
    walked l r.2 ∧ r.1.kind ≠ TOK_INVALID ∧ kind_made r.1.kind ∧
      r.1.from_ = some (l.current.place : Int) ∧
      r.1.line = l.current.line ∧ r.1.column = l.current.column ∧
      (l.current.place < l.source.length → l.current.place < r.2.current.place) := by
  have hok := lexer_read_word_ok fuel l r h
  rw [lexer_read_word] at h
  dsimp only at h
  cases hb : lexer_read_word_loop fuel l with
  | none => simp [hb] at h
  | some l1 =>
    simp only [hb, Option.map_some', Option.some.injEq] at h
    have hm := lexer_read_word_loop_walked _ _ _ hb
    have hmade := token_kind_for_single_made
      (List.drop (lexer_mark l).place ((lexer_next l1).2.source ++ [(lexer_next l1).2.sentinel]))
      ((lexer_next l1).2.current.place - (lexer_mark l).place)
    generalize token_kind_for_single
      (List.drop (lexer_mark l).place ((lexer_next l1).2.source ++ [(lexer_next l1).2.sentinel]))
      ((lexer_next l1).2.current.place - (lexer_mark l).place) = alter at h hmade
    subst h
    refine ⟨walked_trans hm (lexer_next_walked l1), hok.2.1, ?_, hok.2.2.2.2.2.1,
      hok.2.2.2.1, hok.2.2.2.2.1,
      fun hlt => lexer_next_progress hm.1 (hm.2.1 (Nat.le_of_lt hlt)) hlt⟩
    dsimp only
    split_ifs
    · exact hmade
    · simp only [token_at]; decide

/-! ## The chain of tests of the driver, by the first byte -/

/-- The chain of tests of the driver: at most one of the tests on the first byte holds, so
that the chain is one sub-scan, by the first byte, and then the test of the token of one
character. -/
theorem lexer_run_scan_cases (fuel : Nat) (l : lexer_t) (mark : token_mark_t) (cur : Nat)
    (token : token_t) :
    lexer_run_scan fuel l mark cur token =
      (if cur = 64 then
          some (if (lexer_next l).1 = 64 then
              (token_span TOK_DOUBLEAT mark (lexer_next (lexer_next l).2).2,
                (lexer_next (lexer_next l).2).2)
            else (token_span TOK_AT mark (lexer_next l).2, (lexer_next l).2))
        else if cur = 46 then
          (if isdigit (lexer_peek l) then lexer_read_number fuel l
            else (lexer_run_dots fuel l TOK_DOT).map fun r => (token_span r.1 mark r.2, r.2))
        else if cur = 39 then lexer_read_line_comment fuel l
        else if cur = 37 ∧ (lexer_peek l = 49 ∨ lexer_peek l = 48) then
          lexer_read_base_number fuel l
        else if cur = 36 ∧ isxdigit (lexer_peek l) then lexer_read_base_number fuel l
        else if cur = 34 then lexer_read_string fuel l
        else if isdigit cur then lexer_read_number fuel l
        else some (token, l)).bind fun s =>
      if s.1.kind = TOK_INVALID then
        if token_kind_for_single [cur] 1 ≠ TOK_INVALID then
          some (token_span (token_kind_for_single [cur] 1) mark (lexer_next s.2).2,
            (lexer_next s.2).2)
        else some s
      else some s := by
  unfold lexer_run_scan
  generalize token_kind_for_single [cur] 1 = alter
  by_cases h64 : cur = 64
  · subst h64
    simp [isdigit]
  by_cases h46 : cur = 46
  · subst h46
    simp [isdigit]
  by_cases h39 : cur = 39
  · subst h39
    simp [isdigit]
  by_cases h37 : cur = 37
  · subst h37
    simp [isdigit]
  by_cases h36 : cur = 36
  · subst h36
    simp [isdigit]
  by_cases h34 : cur = 34
  · subst h34
    simp [isdigit]
  simp [h64, h46, h39, h37, h36, h34]

theorem scan_at_span {l l1 : lexer_t} (kind : token_kind_t) (hw : walked l l1)
    (hk : kind_made kind)
    (hp : l.current.place < l.source.length → l.current.place < l1.current.place) :
    scan_at l (token_span kind l.current l1, l1) :=
  ⟨hw, Or.inr ⟨hk, rfl, rfl, rfl, hp⟩⟩

theorem kind_made_dots {k : token_kind_t} (h1 : TOK_DOT ≤ k) (h2 : k ≤ TOK_AT) :
    kind_made k := by
  unfold kind_made
  have h3 : 79 ≤ k := h1
  have h4 : k ≤ 82 := h2
  refine ⟨?_, ?_, ?_, ?_⟩ <;> intro h <;> rw [h] at h3 h4 <;> revert h3 h4 <;> decide

/-- The chain of tests of the driver returns an invalid token, or a token that starts at
the mark, with a kind that `lexer.c` assigns, and with the cursor moved on. -/
theorem lexer_run_scan_at (fuel : Nat) (l : lexer_t) (cur : Nat) (token : token_t)
    (r : token_t × lexer_t) (htok : token.kind = TOK_INVALID)
    (h : lexer_run_scan fuel l l.current cur token = some r) : scan_at l r := by
  rw [lexer_run_scan_cases] at h
  obtain ⟨s, hs, h⟩ := Option.bind_eq_some.1 h
  have hn := lexer_next_walked l
  have hnn := lexer_next_walked (lexer_next l).2
  have h0 : scan_at l s := by
    split_ifs at hs
    · simp only [Option.some.injEq] at hs
      subst hs
      exact scan_at_span _ (walked_trans hn hnn) (by decide)
        (fun hlt => lexer_next_progress hn.1 (hn.2.1 (Nat.le_of_lt hlt)) hlt)
    · simp only [Option.some.injEq] at hs
      subst hs
      exact scan_at_span _ hn (by decide)
        (fun hlt => lexer_next_progress (moved_refl l) (Nat.le_of_lt hlt) hlt)
    · exact lexer_read_number_at _ _ _ hs
    · obtain ⟨q, hq, rfl⟩ := Option.map_eq_some'.1 hs
      obtain ⟨hm, hk1, hk2⟩ := lexer_run_dots_walked _ _ _ _ hq (Nat.le_refl _) (by decide)
      exact scan_at_span _ hm (kind_made_dots hk1 hk2)
        (fun hlt => place_lt_of_first (lexer_run_dots_first _ _ _ hq) hlt)
    · exact lexer_read_line_comment_at _ _ _ hs
    · exact lexer_read_base_number_at _ _ _ hs
    · exact lexer_read_base_number_at _ _ _ hs
    · exact lexer_read_string_at _ _ _ hs
    · exact lexer_read_number_at _ _ _ hs
    · simp only [Option.some.injEq] at hs
      subst hs
      exact ⟨walked_refl _, Or.inl htok⟩
  have hmade := token_kind_for_single_made [cur] 1
  generalize token_kind_for_single [cur] 1 = alter at h hmade
  split_ifs at h
  · simp only [Option.some.injEq] at h
    subst h
    exact scan_at_span _ (walked_trans h0.1 (lexer_next_walked _)) hmade
      (fun hlt => lexer_next_progress h0.1.1 (h0.1.2.1 (Nat.le_of_lt hlt)) hlt)
  · simp only [Option.some.injEq] at h
    subst h
    exact h0
  · simp only [Option.some.injEq] at h
    subst h
    exact h0

/-! ## The body of the loop of phase 1: the tokens it appends -/

theorem grown_of_walked {l1 l2 : lexer_t} (h : walked l1 l2)
    (hc : l1.current.token ≤ l1.tokens.length) : grown l1 l2 [] :=
  ⟨h.1.1, h.1.2.1, h.1.2.2.2.2.1, h.2.1, h.2.2,
    by rw [h.1.2.2.1, h.1.2.2.2.1]; exact hc,
    by rw [lexer_copy_tokens_moved h.1, List.append_nil]⟩

theorem grown_push (l : lexer_t) (t : token_t) (hc : l.current.token ≤ l.tokens.length) :
    grown l (lexer_push_token l t) [t] :=
  ⟨rfl, rfl, Nat.le_refl _, id, id, (lexer_copy_tokens_push l t hc).2,
    (lexer_copy_tokens_push l t hc).1⟩

theorem grown_trans {l1 l2 l3 : lexer_t} {n1 n2 : List token_t} (h1 : grown l1 l2 n1)
    (h2 : grown l2 l3 n2) : grown l1 l3 (n1 ++ n2) :=
  ⟨h2.1.trans h1.1, h2.2.1.trans h1.2.1, Nat.le_trans h1.2.2.1 h2.2.2.1,
    fun h => h2.2.2.2.1 (h1.2.2.2.1 h), fun h => h2.2.2.2.2.1 (h1.2.2.2.2.1 h),
    h2.2.2.2.2.2.1, by rw [h2.2.2.2.2.2.2, h1.2.2.2.2.2.2, List.append_assoc]⟩

theorem scan_at_lexer {l0 l2 l3 : lexer_t} {tok : token_t} (hs : scan_at l0 (tok, l2))
    (hm : walked l2 l3) : scan_at l0 (tok, l3) := by
  refine ⟨walked_trans hs.1 hm, ?_⟩
  rcases hs.2 with h | ⟨hk, hf, hl, hc, hp⟩
  · exact Or.inl h
  · exact Or.inr ⟨hk, hf, hl, hc, fun hlt => Nat.lt_of_lt_of_le (hp hlt) hm.1.2.2.2.2.1⟩

/-- The probe behind an `End` inside a block comment keeps the token, or makes it an
`EndRem`; the token starts where it started. -/
theorem lexer_run_probe_at (fuel : Nat) (l0 l2 : lexer_t) (cur : Nat) (tok : token_t)
    (r : token_t × Nat × lexer_t) (hs : scan_at l0 (tok, l2))
    (h : lexer_run_probe fuel l2 cur tok = some r) : scan_at l0 (r.1, r.2.2) := by
  unfold lexer_run_probe at h
  dsimp only at h
  have hm3 : walked l2 (if lexer_current l2 = 32 then (lexer_next l2).2 else l2) := by
    split_ifs
    · exact lexer_next_walked l2
    · exact walked_refl _
  generalize (if lexer_current l2 = 32 then (lexer_next l2).2 else l2) = l3 at h hm3
  split_ifs at h with hend hl
  · obtain ⟨q, hq, h⟩ := Option.bind_eq_some.1 h
    obtain ⟨hmq, _⟩ := lexer_read_word_at _ _ _ hq
    split_ifs at h
    · simp only [Option.some.injEq] at h
      subst h
      have hw := walked_trans hm3 hmq
      refine ⟨walked_trans hs.1 hw, ?_⟩
      rcases hs.2 with hi | ⟨hk, hf, hl1, hc1, hp⟩
      · rw [hend] at hi
        exact absurd hi (by decide)
      · exact Or.inr ⟨show kind_made TOK_ENDREM_KW by decide, hf, hl1, hc1,
          fun hlt => Nat.lt_of_lt_of_le (hp hlt) hw.1.2.2.2.2.1⟩
    · simp only [Option.some.injEq] at h
      subst h
      exact scan_at_lexer hs (walked_trans hm3 (lexer_reset_walked hmq))
  · simp only [Option.some.injEq] at h
    subst h
    exact scan_at_lexer hs hm3
  · simp only [Option.some.injEq] at h
    subst h
    exact hs

/-- The end of the loop body appends the token, outside a block comment, and returns `1`
when the error is set, which it sets when the token is invalid outside a block comment. -/
theorem lexer_run_emit_grown (lexer : lexer_t) (cur : Nat) (token comment : token_t)
    (hc : lexer.current.token ≤ lexer.tokens.length) :
    grown lexer (lexer_run_emit lexer cur token comment).2.2
        (if token.kind ≠ TOK_INVALID ∧ comment.kind = TOK_INVALID then [token] else []) ∧
      ((lexer_run_emit lexer cur token comment).1 = loop_exit.return_1 ∨
        (lexer_run_emit lexer cur token comment).1 = loop_exit.next_iteration) ∧
      ((lexer_run_emit lexer cur token comment).1 = loop_exit.return_1 →
        (lexer_run_emit lexer cur token comment).2.2.error ≠ none) ∧
      (token.kind = TOK_INVALID → comment.kind = TOK_INVALID →
        (lexer_run_emit lexer cur token comment).1 = loop_exit.return_1) := by
  unfold lexer_run_emit
  dsimp only
  by_cases hpush : token.kind ≠ TOK_INVALID ∧ comment.kind = TOK_INVALID
  · simp only [if_pos hpush]
    have hg := grown_push lexer token hc
    generalize (if comment.kind = TOK_INVALID ∧ token.kind = TOK_REM_KW then token
      else comment) = c2
    have hne : ¬ (c2.kind = TOK_INVALID ∧ token.kind = TOK_INVALID ∧
        (lexer_push_token lexer token).error = none) := fun h => hpush.1 h.2.1
    rw [if_neg hne]
    split_ifs with he
    · exact ⟨hg, Or.inl rfl, fun _ => he, fun h => absurd h hpush.1⟩
    · exact ⟨hg, Or.inr rfl, fun h => h.elim, fun h _ => hpush.1 h⟩
  · simp only [if_neg hpush]
    have hg := grown_of_walked (walked_refl lexer) hc
    have hc2 : (if comment.kind = TOK_INVALID ∧ token.kind = TOK_REM_KW then token
        else comment).kind = comment.kind := by
      split_ifs with hrem
      · exact absurd ⟨by rw [hrem.2]; decide, hrem.1⟩ hpush
      · rfl
    generalize (if comment.kind = TOK_INVALID ∧ token.kind = TOK_REM_KW then token
      else comment) = c2 at hc2 ⊢
    by_cases hinv : c2.kind = TOK_INVALID ∧ token.kind = TOK_INVALID ∧ lexer.error = none
    · rw [if_pos hinv]
      rw [if_pos (by simp [lexer_asprintf])]
      exact ⟨grown_of_walked (lexer_asprintf_walked _ _ _) hc, Or.inl rfl,
        fun _ => by simp [lexer_asprintf], fun _ _ => rfl⟩
    · rw [if_neg hinv]
      split_ifs with he
      · exact ⟨hg, Or.inl rfl, fun _ => he, fun _ _ => rfl⟩
      · refine ⟨hg, Or.inr rfl, fun h => h.elim, fun h1 h2 => ?_⟩
        apply hinv
        rw [hc2]
        exact ⟨h2, h1, not_not.1 he⟩

/-- The byte under the cursor is that of the place of the cursor in the source. -/
theorem lexer_current_congr {l1 l2 : lexer_t} (h1 : l2.source = l1.source)
    (h2 : l2.sentinel = l1.sentinel) (h3 : l2.current.place = l1.current.place) :
    lexer_current l2 = lexer_current l1 := by
  unfold lexer_current lexer_deref
  rw [h1, h2, h3]

/-- The part of the loop body inside a block comment: it appends nothing but the block
comment, keeps the token where it started, and moves the cursor on. -/
theorem lexer_run_comment_grown (fuel : Nat) (l0 l2 : lexer_t) (cur : Nat) (c tok : token_t)
    (r : token_t × token_t × Nat × lexer_t)
    (hc : l0.current.token ≤ l0.tokens.length) (hs : scan_at l0 (tok, l2))
    (h : lexer_run_comment fuel l2 cur c tok = some r) :
    ∃ new : List token_t, grown l0 r.2.2.2 new ∧ new.length ≤ 1 ∧
      (∀ t ∈ new, t.kind = TOK_BLOCK_COMMENT) ∧
      (r.1.kind = TOK_INVALID ∨
        (kind_made r.1.kind ∧ r.1.from_ = some (l0.current.place : Int) ∧
          r.1.line = l0.current.line ∧ r.1.column = l0.current.column)) ∧
      (l0.current.place < l0.source.length → l0.current.place < r.2.2.2.current.place) := by
  unfold lexer_run_comment at h
  obtain ⟨p, hp, h⟩ := Option.bind_eq_some.1 h
  dsimp only at h
  have hsp := lexer_run_probe_at fuel l0 l2 cur tok p hs hp
  have hg3 : grown l0 p.2.2 [] := grown_of_walked hsp.1 hc
  have htok : p.1.kind = TOK_INVALID ∨
      (kind_made p.1.kind ∧ p.1.from_ = some (l0.current.place : Int) ∧
        p.1.line = l0.current.line ∧ p.1.column = l0.current.column) := by
    rcases hsp.2 with hi | ⟨hk, hf, hl, hcol, _⟩
    · exact Or.inl hi
    · exact Or.inr ⟨hk, hf, hl, hcol⟩
  by_cases hend : p.1.kind = TOK_ENDREM_KW
  · simp only [hend, if_true, show ¬ (TOK_ENDREM_KW = TOK_INVALID) by decide, if_false,
      Option.some_bind, Option.some.injEq] at h
    subst h
    dsimp only
    refine ⟨_, grown_trans hg3 (grown_push p.2.2 _ hg3.2.2.2.2.2.1), by simp, ?_, htok, ?_⟩
    · intro t ht
      simp only [List.nil_append, List.mem_singleton] at ht
      rw [ht]
    · intro hlt
      rcases hsp.2 with hi | ⟨_, _, _, _, hprog⟩
      · have hi2 : p.1.kind = TOK_INVALID := hi
        rw [hend] at hi2
        exact absurd hi2 (by decide)
      · exact hprog hlt
  · simp only [if_neg hend] at h
    obtain ⟨l4, hl4, h⟩ := Option.bind_eq_some.1 h
    simp only [Option.some.injEq] at h
    subst h
    dsimp only
    have hm4 : walked p.2.2 l4 ∧
        (l0.current.place < l0.source.length → l0.current.place < l4.current.place) := by
      split_ifs at hl4 with hinv
      · have hsk := lexer_skip_whitespace_walked _ _ _ hl4
        refine ⟨walked_trans (lexer_next_walked _) hsk, fun hlt => ?_⟩
        exact Nat.lt_of_lt_of_le
          (lexer_next_progress hsp.1.1 (hsp.1.2.1 (Nat.le_of_lt hlt)) hlt) hsk.1.2.2.2.2.1
      · simp only [Option.some.injEq] at hl4
        subst hl4
        refine ⟨walked_refl _, fun hlt => ?_⟩
        rcases hsp.2 with hi | ⟨_, _, _, _, hprog⟩
        · exact absurd hi hinv
        · exact hprog hlt
    refine ⟨[], grown_of_walked (walked_trans hsp.1 hm4.1) hc, by simp, by simp, htok, hm4.2⟩

theorem token_scanned_of {l l0 : lexer_t} {t : token_t} (hw : walked l l0)
    (hz : lexer_current l0 ≠ 0)
    (h : kind_made t.kind ∧ t.from_ = some (l0.current.place : Int) ∧
      t.line = l0.current.line ∧ t.column = l0.current.column) : token_scanned l t :=
  ⟨h.1, l0, hw, hz, h.2.1, h.2.2.1, h.2.2.2⟩

/-- The body of the loop of phase 1 appends at most two tokens, each a block comment or a
token scanned in this iteration; it returns `1` only with the error set; and on a C string
it returns `1` or moves the cursor on. -/
theorem lexer_run_body_grown (fuel : Nat) (l : lexer_t) (c : token_t)
    (r : loop_exit × token_t × lexer_t) (hc : l.current.token ≤ l.tokens.length)
    (h : lexer_run_body fuel l c = some r) :
    ∃ new : List token_t, grown l r.2.2 new ∧ new.length ≤ 2 ∧
      (∀ t ∈ new, t.kind = TOK_BLOCK_COMMENT ∨ token_scanned l t) ∧
      (r.1 = loop_exit.return_1 → r.2.2.error ≠ none) ∧
      (l.sentinel = 0 → in_source l → lexer_current l ≠ 0 →
        r.1 = loop_exit.return_1 ∨ l.current.place < r.2.2.current.place) := by
  unfold lexer_run_body at h
  obtain ⟨l0, hl0, h⟩ := Option.bind_eq_some.1 h
  dsimp only at h
  have hm0 := lexer_skip_whitespace_walked _ _ _ hl0
  have hc0 : l0.current.token ≤ l0.tokens.length := by
    rw [hm0.1.2.2.1, hm0.1.2.2.2.1]; exact hc
  by_cases hz : lexer_current l0 = 0
  · rw [if_pos hz] at h
    simp only [Option.some.injEq] at h
    subst h
    refine ⟨[], grown_of_walked hm0 hc, by simp, by simp, fun h => by simp at h, ?_⟩
    intro _ _ hcur
    right
    rcases Nat.lt_or_ge l.current.place l0.current.place with hlt | hge
    · exact hlt
    · exfalso
      apply hcur
      rw [← lexer_current_congr hm0.1.1 hm0.1.2.1
        (Nat.le_antisymm hge hm0.1.2.2.2.2.1)]
      exact hz
  rw [if_neg hz] at h
  obtain ⟨s1, hs1, h⟩ := Option.bind_eq_some.1 h
  obtain ⟨s2, hs2, h⟩ := Option.bind_eq_some.1 h
  have h2 : scan_at l0 s2 := by
    by_cases hw : lexer_current l0 = 95 ∨ isalpha (lexer_current l0) = true
    · have hs1' : s1 = (token_zero, l0) := by
        split_ifs at hs1
        · rw [lexer_run_scan_letter hw.symm] at hs1
          simp only [Option.some.injEq] at hs1
          exact hs1.symm
        · simp only [Option.some.injEq] at hs1
          exact hs1.symm
      subst hs1'
      rw [if_pos hw] at hs2
      obtain ⟨hww, _, hk, hf, hl, hcol, hp⟩ := lexer_read_word_at _ _ _ hs2
      exact ⟨hww, Or.inr ⟨hk, hf, hl, hcol, hp⟩⟩
    · rw [if_neg hw] at hs2
      simp only [Option.some.injEq] at hs2
      subst hs2
      split_ifs at hs1
      · exact lexer_run_scan_at _ _ _ _ _ rfl hs1
      · simp only [Option.some.injEq] at hs1
        subst hs1
        exact ⟨walked_refl _, Or.inl rfl⟩
  obtain ⟨q, hq, h⟩ := Option.bind_eq_some.1 h
  simp only [Option.some.injEq] at h
  subst h
  have hg0 : grown l l0 [] := grown_of_walked hm0 hc
  have hprog0 : l.sentinel = 0 → in_source l → lexer_current l ≠ 0 →
      l0.current.place < l0.source.length := fun hsent hin _ =>
    place_lt_of_current (hm0.1.2.1.trans hsent) (hm0.2.1 hin) hz
  by_cases hck : c.kind ≠ TOK_INVALID
  · rw [if_pos hck] at hq
    obtain ⟨new1, hg1, hlen1, hblock, htok, hprog⟩ :=
      lexer_run_comment_grown fuel l0 s2.2 _ c s2.1 q hc0 h2 hq
    obtain ⟨e1, _, e3, _⟩ := lexer_run_emit_grown q.2.2.2 q.2.2.1 q.1 q.2.1 hg1.2.2.2.2.2.1
    have hg := grown_trans hg0 (grown_trans hg1 e1)
    refine ⟨_, hg, ?_, ?_, e3, ?_⟩
    · simp only [List.nil_append, List.length_append]
      split_ifs <;> simp <;> omega
    · intro t ht
      simp only [List.nil_append, List.mem_append] at ht
      rcases ht with ht | ht
      · exact Or.inl (hblock t ht)
      · split_ifs at ht with hpush
        · rw [List.mem_singleton.1 ht]
          rcases htok with hi | hv
          · exact absurd hi hpush.1
          · exact Or.inr (token_scanned_of hm0 hz hv)
        · simp at ht
    · intro hsent hin hcur
      right
      exact Nat.lt_of_le_of_lt hm0.1.2.2.2.2.1
        (Nat.lt_of_lt_of_le (hprog (hprog0 hsent hin hcur)) e1.2.2.1)
  · rw [if_neg hck] at hq
    simp only [Option.some.injEq] at hq
    subst hq
    have hg2 : grown l0 s2.2 [] := grown_of_walked h2.1 hc0
    obtain ⟨e1, _, e3, e4⟩ := lexer_run_emit_grown s2.2 (lexer_current l0) s2.1 c
      hg2.2.2.2.2.2.1
    have hg := grown_trans hg0 (grown_trans hg2 e1)
    refine ⟨_, hg, ?_, ?_, e3, ?_⟩
    · simp only [List.nil_append]
      split_ifs <;> simp
    · intro t ht
      simp only [List.nil_append] at ht
      split_ifs at ht with hpush
      · rw [List.mem_singleton.1 ht]
        rcases h2.2 with hi | ⟨hk, hf, hl, hcol, _⟩
        · exact absurd hi hpush.1
        · exact Or.inr (token_scanned_of hm0 hz ⟨hk, hf, hl, hcol⟩)
      · simp at ht
    · intro hsent hin hcur
      rcases h2.2 with hi | ⟨_, _, _, _, hp⟩
      · exact Or.inl (e4 hi (not_not.1 hck))
      · right
        exact Nat.lt_of_le_of_lt hm0.1.2.2.2.2.1
          (Nat.lt_of_lt_of_le (hp (hprog0 hsent hin hcur)) e1.2.2.1)

/-! ## The places and kinds of the tokens of a run -/

theorem token_placed_of_scanned {l : lexer_t} {t : token_t} (h : token_scanned l t)
    (hi : in_source l) (hs : synced l) : token_placed l.source l.sentinel t := by
  obtain ⟨hk, m, hw, hz, hf, hl, hc⟩ := h
  refine ⟨hk, fun _ a ha => ⟨m.current.place, ?_, ?_, ?_⟩⟩
  · rw [hf] at ha
    simp only [Option.some.injEq] at ha
    exact ha.symm
  · intro h0
    have := place_lt_of_current (hw.1.2.1.trans h0) (hw.2.1 hi) hz
    rwa [hw.1.1] at this
  · intro hlt
    have := hw.2.2 hs (by rw [hw.1.1]; exact hlt)
    rw [hl, hc, this, hw.1.1]

theorem token_placed_block {source : List Nat} {sentinel : Nat} {t : token_t}
    (h : t.kind = TOK_BLOCK_COMMENT) : token_placed source sentinel t :=
  ⟨by rw [h]; decide, fun hne => absurd h hne⟩

/-- The body of the loop of phase 1 keeps the invariant on the places. -/
theorem lexer_run_body_places (fuel : Nat) (l : lexer_t) (c : token_t)
    (r : loop_exit × token_t × lexer_t) (hp : places_ok l)
    (h : lexer_run_body fuel l c = some r) :
    places_ok r.2.2 ∧ r.2.2.source = l.source ∧ r.2.2.sentinel = l.sentinel := by
  obtain ⟨hi, hs, hc, htok⟩ := hp
  obtain ⟨new, hg, _, hnew, _, _⟩ := lexer_run_body_grown fuel l c r hc h
  refine ⟨⟨hg.2.2.2.1 hi, hg.2.2.2.2.1 hs, hg.2.2.2.2.2.1, ?_⟩, hg.1, hg.2.1⟩
  rw [hg.2.2.2.2.2.2, hg.1, hg.2.1]
  intro t ht
  rcases List.mem_append.1 ht with ht | ht
  · exact htok t ht
  · rcases hnew t ht with hb | hsc
    · exact token_placed_block hb
    · exact token_placed_of_scanned hsc hi hs

theorem lexer_run_scan_loop_places (fuel : Nat) :
    ∀ (n : Nat) (l : lexer_t) (c : token_t) (r : Bool × lexer_t),
      lexer_run_scan_loop fuel n l c = some r → places_ok l →
        places_ok r.2 ∧ r.2.source = l.source ∧ r.2.sentinel = l.sentinel := by
  intro n
  induction n with
  | zero => intro l c r h; simp [lexer_run_scan_loop] at h
  | succ n ih =>
    intro l c r h hp
    rw [lexer_run_scan_loop] at h
    split_ifs at h with hz
    · cases hb : lexer_run_body fuel l c with
      | none => simp [hb] at h
      | some q =>
        obtain ⟨e, c2, l2⟩ := q
        obtain ⟨hp2, hsrc, hsen⟩ := lexer_run_body_places fuel l c _ hp hb
        rw [hb] at h
        cases e with
        | next_iteration =>
          obtain ⟨hp3, h3, h4⟩ := ih l2 c2 r h hp2
          exact ⟨hp3, h3.trans hsrc, h4.trans hsen⟩
        | break_loop =>
          simp only [Option.some.injEq] at h
          subst h
          exact ⟨hp2, hsrc, hsen⟩
        | return_1 =>
          simp only [Option.some.injEq] at h
          subst h
          exact ⟨hp2, hsrc, hsen⟩
    · simp only [Option.some.injEq] at h
      subst h
      exact ⟨hp, rfl, rfl⟩

theorem places_ok_new (s : List Nat) (sentinel : Nat) : places_ok (lexer_new s sentinel) := by
  refine ⟨Nat.zero_le _, fun _ => rfl, Nat.le_refl _, ?_⟩
  intro t ht
  simp [lexer_copy_tokens, lexer_new] at ht

/-- The merge pass keeps a property of the tokens that the fused token of a matching pair
has when the left token has it. -/
theorem merge_pass_all (Q : token_t → Prop)
    (hfuse : ∀ (a b : token_t) (kind : token_kind_t),
      pair_find token_pairs a b = some kind → Q a → Q (token_fuse a b kind)) :
    ∀ (fuel : Nat) (tokens out : List token_t), merge_pass fuel tokens = some out →
      (∀ t ∈ tokens, Q t) → ∀ t ∈ out, Q t := by
  intro fuel
  induction fuel with
  | zero => intro tokens out h; simp [merge_pass] at h
  | succ fuel ih =>
    intro tokens out h
    match tokens, h with
    | [], h => simp [merge_pass] at h
    | [a], h =>
      rw [merge_pass] at h
      split_ifs at h
      simp only [Option.some.injEq] at h
      subst h
      exact fun hq => hq
    | a :: b :: rest, h =>
      rw [merge_pass] at h
      by_cases ha : a.kind ≠ TOK_EOF
      · rw [if_pos ha] at h
        cases hf : pair_find token_pairs a b with
        | some kind =>
          simp only [hf] at h
          intro hq
          apply ih _ _ h
          intro t ht
          rcases List.mem_cons.1 ht with rfl | ht
          · exact hfuse a b kind hf (hq a (List.mem_cons_self _ _))
          · exact hq t (List.mem_cons_of_mem _ (List.mem_cons_of_mem _ ht))
        | none =>
          simp only [hf] at h
          cases hm : merge_pass fuel (b :: rest) with
          | none => simp [hm] at h
          | some out2 =>
            simp only [hm, Option.map_some', Option.some.injEq] at h
            subst h
            intro hq t ht
            rcases List.mem_cons.1 ht with rfl | ht
            · exact hq _ (List.mem_cons_self _ _)
            · exact ih _ _ hm (fun u hu => hq u (List.mem_cons_of_mem _ hu)) t ht
      · rw [if_neg ha] at h
        simp only [Option.some.injEq] at h
        subst h
        exact fun hq => hq

theorem token_placed_fuse (source : List Nat) (sentinel : Nat) (a b : token_t)
    (kind : token_kind_t) (hf : pair_find token_pairs a b = some kind)
    (ha : token_placed source sentinel a) :
    token_placed source sentinel (token_fuse a b kind) := by
  obtain ⟨p, hp, hp1, hp2, _, hp4⟩ := pair_find_some _ hf
  refine ⟨?_, fun _ => ?_⟩
  · show kind_made kind
    rw [← hp4]
    exact token_pairs_made p hp
  · have hab : a.kind ≠ TOK_BLOCK_COMMENT := by
      rw [← hp2]
      exact (token_pairs_no_block p hp hp1).1
    exact ha.2 hab

/-- What the first `lexer_run` of a new lexer leaves, with the lexer that phase 1 left. -/
theorem lexer_run_first_scan (s : List Nat) (sentinel fuel : Nat) (ret : Int) (l2 : lexer_t)
    (h : lexer_run fuel (lexer_new s sentinel) = some (ret, l2)) :
    (ret = 1 ∧ lexer_run_scan_loop fuel fuel (lexer_new s sentinel) token_zero =
        some (false, l2)) ∨
      (ret = 0 ∧ ∃ (l1 : lexer_t) (fuel2 : Nat),
        lexer_run_scan_loop fuel fuel (lexer_new s sentinel) token_zero = some (true, l1) ∧
        merge_pass fuel2 (lexer_copy_tokens l1 ++ [token_eof]) =
          some (lexer_copy_tokens l2) ∧
        lexer_run_merge fuel (lexer_push_token l1 token_eof) 0 = some l2) := by
  simp only [lexer_run] at h
  rw [if_neg (by simp [lexer_new])] at h
  obtain ⟨q, hq, h⟩ := Option.bind_eq_some.1 h
  obtain ⟨hb1, _⟩ := lexer_run_scan_loop_ok fuel fuel _ _ q hq (buffer_ok_new s sentinel)
    (Or.inl rfl)
  by_cases hq1 : q.1 = true
  · rw [if_pos hq1, lexer_append_eof] at h
    obtain ⟨l3, hl3, h⟩ := Option.map_eq_some'.1 h
    simp only [Prod.mk.injEq] at h
    obtain ⟨hret, rfl⟩ := h
    obtain ⟨hcopy, hcount⟩ := lexer_copy_tokens_push q.2 token_eof hb1.1
    obtain ⟨out, hout⟩ := merge_pass_terminates
      (max fuel (lexer_copy_tokens q.2 ++ [token_eof]).length)
      (lexer_copy_tokens q.2 ++ [token_eof]) ⟨token_eof, by simp, rfl⟩ (Nat.le_max_right _ _)
    obtain ⟨l4, hl4, hc4, hn4, _⟩ := lexer_run_merge_list _ (lexer_push_token q.2 token_eof) []
      _ out hcopy hcount hout
    have hmono : lexer_run_merge (max fuel (lexer_copy_tokens q.2 ++ [token_eof]).length)
        (lexer_push_token q.2 token_eof) 0 = some l3 :=
      lexer_run_merge_mono (lexer_push_token q.2 token_eof) 0 fuel l3 hl3
        (max fuel (lexer_copy_tokens q.2 ++ [token_eof]).length) (Nat.le_max_left _ _)
    simp only [List.length_nil] at hl4
    rw [hl4] at hmono
    simp only [Option.some.injEq] at hmono
    subst hmono
    simp only [List.nil_append] at hc4
    refine Or.inr ⟨hret.symm, q.2, max fuel (lexer_copy_tokens q.2 ++ [token_eof]).length,
      ?_, ?_, hl3⟩
    · rw [hq, ← hq1]
    · rw [hc4]
      exact hout
  · rw [if_neg hq1] at h
    simp only [Option.some.injEq, Prod.mk.injEq] at h
    obtain ⟨hret, rfl⟩ := h
    refine Or.inl ⟨hret.symm, ?_⟩
    rw [hq]
    simp only [Bool.not_eq_true] at hq1
    rw [← hq1]

/-- Every token that the first `lexer_run` of a new lexer leaves is placed. -/
theorem lexer_run_placed (s : List Nat) (sentinel fuel : Nat) (ret : Int) (l2 : lexer_t)
    (h : lexer_run fuel (lexer_new s sentinel) = some (ret, l2)) :
    ∀ t ∈ lexer_copy_tokens l2, token_placed s sentinel t := by
  rcases lexer_run_first_scan s sentinel fuel ret l2 h with ⟨_, hloop⟩ |
    ⟨_, l1, fuel2, hloop, hout, _⟩
  · obtain ⟨hp, hsrc, hsen⟩ := lexer_run_scan_loop_places fuel fuel _ _ _ hloop
      (places_ok_new s sentinel)
    have := hp.2.2.2
    rwa [hsrc, hsen] at this
  · obtain ⟨hp, hsrc, hsen⟩ := lexer_run_scan_loop_places fuel fuel _ _ _ hloop
      (places_ok_new s sentinel)
    have h1 := hp.2.2.2
    rw [hsrc, hsen] at h1
    apply merge_pass_all (token_placed s sentinel) (token_placed_fuse s sentinel) _ _ _ hout
    intro t ht
    rcases List.mem_append.1 ht with ht | ht
    · exact h1 t ht
    · rw [List.mem_singleton.1 ht]
      exact ⟨by decide, fun _ a ha => absurd ha (by simp [token_eof])⟩

/-! ## Positions and kinds of the tokens -/

theorem position_after_start (bs : List Nat) :
    position_after (1, 1) bs =
      (1 + bs.count 10, 1 + (bs.reverse.takeWhile fun b => decide (b ≠ 10)).length) := by
  induction bs using List.reverseRecOn with
  | nil => rfl
  | append_singleton bs b ih =>
    rw [position_after_snoc, ih]
    by_cases hb : b = 10
    · subst hb
      simp [List.count_append, List.takeWhile]
      omega
    · simp [hb, List.count_append, List.takeWhile, List.count_singleton]
      omega

/-- The kind that `lexer_read_base_number` gives a literal that starts with `%` or `$`. -/
theorem lexer_read_base_number_kind (fuel : Nat) (l : lexer_t) (r : token_t × lexer_t)
    (h : lexer_read_base_number fuel l = some r)
    (hc : lexer_current l = 37 ∨ lexer_current l = 36) : r.1.kind = TOK_NUMBER_LIT := by
  rw [lexer_read_base_number] at h
  dsimp only at h
  rw [if_pos hc] at h
  obtain ⟨l1, _, h⟩ := Option.bind_eq_some.1 h
  simp only [Option.some.injEq] at h
  subst h
  rfl

/-- The kind that `lexer_read_number` gives a numeral. -/
theorem lexer_read_number_kind (fuel : Nat) (l : lexer_t) (r : token_t × lexer_t)
    (h : lexer_read_number fuel l = some r) :
    r.1.kind = TOK_NUMBER_LIT ∨ r.1.kind = TOK_INVALID := by
  rw [lexer_read_number] at h
  obtain ⟨q, _, h⟩ := Option.map_eq_some'.1 h
  split_ifs at h
  · subst h
    exact Or.inl rfl
  · subst h
    exact Or.inr rfl

/-- C27: the literal kinds that are produced. Whatever the first `lexer_run` of a new
lexer returns, on every source: no token of the final sequence has the kind `TOK_HEX_LIT`,
`TOK_BIN_LIT`, `TOK_LONG_KW` or `TOK_SINGLEQUOTE`; `lexer_read_base_number` gives a literal
that starts with `%` or `$` the kind `TOK_NUMBER_LIT`, the kind that `lexer_read_number`
gives a decimal numeral; and no entry of `token_singles` and no rule of `token_pairs` has
one of the four kinds. -/
theorem C27_unused_kinds (s : List Nat) (sentinel fuel : Nat) (ret : Int) (l2 : lexer_t)
    (h : lexer_run fuel (lexer_new s sentinel) = some (ret, l2)) :
    (∀ t ∈ lexer_copy_tokens l2,
        t.kind ≠ TOK_HEX_LIT ∧ t.kind ≠ TOK_BIN_LIT ∧ t.kind ≠ TOK_LONG_KW ∧
          t.kind ≠ TOK_SINGLEQUOTE) ∧
      (∀ (fuel2 : Nat) (l : lexer_t) (r : token_t × lexer_t),
        lexer_read_base_number fuel2 l = some r →
          lexer_current l = 37 ∨ lexer_current l = 36 → r.1.kind = TOK_NUMBER_LIT) ∧
      (∀ (fuel2 : Nat) (l : lexer_t) (r : token_t × lexer_t),
        lexer_read_number fuel2 l = some r →
          r.1.kind = TOK_NUMBER_LIT ∨ r.1.kind = TOK_INVALID) ∧
      (∀ e ∈ token_singles,
        e.kind ≠ TOK_HEX_LIT ∧ e.kind ≠ TOK_BIN_LIT ∧ e.kind ≠ TOK_LONG_KW ∧
          e.kind ≠ TOK_SINGLEQUOTE) ∧
      (∀ p ∈ token_pairs,
        p.kind ≠ TOK_HEX_LIT ∧ p.kind ≠ TOK_BIN_LIT ∧ p.kind ≠ TOK_LONG_KW ∧
          p.kind ≠ TOK_SINGLEQUOTE) :=
  ⟨fun t ht => (lexer_run_placed s sentinel fuel ret l2 h t ht).1,
    lexer_read_base_number_kind, lexer_read_number_kind, token_singles_made, token_pairs_made⟩

/-- C27 (instance): the run on `x :+ 1`. -/
theorem C27_unused_kinds_witness :
    lexer_run 8 (lexer_new (bytes "x :+ 1") 0) = some (0, lexer_after_assign_add) ∧
      (∀ t ∈ lexer_copy_tokens lexer_after_assign_add,
        t.kind ≠ TOK_HEX_LIT ∧ t.kind ≠ TOK_BIN_LIT ∧ t.kind ≠ TOK_LONG_KW ∧
          t.kind ≠ TOK_SINGLEQUOTE) ∧
      (∀ (fuel2 : Nat) (l : lexer_t) (r : token_t × lexer_t),
        lexer_read_base_number fuel2 l = some r →
          lexer_current l = 37 ∨ lexer_current l = 36 → r.1.kind = TOK_NUMBER_LIT) ∧
      (∀ (fuel2 : Nat) (l : lexer_t) (r : token_t × lexer_t),
        lexer_read_number fuel2 l = some r →
          r.1.kind = TOK_NUMBER_LIT ∨ r.1.kind = TOK_INVALID) ∧
      (∀ e ∈ token_singles,
        e.kind ≠ TOK_HEX_LIT ∧ e.kind ≠ TOK_BIN_LIT ∧ e.kind ≠ TOK_LONG_KW ∧
          e.kind ≠ TOK_SINGLEQUOTE) ∧
      (∀ p ∈ token_pairs,
        p.kind ≠ TOK_HEX_LIT ∧ p.kind ≠ TOK_BIN_LIT ∧ p.kind ≠ TOK_LONG_KW ∧
          p.kind ≠ TOK_SINGLEQUOTE) :=
  ⟨by decide, C27_unused_kinds (bytes "x :+ 1") 0 8 0 lexer_after_assign_add (by decide)⟩

/-- C25: position bookkeeping. Whatever the first `lexer_run` of a new lexer returns, on
every source: every token of the final sequence that has a `from` and is no block comment
starts at an offset `n` of the source, which lies in front of the end of the source when
the source is a C string (the byte at `source_end` is the NUL); and when `n` lies in front
of the end of the source, the line of the token is 1 plus the number of newlines in front
of `n`, and its column is 1 plus the number of bytes between the last newline in front of
`n`, or the start of the source, and `n`. And `lexer_merge_tokens` leaves at the place of
two neighbours one token with the `from`, the line and the column of the left one. -/
theorem C25_token_positions (s : List Nat) (sentinel fuel : Nat) (ret : Int) (l2 : lexer_t)
    (h : lexer_run fuel (lexer_new s sentinel) = some (ret, l2)) :
    (∀ t ∈ lexer_copy_tokens l2, t.kind ≠ TOK_BLOCK_COMMENT → ∀ a : Int, t.from_ = some a →
        ∃ n : Nat, a = (n : Int) ∧ (sentinel = 0 → n < s.length) ∧
          (n < s.length → t.line = line_of s n ∧ t.column = column_of s n)) ∧
      ∀ (lexer : lexer_t) (pre post : List token_t) (a b : token_t) (kind : token_kind_t),
        lexer_copy_tokens lexer = pre ++ a :: b :: post →
          lexer.current.token ≤ lexer.tokens.length →
            lexer_copy_tokens (lexer_merge_tokens lexer pre.length (pre.length + 1) kind) =
              pre ++ { kind := kind, from_ := a.from_, to_ := b.to_, line := a.line,
                       column := a.column } :: post := by
  constructor
  · intro t ht hk a ha
    obtain ⟨n, hn, h0, hpos⟩ := (lexer_run_placed s sentinel fuel ret l2 h t ht).2 hk a ha
    refine ⟨n, hn, h0, fun hlt => ?_⟩
    have hp := hpos hlt
    rw [position_after_start] at hp
    exact ⟨congrArg Prod.fst hp, congrArg Prod.snd hp⟩
  · intro lexer pre post a b kind hcopy hcount
    exact (lexer_merge_tokens_copy lexer kind pre post a b hcopy hcount).1

/-- C25 (instance): the run on `x :+ 1`. -/
theorem C25_token_positions_witness :
    lexer_run 8 (lexer_new (bytes "x :+ 1") 0) = some (0, lexer_after_assign_add) ∧
      (∀ t ∈ lexer_copy_tokens lexer_after_assign_add, t.kind ≠ TOK_BLOCK_COMMENT →
        ∀ a : Int, t.from_ = some a →
          ∃ n : Nat, a = (n : Int) ∧ ((0 : Nat) = 0 → n < (bytes "x :+ 1").length) ∧
            (n < (bytes "x :+ 1").length →
              t.line = line_of (bytes "x :+ 1") n ∧ t.column = column_of (bytes "x :+ 1") n)) ∧
      ∀ (lexer : lexer_t) (pre post : List token_t) (a b : token_t) (kind : token_kind_t),
        lexer_copy_tokens lexer = pre ++ a :: b :: post →
          lexer.current.token ≤ lexer.tokens.length →
            lexer_copy_tokens (lexer_merge_tokens lexer pre.length (pre.length + 1) kind) =
              pre ++ { kind := kind, from_ := a.from_, to_ := b.to_, line := a.line,
                       column := a.column } :: post :=
  ⟨by decide, C25_token_positions (bytes "x :+ 1") 0 8 0 lexer_after_assign_add (by decide)⟩

/-! ## Every loop of the sub-scanners ends on a C string -/

theorem fits_walked {fuel : Nat} {l l1 : lexer_t} (hw : walked l l1) (hf : fits fuel l) :
    fits fuel l1 := by
  obtain ⟨h0, hi, hr⟩ := hf
  refine ⟨hw.1.2.1.trans h0, hw.2.1 hi, ?_⟩
  have := hw.1.2.2.2.2.1
  rw [hw.1.1]
  omega

theorem fits_next {fuel : Nat} {l : lexer_t} (hf : fits (fuel + 1) l)
    (hlt : l.current.place < l.source.length) : fits fuel (lexer_next l).2 := by
  obtain ⟨h0, hi, hr⟩ := hf
  have hw := lexer_next_walked l
  refine ⟨hw.1.2.1.trans h0, hw.2.1 hi, ?_⟩
  rw [hw.1.1, lexer_next_place hlt]
  omega

theorem fits_mono {fuel fuel2 : Nat} {l : lexer_t} (hf : fits fuel l) (h : fuel ≤ fuel2) :
    fits fuel2 l :=
  ⟨hf.1, hf.2.1, Nat.lt_of_lt_of_le hf.2.2 h⟩

theorem fits_lt {fuel : Nat} {l : lexer_t} (hf : fits fuel l) (hc : lexer_current l ≠ 0) :
    l.current.place < l.source.length :=
  place_lt_of_current hf.1 hf.2.1 hc

/-- The byte that `lexer_next` returns is the byte under the cursor it leaves, or the NUL
at the end of the source. -/
theorem lexer_next_value (l : lexer_t) :
    ((lexer_next l).1 ≠ 0 → l.current.place < l.source.length) ∧
      (l.current.place < l.source.length → (lexer_next l).1 = lexer_current (lexer_next l).2) := by
  constructor
  · intro hne
    by_contra hlt
    apply hne
    unfold lexer_next
    simp only [lexer_has_next]
    by_cases h1 : lexer_current l = 10
    · simp [h1, hlt]
    · simp [h1, hlt]
  · intro hlt
    have hp := lexer_next_place hlt
    have hsrc := (lexer_next_current l).2.2.2
    unfold lexer_current
    rw [if_neg (by rw [hp, hsrc]; omega), hp]
    unfold lexer_next lexer_deref
    simp only [lexer_has_next]
    split_ifs <;> simp_all

theorem lexer_skip_whitespace_total :
    ∀ (fuel : Nat) (l : lexer_t), fits fuel l → ∃ l1, lexer_skip_whitespace fuel l = some l1 := by
  intro fuel
  induction fuel with
  | zero => intro l hf; exact absurd hf.2.2 (Nat.not_lt_zero _)
  | succ fuel ih =>
    intro l hf
    rw [lexer_skip_whitespace]
    split_ifs with hc
    · exact ih _ (fits_next hf (fits_lt hf hc.1))
    · exact ⟨l, rfl⟩

theorem lexer_read_base_number_bin_total :
    ∀ (fuel : Nat) (l : lexer_t) (cur : Nat), fits fuel l → cur = lexer_current l →
      ∃ l1, lexer_read_base_number_bin fuel l cur = some l1 := by
  intro fuel
  induction fuel with
  | zero => intro l cur hf; exact absurd hf.2.2 (Nat.not_lt_zero _)
  | succ fuel ih =>
    intro l cur hf hcur
    rw [lexer_read_base_number_bin]
    dsimp only
    by_cases hn : lexer_has_next l = true
    · rw [if_pos hn]
      have hlt := (has_next_iff l).1 hn
      split_ifs
      · exact ih _ _ (fits_next hf hlt) ((lexer_next_value l).2 hlt)
      · exact ⟨_, rfl⟩
    · rw [if_neg hn]
      have hz : lexer_current l = 0 := by
        by_contra hc
        exact hn ((has_next_iff l).2 (fits_lt hf hc))
      rw [if_neg (by rw [hcur, hz]; decide)]
      exact ⟨l, rfl⟩

theorem lexer_read_base_number_hex_total :
    ∀ (fuel : Nat) (l : lexer_t), fits fuel l →
      ∃ l1, lexer_read_base_number_hex fuel l = some l1 := by
  intro fuel
  induction fuel with
  | zero => intro l hf; exact absurd hf.2.2 (Nat.not_lt_zero _)
  | succ fuel ih =>
    intro l hf
    rw [lexer_read_base_number_hex]
    dsimp only
    split_ifs with hn
    · exact ih _ (fits_next hf ((has_next_iff l).1 hn))
    · exact ⟨_, rfl⟩
    · exact ⟨l, rfl⟩

theorem lexer_read_number_loop_total :
    ∀ (fuel : Nat) (l : lexer_t) (isDec isExp : Bool), fits fuel l →
      ∃ r, lexer_read_number_loop fuel l isDec isExp = some r := by
  intro fuel
  induction fuel with
  | zero => intro l isDec isExp hf; exact absurd hf.2.2 (Nat.not_lt_zero _)
  | succ fuel ih =>
    intro l isDec isExp hf
    rw [lexer_read_number_loop]
    dsimp only
    by_cases hn : lexer_has_next l = true
    · rw [if_pos hn]
      have hf1 := fits_next hf ((has_next_iff l).1 hn)
      have hf2 := fits_walked (lexer_next_walked (lexer_next l).2) hf1
      by_cases h2 : (lexer_next l).1 ≠ 0
      · rw [if_pos h2]
        by_cases h3 : (lexer_next l).1 = 46
        · rw [if_pos h3]
          by_cases hd : isDec = true
          · rw [if_pos hd]; exact ⟨_, rfl⟩
          · rw [if_neg hd]; exact ih _ _ _ hf1
        · rw [if_neg h3]
          by_cases h4 : isdigit (lexer_next l).1 = true
          · rw [if_pos h4]; exact ih _ _ _ hf1
          · rw [if_neg h4]
            by_cases h5 : tolower (lexer_next l).1 = 101
            · rw [if_pos h5]
              by_cases h6 : isExp = true
              · rw [if_pos h6]; exact ⟨_, rfl⟩
              · rw [if_neg h6]
                by_cases hs : lexer_peek (lexer_next l).2 = 45 ∨ lexer_peek (lexer_next l).2 = 43
                · simp only [hs, decide_True, if_true]
                  split_ifs
                  · exact ⟨_, rfl⟩
                  · exact ih _ _ _ hf2
                · simp only [hs, decide_False, if_false, Bool.false_eq_true]
                  split_ifs
                  · exact ⟨_, rfl⟩
                  · exact ih _ _ _ hf1
            · rw [if_neg h5]; exact ⟨_, rfl⟩
      · rw [if_neg h2]; exact ⟨_, rfl⟩
    · rw [if_neg hn]; exact ⟨_, rfl⟩

theorem lexer_read_word_loop_total :
    ∀ (fuel : Nat) (l : lexer_t), fits fuel l → ∃ l1, lexer_read_word_loop fuel l = some l1 := by
  intro fuel
  induction fuel with
  | zero => intro l hf; exact absurd hf.2.2 (Nat.not_lt_zero _)
  | succ fuel ih =>
    intro l hf
    rw [lexer_read_word_loop]
    dsimp only
    split_ifs with hn
    · exact ⟨l, rfl⟩
    · exact ih _ (fits_next hf ((has_next_iff l).1 hn))
    · exact ⟨l, rfl⟩

theorem lexer_read_string_loop_total :
    ∀ (fuel : Nat) (l : lexer_t), fits fuel l → ∃ r, lexer_read_string_loop fuel l = some r := by
  intro fuel
  induction fuel with
  | zero => intro l hf; exact absurd hf.2.2 (Nat.not_lt_zero _)
  | succ fuel ih =>
    intro l hf
    rw [lexer_read_string_loop]
    dsimp only
    split_ifs with hn
    · exact ⟨_, rfl⟩
    · exact ih _ (fits_next hf ((has_next_iff l).1 hn))
    · exact ⟨_, rfl⟩
    · exact ⟨_, rfl⟩

theorem lexer_read_line_comment_loop_total :
    ∀ (fuel : Nat) (l : lexer_t), fits fuel l →
      ∃ l1, lexer_read_line_comment_loop fuel l = some l1 := by
  intro fuel
  induction fuel with
  | zero => intro l hf; exact absurd hf.2.2 (Nat.not_lt_zero _)
  | succ fuel ih =>
    intro l hf
    rw [lexer_read_line_comment_loop]
    split_ifs with hc
    · exact ih _ (fits_next hf ((lexer_next_value l).1 hc.1))
    · exact ⟨_, rfl⟩

theorem lexer_run_dots_total :
    ∀ (fuel : Nat) (l : lexer_t) (kind : token_kind_t), fits fuel l →
      ∃ r, lexer_run_dots fuel l kind = some r := by
  intro fuel
  induction fuel with
  | zero => intro l kind hf; exact absurd hf.2.2 (Nat.not_lt_zero _)
  | succ fuel ih =>
    intro l kind hf
    rw [lexer_run_dots]
    dsimp only
    split_ifs with hk hc
    · exact ih _ _ (fits_next hf ((lexer_next_value l).1 (by rw [hc]; decide)))
    · exact ⟨_, rfl⟩
    · exact ⟨_, rfl⟩

/-! ## Every sub-scanner returns on a C string -/

theorem lexer_read_base_number_total (fuel : Nat) (l : lexer_t) (hf : fits fuel l) :
    ∃ r, lexer_read_base_number fuel l = some r := by
  rw [lexer_read_base_number]
  dsimp only
  split_ifs with h1 h2
  · obtain ⟨l1, h⟩ := lexer_read_base_number_bin_total fuel l _ hf rfl
    exact ⟨_, by rw [h]; rfl⟩
  · obtain ⟨l1, h⟩ := lexer_read_base_number_hex_total fuel l hf
    exact ⟨_, by rw [h]; rfl⟩
  · exact ⟨_, rfl⟩

theorem lexer_read_number_total (fuel : Nat) (l : lexer_t) (hf : fits fuel l) :
    ∃ r, lexer_read_number fuel l = some r := by
  rw [lexer_read_number]
  obtain ⟨q, h⟩ := lexer_read_number_loop_total fuel l (decide (lexer_current l = 46)) false hf
  exact ⟨_, by rw [h]; rfl⟩

theorem lexer_read_word_total (fuel : Nat) (l : lexer_t) (hf : fits fuel l) :
    ∃ r, lexer_read_word fuel l = some r := by
  rw [lexer_read_word]
  obtain ⟨q, h⟩ := lexer_read_word_loop_total fuel l hf
  exact ⟨_, by rw [h]; rfl⟩

theorem lexer_read_string_total (fuel : Nat) (l : lexer_t) (hf : fits fuel l) :
    ∃ r, lexer_read_string fuel l = some r := by
  rw [lexer_read_string]
  obtain ⟨q, h⟩ := lexer_read_string_loop_total fuel l hf
  exact ⟨_, by rw [h]; rfl⟩

theorem lexer_read_line_comment_total (fuel : Nat) (l : lexer_t) (hf : fits fuel l) :
    ∃ r, lexer_read_line_comment fuel l = some r := by
  rw [lexer_read_line_comment]
  obtain ⟨q, h⟩ := lexer_read_line_comment_loop_total fuel l hf
  exact ⟨_, by rw [h]; rfl⟩

theorem lexer_run_scan_total (fuel : Nat) (l : lexer_t) (mark : token_mark_t) (cur : Nat)
    (token : token_t) (hf : fits fuel l) :
    ∃ r, lexer_run_scan fuel l mark cur token = some r := by
  rw [lexer_run_scan_cases]
  have h0 : ∃ s,
      (if cur = 64 then
          some (if (lexer_next l).1 = 64 then
              (token_span TOK_DOUBLEAT mark (lexer_next (lexer_next l).2).2,
                (lexer_next (lexer_next l).2).2)
            else (token_span TOK_AT mark (lexer_next l).2, (lexer_next l).2))
        else if cur = 46 then
          (if isdigit (lexer_peek l) then lexer_read_number fuel l
            else (lexer_run_dots fuel l TOK_DOT).map fun r => (token_span r.1 mark r.2, r.2))
        else if cur = 39 then lexer_read_line_comment fuel l
        else if cur = 37 ∧ (lexer_peek l = 49 ∨ lexer_peek l = 48) then
          lexer_read_base_number fuel l
        else if cur = 36 ∧ isxdigit (lexer_peek l) then lexer_read_base_number fuel l
        else if cur = 34 then lexer_read_string fuel l
        else if isdigit cur then lexer_read_number fuel l
        else some (token, l)) = some s := by
    split_ifs
    · exact ⟨_, rfl⟩
    · exact ⟨_, rfl⟩
    · exact lexer_read_number_total fuel l hf
    · obtain ⟨q, h⟩ := lexer_run_dots_total fuel l TOK_DOT hf
      exact ⟨_, by rw [h]; rfl⟩
    · exact lexer_read_line_comment_total fuel l hf
    · exact lexer_read_base_number_total fuel l hf
    · exact lexer_read_base_number_total fuel l hf
    · exact lexer_read_string_total fuel l hf
    · exact lexer_read_number_total fuel l hf
    · exact ⟨_, rfl⟩
  obtain ⟨s, hs⟩ := h0
  rw [hs]
  simp only [Option.some_bind]
  generalize token_kind_for_single [cur] 1 = alter
  split_ifs <;> exact ⟨_, rfl⟩

theorem lexer_run_probe_total (fuel : Nat) (l : lexer_t) (cur : Nat) (tok : token_t)
    (hf : fits fuel l) : ∃ r, lexer_run_probe fuel l cur tok = some r := by
  unfold lexer_run_probe
  dsimp only
  have hf3 : fits fuel (if lexer_current l = 32 then (lexer_next l).2 else l) := by
    split_ifs
    · exact fits_walked (lexer_next_walked l) hf
    · exact hf
  generalize (if lexer_current l = 32 then (lexer_next l).2 else l) = l3 at hf3 ⊢
  split_ifs
  · obtain ⟨q, h⟩ := lexer_read_word_total fuel l3 hf3
    rw [h]
    simp only [Option.some_bind]
    split_ifs <;> exact ⟨_, rfl⟩
  · exact ⟨_, rfl⟩
  · exact ⟨_, rfl⟩

theorem lexer_run_probe_walked (fuel : Nat) (l2 : lexer_t) (cur : Nat) (tok : token_t)
    (r : token_t × Nat × lexer_t) (h : lexer_run_probe fuel l2 cur tok = some r) :
    walked l2 r.2.2 := by
  unfold lexer_run_probe at h
  dsimp only at h
  have hm3 : walked l2 (if lexer_current l2 = 32 then (lexer_next l2).2 else l2) := by
    split_ifs
    · exact lexer_next_walked l2
    · exact walked_refl _
  generalize (if lexer_current l2 = 32 then (lexer_next l2).2 else l2) = l3 at h hm3
  split_ifs at h
  · obtain ⟨q, hq, h⟩ := Option.bind_eq_some.1 h
    obtain ⟨hmq, _⟩ := lexer_read_word_at _ _ _ hq
    split_ifs at h
    · simp only [Option.some.injEq] at h
      subst h
      exact walked_trans hm3 hmq
    · simp only [Option.some.injEq] at h
      subst h
      exact walked_trans hm3 (lexer_reset_walked hmq)
  · simp only [Option.some.injEq] at h
    subst h
    exact hm3
  · simp only [Option.some.injEq] at h
    subst h
    exact walked_refl _

theorem lexer_run_comment_total (fuel : Nat) (l2 : lexer_t) (cur : Nat) (c tok : token_t)
    (hf2 : fits fuel l2) : ∃ r, lexer_run_comment fuel l2 cur c tok = some r := by
  obtain ⟨p, hp⟩ := lexer_run_probe_total fuel l2 cur tok hf2
  have hf3 : fits fuel p.2.2 := fits_walked (lexer_run_probe_walked fuel l2 cur tok p hp) hf2
  unfold lexer_run_comment
  rw [hp]
  simp only [Option.some_bind]
  by_cases hend : p.1.kind = TOK_ENDREM_KW
  · simp only [hend, if_true, show ¬ (TOK_ENDREM_KW = TOK_INVALID) by decide, if_false,
      Option.some_bind]
    exact ⟨_, rfl⟩
  · simp only [if_neg hend]
    split_ifs
    · obtain ⟨l4, h4⟩ := lexer_skip_whitespace_total fuel (lexer_next p.2.2).2
        (fits_walked (lexer_next_walked _) hf3)
      rw [h4]
      exact ⟨_, rfl⟩
    · exact ⟨_, rfl⟩

/-- The body of the loop of phase 1 returns on a C string. -/
theorem lexer_run_body_total (fuel : Nat) (l : lexer_t) (c : token_t) (hf : fits fuel l) :
    ∃ r, lexer_run_body fuel l c = some r := by
  obtain ⟨l0, hl0⟩ := lexer_skip_whitespace_total fuel l hf
  have hf0 : fits fuel l0 := fits_walked (lexer_skip_whitespace_walked _ _ _ hl0) hf
  unfold lexer_run_body
  rw [hl0]
  simp only [Option.some_bind]
  by_cases hz : lexer_current l0 = 0
  · rw [if_pos hz]
    exact ⟨_, rfl⟩
  rw [if_neg hz]
  have h1 : ∃ s1, (if c.kind = TOK_INVALID then
      lexer_run_scan fuel l0 (lexer_mark l0) (lexer_current l0) token_zero
      else some (token_zero, l0)) = some s1 ∧ scan_at l0 s1 := by
    split_ifs
    · obtain ⟨s1, h⟩ := lexer_run_scan_total fuel l0 (lexer_mark l0) (lexer_current l0)
        token_zero hf0
      exact ⟨s1, h, lexer_run_scan_at _ _ _ _ _ rfl h⟩
    · exact ⟨_, rfl, walked_refl _, Or.inl rfl⟩
  obtain ⟨s1, hs1, hsc1⟩ := h1
  rw [hs1]
  simp only [Option.some_bind]
  have h2 : ∃ s2, (if lexer_current l0 = 95 ∨ isalpha (lexer_current l0) = true then
      lexer_read_word fuel s1.2 else some s1) = some s2 ∧ walked l0 s2.2 := by
    split_ifs
    · obtain ⟨s2, h⟩ := lexer_read_word_total fuel s1.2 (fits_walked hsc1.1 hf0)
      exact ⟨s2, h, walked_trans hsc1.1 (lexer_read_word_at _ _ _ h).1⟩
    · exact ⟨_, rfl, hsc1.1⟩
  obtain ⟨s2, hs2, hw2⟩ := h2
  rw [hs2]
  simp only [Option.some_bind]
  by_cases hck : c.kind ≠ TOK_INVALID
  · rw [if_pos hck]
    obtain ⟨q, hq⟩ := lexer_run_comment_total fuel s2.2 (lexer_current l0) c s2.1
      (fits_walked hw2 hf0)
    rw [hq]
    exact ⟨_, rfl⟩
  · rw [if_neg hck]
    exact ⟨_, rfl⟩

/-! ## Phase 1 and phase 2 end on a C string -/

/-- The loop of phase 1 returns on a C string, and leaves with the value `true` at most two
tokens more than bytes that were left. -/
theorem lexer_run_scan_loop_total (fuel : Nat) :
    ∀ (n : Nat) (l : lexer_t) (c : token_t), fits fuel l →
      l.source.length - l.current.place < n → l.current.token ≤ l.tokens.length →
      ∃ r, lexer_run_scan_loop fuel n l c = some r ∧
        (r.1 = true → r.2.current.token ≤ r.2.tokens.length ∧
          r.2.current.token ≤ l.current.token + 2 * (l.source.length - l.current.place)) := by
  intro n
  induction n with
  | zero => intro l c _ hn; exact absurd hn (Nat.not_lt_zero _)
  | succ n ih =>
    intro l c hf hn hc
    rw [lexer_run_scan_loop]
    by_cases hz : lexer_current l ≠ 0
    · rw [if_pos hz]
      obtain ⟨q, hb⟩ := lexer_run_body_total fuel l c hf
      obtain ⟨e, c2, l2⟩ := q
      obtain ⟨new, hg0, hlen, _, _, hprog0⟩ := lexer_run_body_grown fuel l c _ hc hb
      have hg : grown l l2 new := hg0
      have hprog : l.sentinel = 0 → in_source l → lexer_current l ≠ 0 →
          e = loop_exit.return_1 ∨ l.current.place < l2.current.place := hprog0
      rw [hb]
      have hcnt : l2.current.token = l.current.token + new.length := by
        have h1 := lexer_copy_tokens_length hg.2.2.2.2.2.1
        have h2 := lexer_copy_tokens_length hc
        have h3 := congrArg List.length hg.2.2.2.2.2.2
        simp only [List.length_append] at h3
        omega
      have hsrc : l2.source = l.source := hg.1
      have hlt := fits_lt hf hz
      cases e with
      | next_iteration =>
        have hp : l.current.place < l2.current.place := by
          rcases hprog hf.1 hf.2.1 hz with h | h
          · simp at h
          · exact h
        have hin2 : in_source l2 := hg.2.2.2.1 hf.2.1
        have hf2 : fits fuel l2 := ⟨hg.2.1.trans hf.1, hin2, by rw [hsrc]; have := hf.2.2; omega⟩
        obtain ⟨r, hr, hr2⟩ := ih l2 c2 hf2 (by rw [hsrc]; omega) hg.2.2.2.2.2.1
        refine ⟨r, hr, fun h => ⟨(hr2 h).1, ?_⟩⟩
        have := (hr2 h).2
        rw [hsrc] at this
        unfold in_source at hin2
        rw [hsrc] at hin2
        omega
      | break_loop =>
        have hp : l.current.place < l2.current.place := by
          rcases hprog hf.1 hf.2.1 hz with h | h
          · simp at h
          · exact h
        exact ⟨_, rfl, fun _ => ⟨hg.2.2.2.2.2.1, by dsimp only; omega⟩⟩
      | return_1 => exact ⟨_, rfl, fun h => by simp at h⟩
    · rw [if_neg hz]
      exact ⟨_, rfl, fun _ => ⟨hc, by dsimp only; omega⟩⟩

/-- The checked and counted loop of phase 2 returns what the loop of phase 2 returns. -/
theorem lexer_run_merge_of_counted :
    ∀ (fuel : Nat) (lexer : lexer_t) (i k : Nat) (l2 : lexer_t),
      lexer_run_merge_counted fuel lexer i = some (k, l2) →
        lexer_run_merge fuel lexer i = some l2 := by
  intro fuel
  induction fuel with
  | zero => intro lexer i k l2 h; simp [lexer_run_merge_counted] at h
  | succ fuel ih =>
    intro lexer i k l2 h
    rw [lexer_run_merge_counted] at h
    rw [lexer_run_merge]
    by_cases h1 : i < lexer.current.token
    · rw [if_pos h1] at h
      cases hl : lexer.tokens.get? i with
      | none =>
        rw [hl] at h
        simp at h
      | some left =>
        rw [hl] at h
        dsimp only at h ⊢
        by_cases ha : left.kind ≠ TOK_EOF
        · rw [if_pos ha] at h ⊢
          by_cases h2 : i + 1 < lexer.current.token
          · rw [if_pos h2] at h
            cases hr : lexer.tokens.get? (i + 1) with
            | none =>
              rw [hr] at h
              simp at h
            | some right =>
              rw [hr] at h
              dsimp only at h ⊢
              obtain ⟨q, hq, hk⟩ := Option.map_eq_some'.1 h
              simp only [Prod.mk.injEq] at hk
              rw [← hk.2]
              by_cases hm : (lexer_run_pairs token_pairs lexer i left right false).2 = false
              · rw [if_pos hm] at hq ⊢
                exact ih _ _ q.1 q.2 hq
              · rw [if_neg hm] at hq ⊢
                exact ih _ _ q.1 q.2 hq
          · rw [if_neg h2] at h
            simp at h
        · rw [if_neg ha] at h ⊢
          simp only [Option.some.injEq, Prod.mk.injEq] at h
          rw [h.2]
    · rw [if_neg h1] at h
      simp at h

/-- Phase 2 on the array, checked and counted, against `merge_pass` on the list of the
tokens from `tok_index` on: every read lies below the token count, and the iterations that
merge or advance are fewer than the tokens from `tok_index` on. -/
theorem lexer_run_merge_counted_list :
    ∀ (fuel : Nat) (lexer : lexer_t) (pre suf out : List token_t),
      lexer_copy_tokens lexer = pre ++ suf → lexer.current.token ≤ lexer.tokens.length →
      merge_pass fuel suf = some out →
      ∃ k l2, lexer_run_merge_counted fuel lexer pre.length = some (k, l2) ∧
        k + 1 ≤ suf.length := by
  intro fuel
  induction fuel with
  | zero => intro lexer pre suf out _ _ h; simp [merge_pass] at h
  | succ fuel ih =>
    intro lexer pre suf out hcopy hcount hout
    have hlen := lexer_copy_tokens_length hcount
    rw [hcopy, List.length_append] at hlen
    match suf, hcopy, hout, hlen with
    | [], _, hout, _ => simp [merge_pass] at hout
    | [a], hcopy, hout, hlen =>
      rw [merge_pass] at hout
      split_ifs at hout with ha
      rw [lexer_run_merge_counted, if_pos (by simp at hlen; omega),
        copy_tokens_get _ _ _ _ hcopy]
      simp only [if_neg ha]
      exact ⟨0, lexer, rfl, by simp⟩
    | a :: b :: rest, hcopy, hout, hlen =>
      have hb : lexer.tokens.get? (pre.length + 1) = some b := by
        have := copy_tokens_get lexer (pre ++ [a]) rest b (by rw [hcopy]; simp)
        simpa using this
      rw [merge_pass] at hout
      rw [lexer_run_merge_counted, if_pos (by simp at hlen; omega),
        copy_tokens_get _ _ _ _ hcopy]
      by_cases ha : a.kind ≠ TOK_EOF
      · simp only [if_pos ha, hb, lexer_run_pairs_find] at hout ⊢
        rw [if_pos (by simp at hlen; omega)]
        cases hf : pair_find token_pairs a b with
        | some kind =>
          simp only [hf] at hout ⊢
          obtain ⟨h1, h2, h3⟩ := lexer_merge_tokens_copy lexer kind pre rest a b hcopy hcount
          obtain ⟨k, l2, hl2, hk⟩ := ih _ pre _ out h1 (by omega) hout
          refine ⟨k + 1, l2, ?_, by simp at hk ⊢; omega⟩
          simp [hl2]
        | none =>
          simp only [hf] at hout ⊢
          cases hm : merge_pass fuel (b :: rest) with
          | none => simp [hm] at hout
          | some out2 =>
            obtain ⟨k, l2, hl2, hk⟩ :=
              ih lexer (pre ++ [a]) (b :: rest) out2 (by rw [hcopy]; simp) hcount hm
            refine ⟨k + 1, l2, ?_, by simp at hk ⊢; omega⟩
            simp only [List.length_append, List.length_singleton] at hl2
            simp [hl2]
      · simp only [if_neg ha]
        exact ⟨0, lexer, rfl, by simp⟩

/-! ## `lexer_run` ends on a C string, and need not end on another buffer -/

/-- At the end of a source behind which memory holds a space, `lexer_skip_whitespace` does
not leave its loop. -/
theorem lexer_skip_whitespace_stuck :
    ∀ (fuel : Nat) (l : lexer_t), l.sentinel = 32 → l.current.place = l.source.length →
      lexer_skip_whitespace fuel l = none := by
  intro fuel
  induction fuel with
  | zero => intro l _ _; rfl
  | succ fuel ih =>
    intro l hs hp
    have hc : lexer_current l = 32 := by
      unfold lexer_current lexer_deref
      rw [if_neg (by omega), hp, hs]
      simp [List.getD_eq_getElem?_getD]
    have hn := lexer_next_current l
    rw [lexer_skip_whitespace, hc, if_pos (by decide)]
    apply ih
    · exact (lexer_next_moved l).2.1.trans hs
    · rw [hn.1, if_neg (by omega), hn.2.2.2]
      exact hp

/-- Phase 2 on a buffer that holds an end-of-input token, with fuel of at least the token
count: every read lies below the token count, and the loop stops after fewer iterations
than there are tokens. -/
theorem lexer_run_merge_counted_total (fuel : Nat) (lexer : lexer_t)
    (heof : ∃ t ∈ lexer_copy_tokens lexer, t.kind = TOK_EOF)
    (hcount : lexer.current.token ≤ lexer.tokens.length) (hfuel : lexer.current.token ≤ fuel) :
    ∃ (k : Nat) (l1 : lexer_t), lexer_run_merge_counted fuel lexer 0 = some (k, l1) ∧
      lexer_run_merge fuel lexer 0 = some l1 ∧ k + 1 ≤ lexer.current.token := by
  have hlen := lexer_copy_tokens_length hcount
  obtain ⟨out, hout⟩ := merge_pass_terminates fuel (lexer_copy_tokens lexer) heof
    (by rw [hlen]; exact hfuel)
  obtain ⟨k, l1, hk, hk2⟩ := lexer_run_merge_counted_list fuel lexer [] _ out rfl hcount hout
  simp only [List.length_nil] at hk
  exact ⟨k, l1, hk, lexer_run_merge_of_counted _ _ _ _ _ hk, by rw [← hlen]; exact hk2⟩

/-- C24: `lexer_run` terminates on every C string (a source buffer with the NUL at
`source_end`). With fuel of at least twice the length of the source plus 2, the first
`lexer_run` of a new lexer returns, and when it returns `0` phase 2 read `tokens[i]` and
`tokens[i+1]` only below the token count and made fewer iterations than tokens there were.
Every iteration of the loop of phase 1 that starts on a byte other than the NUL, inside a
block comment or outside, returns `1` with the error set or leaves the cursor further on
in the source. And phase 2 on any buffer that holds an end-of-input token, with fuel of at
least the token count, reads only below the token count and stops after fewer iterations
(merges and advances) than there are tokens. -/
theorem C24_lexer_run_terminates (s : List Nat) (fuel : Nat)
    (hfuel : 2 * s.length + 2 ≤ fuel) :
    (∃ (ret : Int) (l2 : lexer_t), lexer_run fuel (lexer_new s 0) = some (ret, l2) ∧
        (ret = 0 → ∃ (l1 : lexer_t) (k : Nat),
          lexer_run_scan_loop fuel fuel (lexer_new s 0) token_zero = some (true, l1) ∧
          lexer_run_merge_counted fuel (lexer_push_token l1 token_eof) 0 = some (k, l2) ∧
          k + 1 ≤ lexer_get_num_tokens (lexer_push_token l1 token_eof))) ∧
      (∀ (l : lexer_t) (c : token_t), l.source = s → l.sentinel = 0 →
        l.current.place ≤ s.length → l.current.token ≤ l.tokens.length →
        lexer_current l ≠ 0 →
          ∃ (exit : loop_exit) (c2 : token_t) (l2 : lexer_t),
            lexer_run_body fuel l c = some (exit, c2, l2) ∧
            ((exit = loop_exit.return_1 ∧ l2.error ≠ none) ∨
              l.current.place < l2.current.place)) ∧
      (∀ (fuel2 : Nat) (lexer : lexer_t),
        (∃ t ∈ lexer_copy_tokens lexer, t.kind = TOK_EOF) →
        lexer.current.token ≤ lexer.tokens.length → lexer.current.token ≤ fuel2 →
          ∃ (k : Nat) (l1 : lexer_t),
            lexer_run_merge_counted fuel2 lexer 0 = some (k, l1) ∧
            lexer_run_merge fuel2 lexer 0 = some l1 ∧ k + 1 ≤ lexer.current.token) := by
  refine ⟨?_, ?_, fun fuel2 lexer => lexer_run_merge_counted_total fuel2 lexer⟩
  · have hf : fits fuel (lexer_new s 0) :=
      ⟨rfl, Nat.zero_le _, by simp only [lexer_new]; omega⟩
    obtain ⟨r, hr, hr2⟩ := lexer_run_scan_loop_total fuel fuel (lexer_new s 0) token_zero hf
      (by simp only [lexer_new]; omega) (Nat.le_refl _)
    obtain ⟨b, l1⟩ := r
    cases b with
    | false =>
      refine ⟨1, l1, ?_, fun h => absurd h (by decide)⟩
      simp only [lexer_run]
      rw [if_neg (by simp [lexer_new]), hr]
      rfl
    | true =>
      obtain ⟨hc1, hcnt⟩ := hr2 rfl
      have hcnt2 : l1.current.token ≤ 2 * s.length := by
        simpa [lexer_new] using hcnt
      obtain ⟨hcopy, hcount⟩ := lexer_copy_tokens_push l1 token_eof hc1
      have hnum : (lexer_push_token l1 token_eof).current.token = l1.current.token + 1 := rfl
      obtain ⟨k, l2, hk, hm, hk2⟩ := lexer_run_merge_counted_total fuel
        (lexer_push_token l1 token_eof) ⟨token_eof, by rw [hcopy]; simp, rfl⟩ hcount
        (by rw [hnum]; omega)
      refine ⟨0, l2, ?_, fun _ => ⟨l1, k, hr, hk, hk2⟩⟩
      simp only [lexer_run]
      rw [if_neg (by simp [lexer_new]), hr]
      simp only [Option.some_bind, if_true]
      rw [lexer_append_eof, hm]
      rfl
  · intro l c hsrc hsen hplace hcount hcur
    have hf : fits fuel l := ⟨hsen, by unfold in_source; rw [hsrc]; exact hplace,
      by rw [hsrc]; omega⟩
    obtain ⟨q, hb⟩ := lexer_run_body_total fuel l c hf
    obtain ⟨e, c2, l2⟩ := q
    obtain ⟨_, _, _, _, herr, hprog⟩ := lexer_run_body_grown fuel l c _ hcount hb
    refine ⟨e, c2, l2, hb, ?_⟩
    rcases hprog hsen hf.2.1 hcur with h | h
    · exact Or.inl ⟨h, herr h⟩
    · exact Or.inr h

/-- C24 (instance): the source `x :+ 1` with the fuel 14. -/
theorem C24_lexer_run_terminates_witness :
    (∃ (ret : Int) (l2 : lexer_t),
        lexer_run 14 (lexer_new (bytes "x :+ 1") 0) = some (ret, l2) ∧
        (ret = 0 → ∃ (l1 : lexer_t) (k : Nat),
          lexer_run_scan_loop 14 14 (lexer_new (bytes "x :+ 1") 0) token_zero =
            some (true, l1) ∧
          lexer_run_merge_counted 14 (lexer_push_token l1 token_eof) 0 = some (k, l2) ∧
          k + 1 ≤ lexer_get_num_tokens (lexer_push_token l1 token_eof))) ∧
      (∀ (l : lexer_t) (c : token_t), l.source = bytes "x :+ 1" → l.sentinel = 0 →
        l.current.place ≤ (bytes "x :+ 1").length → l.current.token ≤ l.tokens.length →
        lexer_current l ≠ 0 →
          ∃ (exit : loop_exit) (c2 : token_t) (l2 : lexer_t),
            lexer_run_body 14 l c = some (exit, c2, l2) ∧
            ((exit = loop_exit.return_1 ∧ l2.error ≠ none) ∨
              l.current.place < l2.current.place)) ∧
      (∀ (fuel2 : Nat) (lexer : lexer_t),
        (∃ t ∈ lexer_copy_tokens lexer, t.kind = TOK_EOF) →
        lexer.current.token ≤ lexer.tokens.length → lexer.current.token ≤ fuel2 →
          ∃ (k : Nat) (l1 : lexer_t),
            lexer_run_merge_counted fuel2 lexer 0 = some (k, l1) ∧
            lexer_run_merge fuel2 lexer 0 = some l1 ∧ k + 1 ≤ lexer.current.token) :=
  C24_lexer_run_terminates (bytes "x :+ 1") 14 (by decide)

/-- The source `ab` in a buffer that holds a space at `source_end`, as the first word of
the text `ab cd` does: whatever the fuel, `lexer_run` does not return. After the word,
`lexer_skip_whitespace` reads the space at `source_end` again and again, because
`lexer_next` does not move the cursor from there. -/
theorem lexer_run_stuck (fuel : Nat) :
    lexer_run fuel (lexer_new (bytes "ab") 32) = none := by
  have hloop : ∀ n : Nat,
      lexer_run_scan_loop fuel n (lexer_new (bytes "ab") 32) token_zero = none := by
    intro n
    cases n with
    | zero => rfl
    | succ n =>
      rw [lexer_run_scan_loop, if_pos (by decide)]
      cases hb : lexer_run_body fuel (lexer_new (bytes "ab") 32) token_zero with
      | none => rfl
      | some q =>
        have h3 : lexer_run_body 3 (lexer_new (bytes "ab") 32) token_zero =
            some (loop_exit.next_iteration, token_zero,
              { source := bytes "ab", sentinel := 32,
                tokens := [{ kind := TOK_ID, from_ := some 0, to_ := some 2, line := 1,
                             column := 1 }],
                current := { place := 2, line := 1, column := 3, token := 1 },
                error := none }) := by decide
        have e1 := lexer_run_body_mono _ _ fuel q hb (max fuel 3) (Nat.le_max_left _ _)
        have e2 := lexer_run_body_mono _ _ 3 _ h3 (max fuel 3) (Nat.le_max_right _ _)
        dsimp only at e1 e2
        rw [e1] at e2
        simp only [Option.some.injEq] at e2
        subst e2
        dsimp only
        cases n with
        | zero => rfl
        | succ n =>
          rw [lexer_run_scan_loop, if_pos (by decide), lexer_run_body,
            lexer_skip_whitespace_stuck fuel _ rfl rfl]
          rfl
  simp only [lexer_run]
  rw [if_neg (by simp [lexer_new]), hloop]
  rfl

/-- C24 (counterexample): on the source `ab` in a buffer that holds a space at
`source_end`, `lexer_run` returns with no amount of fuel: as a function of the fuel it is
the function that is `none` throughout. -/
theorem C24_lexer_run_terminates_counterexample :
    (fun fuel : Nat => lexer_run fuel (lexer_new (bytes "ab") 32)) = fun _ => none :=
  funext lexer_run_stuck


/-! ## Concrete runs -/

/-- C4 (evaluation at the failing input): on the source `"abc` (a quote, `abc`, no closing
quote) `lexer_run` returns `0`, sets no error, and yields a string-literal token spanning
the four bytes, followed by the end-of-input token. -/
theorem C4_unterminated_string_accepted :
    lexer_outcome 6 (lexer_new (bytes "\"abc") 0) =
      some (0, none,
        [{ kind := TOK_STRING_LIT, from_ := some 0, to_ := some 4, line := 1, column := 1 },
         token_eof]) := by
  decide

end Bmx
